import Mathlib

/-!
# fobj runtime (`src/fu_util/impl/fo_impl.c`): a shallow embedding

The klass / method / impl registries, dispatch, reference counting with the
two-phase dispose, autorelease pools, the formatters of strings and tagged
values, the template formatters and the error objects of `fo_impl.c`, as
executable Lean definitions, followed by the properties proved about them.

Conventions of the embedding.

* Pointers are natural numbers, `0` is `NULL`.  Function pointers (`impl`,
  `dispose`) are natural numbers as well.
* C statements that can stop the program are modelled in `Except Fault`:
  a failed `ft_assert` / `ft_dbg_assert` / `assert` is `Fault.abort line`, where
  `line` is the line of the assertion in `fo_impl.c`; an access outside one of
  the static tables is `Fault.out_of_bounds`; a dereference of `NULL` or of a
  freed object is `Fault.bad_pointer`; an overflow of a signed integer is
  `Fault.overflow`.
* Bytes are natural numbers below 256.  A C string is the list of its bytes
  before the terminating zero.
* Loops of the source whose termination depends on the data are given a fuel
  argument and yield `Fault.out_of_fuel` when it runs out.
* The global mutex is not modelled: every function below is one critical
  section, executed atomically.
-/

namespace Fobj

/-! ## Constants (fo_impl.c, lines 22-44, 82) -/

/-- Constant `#define FOBJ_OBJ_MAX_KLASSES (1<<10)` -/
def FOBJ_OBJ_MAX_KLASSES : Nat := 1024
/-- Constant `#define FOBJ_OBJ_MAX_METHODS (1<<10)` -/
def FOBJ_OBJ_MAX_METHODS : Nat := 1024
/-- Constant `#define FOBJ_OBJ_MAX_METHOD_IMPLS (1<<15)` -/
def FOBJ_OBJ_MAX_METHOD_IMPLS : Nat := 32768
/-- Constant `enum { FOBJ_DISPOSING = 1, ... }` -/
def FOBJ_DISPOSING : Nat := 1
/-- Constant `enum { ..., FOBJ_DISPOSED = 2 }` -/
def FOBJ_DISPOSED : Nat := 2
/-- Constant `#define METHOD_PARTITIONS (16)` -/
def METHOD_PARTITIONS : Nat := 16
/-- Constant `#define FOBJ_OBJ_HASH_SIZE (FOBJ_OBJ_MAX_METHODS/4)` -/
def FOBJ_OBJ_HASH_SIZE : Nat := FOBJ_OBJ_MAX_METHODS / 4
/-- Constant `#define FOBJ_HEADER_MAGIC UINT64_C(0x1234567890abcdef)` -/
def FOBJ_HEADER_MAGIC : Nat := 0x1234567890abcdef

/-- Type `typedef enum { ... } FOBJ_GLOBAL_STATE` -/
inductive FOBJ_GLOBAL_STATE where
  | FOBJ_RT_NOT_INITIALIZED
  | FOBJ_RT_INITIALIZED
  | FOBJ_RT_FROZEN
deriving DecidableEq

/-- The ways a call can fail to return. -/
inductive Fault where
  /-- A failed assertion; `line` is its line in `fo_impl.c` -/
  | abort (line : Nat)
  /-- An access outside a static table (undefined behaviour in C) -/
  | out_of_bounds
  /-- A dereference of `NULL` or of a freed allocation -/
  | bad_pointer
  /-- The loop needed more iterations than the fuel given -/
  | out_of_fuel
  /-- An overflow of a signed integer (undefined behaviour in C) -/
  | overflow
deriving DecidableEq

deriving instance DecidableEq for Except

/-! ## Records and tables (fo_impl.c, lines 34-88) -/

/-- Record `struct fobj_header`: the header that precedes an object's payload. -/
structure fobj_header where
  magic : Nat
  rc : Nat
  flags : Nat
  klass : Nat
deriving DecidableEq

/-- Record `struct fobj_klass_registration`.  `name` is `none` for the `NULL` pointer
of a zeroed record. -/
structure fobj_klass_registration where
  name : Option String
  hash : Nat
  hash_next : Nat
  size : Int
  parent : Nat
  nmethods : Nat
  dispose : Nat
  method_lists : Nat → Nat

/-- Record `struct fobj_method_registration`. -/
structure fobj_method_registration where
  name : Option String
  hash : Nat
  hash_next : Nat
  nklasses : Nat
  first : Nat

/-- Record `struct fobj_method_impl`. -/
structure fobj_method_impl where
  method : Nat
  klass : Nat
  next_for_method : Nat
  next_for_klass : Nat
  impl : Nat
deriving DecidableEq

/-- A zero-filled klass record (`= {{0}}`). -/
def fobj_klass_registration.zero : fobj_klass_registration :=
  { name := none, hash := 0, hash_next := 0, size := 0, parent := 0,
    nmethods := 0, dispose := 0, method_lists := fun _ => 0 }

/-- A zero-filled method record. -/
def fobj_method_registration.zero : fobj_method_registration :=
  { name := none, hash := 0, hash_next := 0, nklasses := 0, first := 0 }

/-- A zero-filled impl record. -/
def fobj_method_impl.zero : fobj_method_impl :=
  { method := 0, klass := 0, next_for_method := 0, next_for_klass := 0, impl := 0 }

/-- The static variables of `fo_impl.c` (lines 80-95): the three tables, the
two hash bucket arrays, the three counters and the runtime state. -/
structure fobj_runtime where
  fobj_klasses : Nat → fobj_klass_registration
  fobj_methods : Nat → fobj_method_registration
  fobj_klasses_hash : Nat → Nat
  fobj_methods_hash : Nat → Nat
  fobj_method_impl : Nat → fobj_method_impl
  fobj_klasses_n : Nat
  fobj_methods_n : Nat
  fobj_impls_n : Nat
  fobj_global_state : FOBJ_GLOBAL_STATE

/-- What the translation unit takes from outside `fo_impl.c`: whether debug
assertions are on (`ft_dbg_enabled()`, `ft_dbg_assert`), whether `NDEBUG` is
defined (`assert`), the handle `fobj__nm_mhandle(fobjDispose)()` returns, and
the string hash `ft_small_cstr_hash`. -/
structure fobj_env where
  ft_dbg_enabled : Bool
  NDEBUG : Bool
  fobjDispose__mh : Nat
  ft_small_cstr_hash : String → Nat

/-- The static tables right after `fobj_global_state = FOBJ_RT_INITIALIZED`
in `fobj_init` (line 1300): everything zero. -/
def fobj_runtime.initialized : fobj_runtime :=
  { fobj_klasses := fun _ => fobj_klass_registration.zero
    fobj_methods := fun _ => fobj_method_registration.zero
    fobj_klasses_hash := fun _ => 0
    fobj_methods_hash := fun _ => 0
    fobj_method_impl := fun _ => fobj_method_impl.zero
    fobj_klasses_n := 0
    fobj_methods_n := 0
    fobj_impls_n := 0
    fobj_global_state := FOBJ_GLOBAL_STATE.FOBJ_RT_INITIALIZED }

/-! ## Primitive steps -/

/-- Macro `ft_assert(cond)` at source line `line`. -/
def ft_assert (line : Nat) (cond : Bool) : Except Fault Unit :=
  if cond then .ok () else .error (Fault.abort line)

/-- Macro `ft_dbg_assert(cond)` at source line `line`: checked only when debug
assertions are enabled. -/
def ft_dbg_assert (env : fobj_env) (line : Nat) (cond : Bool) : Except Fault Unit :=
  if env.ft_dbg_enabled then ft_assert line cond else .ok ()

/-- Macro `assert(cond)` of `<assert.h>`: compiled out under `NDEBUG`. -/
def c_assert (env : fobj_env) (line : Nat) (cond : Bool) : Except Fault Unit :=
  if env.NDEBUG then .ok () else ft_assert line cond

/-- Read of `fobj_klasses[i]`; the table has `1<<10` entries. -/
def klass_at (rt : fobj_runtime) (i : Nat) : Except Fault fobj_klass_registration :=
  if i < FOBJ_OBJ_MAX_KLASSES then .ok (rt.fobj_klasses i) else .error Fault.out_of_bounds

/-- Read of `fobj_methods[i]`; the table has `1<<10` entries. -/
def method_at (rt : fobj_runtime) (i : Nat) : Except Fault fobj_method_registration :=
  if i < FOBJ_OBJ_MAX_METHODS then .ok (rt.fobj_methods i) else .error Fault.out_of_bounds

/-- Read of `fobj_method_impl[i]`; the table has `1<<15` entries. -/
def impl_at (rt : fobj_runtime) (i : Nat) : Except Fault fobj_method_impl :=
  if i < FOBJ_OBJ_MAX_METHOD_IMPLS then .ok (rt.fobj_method_impl i) else .error Fault.out_of_bounds

/-- Test `strcmp(reg_name, name) == 0`; the stored name of a zeroed record is
`NULL`, which `strcmp` dereferences. -/
def strcmp_eq (reg_name : Option String) (name : String) : Except Fault Bool :=
  match reg_name with
  | none => .error Fault.bad_pointer
  | some n => .ok (decide (n = name))

/-! ## Dispatch (fo_impl.c, lines 151-256) -/

/-- The `do { ... } while (i != 0)` loop of `fobj_search_impl` (lines 156-160),
entered with index `i`. -/
def fobj_search_impl_loop (rt : fobj_runtime) (meth : Nat) : Nat → Nat → Except Fault Nat
  | 0, _ => .error Fault.out_of_fuel
  | fuel + 1, i => do
    let r ← impl_at rt i
    if r.method = meth then
      pure r.impl
    else if r.next_for_klass ≠ 0 then
      fobj_search_impl_loop rt meth fuel r.next_for_klass
    else
      pure 0

/-- Function `fobj_search_impl(meth, klass)` (lines 151-163): scan the partition list
`meth % METHOD_PARTITIONS` of `klass`; `0` is `NULL`. -/
def fobj_search_impl (fuel : Nat) (rt : fobj_runtime) (meth klass : Nat) : Except Fault Nat := do
  let kreg ← klass_at rt klass
  fobj_search_impl_loop rt meth fuel (kreg.method_lists (meth % METHOD_PARTITIONS))

/-- The live allocations: `heap p` is the header stored just before payload
address `p`, or `none` when `p` is not the payload of a live object. -/
abbrev fobj_heap := Nat → Option fobj_header

/-- The read `h = ((fobj_header_t*)self - 1)` followed by an access to `*h`. -/
def header_of (heap : fobj_heap) (self : Nat) : Except Fault fobj_header :=
  match heap self with
  | some h => .ok h
  | none => .error Fault.bad_pointer

/-- The debug-mode loop `while (klass && klass != for_child) klass = parent`
of `fobj_method_search` (lines 209-211). -/
def fobj_method_search_for_child_loop (rt : fobj_runtime) (for_child : Nat) :
    Nat → Nat → Except Fault Nat
  | 0, _ => .error Fault.out_of_fuel
  | fuel + 1, klass =>
    if klass ≠ 0 ∧ klass ≠ for_child then do
      let kreg ← klass_at rt klass
      fobj_method_search_for_child_loop rt for_child fuel kreg.parent
    else
      pure klass

/-- The parent walk `do { ... } while (klass)` of `fobj_method_search`
(lines 219-227).  The result is the pair `(cb.self, cb.impl)`. -/
def fobj_method_search_loop (rt : fobj_runtime) (self meth fuel_impl : Nat) :
    Nat → Nat → Except Fault (Nat × Nat)
  | 0, _ => .error Fault.out_of_fuel
  | fuel + 1, klass => do
    let impl ← fobj_search_impl fuel_impl rt meth klass
    if impl ≠ 0 then
      pure (self, impl)
    else
      let kreg ← klass_at rt klass
      if kreg.parent ≠ 0 then fobj_method_search_loop rt self meth fuel_impl fuel kreg.parent
      else pure (0, 0)

/-- Function `fobj_method_search(self, meth, for_child, validate)` (lines
182-228).  The result is the pair `(cb.self, cb.impl)`; every loop may run
for at most `fuel` iterations. -/
def fobj_method_search (env : fobj_env) (fuel : Nat) (rt : fobj_runtime) (heap : fobj_heap)
    (self meth for_child : Nat) (validate : Bool) : Except Fault (Nat × Nat) := do
  ft_assert 188 (rt.fobj_global_state != FOBJ_GLOBAL_STATE.FOBJ_RT_NOT_INITIALIZED)
  if env.ft_dbg_enabled then
    ft_assert 190 (decide (meth > 0 ∧ meth ≤ rt.fobj_methods_n))
    ft_assert 191 (meth != env.fobjDispose__mh)
  if self = 0 then
    if validate then
      ft_assert 196 (self != 0)
    pure (self, 0)
  else
    let h ← header_of heap self
    c_assert env 201 (h.magic == FOBJ_HEADER_MAGIC)
    let klass := h.klass
    ft_dbg_assert env 203 (decide (klass > 0 ∧ klass ≤ rt.fobj_klasses_n))
    ft_assert 204 (h.flags &&& FOBJ_DISPOSED == 0)
    let klass ←
      if for_child ≠ 0 then do
        let klass ←
          if env.ft_dbg_enabled then do
            let klass ← fobj_method_search_for_child_loop rt for_child fuel klass
            ft_assert 212 (klass == for_child)
            pure klass
          else
            pure for_child
        let kreg ← klass_at rt klass
        pure kreg.parent
      else
        pure klass
    fobj_method_search_loop rt self meth fuel fuel klass

/-! ## Registration (fo_impl.c, lines 104-149 and 314-423) -/

/-- The bucket scan `for (; mh != 0; mh = reg->hash_next)` of
`fobj_method_init_impl` (lines 123-130); the result is the handle found, or
`0` when the chain ends without a match. -/
def fobj_methods_hash_scan (rt : fobj_runtime) (hash : Nat) (name : String) :
    Nat → Nat → Except Fault Nat
  | 0, _ => .error Fault.out_of_fuel
  | fuel + 1, mh =>
    if mh = 0 then pure 0
    else do
      let reg ← method_at rt mh
      if reg.hash = hash then
        if (← strcmp_eq reg.name name) then pure mh
        else fobj_methods_hash_scan rt hash name fuel reg.hash_next
      else fobj_methods_hash_scan rt hash name fuel reg.hash_next

/-- The stores of `fobj_method_init_impl` that create method `mh` (lines
137-143): fill the record, link it at the head of its hash bucket, publish
`fobj_methods_n`. -/
def fobj_method_init_store (rt : fobj_runtime) (mh hash : Nat) (name : String) :
    fobj_runtime :=
  let reg : fobj_method_registration :=
    { rt.fobj_methods mh with
      name := some name
      hash := hash
      hash_next := rt.fobj_methods_hash (hash % FOBJ_OBJ_HASH_SIZE) }
  { rt with
    fobj_methods := Function.update rt.fobj_methods mh reg
    fobj_methods_hash :=
      Function.update rt.fobj_methods_hash (hash % FOBJ_OBJ_HASH_SIZE) (mh % 2 ^ 16)
    fobj_methods_n := mh }

/-- Function `fobj_method_init_impl(meth, name)` (lines 104-149).  `meth` is
the content of the caller's handle slot; the result is the returned flag,
the new content of the slot and the new tables. -/
def fobj_method_init_impl (env : fobj_env) (fuel : Nat) (rt : fobj_runtime)
    (meth : Nat) (name : String) : Except Fault (Bool × Nat × fobj_runtime) := do
  if meth ≠ 0 then
    let mh := meth
    ft_assert 115 (decide (mh ≤ rt.fobj_methods_n))
    let reg ← method_at rt mh
    ft_assert 116 (← strcmp_eq reg.name name)
    pure (true, meth, rt)
  else
    let hash := env.ft_small_cstr_hash name % 2 ^ 32
    let found ← fobj_methods_hash_scan rt hash name fuel
      (rt.fobj_methods_hash (hash % FOBJ_OBJ_HASH_SIZE))
    if found ≠ 0 then
      pure (true, found, rt)
    else
      ft_assert 132 (rt.fobj_global_state == FOBJ_GLOBAL_STATE.FOBJ_RT_INITIALIZED)
      let mh := (rt.fobj_methods_n + 1) % 2 ^ 32
      ft_dbg_assert env 135 (decide (mh > 0))
      ft_assert 136 (decide (meth < FOBJ_OBJ_MAX_METHODS))
      let _ ← method_at rt mh
      pure (false, mh % 2 ^ 16, fobj_method_init_store rt mh hash name)

/-- The stores of `fobj_method_register_priv` that append impl record `nom`
(lines 397-409): fill the record, make it the head of the method's list and
of the klass's partition list, cache a dispose impl, publish `fobj_impls_n`. -/
def fobj_method_register_store (env : fobj_env) (rt : fobj_runtime)
    (klass meth impl nom : Nat) : fobj_runtime :=
  let mreg := rt.fobj_methods meth
  let kreg := rt.fobj_klasses klass
  let rec_ : fobj_method_impl :=
    { method := meth
      klass := klass
      next_for_method := mreg.first % 2 ^ 16
      next_for_klass := kreg.method_lists (meth % METHOD_PARTITIONS)
      impl := impl }
  let mreg : fobj_method_registration := { mreg with first := nom }
  let kreg : fobj_klass_registration :=
    { kreg with
      method_lists := Function.update kreg.method_lists (meth % METHOD_PARTITIONS) nom }
  let kreg : fobj_klass_registration :=
    if meth = env.fobjDispose__mh then { kreg with dispose := impl } else kreg
  { rt with
    fobj_method_impl := Function.update rt.fobj_method_impl nom rec_
    fobj_methods := Function.update rt.fobj_methods meth mreg
    fobj_klasses := Function.update rt.fobj_klasses klass kreg
    fobj_impls_n := nom }

/-- Function `fobj_method_register_priv(klass, meth, impl)` (lines 376-410). -/
def fobj_method_register_priv (env : fobj_env) (fuel : Nat) (rt : fobj_runtime)
    (klass meth impl : Nat) : Except Fault fobj_runtime := do
  let existed ← fobj_search_impl fuel rt meth klass
  ft_dbg_assert env 387 (existed == 0 || existed == impl)
  if existed = impl then
    pure rt
  else
    let nom := (rt.fobj_impls_n + 1) % 2 ^ 32
    ft_assert 396 (decide (nom < FOBJ_OBJ_MAX_METHOD_IMPLS))
    let _ ← method_at rt meth
    let _ ← klass_at rt klass
    pure (fobj_method_register_store env rt klass meth impl nom)

/-- Function `fobj_method_register_impl(klass, meth, impl)` (lines 412-423). -/
def fobj_method_register_impl (env : fobj_env) (fuel : Nat) (rt : fobj_runtime)
    (klass meth impl : Nat) : Except Fault fobj_runtime := do
  ft_assert 414 (rt.fobj_global_state == FOBJ_GLOBAL_STATE.FOBJ_RT_INITIALIZED)
  ft_dbg_assert env 415 (decide (meth > 0 ∧ meth ≤ rt.fobj_methods_n))
  ft_dbg_assert env 416 (decide (klass > 0 ∧ klass ≤ rt.fobj_klasses_n))
  fobj_method_register_priv env fuel rt klass meth impl

/-- The bucket scan `for (; kl != 0; kl = reg->hash_next)` of
`fobj_klass_init_impl` (lines 340-349); the result is the handle found, or `0`
when the chain ends without a match. -/
def fobj_klasses_hash_scan (rt : fobj_runtime) (hash : Nat) (name : String) :
    Nat → Nat → Except Fault Nat
  | 0, _ => .error Fault.out_of_fuel
  | fuel + 1, kl =>
    if kl = 0 then pure 0
    else do
      let reg ← klass_at rt kl
      if reg.hash = hash then
        if (← strcmp_eq reg.name name) then pure kl
        else fobj_klasses_hash_scan rt hash name fuel reg.hash_next
      else fobj_klasses_hash_scan rt hash name fuel reg.hash_next

/-- The loop `while (methods->meth != 0)` of `fobj_klass_init_impl` (lines
364-367).  The list holds the `(meth, impl)` boxes of the array; the end of
the list stands for the terminating box, whose `meth` is zero. -/
def fobj_klass_init_methods (env : fobj_env) (fuel : Nat) (kl : Nat) :
    fobj_runtime → List (Nat × Nat) → Except Fault fobj_runtime
  | rt, [] => pure rt
  | rt, (meth, impl) :: methods =>
    if meth ≠ 0 then do
      let rt ← fobj_method_register_priv env fuel rt kl meth impl
      fobj_klass_init_methods env fuel kl rt methods
    else
      pure rt

/-- The stores of `fobj_klass_init_impl` that create klass `kl` (lines
354-362): fill the record, link it at the head of its hash bucket, publish
`fobj_klasses_n`. -/
def fobj_klass_init_store (rt : fobj_runtime) (kl hash : Nat) (size : Int) (parent : Nat)
    (name : String) : fobj_runtime :=
  let reg : fobj_klass_registration :=
    { rt.fobj_klasses kl with
      size := size
      name := some name
      parent := parent
      hash := hash
      hash_next := rt.fobj_klasses_hash (hash % FOBJ_OBJ_HASH_SIZE) }
  { rt with
    fobj_klasses := Function.update rt.fobj_klasses kl reg
    fobj_klasses_hash :=
      Function.update rt.fobj_klasses_hash (hash % FOBJ_OBJ_HASH_SIZE) (kl % 2 ^ 16)
    fobj_klasses_n := kl }

/-- Function `fobj_klass_init_impl(klass, size, parent, methods, name)` (lines
314-374).  `klass` is the content of the caller's handle slot; the result is
the returned flag, the new content of the slot and the new tables. -/
def fobj_klass_init_impl (env : fobj_env) (fuel : Nat) (rt : fobj_runtime)
    (klass : Nat) (size : Int) (parent : Nat) (methods : List (Nat × Nat))
    (name : String) : Except Fault (Bool × Nat × fobj_runtime) := do
  ft_assert 323 (rt.fobj_global_state == FOBJ_GLOBAL_STATE.FOBJ_RT_INITIALIZED)
  if klass ≠ 0 then
    let kl := klass
    ft_assert 331 (decide (kl ≤ rt.fobj_klasses_n))
    let reg ← klass_at rt kl
    ft_assert 332 (← strcmp_eq reg.name name)
    ft_assert 333 (reg.size == size)
    ft_assert 334 (reg.parent == parent)
    pure (true, klass, rt)
  else
    let hash := env.ft_small_cstr_hash name % 2 ^ 32
    let found ← fobj_klasses_hash_scan rt hash name fuel
      (rt.fobj_klasses_hash (hash % FOBJ_OBJ_HASH_SIZE))
    if found ≠ 0 then
      let reg ← klass_at rt found
      ft_assert 345 (reg.size == size)
      ft_assert 346 (reg.parent == parent)
      pure (true, found, rt)
    else
      let kl := (rt.fobj_klasses_n + 1) % 2 ^ 32
      ft_dbg_assert env 352 (decide (kl > 0))
      ft_assert 353 (decide (klass < FOBJ_OBJ_MAX_KLASSES))
      let _ ← klass_at rt kl
      let rt := fobj_klass_init_store rt kl hash size parent name
      let rt ← fobj_klass_init_methods env fuel (kl % 2 ^ 16) rt methods
      pure (false, kl % 2 ^ 16, rt)

/-- Function `fobj_freeze()` (lines 1319-1322). -/
def fobj_freeze (rt : fobj_runtime) : fobj_runtime :=
  { rt with fobj_global_state := FOBJ_GLOBAL_STATE.FOBJ_RT_FROZEN }

/-! ## Sequences of registration calls -/

/-- One call into the registration interface.  For the two interning calls
the first argument is the content of the caller's handle slot. -/
inductive RegCall where
  | klass_init (klass : Nat) (size : Int) (parent : Nat) (methods : List (Nat × Nat))
      (name : String)
  | method_init (meth : Nat) (name : String)
  | register_impl (klass meth impl : Nat)
  | freeze

/-- Run one registration call.  The result is the flag the call returned, the
content of its handle slot afterwards, and the tables afterwards; for the two
calls that return nothing the flag is `false` and the slot `0`. -/
def reg_call (env : fobj_env) (fuel : Nat) (rt : fobj_runtime) :
    RegCall → Except Fault (Bool × Nat × fobj_runtime)
  | .klass_init klass size parent methods name =>
    fobj_klass_init_impl env fuel rt klass size parent methods name
  | .method_init meth name => fobj_method_init_impl env fuel rt meth name
  | .register_impl klass meth impl => do
    let rt ← fobj_method_register_impl env fuel rt klass meth impl
    pure (false, 0, rt)
  | .freeze => pure (false, 0, fobj_freeze rt)

/-- Run a sequence of registration calls in order.  The result lists, for
each call, what `reg_call` gave; it exists only when every call returned. -/
def reg_run (env : fobj_env) (fuel : Nat) :
    fobj_runtime → List RegCall → Except Fault (List (Bool × Nat × fobj_runtime))
  | _, [] => pure []
  | rt, c :: cs => do
    let r ← reg_call env fuel rt c
    let rs ← reg_run env fuel r.2.2 cs
    pure (r :: rs)

/-- The tables after a run that started from `rt`. -/
def reg_final (rt : fobj_runtime) : List (Bool × Nat × fobj_runtime) → fobj_runtime
  | [] => rt
  | r :: rs => reg_final r.2.2 rs

/-- The `(klass, meth, impl)` triples one returned call handed to
`fobj_method_register_priv`, in order. -/
def install_log_of (c : RegCall) (r : Bool × Nat × fobj_runtime) : List (Nat × Nat × Nat) :=
  match c with
  | .klass_init _ _ _ methods _ =>
    if r.1 then [] else (methods.takeWhile (fun e => e.1 ≠ 0)).map (fun e => (r.2.1, e.1, e.2))
  | .register_impl klass meth impl => [(klass, meth, impl)]
  | _ => []

/-- The `(klass, meth, impl)` triples a run handed to
`fobj_method_register_priv`, oldest first. -/
def install_log : List RegCall → List (Bool × Nat × fobj_runtime) → List (Nat × Nat × Nat)
  | c :: cs, r :: rs => install_log_of c r ++ install_log cs rs
  | _, _ => []

/-- The impl most recently installed for `meth` on `klass` itself according
to the log, `0` (`NULL`) when there is none. -/
def installed (log : List (Nat × Nat × Nat)) (klass meth : Nat) : Nat :=
  log.foldl (fun acc e => if e.1 = klass ∧ e.2.1 = meth then e.2.2 else acc) 0

/-- The chain `klass, parent(klass), parent(parent(klass)), ...` read from the
klass table, up to the first `0`. -/
def klass_chain (rt : fobj_runtime) : Nat → Nat → List Nat
  | 0, _ => []
  | fuel + 1, klass =>
    if klass = 0 then [] else klass :: klass_chain rt fuel (rt.fobj_klasses klass).parent

/-- The impl installed for `meth` on the first klass of `chain` that has one,
`0` when no klass of the chain has one. -/
def first_installed (log : List (Nat × Nat × Nat)) (meth : Nat) : List Nat → Nat
  | [] => 0
  | klass :: chain =>
    if installed log klass meth ≠ 0 then installed log klass meth
    else first_installed log meth chain

/-- The pair dispatch is specified to return for a walk over `chain`:
`(self, impl)` for the nearest impl, `(NULL, NULL)` when there is none. -/
def dispatch_spec (log : List (Nat × Nat × Nat)) (self meth : Nat) (chain : List Nat) :
    Nat × Nat :=
  if first_installed log meth chain ≠ 0 then (self, first_installed log meth chain) else (0, 0)

/-! ## Reference counting and dispose (fo_impl.c, lines 456-537) -/

/-- What the outside world can observe of the object memory: calls of
dispose functions, and calls of `ft_free` together with the header content
at that moment. -/
inductive fobj_event where
  | dispose (fn self : Nat)
  | free (self : Nat) (header : fobj_header)
deriving DecidableEq

/-- The object memory: the live allocations and the events so far. -/
structure fobj_mem where
  heap : fobj_heap
  trace : List fobj_event

/-- A statement of a dispose function: the dispose functions considered are
sequences of `fobj_ref` and `fobj_release` calls. -/
inductive HookOp where
  | ref (obj : Nat)
  | release (obj : Nat)
deriving DecidableEq

/-- The code behind the function pointers stored in the `dispose` slots:
`body fn self` is what `fn(self)` executes. -/
abbrev fobj_hooks := Nat → Nat → List HookOp

/-- The store `*h = hdr` into the header of `self`. -/
def fobj_mem.set_header (m : fobj_mem) (self : Nat) (hdr : fobj_header) : fobj_mem :=
  { m with heap := Function.update m.heap self (some hdr) }

/-- The increment of a `uint32_t` (`__atomic_fetch_add(&h->rc, 1, ...)`). -/
def uint32_inc (x : Nat) : Nat := (x + 1) % 2 ^ 32

/-- The decrement of a `uint32_t` (`__atomic_sub_fetch(&h->rc, 1, ...)`): zero
wraps around to `2^32 - 1`. -/
def uint32_dec (x : Nat) : Nat := if x = 0 then 2 ^ 32 - 1 else x - 1

/-- Function `fobj_ref(self)` (lines 456-466); the value returned is `self`. -/
def fobj_ref (env : fobj_env) (rt : fobj_runtime) (m : fobj_mem) (self : Nat) :
    Except Fault fobj_mem := do
  if self = 0 then
    pure m
  else
    let h ← header_of m.heap self
    c_assert env 462 (h.magic == FOBJ_HEADER_MAGIC)
    ft_assert 463 (decide (h.klass > 0 ∧ h.klass ≤ rt.fobj_klasses_n))
    pure (m.set_header self { h with rc := uint32_inc h.rc })

/-- The execution of the body of a dispose function; `release` is
`fobj_release`. -/
def run_hook_ops (env : fobj_env) (rt : fobj_runtime)
    (release : fobj_mem → Nat → Except Fault fobj_mem) :
    fobj_mem → List HookOp → Except Fault fobj_mem
  | m, [] => pure m
  | m, HookOp.ref obj :: ops => do
    let m ← fobj_ref env rt m obj
    run_hook_ops env rt release m ops
  | m, HookOp.release obj :: ops => do
    let m ← release m obj
    run_hook_ops env rt release m ops

/-- The call `kreg->dispose(self)` through the function pointer `fn`. -/
def call_dispose (env : fobj_env) (rt : fobj_runtime) (body : fobj_hooks)
    (release : fobj_mem → Nat → Except Fault fobj_mem) (fn self : Nat) (m : fobj_mem) :
    Except Fault fobj_mem :=
  run_hook_ops env rt release { m with trace := m.trace ++ [fobj_event.dispose fn self] }
    (body fn self)

/-- Function `fobj__dispose_req(self, kreg)` (lines 487-497); the recursion
depth is bounded by the fuel. -/
def fobj__dispose_req (env : fobj_env) (rt : fobj_runtime) (body : fobj_hooks)
    (release : fobj_mem → Nat → Except Fault fobj_mem) (self : Nat) :
    Nat → fobj_klass_registration → fobj_mem → Except Fault fobj_mem
  | 0, _, _ => .error Fault.out_of_fuel
  | fuel + 1, kreg, m => do
    let m ← if kreg.dispose ≠ 0 then call_dispose env rt body release kreg.dispose self m
      else pure m
    if kreg.parent ≠ 0 then
      let preg ← klass_at rt kreg.parent
      fobj__dispose_req env rt body release self fuel preg m
    else
      pure m

/-- Function `fobj__do_dispose(self, h, kreg)` (lines 499-512). -/
def fobj__do_dispose (env : fobj_env) (rt : fobj_runtime) (body : fobj_hooks)
    (release : fobj_mem → Nat → Except Fault fobj_mem) (fuel self : Nat)
    (kreg : fobj_klass_registration) (m : fobj_mem) : Except Fault fobj_mem := do
  let h ← header_of m.heap self
  let old := h.flags
  let m := m.set_header self { h with flags := (h.flags ||| FOBJ_DISPOSING) % 2 ^ 16 }
  if old &&& FOBJ_DISPOSING ≠ 0 then
    pure m
  else
    let m ← fobj__dispose_req env rt body release self fuel kreg m
    let h ← header_of m.heap self
    let m := m.set_header self { h with flags := (h.flags ||| FOBJ_DISPOSED) % 2 ^ 16 }
    let h ← header_of m.heap self
    if h.rc = 0 then
      let m := m.set_header self { magic := 0, rc := 0, flags := 0, klass := 0 }
      let h ← header_of m.heap self
      pure { heap := Function.update m.heap self none
             trace := m.trace ++ [fobj_event.free self h] }
    else
      pure m

/-- Function `fobj_release(self)` (lines 514-537).  The fuel bounds the nesting
of `fobj_release` calls made from dispose functions and the depth of the
parent walk. -/
def fobj_release (env : fobj_env) (rt : fobj_runtime) (body : fobj_hooks) :
    Nat → fobj_mem → Nat → Except Fault fobj_mem
  | 0, _, _ => .error Fault.out_of_fuel
  | fuel + 1, m, self => do
    ft_assert 520 (rt.fobj_global_state != FOBJ_GLOBAL_STATE.FOBJ_RT_NOT_INITIALIZED)
    if self = 0 then
      pure m
    else
      let h ← header_of m.heap self
      c_assert env 526 (h.magic == FOBJ_HEADER_MAGIC)
      let klass := h.klass
      ft_dbg_assert env 528 (decide (klass > 0 ∧ klass ≤ rt.fobj_klasses_n))
      let kreg ← klass_at rt klass
      let rc := uint32_dec h.rc
      let m := m.set_header self { h with rc := rc }
      if rc ≠ 0 then
        pure m
      else if h.flags &&& FOBJ_DISPOSING ≠ 0 then
        pure m
      else
        fobj__do_dispose env rt body (fobj_release env rt body fuel) fuel self kreg m

/-- The dispose functions cached on the klasses of `chain`, in chain order,
klasses without one skipped. -/
def dispose_fns (rt : fobj_runtime) (chain : List Nat) : List Nat :=
  (chain.map (fun k => (rt.fobj_klasses k).dispose)).filter (fun fn => fn ≠ 0)

/-- The reference count after a dispose function body has run, when every
statement of the body refs or releases the object under disposal. -/
def hook_rc : List HookOp → Nat → Nat
  | [], rc => rc
  | HookOp.ref _ :: ops, rc => hook_rc ops (uint32_inc rc)
  | HookOp.release _ :: ops, rc => hook_rc ops (uint32_dec rc)

/-- The statements executed by the dispose functions `fns` on `self`, in
order. -/
def hook_ops (body : fobj_hooks) (self : Nat) (fns : List Nat) : List HookOp :=
  (fns.map (fun fn => body fn self)).flatten

/-- The header content stored by `*h = (fobj_header_t){0}`. -/
def fobj_header.zero : fobj_header := { magic := 0, rc := 0, flags := 0, klass := 0 }

/-! ## Autorelease pools (fo_impl.c, lines 1381-1440) -/

/-- A pointer to an autorelease chunk: the chunk embedded in a pool
(`&pool->first`) or a chunk obtained from `ft_calloc`. -/
inductive chunk_ptr where
  | first_of (pool : Nat)
  | spill (addr : Nat)
deriving DecidableEq

/-- Modelled from the spec: an autorelease chunk, an array of object handles
bounded by the capacity `FOBJ_AR_CHUNK_SIZE`, plus a `prev` link. The record
is declared in a header; the fields are the ones `fo_impl.c` uses (`prev`,
`cnt`, `refs`). -/
structure fobj_autorelease_chunk where
  prev : Option chunk_ptr
  cnt : Nat
  refs : Nat → Nat

/-- Modelled from the spec: an autorelease pool, a stack node with the parent
pool, the current chunk and the inline head chunk. The record is declared in a
header; the fields are the ones `fo_impl.c` uses (`ref.parent`, `last`,
`first`). One thread is modelled, so `ref.root` always is the address of that
thread's `fobj_AR_current` and is not stored. -/
structure fobj_autorelease_pool where
  parent : Nat
  last : Option chunk_ptr
  first : fobj_autorelease_chunk

/-- The autorelease state of one thread: the slot `fobj_AR_current`, the pool
structures (caller-owned storage) and the chunks from `ft_calloc` by address,
the next address `ft_calloc` hands out, and the objects `fobj_release` was
called on, oldest first. -/
structure fobj_ar where
  fobj_AR_current : Nat
  pools : Nat → Option fobj_autorelease_pool
  chunks : Nat → Option fobj_autorelease_chunk
  brk : Nat
  released : List Nat

/-- A zero-filled chunk, as returned by `ft_calloc`. -/
def fobj_autorelease_chunk.zero : fobj_autorelease_chunk :=
  { prev := none, cnt := 0, refs := fun _ => 0 }

/-- Access to `*pool`. -/
def pool_at (st : fobj_ar) (pool : Nat) : Except Fault fobj_autorelease_pool :=
  match st.pools pool with
  | some p => .ok p
  | none => .error Fault.bad_pointer

/-- Access to `*chunk`. -/
def chunk_at (st : fobj_ar) : Option chunk_ptr → Except Fault fobj_autorelease_chunk
  | none => .error Fault.bad_pointer
  | some (chunk_ptr.first_of pool) => do
    let p ← pool_at st pool
    pure p.first
  | some (chunk_ptr.spill addr) =>
    match st.chunks addr with
    | some c => .ok c
    | none => .error Fault.bad_pointer

/-- The store `*chunk = c`. -/
def chunk_set (st : fobj_ar) (c : fobj_autorelease_chunk) :
    Option chunk_ptr → Except Fault fobj_ar
  | none => .error Fault.bad_pointer
  | some (chunk_ptr.first_of pool) => do
    let p ← pool_at st pool
    pure { st with pools := Function.update st.pools pool (some { p with first := c }) }
  | some (chunk_ptr.spill addr) =>
    match st.chunks addr with
    | some _ => .ok { st with chunks := Function.update st.chunks addr (some c) }
    | none => .error Fault.bad_pointer

/-- Call `ft_free(chunk)`: only chunks from `ft_calloc` can be freed. -/
def chunk_free (st : fobj_ar) : Option chunk_ptr → Except Fault fobj_ar
  | some (chunk_ptr.spill addr) =>
    match st.chunks addr with
    | some _ => .ok { st with chunks := Function.update st.chunks addr none }
    | none => .error Fault.bad_pointer
  | _ => .error Fault.bad_pointer

/-- Modelled from the spec: the macro `fobj_del(ptr)` of `fo_obj.h`, which is
not part of the sources at hand; following "call `release` on the stored
object", it calls `fobj_release(*ptr)` and leaves `NULL` in `*ptr`.  The
release itself is recorded in `released`; the dispose functions it may run
are taken not to touch the autorelease state. -/
def fobj_del (st : fobj_ar) (chunk : Option chunk_ptr) (i : Nat) : Except Fault fobj_ar := do
  let c ← chunk_at st chunk
  let st ← chunk_set st { c with refs := Function.update c.refs i 0 } chunk
  pure { st with released := st.released ++ [c.refs i] }

/-- Function `fobj_autorelease_pool_init(pool)` (lines 1381-1391); `pool` is
the address of caller-owned storage, whose previous content is arbitrary. -/
def fobj_autorelease_pool_init (st : fobj_ar) (pool : Nat)
    (storage : fobj_autorelease_pool) : fobj_ar :=
  let p : fobj_autorelease_pool :=
    { parent := st.fobj_AR_current
      last := some (chunk_ptr.first_of pool)
      first := { storage.first with prev := none, cnt := 0 } }
  { st with pools := Function.update st.pools pool (some p), fobj_AR_current := pool }

/-- Function `fobj_autorelease(obj, pool)` (lines 1419-1434); the value
returned is `obj`. -/
def fobj_autorelease (FOBJ_AR_CHUNK_SIZE : Nat) (st : fobj_ar) (obj pool : Nat) :
    Except Fault fobj_ar := do
  ft_assert 1423 (pool != 0)
  let p ← pool_at st pool
  let chunk := p.last
  let c ← chunk_at st chunk
  let (st, chunk) ←
    if c.cnt = FOBJ_AR_CHUNK_SIZE then do
      let new_chunk := some (chunk_ptr.spill st.brk)
      let st : fobj_ar :=
        { st with
          chunks := Function.update st.chunks st.brk
            (some { fobj_autorelease_chunk.zero with prev := chunk })
          brk := st.brk + 1
          pools := Function.update st.pools pool (some { p with last := new_chunk }) }
      pure (st, new_chunk)
    else
      pure (st, chunk)
  let c ← chunk_at st chunk
  if c.cnt < FOBJ_AR_CHUNK_SIZE then
    chunk_set st { c with refs := Function.update c.refs c.cnt obj, cnt := c.cnt + 1 } chunk
  else
    .error Fault.out_of_bounds

/-- The inner loop of `fobj_autorelease_pool_release_till` (lines 1405-1413),
which empties the pool `current`. -/
def fobj_autorelease_pool_drain (current : Nat) : Nat → fobj_ar → Except Fault fobj_ar
  | 0, _ => .error Fault.out_of_fuel
  | fuel + 1, st => do
    let p ← pool_at st current
    let go ←
      if p.last ≠ some (chunk_ptr.first_of current) then pure true
      else do
        let c ← chunk_at st p.last
        pure (decide (c.cnt ≠ 0))
    if go then
      let chunk := p.last
      let c ← chunk_at st chunk
      if c.cnt = 0 then
        let st : fobj_ar :=
          { st with pools := Function.update st.pools current (some { p with last := c.prev }) }
        let st ← chunk_free st chunk
        fobj_autorelease_pool_drain current fuel st
      else
        let st ← chunk_set st { c with cnt := c.cnt - 1 } chunk
        let st ← fobj_del st chunk (c.cnt - 1)
        fobj_autorelease_pool_drain current fuel st
    else
      pure st

/-- Function `fobj_autorelease_pool_release_till(from, till)` (lines
1398-1417), with `from` the address of `fobj_AR_current`. -/
def fobj_autorelease_pool_release_till (till : Nat) : Nat → fobj_ar → Except Fault fobj_ar
  | 0, _ => .error Fault.out_of_fuel
  | fuel + 1, st =>
    if st.fobj_AR_current ≠ till then do
      let current := st.fobj_AR_current
      let st ← fobj_autorelease_pool_drain current fuel st
      ft_assert 1414 (st.fobj_AR_current == current)
      let p ← pool_at st st.fobj_AR_current
      fobj_autorelease_pool_release_till till fuel { st with fobj_AR_current := p.parent }
    else
      pure st

/-- Function `fobj_autorelease_pool_release(pool)` (lines 1393-1396). -/
def fobj_autorelease_pool_release (fuel : Nat) (st : fobj_ar) (pool : Nat) :
    Except Fault fobj_ar := do
  let p ← pool_at st pool
  fobj_autorelease_pool_release_till p.parent fuel st

/-- Autorelease the objects of a list into `pool`, first to last. -/
def fobj_autorelease_all (FOBJ_AR_CHUNK_SIZE : Nat) (pool : Nat) :
    fobj_ar → List Nat → Except Fault fobj_ar
  | st, [] => pure st
  | st, obj :: objs => do
    let st ← fobj_autorelease FOBJ_AR_CHUNK_SIZE st obj pool
    fobj_autorelease_all FOBJ_AR_CHUNK_SIZE pool st objs

/-! ## Quoted string formatting (fo_impl.c, lines 710-755) -/

/-- Type `ft_str_t`, declared in a header: the fields `fobj_format_string` uses,
a pointer to bytes (`none` is `NULL`) and a length. -/
structure ft_str_t where
  ptr : Option (List Nat)
  len : Nat

/-- What the formatter takes from outside `fo_impl.c`: whether plain `char`
is signed on the platform, and `ft_strbuf_catf` applied to a format and one
string argument (the bytes it appends). -/
structure fmt_env where
  char_signed : Bool
  ft_strbuf_catf : List Nat → Option (List Nat) → List Nat

/-- The read `str.ptr[i]`. -/
def ft_str_t.byte_at (str : ft_str_t) (i : Nat) : Except Fault Nat :=
  match str.ptr with
  | none => .error Fault.bad_pointer
  | some bytes =>
    match bytes.get? i with
    | some b => .ok (b % 256)
    | none => .error Fault.out_of_bounds

/-- The value of a byte read into a variable of type `char`. -/
def c_char (env : fmt_env) (b : Nat) : Int :=
  if env.char_signed ∧ 128 ≤ b then (b : Int) - 256 else (b : Int)

/-- The conversion of an `int` to the `char` that is appended to the buffer. -/
def to_byte (i : Int) : Nat := (i % 256).toNat

/-- The `switch (c)` of `fobj_format_string` (lines 735-752): the bytes
appended for one character.  Numbers are ASCII codes: 92 is the backslash,
34 the double quote, 48 is `0`, 97 is `a`, 120 is `x`.  On `int`, `c>>4`
is the floor of `c/16` and `c&0xf` is `c` modulo 16. -/
def fobj_format_string_escape (c : Int) : List Nat :=
  if c = 34 then [92, 34]
  else if c = 9 then [92, 116]
  else if c = 10 then [92, 110]
  else if c = 13 then [92, 114]
  else if c = 7 then [92, 97]
  else if c = 8 then [92, 98]
  else if c = 12 then [92, 102]
  else if c = 11 then [92, 118]
  else if c = 92 then [92, 92]
  else if c < 0x20 then
    [92, 120, to_byte (48 + c / 16), to_byte ((if c % 16 ≤ 9 then 48 else 97) + c % 16)]
  else [to_byte c]

/-- The largest value of an `int` (32 bits). -/
def INT_MAX : Nat := 2147483647

/-- The loop `for (i = 0; i < str.len; i++)` of `fobj_format_string` (lines
733-753), with `n` iterations left.  The index `i` is an `int`: the increment
`i++` at `INT_MAX` overflows. -/
def fobj_format_string_loop (env : fmt_env) (str : ft_str_t) :
    Nat → Nat → List Nat → Except Fault (List Nat)
  | 0, _, buf => pure buf
  | n + 1, i, buf => do
    let b ← str.byte_at i
    let buf := buf ++ fobj_format_string_escape (c_char env b)
    if INT_MAX ≤ i then .error Fault.overflow
    else fobj_format_string_loop env str n (i + 1) buf

/-- Function `fobj_format_string(buf, str, fmt)` (lines 710-755); the result is
the content of `buf` afterwards. -/
def fobj_format_string (env : fmt_env) (buf : List Nat) (str : ft_str_t)
    (fmt : Option String) : Except Fault (List Nat) :=
  if fmt = none ∨ fmt = some "" then
    pure (buf ++ (str.ptr.getD []).take str.len)
  else if fmt ≠ some "q" then do
    ft_assert 721 (decide (1 + (fmt.getD "").length < 32))
    pure (buf ++ env.ft_strbuf_catf (37 :: (fmt.getD "").toList.map Char.toNat) str.ptr)
  else do
    let buf := if str.ptr = none then buf ++ [78, 85, 76, 76] else buf
    let buf := buf ++ [34]
    let buf ← fobj_format_string_loop env str str.len 0 buf
    pure (buf ++ [34])

/-- The two lowercase hexadecimal digits of a byte, as ASCII codes. -/
def hex_digits (b : Nat) : List Nat :=
  let digit := fun d => if d ≤ 9 then 48 + d else 97 + (d - 10)
  [digit (b / 16 % 16), digit (b % 16)]

/-! ## Invariants of the registries -/

/-- The 32-bit hash of a name, as stored in the records. -/
def hash32 (env : fobj_env) (name : String) : Nat := env.ft_small_cstr_hash name % 2 ^ 32

/-- Well-formedness of the impl table, and the meaning of the partition
lists: scanning the partition of `meth` on `klass` gives the impl most recently
installed for that pair according to `log`. -/
structure ImplInv (rt : fobj_runtime) (log : List (Nat × Nat × Nat)) : Prop where
  impls_n_lt : rt.fobj_impls_n < FOBJ_OBJ_MAX_METHOD_IMPLS
  impl_zero : rt.fobj_method_impl 0 = fobj_method_impl.zero
  next_lt : ∀ j, 0 < j → j ≤ rt.fobj_impls_n → (rt.fobj_method_impl j).next_for_klass < j
  head_le : ∀ k p, (rt.fobj_klasses k).method_lists p ≤ rt.fobj_impls_n
  search_ok : ∀ k m fuel, rt.fobj_impls_n < fuel →
    fobj_search_impl_loop rt m fuel ((rt.fobj_klasses k).method_lists (m % METHOD_PARTITIONS))
      = Except.ok (installed log k m)

/-- Well-formedness of the klass registry: the handles `1 .. fobj_klasses_n`
carry pairwise different names, hash chains descend, and the bucket scan for a
name finds the handle that carries it, or `0` when no handle does. -/
structure KlassInv (env : fobj_env) (rt : fobj_runtime) : Prop where
  n_lt : rt.fobj_klasses_n < FOBJ_OBJ_MAX_KLASSES
  named : ∀ k, 0 < k → k ≤ rt.fobj_klasses_n → ∃ nm, (rt.fobj_klasses k).name = some nm
  distinct : ∀ j k, 0 < j → j ≤ rt.fobj_klasses_n → 0 < k → k ≤ rt.fobj_klasses_n →
    (rt.fobj_klasses j).name = (rt.fobj_klasses k).name → j = k
  next_lt : ∀ k, 0 < k → k ≤ rt.fobj_klasses_n → (rt.fobj_klasses k).hash_next < k
  head_le : ∀ b, rt.fobj_klasses_hash b ≤ rt.fobj_klasses_n
  scan_hit : ∀ k nm fuel, 0 < k → k ≤ rt.fobj_klasses_n →
    (rt.fobj_klasses k).name = some nm → rt.fobj_klasses_n < fuel →
    fobj_klasses_hash_scan rt (hash32 env nm) nm fuel
      (rt.fobj_klasses_hash (hash32 env nm % FOBJ_OBJ_HASH_SIZE)) = Except.ok k
  scan_miss : ∀ nm fuel,
    (∀ k, 0 < k → k ≤ rt.fobj_klasses_n → (rt.fobj_klasses k).name ≠ some nm) →
    rt.fobj_klasses_n < fuel →
    fobj_klasses_hash_scan rt (hash32 env nm) nm fuel
      (rt.fobj_klasses_hash (hash32 env nm % FOBJ_OBJ_HASH_SIZE)) = Except.ok 0

/-- Well-formedness of the method registry, as `KlassInv` for methods. -/
structure MethInv (env : fobj_env) (rt : fobj_runtime) : Prop where
  n_lt : rt.fobj_methods_n < FOBJ_OBJ_MAX_METHODS
  named : ∀ k, 0 < k → k ≤ rt.fobj_methods_n → ∃ nm, (rt.fobj_methods k).name = some nm
  distinct : ∀ j k, 0 < j → j ≤ rt.fobj_methods_n → 0 < k → k ≤ rt.fobj_methods_n →
    (rt.fobj_methods j).name = (rt.fobj_methods k).name → j = k
  next_lt : ∀ k, 0 < k → k ≤ rt.fobj_methods_n → (rt.fobj_methods k).hash_next < k
  head_le : ∀ b, rt.fobj_methods_hash b ≤ rt.fobj_methods_n
  scan_hit : ∀ k nm fuel, 0 < k → k ≤ rt.fobj_methods_n →
    (rt.fobj_methods k).name = some nm → rt.fobj_methods_n < fuel →
    fobj_methods_hash_scan rt (hash32 env nm) nm fuel
      (rt.fobj_methods_hash (hash32 env nm % FOBJ_OBJ_HASH_SIZE)) = Except.ok k
  scan_miss : ∀ nm fuel,
    (∀ k, 0 < k → k ≤ rt.fobj_methods_n → (rt.fobj_methods k).name ≠ some nm) →
    rt.fobj_methods_n < fuel →
    fobj_methods_hash_scan rt (hash32 env nm) nm fuel
      (rt.fobj_methods_hash (hash32 env nm % FOBJ_OBJ_HASH_SIZE)) = Except.ok 0

/-- The names given to the klass interning calls of a sequence. -/
def klass_names : List RegCall → List String
  | [] => []
  | RegCall.klass_init _ _ _ _ name :: cs => name :: klass_names cs
  | _ :: cs => klass_names cs

/-- What registration never changes: counters only grow, and the name, size
and parent of a registered klass and the name of a registered method stay. -/
structure RegStable (rt rt' : fobj_runtime) : Prop where
  klasses_n_le : rt.fobj_klasses_n ≤ rt'.fobj_klasses_n
  methods_n_le : rt.fobj_methods_n ≤ rt'.fobj_methods_n
  impls_n_le : rt.fobj_impls_n ≤ rt'.fobj_impls_n
  klass_name : ∀ k, 0 < k → k ≤ rt.fobj_klasses_n →
    (rt'.fobj_klasses k).name = (rt.fobj_klasses k).name
  klass_size : ∀ k, 0 < k → k ≤ rt.fobj_klasses_n →
    (rt'.fobj_klasses k).size = (rt.fobj_klasses k).size
  klass_parent : ∀ k, 0 < k → k ≤ rt.fobj_klasses_n →
    (rt'.fobj_klasses k).parent = (rt.fobj_klasses k).parent
  method_name : ∀ k, 0 < k → k ≤ rt.fobj_methods_n →
    (rt'.fobj_methods k).name = (rt.fobj_methods k).name

/-- The invariant of the three registries together: `log` is the sequence of
installs made so far and `knames` the names klass interning was called with. -/
structure RegInv (env : fobj_env) (rt : fobj_runtime) (log : List (Nat × Nat × Nat))
    (knames : List String) : Prop where
  impl : ImplInv rt log
  klass : KlassInv env rt
  meth : MethInv env rt
  names_sub : ∀ k, 0 < k → k ≤ rt.fobj_klasses_n →
    ∃ nm, nm ∈ knames ∧ (rt.fobj_klasses k).name = some nm
  names_sup : ∀ nm, nm ∈ knames →
    ∃ k, 0 < k ∧ k ≤ rt.fobj_klasses_n ∧ (rt.fobj_klasses k).name = some nm
  log_klass : ∀ e, e ∈ log → e.1 < FOBJ_OBJ_MAX_KLASSES
  zero_parent : (rt.fobj_klasses 0).parent = 0
  state_ne : rt.fobj_global_state ≠ FOBJ_GLOBAL_STATE.FOBJ_RT_NOT_INITIALIZED

/-! ## Filling the tables -/

/-- A name for every number: `i` times the letter `k`. -/
def name_of (i : Nat) : String := String.mk (List.replicate i 'k')

/-- Interning calls for `n` different klass names, each with a zeroed slot, size
`0`, no parent and no methods. -/
def many_klass_calls (n : Nat) : List RegCall :=
  (List.range n).map (fun i => RegCall.klass_init 0 0 0 [] (name_of (i + 1)))

/-- Interning calls for `n` different method names, each with a zeroed slot. -/
def many_method_calls (n : Nat) : List RegCall :=
  (List.range n).map (fun i => RegCall.method_init 0 (name_of (i + 1)))

/-! ## A concrete registry: scenarios 1 and 2 of the specification -/

/-- An environment with debug assertions on, `fobjDispose` as method `1`, and
the length of a name as its hash. -/
def scenario_env : fobj_env :=
  { ft_dbg_enabled := true, NDEBUG := false, fobjDispose__mh := 1,
    ft_small_cstr_hash := fun s => s.length }

/-- Methods `fobjDispose` and `foo`; klass `A` with impl `101` for `foo`; klass
`B` with parent `A`; then impl `202` for `foo` on `B`. -/
def scenario_calls : List RegCall :=
  [ RegCall.method_init 0 "fobjDispose",
    RegCall.method_init 0 "foo",
    RegCall.klass_init 0 16 0 [(2, 101)] "A",
    RegCall.klass_init 0 24 1 [] "B",
    RegCall.register_impl 2 2 202 ]

/-- What the calls of the scenario returned. -/
def scenario_outs : List (Bool × Nat × fobj_runtime) :=
  match reg_run scenario_env 8 fobj_runtime.initialized scenario_calls with
  | Except.ok outs => outs
  | Except.error _ => []

/-- The tables after the scenario. -/
def scenario_rt : fobj_runtime := reg_final fobj_runtime.initialized scenario_outs

/-- A heap with one live object of klass `B` at address `64`. -/
def scenario_heap : fobj_heap :=
  fun p => if p = 64 then some { magic := FOBJ_HEADER_MAGIC, rc := 1, flags := 0, klass := 2 }
    else none


/-! ## A concrete object with dispose functions -/

/-- Method `fobjDispose`; klass `P` with dispose function `71`; klass `Q` with
parent `P` and dispose function `72`. -/
def dispose_calls : List RegCall :=
  [ RegCall.method_init 0 "fobjDispose",
    RegCall.klass_init 0 8 0 [(1, 71)] "P",
    RegCall.klass_init 0 8 1 [(1, 72)] "Q" ]

/-- The tables after `dispose_calls`. -/
def dispose_rt : fobj_runtime :=
  match reg_run scenario_env 8 fobj_runtime.initialized dispose_calls with
  | Except.ok outs => reg_final fobj_runtime.initialized outs
  | Except.error _ => fobj_runtime.initialized

/-- A memory with one live object of klass `Q` at address `64`, referenced
once, and no events yet. -/
def dispose_mem : fobj_mem :=
  { heap := fun p =>
      if p = 64 then some { magic := FOBJ_HEADER_MAGIC, rc := 1, flags := 0, klass := 2 }
      else none
    trace := [] }

/-- Dispose functions of which `72`, the one of `Q`, takes a reference to the
object and drops it again. -/
def dispose_body : fobj_hooks :=
  fun fn self => if fn = 72 then [HookOp.ref self, HookOp.release self] else []

/-- Dispose functions of which `72`, the one of `Q`, takes a reference to the
object and keeps it. -/
def resurrect_body : fobj_hooks :=
  fun fn self => if fn = 72 then [HookOp.ref self] else []

/-- The memory after the last reference to the object of `dispose_mem` was
released under `resurrect_body`. -/
def resurrect_mem : fobj_mem :=
  match fobj_release scenario_env dispose_rt resurrect_body 3 dispose_mem 64 with
  | Except.ok m => m
  | Except.error _ => dispose_mem


/-! ## The content of an autorelease pool -/

/-- The objects held by a chunk, in insertion order: `refs[0 .. cnt-1]`. -/
def chunk_items (c : fobj_autorelease_chunk) : List Nat := (List.range c.cnt).map c.refs

/-- The chunk list of pool `p` seen from pointer `ptr`: `addrs` are the addresses
of the chunks from `ft_calloc`, newest first, linked by `prev` down to the
embedded chunk `&p->first`; every one is allocated, below the allocation
pointer, and holds at most `S` objects. -/
def ChunkChain (st : fobj_ar) (S p : Nat) : Option chunk_ptr → List Nat → Prop
  | ptr, [] => ptr = some (chunk_ptr.first_of p)
  | ptr, a :: addrs =>
    ptr = some (chunk_ptr.spill a) ∧ a ∉ addrs ∧ a < st.brk ∧
      ∃ c, st.chunks a = some c ∧ c.cnt ≤ S ∧ ChunkChain st S p c.prev addrs

/-- The objects held by the chunks at `addrs`, newest first. -/
def spill_items (st : fobj_ar) : List Nat → List Nat
  | [] => []
  | a :: addrs =>
    (match st.chunks a with
      | some c => (chunk_items c).reverse
      | none => []) ++ spill_items st addrs

/-- The objects held by pool `p`, newest first. -/
def pool_items (st : fobj_ar) (p : Nat) (addrs : List Nat) : List Nat :=
  spill_items st addrs ++
    (match st.pools p with
      | some pool => (chunk_items pool.first).reverse
      | none => [])

/-- Pool `p` is well formed: it has parent `par`, its embedded chunk holds at
most `S` objects, and its chunk list is `addrs`. -/
def PoolWF (st : fobj_ar) (S p par : Nat) (addrs : List Nat) : Prop :=
  ∃ pool, st.pools p = some pool ∧ pool.parent = par ∧ pool.first.cnt ≤ S ∧
    ChunkChain st S p pool.last addrs

/-- An autorelease state without pools. -/
def empty_ar : fobj_ar :=
  { fobj_AR_current := 0, pools := fun _ => none, chunks := fun _ => none, brk := 1,
    released := [] }

/-! ## Formatting of tagged values (fo_impl.c, lines 757-983)

A C string (`const char*`) is represented by `Option (List Nat)`: `none` is
`NULL`, and `some bytes` holds the bytes before the terminating zero. -/

/-- Modelled from the spec: the tagged value `ft_arg_t`, a value together with
a type char, one of `i`, `u`, `f`, `s`, `b`, `o`.  Constructor `z` is the value
of `ft_mka_z()`, and `other t` a value with any other type char `t` (zeroed
memory has `t = 0`).  A float is given by its bit pattern. -/
inductive ft_arg_t where
  | i (v : Int)
  | u (v : Nat)
  | f (bits : Nat)
  | s (v : Option (List Nat))
  | b (v : Bool)
  | o (obj : Nat)
  | z
  | other (t : Nat)
deriving DecidableEq

/-- What the formatters take from outside `fo_impl.c`: the `<inttypes.h>`
conversion tokens, `ft_strbuf_catf` applied to a format and one argument of
each kind (the bytes it appends), the `fobjFormat` and `fobjRepr` methods of
objects (`obj_format` is `none` when the object does not implement
`fobjFormat`), the search `ft_search_fokv` of `fobj_printkv`, and the
allocation `fobj_alloc_sized` of an error object with room for a number of
key/value slots (the address of the object and the memory afterwards). -/
structure format_env where
  base : fobj_env
  str : fmt_env
  PRIi64 : List Nat
  PRIu64 : List Nat
  PRIx64 : List Nat
  PRIX64 : List Nat
  PRIo64 : List Nat
  PRId64 : List Nat
  catf_int : List Nat → Int → List Nat
  catf_uint : List Nat → Nat → List Nat
  catf_float : List Nat → Nat → List Nat
  catf_bool : List Nat → Bool → List Nat
  obj_format : Nat → Option (List Nat) → Option (List Nat)
  obj_repr : Nat → List Nat
  ft_search_fokv : List (List Nat × Nat) → List Nat → Nat
  ft__truncate_log_filename : Option (List Nat) → Option (List Nat)
  fobjErr__kh : Nat
  fobj_alloc_sized : fobj_mem → Nat → Except Fault (Nat × fobj_mem)

/-- The string with the given bytes as characters. -/
def cstr_string (bytes : List Nat) : String := String.mk (bytes.map Char.ofNat)

/-- The bytes of a string literal of the source. -/
def cstr_bytes (s : String) : List Nat := s.toList.map Char.toNat

/-- Modelled from the spec: `ft_cstr(ptr)`, the (ptr, len) pair of a C string;
the length is `strlen(ptr)`, and `0` for `NULL`. -/
def ft_cstr (s : Option (List Nat)) : ft_str_t := { ptr := s, len := (s.getD []).length }

/-- Function `fobjStr_fobjRepr` (lines 757-768); `self` is given by the string
`fobj_getstr(self)`, the result by the bytes of the new string. -/
def fobjStr_fobjRepr (env : fmt_env) (self : ft_str_t) : Except Fault (List Nat) := do
  let buf := [36, 83, 40]
  let buf ← fobj_format_string env buf self (some "q")
  pure (buf ++ [41])

/-- The conversion `(int64_t)i` of a `uint64_t`. -/
def to_int64 (i : Nat) : Int :=
  if i % 2 ^ 64 < 2 ^ 63 then (i % 2 ^ 64 : Nat) else ((i % 2 ^ 64 : Nat) : Int) - 2 ^ 64

/-- The conversion `(uint64_t)i` of an `int64_t`. -/
def to_uint64 (i : Int) : Nat := (i % 2 ^ 64).toNat

/-- The result of `ft_strlcat(tfmt, fmt, 32)` in the buffer `char tfmt[32] =
"%"`: the format behind a percent sign, cut to 31 characters.  The value
returned by `ft_strlcat` is `1 + strlen(fmt)`. -/
def tfmt_of (fmt : List Nat) : List Nat := (37 :: fmt).take 31

/-- The read `tfmt[i]` from the buffer `char tfmt[32]`, which is zero behind
the string. -/
def tfmt_at (tfmt : List Nat) (i : Nat) : Except Fault Nat :=
  if i < 32 then .ok (tfmt.getD i 0) else .error Fault.out_of_bounds

/-- The loop `while (tfmt[fmtlen-1] == 'l' || tfmt[fmtlen-1] == 'z')
fmtlen--` of `fobj_format_int` (lines 804-805), entered after the first
`fmtlen--`. -/
def fobj_format_int_strip (tfmt : List Nat) : Nat → Except Fault Nat
  | 0 => .error Fault.out_of_bounds
  | n + 1 => do
    let c ← tfmt_at tfmt n
    if c = 108 ∨ c = 122 then fobj_format_int_strip tfmt n else pure (n + 1)

/-- Function `fobj_format_int(buf, i, _signed, fmt)` (lines 782-826); the
result is the content of `buf` afterwards. -/
def fobj_format_int (env : format_env) (buf : List Nat) (i : Nat) (_signed : Bool)
    (fmt : Option (List Nat)) : Except Fault (List Nat) :=
  if fmt = none ∨ fmt = some [] then
    if _signed then pure (buf ++ env.catf_int (37 :: env.PRIi64) (to_int64 i))
    else pure (buf ++ env.catf_uint (37 :: env.PRIu64) (i % 2 ^ 64))
  else do
    let tfmt := tfmt_of (fmt.getD [])
    let fmtlen := 1 + (fmt.getD []).length
    ft_assert 800 (decide (fmtlen < 28))
    let base ← tfmt_at tfmt (fmtlen - 1)
    ft_assert 802 (decide (base = 120 ∨ base = 88 ∨ base = 111 ∨ base = 117 ∨
      base = 100 ∨ base = 105))
    let fmtlen ← fobj_format_int_strip tfmt (fmtlen - 1)
    let tfmt := tfmt.take fmtlen
    let tfmt :=
      if base = 120 then tfmt ++ env.PRIx64
      else if base = 88 then tfmt ++ env.PRIX64
      else if base = 111 then tfmt ++ env.PRIo64
      else if base = 117 then tfmt ++ env.PRIu64
      else if base = 100 then tfmt ++ env.PRId64
      else tfmt ++ env.PRIi64
    if base = 100 ∨ base = 105 then pure (buf ++ env.catf_int tfmt (to_int64 i))
    else pure (buf ++ env.catf_uint tfmt (i % 2 ^ 64))

/-- Function `fobj_format_float(buf, f, fmt)` (lines 849-859). -/
def fobj_format_float (env : format_env) (buf : List Nat) (f : Nat)
    (fmt : Option (List Nat)) : Except Fault (List Nat) :=
  if fmt = none ∨ fmt = some [] then pure (buf ++ env.catf_float [37, 102] f)
  else pure (buf ++ env.catf_float (tfmt_of (fmt.getD [])) f)

/-- Function `fobj_format_bool(buf, b, fmt)` (lines 884-910). -/
def fobj_format_bool (env : format_env) (buf : List Nat) (b : Bool)
    (fmt : Option (List Nat)) : Except Fault (List Nat) :=
  if fmt = none ∨ fmt = some [] then
    pure (buf ++ (if b then cstr_bytes "true" else cstr_bytes "false"))
  else do
    let tfmt := tfmt_of (fmt.getD [])
    let fmtlen := 1 + (fmt.getD []).length
    let c ← tfmt_at tfmt (fmtlen - 1)
    let repr : Option (List Nat) :=
      if c = 66 then some (if b then cstr_bytes "TRUE" else cstr_bytes "FALSE")
      else if c = 98 then some (if b then cstr_bytes "true" else cstr_bytes "false")
      else if c = 80 then some (if b then cstr_bytes "True" else cstr_bytes "False")
      else if c = 89 then some (if b then cstr_bytes "Yes" else cstr_bytes "No")
      else if c = 121 then some (if b then cstr_bytes "yes" else cstr_bytes "no")
      else none
    match repr with
    | some r => pure (buf ++ env.str.ft_strbuf_catf (tfmt.set (fmtlen - 1) 115) (some r))
    | none => pure (buf ++ env.catf_bool tfmt b)

/-- Function `fobj_format_arg(out, arg, fmt)` (lines 918-951); the result is
the content of `out` afterwards. -/
def fobj_format_arg (env : format_env) (out : List Nat) (arg : ft_arg_t)
    (fmt : Option (List Nat)) : Except Fault (List Nat) :=
  match arg with
  | ft_arg_t.i v => fobj_format_int env out (to_uint64 v) true fmt
  | ft_arg_t.u v => fobj_format_int env out (v % 2 ^ 64) false fmt
  | ft_arg_t.f x => fobj_format_float env out x fmt
  | ft_arg_t.s v => fobj_format_string env.str out (ft_cstr v) (fmt.map cstr_string)
  | ft_arg_t.b v => fobj_format_bool env out v fmt
  | ft_arg_t.o obj =>
    if obj = 0 then pure (out ++ cstr_bytes "(null)")
    else match env.obj_format obj fmt with
      | some bytes => pure (out ++ bytes)
      | none => pure (out ++ env.obj_repr obj)
  | _ => .error (Fault.abort 949)

/-! ## Templates (fo_impl.c, lines 985-1042 and 1196-1251) -/

/-- Record `fobj_err_kv_t`: a key and a tagged value.  Arrays of them end with
an entry whose key is `NULL`. -/
structure fobj_err_kv_t where
  key : Option (List Nat)
  val : ft_arg_t
deriving DecidableEq

/-- The call `strchr(s, c)` for a character `c` other than zero: the offset of
the first `c` in `s`, `none` for `NULL`. -/
def strchr : List Nat → Nat → Option Nat
  | [], _ => none
  | b :: s, c => if b = c then some 0 else (strchr s c).map (fun k => k + 1)

/-- The call `memchr(s, c, n)`: the offset of the first `c` among the first
`n` bytes of `s`. -/
def memchr (s : List Nat) (c n : Nat) : Option Nat := strchr (s.take n) c

/-- The loop `for (;kv->key != NULL; kv++)` of `fobj__format_errmsg` (lines
1029-1036): the flag `found` and the content of `out` afterwards. -/
def fobj__format_errmsg_lookup (env : format_env) (ident format : List Nat) :
    List fobj_err_kv_t → List Nat → Except Fault (Bool × List Nat)
  | [], _ => .error Fault.out_of_bounds
  | kv :: kvs, out =>
    match kv.key with
    | none => pure (false, out)
    | some key =>
      if key = ident then do
        let out ← fobj_format_arg env out kv.val (some format)
        pure (true, out)
      else fobj__format_errmsg_lookup env ident format kvs out

/-- The loop `for (cur = msg; *cur; cur++)` of `fobj__format_errmsg` (lines
1002-1039); `cur` is the rest of the message, and the first argument bounds
the number of iterations. -/
def fobj__format_errmsg_loop (env : format_env) (kvs : List fobj_err_kv_t) :
    Nat → List Nat → List Nat → Except Fault (List Nat)
  | _, [], out => pure out
  | 0, _ :: _, _ => .error Fault.out_of_fuel
  | n + 1, c :: cur, out =>
    if c ≠ 123 then fobj__format_errmsg_loop env kvs n cur (out ++ [c])
    else if cur.head? = some 123 then
      fobj__format_errmsg_loop env kvs n cur.tail (out ++ [123])
    else
      match strchr cur 125 with
      | none => .error (Fault.abort 1014)
      | some closebrace => do
        let formatdelim := memchr cur 58 closebrace
        let identlen := formatdelim.getD closebrace
        ft_assert 1017 (decide (identlen ≤ 31))
        ft_assert 1019 (decide (formatdelim = none ∨ closebrace - formatdelim.getD 0 ≤ 31))
        let ident := cur.take identlen
        let formatlen := match formatdelim with
          | some d => closebrace - (d + 1)
          | none => 0
        let format := (cur.drop (formatdelim.getD 0 + 1)).take formatlen
        let r ← fobj__format_errmsg_lookup env ident format kvs out
        ft_dbg_assert env.base 1037 r.1
        fobj__format_errmsg_loop env kvs n (cur.drop (closebrace + 1)) r.2

/-- Function `fobj__format_errmsg(msg, kvs)` (lines 985-1042); the result is
the new string. -/
def fobj__format_errmsg (env : format_env) (msg : List Nat) (kvs : List fobj_err_kv_t) :
    Except Fault (List Nat) :=
  if strchr msg 123 = none ∨ strchr msg 125 = none then pure msg
  else fobj__format_errmsg_loop env kvs msg.length msg []

/-- The loop `for (cur = fmt; *cur; cur++)` of `fobj_printkv` (lines
1213-1248); `kvs` is the slice of (key, object) pairs. -/
def fobj_printkv_loop (env : format_env) (kvs : List (List Nat × Nat)) :
    Nat → List Nat → List Nat → Except Fault (List Nat)
  | _, [], out => pure out
  | 0, _ :: _, _ => .error Fault.out_of_fuel
  | n + 1, c :: cur, out =>
    if c ≠ 123 then fobj_printkv_loop env kvs n cur (out ++ [c])
    else if cur.head? = some 123 then
      fobj_printkv_loop env kvs n cur.tail (out ++ [123])
    else
      match strchr cur 125 with
      | none => .error (Fault.abort 1225)
      | some closebrace => do
        let formatdelim := memchr cur 58 closebrace
        let identlen := formatdelim.getD closebrace
        ft_assert 1228 (decide (identlen ≤ 31))
        ft_assert 1230 (decide (formatdelim = none ∨ closebrace - formatdelim.getD 0 ≤ 31))
        let ident := cur.take identlen
        let formatlen := match formatdelim with
          | some d => closebrace - (d + 1)
          | none => 0
        let format := (cur.drop (formatdelim.getD 0 + 1)).take formatlen
        let i := env.ft_search_fokv kvs ident
        let out :=
          match kvs.get? i with
          | none => out
          | some kv =>
            if kv.2 = 0 then out ++ cstr_bytes "NULL"
            else match env.obj_format kv.2 (some format) with
              | some bytes => out ++ bytes
              | none => out ++ env.obj_repr kv.2
        fobj_printkv_loop env kvs n (cur.drop (closebrace + 1)) out

/-- Function `fobj_printkv(fmt, kvs)` (lines 1196-1251); the result is the
content of the new string object. -/
def fobj_printkv (env : format_env) (fmt : List Nat) (kvs : List (List Nat × Nat)) :
    Except Fault (List Nat) :=
  if strchr fmt 123 = none ∨ strchr fmt 125 = none then pure fmt
  else fobj_printkv_loop env kvs fmt.length fmt []

/-! ## Error objects (fo_impl.c, lines 598-617 and 1044-1089) -/

/-- Modelled from the spec: the source position struct (file, func, line). -/
structure ft_source_position_t where
  file : Option (List Nat)
  func : Option (List Nat)
  line : Nat
deriving DecidableEq

/-- Modelled from the spec: the error object, with the fields `type`,
`message`, `src`, `sibling` (an object pointer, `0` is `NULL`) and the inline
vector `kv` of key/value slots.  The record is declared in a header; the
fields are the ones `fo_impl.c` uses. -/
structure fobjErr where
  type : Option (List Nat)
  message : Option (List Nat)
  src : ft_source_position_t
  sibling : Nat
  kv : List fobj_err_kv_t
deriving DecidableEq

/-- A key/value slot of zeroed memory. -/
def fobj_err_kv_t.zero : fobj_err_kv_t := { key := none, val := ft_arg_t.other 0 }

/-- The entry `(fobj_err_kv_t){NULL, ft_mka_z()}` (line 1084). -/
def fobj_err_kv_t.sentinel : fobj_err_kv_t := { key := none, val := ft_arg_t.z }

/-- Modelled from the spec: the accessor `ft_arg_s(arg)` as the argument of
`ft_strbuf_catc`, the bytes of the string a tagged value of type `s` holds.
Any other value, and the `NULL` string, is not a pointer to a string. -/
def ft_arg_s : ft_arg_t → Except Fault (List Nat)
  | ft_arg_t.s (some bytes) => .ok bytes
  | _ => .error Fault.bad_pointer

/-- The read `*kv` of a slot of the vector `err->kv`. -/
def kv_at (kv : List fobj_err_kv_t) (i : Nat) : Except Fault fobj_err_kv_t :=
  match kv.get? i with
  | some e => .ok e
  | none => .error Fault.out_of_bounds

/-- The state of the loop of `fobj__make_err`: the vector `err->kv`, the
positions `kv` and `cpy` in it, the buffer `nmsg` and the object memory. -/
structure make_err_state where
  arr : List fobj_err_kv_t
  kv : Nat
  cpy : Nat
  nmsg : List Nat
  mem : fobj_mem

/-- The loop `for (kv = err->kv; kv->key; kv++)` of `fobj__make_err` (lines
1066-1082); the first argument bounds the number of iterations. -/
def fobj__make_err_loop (env : format_env) (rt : fobj_runtime) :
    Nat → make_err_state → Except Fault make_err_state
  | 0, _ => .error Fault.out_of_fuel
  | n + 1, st => do
    let e ← kv_at st.arr st.kv
    match e.key with
    | none => pure st
    | some key =>
      if key = cstr_bytes "__msgSuffix" then do
        let suffix ← ft_arg_s e.val
        fobj__make_err_loop env rt n { st with nmsg := st.nmsg ++ suffix, kv := st.kv + 1 }
      else do
        let mem ← match e.val with
          | ft_arg_t.o obj => fobj_ref env.base rt st.mem obj
          | _ => pure st.mem
        let arr := if st.cpy ≠ st.kv then st.arr.set st.cpy e else st.arr
        fobj__make_err_loop env rt n
          { st with arr := arr, kv := st.kv + 1, cpy := st.cpy + 1, mem := mem }

/-- Function `fobj__make_err(type, src, msg, kvs, kvn)` (lines 1044-1089): the
address of the new error object, its content, and the object memory
afterwards.  The copy made by `ft_cstrdup` has the bytes of the original. -/
def fobj__make_err (env : format_env) (rt : fobj_runtime) (m : fobj_mem)
    (type : Option (List Nat)) (src : ft_source_position_t) (msg : Option (List Nat))
    (kvs : List fobj_err_kv_t) (kvn : Nat) : Except Fault (Nat × fobjErr × fobj_mem) := do
  let (self, m) ← env.fobj_alloc_sized m (kvn + 1)
  let type := if type = none then some (cstr_bytes "RT") else type
  let src := { src with file := env.ft__truncate_log_filename src.file }
  let msg := ((if msg = none then type else msg).getD (cstr_bytes "Unspecified Error"))
  let kv0 := List.replicate (kvn + 1) fobj_err_kv_t.zero
  let st : make_err_state := { arr := kv0, kv := 0, cpy := 0, nmsg := msg, mem := m }
  let st ← if kvn > 0 then do
      if kvs.length < kvn then .error Fault.out_of_bounds
      else
        let st := { st with arr := kvs.take kvn ++ [fobj_err_kv_t.zero] }
        let st ← fobj__make_err_loop env rt (kvn + 2) st
        if st.cpy ≠ st.kv then pure { st with arr := st.arr.set st.cpy fobj_err_kv_t.sentinel }
        else pure st
    else pure st
  let message ← fobj__format_errmsg env st.nmsg st.arr
  pure (self, { type := type, message := some message, src := src, sibling := 0,
                kv := st.arr }, st.mem)

/-- The error objects in memory: the header of each object is in `mem`, its
fields in `errs`. -/
structure err_mem where
  mem : fobj_mem
  errs : Nat → Option fobjErr

/-- The read of the fields of the error object at `self`. -/
def err_at (errs : Nat → Option fobjErr) (self : Nat) : Except Fault fobjErr :=
  match errs self with
  | some e => .ok e
  | none => .error Fault.bad_pointer

/-- Function `fobj_real_klass_of(self)` (lines 298-308). -/
def fobj_real_klass_of (env : fobj_env) (rt : fobj_runtime) (m : fobj_mem) (self : Nat) :
    Except Fault Nat := do
  ft_assert 302 (decide (rt.fobj_global_state ≠ FOBJ_GLOBAL_STATE.FOBJ_RT_NOT_INITIALIZED))
  ft_assert 303 (decide (self ≠ 0))
  let h ← header_of m.heap self
  c_assert env 306 (h.magic == FOBJ_HEADER_MAGIC)
  pure h.klass

/-- The loop `while (*tail != NULL) tail = &(*tail)->sibling` of
`fobj_err_combine` (line 611), where `tail` is the address of the `sibling`
field of the object `node`: the object whose `sibling` field is `NULL`. -/
def fobj_err_combine_tail (errs : Nat → Option fobjErr) : Nat → Nat → Except Fault Nat
  | 0, _ => .error Fault.out_of_fuel
  | n + 1, node => do
    let e ← err_at errs node
    if e.sibling = 0 then pure node else fobj_err_combine_tail errs n e.sibling

/-- Function `fobj_err_combine(fst, scnd)` (lines 598-617): the error returned
and the memory afterwards. -/
def fobj_err_combine (env : format_env) (rt : fobj_runtime) (fuel : Nat) (st : err_mem)
    (fst scnd : Nat) : Except Fault (Nat × err_mem) :=
  if fst = 0 then pure (scnd, st)
  else if scnd = 0 then pure (fst, st)
  else do
    let k1 ← fobj_real_klass_of env.base rt st.mem fst
    ft_assert 607 (decide (k1 = env.fobjErr__kh))
    let k2 ← fobj_real_klass_of env.base rt st.mem scnd
    ft_assert 608 (decide (k2 = env.fobjErr__kh))
    let first ← err_at st.errs fst
    let errs ← if first.sibling ≠ 0 then do
        let node ← fobj_err_combine_tail st.errs fuel scnd
        let last ← err_at st.errs node
        pure (Function.update st.errs node (some { last with sibling := first.sibling }))
      else pure st.errs
    let mem ← fobj_ref env.base rt st.mem scnd
    let first ← err_at errs fst
    pure (fst, { mem := mem,
                 errs := Function.update errs fst (some { first with sibling := scnd }) })

/-! ## Auxiliary definitions for the properties -/

/-- The character that the two-byte escape with the letter `k` stands for. -/
def escape_letter_char (k : Nat) : Int :=
  if k = 34 then 34
  else if k = 116 then 9
  else if k = 110 then 10
  else if k = 114 then 13
  else if k = 97 then 7
  else if k = 98 then 8
  else if k = 102 then 12
  else if k = 118 then 11
  else 92

/-- The key `__msgSuffix`. -/
def msgSuffix_key : Option (List Nat) := some (cstr_bytes "__msgSuffix")

/-- Modelled from the spec: the entries that stay in the stored kv list, the
ones whose key is not `__msgSuffix`, in their order. -/
def kept_kvs (kvs : List fobj_err_kv_t) : List fobj_err_kv_t :=
  kvs.filter (fun kv => decide (kv.key ≠ msgSuffix_key))

/-- Modelled from the spec: the string values of the entries keyed
`__msgSuffix`, in their order, one after the other. -/
def suffix_text : List fobj_err_kv_t → List Nat
  | [] => []
  | kv :: kvs =>
    if kv.key = msgSuffix_key then
      (match kv.val with
        | ft_arg_t.s (some bytes) => bytes
        | _ => []) ++ suffix_text kvs
    else suffix_text kvs

/-- Modelled from the spec: the deep copy of the owned data of the kept
entries, as far as the object memory goes: a reference is taken on every
object value, in the order of the entries. -/
def ref_kvs (env : fobj_env) (rt : fobj_runtime) : fobj_mem → List fobj_err_kv_t →
    Except Fault fobj_mem
  | m, [] => pure m
  | m, kv :: kvs =>
    if kv.key = msgSuffix_key then ref_kvs env rt m kvs
    else match kv.val with
      | ft_arg_t.o obj => do
        let m ← fobj_ref env rt m obj
        ref_kvs env rt m kvs
      | _ => ref_kvs env rt m kvs

/-- Modelled from the spec: a template is literal text and placeholders
`{ident}` or `{ident:spec}`. -/
inductive template_seg where
  | text (bytes : List Nat)
  | hole (ident : List Nat) (spec : Option (List Nat))
deriving DecidableEq

/-- The templates the parser of `fobj__format_errmsg` reads as they are meant:
text is free of the opening brace; an ident is free of the closing brace and
of the colon, does not start with an opening brace and has at most 31
characters; a spec is free of the closing brace and has at most 30
characters. -/
def template_seg.ok : template_seg → Prop
  | template_seg.text bytes => 123 ∉ bytes
  | template_seg.hole ident spec =>
    125 ∉ ident ∧ 58 ∉ ident ∧ ident.head? ≠ some 123 ∧ ident.length ≤ 31 ∧
    ∀ s, spec = some s → 125 ∉ s ∧ s.length ≤ 30

/-- An environment for examples: the conversion tokens of a platform where
`int64_t` is `long`, and a `ft_strbuf_catf` that prints signed and unsigned
integers in decimal and nothing else. -/
def example_env : format_env :=
  { base := { ft_dbg_enabled := true, NDEBUG := false, fobjDispose__mh := 1,
              ft_small_cstr_hash := fun _ => 0 }
    str := { char_signed := true, ft_strbuf_catf := fun _ _ => [] }
    PRIi64 := cstr_bytes "li"
    PRIu64 := cstr_bytes "lu"
    PRIx64 := cstr_bytes "lx"
    PRIX64 := cstr_bytes "lX"
    PRIo64 := cstr_bytes "lo"
    PRId64 := cstr_bytes "ld"
    catf_int := fun _ v => cstr_bytes (toString v)
    catf_uint := fun _ v => cstr_bytes (toString v)
    catf_float := fun _ _ => []
    catf_bool := fun _ _ => []
    obj_format := fun _ _ => none
    obj_repr := fun _ => []
    ft_search_fokv := fun _ _ => 0
    ft__truncate_log_filename := fun f => f
    fobjErr__kh := 1
    fobj_alloc_sized := fun m _ => .ok (1000, m) }

/-- The entries of an example: an integer `a`, a message suffix, an object
`o` (the object of `scenario_heap`) and a string `b`. -/
def example_kvs : List fobj_err_kv_t :=
  [ { key := some (cstr_bytes "a"), val := ft_arg_t.i 1 },
    { key := some (cstr_bytes "__msgSuffix"), val := ft_arg_t.s (some (cstr_bytes " more")) },
    { key := some (cstr_bytes "o"), val := ft_arg_t.o 64 },
    { key := some (cstr_bytes "b"), val := ft_arg_t.s (some (cstr_bytes "x")) } ]

/-- The object memory of the examples: the object of `scenario_heap`, and no
events yet. -/
def example_mem : fobj_mem := { heap := scenario_heap, trace := [] }

/-- The object memory of the examples after a reference was taken on each
object of `example_kvs`. -/
def example_mem_ref : fobj_mem :=
  match ref_kvs example_env.base scenario_rt example_mem example_kvs with
  | Except.ok m => m
  | Except.error _ => example_mem

/-- The chain of objects that starts at the pointer `p` and follows the
`sibling` fields up to `NULL`. -/
def ErrChain (errs : Nat → Option fobjErr) : Nat → List Nat → Prop
  | p, [] => p = 0
  | p, q :: l => p = q ∧ q ≠ 0 ∧ ∃ e, errs q = some e ∧ ErrChain errs e.sibling l

/-- The header of the object at `p` is the header of a live error object. -/
def ErrHeader (env : format_env) (m : fobj_mem) (p : Nat) : Prop :=
  ∃ h, m.heap p = some h ∧ h.magic = FOBJ_HEADER_MAGIC ∧ h.klass = env.fobjErr__kh

/-- An error object without key/value pairs. -/
def example_err (type : String) (sibling : Nat) : fobjErr :=
  { type := some (cstr_bytes type), message := some (cstr_bytes type),
    src := { file := none, func := none, line := 0 }, sibling := sibling,
    kv := [fobj_err_kv_t.zero] }

/-- Five error objects: `10` with the sibling chain `11`, `20` with the
sibling chain `21`, and `30` without siblings; each is referenced once. -/
def example_errs : err_mem :=
  { mem :=
      { heap := fun p =>
          if p = 10 ∨ p = 11 ∨ p = 20 ∨ p = 21 ∨ p = 30 then
            some { magic := FOBJ_HEADER_MAGIC, rc := 1, flags := 0, klass := 1 }
          else none
        trace := [] }
    errs := fun p =>
      if p = 10 then some (example_err "A" 11)
      else if p = 11 then some (example_err "A1" 0)
      else if p = 20 then some (example_err "B" 21)
      else if p = 21 then some (example_err "B1" 0)
      else if p = 30 then some (example_err "C" 0)
      else none }

/-- The sibling chain of the object at `p`, followed for at most `fuel`
objects. -/
def sibling_chain (errs : Nat → Option fobjErr) : Nat → Nat → List Nat
  | 0, _ => []
  | fuel + 1, p =>
    match errs p with
    | none => []
    | some e => if e.sibling = 0 then [] else e.sibling :: sibling_chain errs fuel e.sibling

/-! ## Repr and key lookup of errors (fo_impl.c, lines 953-983, 1112-1132, 1179-1194) -/

/-- Function `fobj_repr_arg(out, arg)` (lines 953-983); the result is the
content of `out` afterwards. -/
def fobj_repr_arg (env : format_env) (out : List Nat) (arg : ft_arg_t) :
    Except Fault (List Nat) :=
  match arg with
  | ft_arg_t.i v => fobj_format_int env out (to_uint64 v) true (some [105])
  | ft_arg_t.u v => fobj_format_int env out (v % 2 ^ 64) false none
  | ft_arg_t.f x => fobj_format_float env out x none
  | ft_arg_t.s v => fobj_format_string env.str out (ft_cstr v) (some "q")
  | ft_arg_t.b v => fobj_format_bool env out v none
  | ft_arg_t.o obj =>
    if obj = 0 then pure (out ++ cstr_bytes "NULL") else pure (out ++ env.obj_repr obj)
  | _ => .error (Fault.abort 981)

/-- The call `ft_strbuf_catc(buf, s)` with a C string `s`. -/
def ft_strbuf_catc (buf : List Nat) : Option (List Nat) → Except Fault (List Nat)
  | some bytes => .ok (buf ++ bytes)
  | none => .error Fault.bad_pointer

/-- The loop `for (;kv->key; kv++)` of `fobjErr_fobjRepr` (lines 1123-1129). -/
def fobjErr_fobjRepr_loop (env : format_env) :
    List fobj_err_kv_t → List Nat → Except Fault (List Nat)
  | [], _ => .error Fault.out_of_bounds
  | kv :: kvs, buf =>
    match kv.key with
    | none => pure buf
    | some key => do
      let buf := buf ++ cstr_bytes ", (" ++ key ++ cstr_bytes ", "
      let buf ← fobj_repr_arg env buf kv.val
      fobjErr_fobjRepr_loop env kvs (buf ++ [41])

/-- Function `fobjErr_fobjRepr` (lines 1112-1132); the result is the content of
the new string. -/
def fobjErr_fobjRepr (env : format_env) (self : fobjErr) : Except Fault (List Nat) := do
  let buf := cstr_bytes "$err("
  let buf ← ft_strbuf_catc buf self.type
  let buf := buf ++ cstr_bytes ", "
  let buf ← fobj_format_string env.str buf (ft_cstr self.message) (some "q")
  let buf ← fobjErr_fobjRepr_loop env self.kv buf
  pure (buf ++ [41])

/-- The loop `for (;kv->key != NULL; kv++)` of `fobj_err_getkv` (lines
1186-1191): the value of the first entry whose key is `key`. -/
def fobj_err_getkv_loop (key : List Nat) : List fobj_err_kv_t → Except Fault (Option ft_arg_t)
  | [] => .error Fault.out_of_bounds
  | kv :: kvs =>
    match kv.key with
    | none => pure none
    | some k => if k = key then pure (some kv.val) else fobj_err_getkv_loop key kvs

/-- Function `fobj_err_getkv(err, key, dflt, found)` (lines 1179-1194).  The
argument `found` is `none` for a `NULL` pointer and otherwise holds the content
of `*found` before the call; the result is the value returned and the content
of `*found` afterwards.  The statement `found = false` of line 1192 assigns
the pointer variable and leaves `*found` as it is. -/
def fobj_err_getkv (env : format_env) (rt : fobj_runtime) (st : err_mem) (err : Nat)
    (key : List Nat) (dflt : ft_arg_t) (found : Option Bool) :
    Except Fault (ft_arg_t × Option Bool) :=
  if err = 0 then pure (dflt, found)
  else do
    let k ← fobj_real_klass_of env.base rt st.mem err
    ft_assert 1184 (decide (k = env.fobjErr__kh))
    let oerr ← err_at st.errs err
    let r ← fobj_err_getkv_loop key oerr.kv
    match r with
    | some val => pure (val, found.map (fun _ => true))
    | none => pure (dflt, found)

/-! ## Assignment and allocation (fo_impl.c, lines 425-454, 468-473) -/

/-- Function `fobj_set(ptr, val)` (lines 468-473); `slot` is the content of
`*ptr` before the call, the result the memory and the content of `*ptr`
afterwards. -/
def fobj_set (env : fobj_env) (rt : fobj_runtime) (body : fobj_hooks) (fuel : Nat)
    (m : fobj_mem) (slot val : Nat) : Except Fault (fobj_mem × Nat) := do
  let oldval := slot
  let m ← if val ≠ 0 then fobj_ref env rt m val else pure m
  let slot := val
  let m ← if oldval ≠ 0 then fobj_release env rt body fuel m oldval else pure m
  pure (m, slot)

/-- The largest `ssize_t`, for 64 bits. -/
def SSIZE_MAX : Int := 9223372036854775807

/-- Function `fobj__allocate(klass, init, size)` (lines 425-454): the object
returned, the size of its payload, and the object memory and the autorelease
state afterwards.  `ft_calloc m n` is the address of the object that follows
the header in a new zeroed allocation of `sizeof(fobj_header_t) + n` bytes;
`S` is `FOBJ_AR_CHUNK_SIZE`.  The bytes of the payload (the copy of `init`)
are not part of the model; `size += copy_size` beyond `SSIZE_MAX` is a signed
overflow. -/
def fobj__allocate (env : fobj_env) (S : Nat) (ft_calloc : fobj_mem → Int → Nat)
    (rt : fobj_runtime) (m : fobj_mem) (ar : fobj_ar) (klass : Nat) (size : Int) :
    Except Fault (Nat × Int × fobj_mem × fobj_ar) := do
  ft_assert 432 (rt.fobj_global_state != FOBJ_GLOBAL_STATE.FOBJ_RT_NOT_INITIALIZED)
  ft_dbg_assert env 433 (decide (klass > 0 ∧ klass ≤ rt.fobj_klasses_n))
  let kreg ← klass_at rt klass
  let copy_size := if kreg.size ≥ 0 then kreg.size else -1 - kreg.size
  let size ←
    if size < 0 then pure copy_size
    else do
      ft_assert 440 (decide (kreg.size < 0))
      if size + copy_size > SSIZE_MAX then .error Fault.overflow
      else pure (size + copy_size)
  let self := ft_calloc m size
  let hdr : fobj_header :=
    { magic := if env.NDEBUG then 0 else FOBJ_HEADER_MAGIC, rc := 1, flags := 0,
      klass := klass }
  let m := m.set_header self hdr
  ft_assert 1342 (rt.fobj_global_state != FOBJ_GLOBAL_STATE.FOBJ_RT_NOT_INITIALIZED)
  let ar ← fobj_autorelease S ar self ar.fobj_AR_current
  pure (self, size, m, ar)

/-! ## The state of the runtime (fo_impl.c, lines 1285-1322) -/

/-- Function `fobj_init()` (lines 1285-1317), as far as the static tables go.
The methods and klasses that the generated functions `fobjDispose__mh`,
`fobjBase__kh`, ... register are given by `builtins`. -/
def fobj_init (env : fobj_env) (fuel : Nat) (builtins : List RegCall) (rt : fobj_runtime) :
    Except Fault fobj_runtime := do
  ft_assert 1287 (rt.fobj_global_state == FOBJ_GLOBAL_STATE.FOBJ_RT_NOT_INITIALIZED)
  let rt := { rt with fobj_global_state := FOBJ_GLOBAL_STATE.FOBJ_RT_INITIALIZED }
  let outs ← reg_run env fuel rt builtins
  pure (reg_final rt outs)

/-- The operations that assign to `fobj_global_state` or to the static
tables: `fobj_init`, and the registration calls, `fobj_freeze` among them.
No other function of the file assigns to them. -/
inductive RtOp where
  | init (builtins : List RegCall)
  | call (c : RegCall)

/-- Run one operation on the static tables. -/
def rt_step (env : fobj_env) (fuel : Nat) (rt : fobj_runtime) : RtOp → Except Fault fobj_runtime
  | RtOp.init builtins => fobj_init env fuel builtins rt
  | RtOp.call c => do
    let r ← reg_call env fuel rt c
    pure r.2.2

/-- The value of an enumeration constant of `FOBJ_GLOBAL_STATE` (lines
28-32): `NOT_INITIALIZED` is 0, `INITIALIZED` is 1 and `FROZEN` is 2. -/
def state_rank : FOBJ_GLOBAL_STATE → Nat
  | FOBJ_GLOBAL_STATE.FOBJ_RT_NOT_INITIALIZED => 0
  | FOBJ_GLOBAL_STATE.FOBJ_RT_INITIALIZED => 1
  | FOBJ_GLOBAL_STATE.FOBJ_RT_FROZEN => 2

/-! ## Examples -/

/-- Two error objects without key/value pairs and without siblings: at `10`
the error of type `A` with message `a`, at `20` the error of type `B` with
message `b`; each is referenced once. -/
def example_two_errs : err_mem :=
  { mem :=
      { heap := fun p =>
          if p = 10 ∨ p = 20 then
            some { magic := FOBJ_HEADER_MAGIC, rc := 1, flags := 0, klass := 1 }
          else none
        trace := [] }
    errs := fun p =>
      if p = 10 then
        some { type := some (cstr_bytes "A"), message := some (cstr_bytes "a"),
               src := { file := none, func := none, line := 0 }, sibling := 0,
               kv := [fobj_err_kv_t.zero] }
      else if p = 20 then
        some { type := some (cstr_bytes "B"), message := some (cstr_bytes "b"),
               src := { file := none, func := none, line := 0 }, sibling := 0,
               kv := [fobj_err_kv_t.zero] }
      else none }

/-- An error object at `10` with the one key/value pair `a`, the integer 1. -/
def example_kv_err : err_mem :=
  { mem :=
      { heap := fun p =>
          if p = 10 then some { magic := FOBJ_HEADER_MAGIC, rc := 1, flags := 0, klass := 1 }
          else none
        trace := [] }
    errs := fun p =>
      if p = 10 then
        some { type := some (cstr_bytes "A"), message := some (cstr_bytes "a"),
               src := { file := none, func := none, line := 0 }, sibling := 0,
               kv := [{ key := some (cstr_bytes "a"), val := ft_arg_t.i 1 },
                      fobj_err_kv_t.sentinel] }
      else none }

/-- The `<inttypes.h>` token that `fobj_format_int` appends for the
conversion letter `c`: `PRIx64` for `x`, `PRIX64` for `X`, `PRIo64` for `o`,
`PRIu64` for `u`, `PRId64` for `d`, and `PRIi64` for `i`. -/
def int_conversion_token (env : format_env) (c : Nat) : List Nat :=
  if c = 120 then env.PRIx64
  else if c = 88 then env.PRIX64
  else if c = 111 then env.PRIo64
  else if c = 117 then env.PRIu64
  else if c = 100 then env.PRId64
  else env.PRIi64

/-- A memory with one live object of klass `B` at address `64` whose reference
count is `UINT32_MAX`. -/
def wrap_mem : fobj_mem :=
  { heap := fun p =>
      if p = 64 then
        some { magic := FOBJ_HEADER_MAGIC, rc := 4294967295, flags := 0, klass := 2 }
      else none
    trace := [] }

/-- The calls of the scenario followed by `fobj_freeze()`. -/
def frozen_calls : List RegCall := scenario_calls ++ [RegCall.freeze]

/-- What the calls of `frozen_calls` returned. -/
def frozen_outs : List (Bool × Nat × fobj_runtime) :=
  match reg_run scenario_env 8 fobj_runtime.initialized frozen_calls with
  | Except.ok outs => outs
  | Except.error _ => []

/-- The tables after the scenario and `fobj_freeze()`. -/
def frozen_rt : fobj_runtime := reg_final fobj_runtime.initialized frozen_outs

/-- An autorelease state whose current pool, at `100`, is freshly
initialised. -/
def example_pool_ar : fobj_ar :=
  fobj_autorelease_pool_init empty_ar 100
    { parent := 0, last := none, first := fobj_autorelease_chunk.zero }

/-- An allocator that hands out the address `200`. -/
def example_calloc : fobj_mem → Int → Nat := fun _ _ => 200

/-- The tables of the scenario after the dispose function `72` was installed
on klass `B`. -/
def frame_rt : fobj_runtime :=
  match fobj_method_register_impl scenario_env 8 scenario_rt 2 1 72 with
  | Except.ok rt => rt
  | Except.error _ => scenario_rt

/-! ## The lists of the impl table -/

/-- The indices of the impl records on the list that starts at index `i` and
is linked by the field `next`, up to the terminating index `0`; at most `fuel`
records are followed. -/
def impl_list (rt : fobj_runtime) (next : fobj_method_impl → Nat) : Nat → Nat → List Nat
  | 0, _ => []
  | fuel + 1, i =>
    if i = 0 then [] else i :: impl_list rt next fuel (next (rt.fobj_method_impl i))

/-- Well-formedness of the links of the impl table: both links of a record
point to an earlier record, list heads point into the table, the head and the
successors on the partition list `p` of klass `k` carry klass `k` and a method
of partition `p`, and the head and the successors on the list of a method
carry that method. -/
structure ImplLinks (rt : fobj_runtime) : Prop where
  impls_n_lt : rt.fobj_impls_n < FOBJ_OBJ_MAX_METHOD_IMPLS
  next_for_klass_lt : ∀ n, 0 < n → n ≤ rt.fobj_impls_n →
    (rt.fobj_method_impl n).next_for_klass < n
  next_for_method_lt : ∀ n, 0 < n → n ≤ rt.fobj_impls_n →
    (rt.fobj_method_impl n).next_for_method < n
  head_le : ∀ k p, (rt.fobj_klasses k).method_lists p ≤ rt.fobj_impls_n
  first_le : ∀ m, (rt.fobj_methods m).first ≤ rt.fobj_impls_n
  klass_head : ∀ k p, (rt.fobj_klasses k).method_lists p ≠ 0 →
    (rt.fobj_method_impl ((rt.fobj_klasses k).method_lists p)).klass = k ∧
    (rt.fobj_method_impl ((rt.fobj_klasses k).method_lists p)).method % METHOD_PARTITIONS = p
  klass_next : ∀ n, 0 < n → n ≤ rt.fobj_impls_n →
    (rt.fobj_method_impl n).next_for_klass ≠ 0 →
    (rt.fobj_method_impl (rt.fobj_method_impl n).next_for_klass).klass
      = (rt.fobj_method_impl n).klass ∧
    (rt.fobj_method_impl (rt.fobj_method_impl n).next_for_klass).method % METHOD_PARTITIONS
      = (rt.fobj_method_impl n).method % METHOD_PARTITIONS
  method_head : ∀ m, (rt.fobj_methods m).first ≠ 0 →
    (rt.fobj_method_impl (rt.fobj_methods m).first).method = m
  method_next : ∀ n, 0 < n → n ≤ rt.fobj_impls_n →
    (rt.fobj_method_impl n).next_for_method ≠ 0 →
    (rt.fobj_method_impl (rt.fobj_method_impl n).next_for_method).method
      = (rt.fobj_method_impl n).method

/-! ## The dispose chain with arbitrary dispose functions -/

/-- The object an event is about. -/
def fobj_event.obj : fobj_event → Nat
  | fobj_event.dispose _ self => self
  | fobj_event.free self _ => self

/-- Modelled from the spec: the dispose chain of an object, the calls
`fn(self)` of the dispose functions `fns` one after the other, each once. -/
def dispose_seq (env : fobj_env) (rt : fobj_runtime) (body : fobj_hooks)
    (release : fobj_mem → Nat → Except Fault fobj_mem) (self : Nat) :
    List Nat → fobj_mem → Except Fault fobj_mem
  | [], m => pure m
  | fn :: fns, m => do
    let m ← call_dispose env rt body release fn self m
    dispose_seq env rt body release self fns m

/-- The statements of `fobj__do_dispose` that follow the dispose walk (lines
505-511): set DISPOSED, then zero the header and free the allocation when the
reference count is zero. -/
def dispose_finish (self : Nat) (m : fobj_mem) : Except Fault fobj_mem := do
  let h ← header_of m.heap self
  let m := m.set_header self { h with flags := (h.flags ||| FOBJ_DISPOSED) % 2 ^ 16 }
  let h ← header_of m.heap self
  if h.rc = 0 then
    let m := m.set_header self { magic := 0, rc := 0, flags := 0, klass := 0 }
    let h ← header_of m.heap self
    pure { heap := Function.update m.heap self none
           trace := m.trace ++ [fobj_event.free self h] }
  else
    pure m

/-- The object `self` is live in `m` with the given magic, klass and flags;
the reference count is left open. -/
def SelfLive (self magic klass flags : Nat) (m : fobj_mem) : Prop :=
  ∃ rc, m.heap self = some { magic := magic, rc := rc, flags := flags, klass := klass }

/-- The trace `tr1` extends `tr` by events about objects other than `self`. -/
def ExtNoSelf (self : Nat) (tr tr1 : List fobj_event) : Prop :=
  ∃ evs, tr1 = tr ++ evs ∧ ∀ e ∈ evs, e.obj ≠ self

/-- Dispose functions of which `72`, the one of `Q`, releases the member
object at `80` and then takes a reference to the object under disposal and
drops it again. -/
def member_body : fobj_hooks :=
  fun fn self =>
    if fn = 72 then [HookOp.release 80, HookOp.ref self, HookOp.release self] else []

/-- A memory with a live object of klass `Q` at address `64` and a live
object of klass `P` at address `80`, each referenced once, and no events
yet. -/
def member_mem : fobj_mem :=
  { heap := fun p =>
      if p = 64 then some { magic := FOBJ_HEADER_MAGIC, rc := 1, flags := 0, klass := 2 }
      else if p = 80 then some { magic := FOBJ_HEADER_MAGIC, rc := 1, flags := 0, klass := 1 }
      else none
    trace := [] }

/-- The memory of `member_mem` after the reference count of the object at
`64` was dropped to zero, DISPOSING was set, and the dispose functions of its
chain were called under `member_body`. -/
def member_mid : fobj_mem :=
  match dispose_seq scenario_env dispose_rt member_body
      (fobj_release scenario_env dispose_rt member_body 3) 64
      (dispose_fns dispose_rt (klass_chain dispose_rt FOBJ_OBJ_MAX_KLASSES 2))
      { heap := Function.update member_mem.heap 64
          (some { magic := FOBJ_HEADER_MAGIC, rc := 0,
                  flags := (0 ||| FOBJ_DISPOSING) % 2 ^ 16, klass := 2 })
        trace := member_mem.trace } with
  | Except.ok m => m
  | Except.error _ => member_mem

/-! # Properties -/

/-! ## Steps in `Except Fault` -/

theorem bind_eq_ok {α β : Type} (x : Except Fault α) (f : α → Except Fault β) (b : β) :
    (x >>= f) = Except.ok b ↔ ∃ a, x = Except.ok a ∧ f a = Except.ok b := by
  cases x <;> simp [bind, Except.bind]

theorem ok_bind {α β : Type} (a : α) (f : α → Except Fault β) :
    (Except.ok a >>= f) = f a := rfl

theorem error_bind {α β : Type} (e : Fault) (f : α → Except Fault β) :
    ((Except.error e : Except Fault α) >>= f) = Except.error e := rfl

theorem pure_eq_ok {α : Type} (a : α) : (pure a : Except Fault α) = Except.ok a := rfl

theorem ft_assert_true (line : Nat) : ft_assert line true = Except.ok () := rfl

theorem ft_assert_false (line : Nat) : ft_assert line false = Except.error (Fault.abort line) := rfl

theorem ft_assert_eq_ok (line : Nat) (c : Bool) (u : Unit) :
    ft_assert line c = Except.ok u ↔ c = true := by
  cases c <;> simp [ft_assert]

theorem ft_dbg_assert_eq_ok (env : fobj_env) (line : Nat) (c : Bool) (u : Unit) :
    ft_dbg_assert env line c = Except.ok u ↔ (env.ft_dbg_enabled = true → c = true) := by
  unfold ft_dbg_assert
  cases env.ft_dbg_enabled <;> simp [ft_assert_eq_ok]

theorem klass_at_eq_ok (rt : fobj_runtime) (i : Nat) (r : fobj_klass_registration) :
    klass_at rt i = Except.ok r ↔ i < FOBJ_OBJ_MAX_KLASSES ∧ r = rt.fobj_klasses i := by
  unfold klass_at
  split <;> simp_all [eq_comm]

theorem method_at_eq_ok (rt : fobj_runtime) (i : Nat) (r : fobj_method_registration) :
    method_at rt i = Except.ok r ↔ i < FOBJ_OBJ_MAX_METHODS ∧ r = rt.fobj_methods i := by
  unfold method_at
  split <;> simp_all [eq_comm]

theorem klass_at_of_lt (rt : fobj_runtime) (i : Nat) (h : i < FOBJ_OBJ_MAX_KLASSES) :
    klass_at rt i = Except.ok (rt.fobj_klasses i) := by
  simp [klass_at, h]

theorem method_at_of_lt (rt : fobj_runtime) (i : Nat) (h : i < FOBJ_OBJ_MAX_METHODS) :
    method_at rt i = Except.ok (rt.fobj_methods i) := by
  simp [method_at, h]

theorem impl_at_of_lt (rt : fobj_runtime) (i : Nat) (h : i < FOBJ_OBJ_MAX_METHOD_IMPLS) :
    impl_at rt i = Except.ok (rt.fobj_method_impl i) := by
  simp [impl_at, h]

/-! ## The partition scan -/

/-- The partition scan reads the impl table only: on tables that agree up to
index `N`, where links stay below `N`, it gives the same result. -/
theorem search_loop_frame (rt rt' : fobj_runtime) (meth N : Nat)
    (hagree : ∀ j, j ≤ N → rt'.fobj_method_impl j = rt.fobj_method_impl j)
    (hnext : ∀ j, j ≤ N → (rt.fobj_method_impl j).next_for_klass ≤ N) :
    ∀ fuel i, i ≤ N →
      fobj_search_impl_loop rt' meth fuel i = fobj_search_impl_loop rt meth fuel i := by
  intro fuel
  induction fuel with
  | zero => intro i _; rfl
  | succ fuel ih =>
    intro i hi
    unfold fobj_search_impl_loop
    simp only [impl_at, hagree i hi]
    split
    · simp only [ok_bind]
      split
      · rfl
      · split
        · exact ih _ (hnext i hi)
        · rfl
    · rfl

theorem search_loop_mono (rt : fobj_runtime) (meth : Nat) :
    ∀ fuel i v, fobj_search_impl_loop rt meth fuel i = Except.ok v →
      ∀ d, fobj_search_impl_loop rt meth (fuel + d) i = Except.ok v := by
  intro fuel
  induction fuel with
  | zero => intro i v h; simp [fobj_search_impl_loop] at h
  | succ fuel ih =>
    intro i v h d
    rw [Nat.add_right_comm]
    unfold fobj_search_impl_loop at h ⊢
    cases hr : impl_at rt i with
    | error e => rw [hr] at h; simp [error_bind] at h
    | ok r =>
      rw [hr] at h
      rw [ok_bind] at h ⊢
      split
      · simpa [*] using h
      · split
        · simp only [*, if_false, if_true] at h
          exact ih _ _ (by simpa [*] using h) d
        · simpa [*] using h

theorem installed_append (log : List (Nat × Nat × Nat)) (k0 m0 f0 k m : Nat) :
    installed (log ++ [(k0, m0, f0)]) k m =
      if k0 = k ∧ m0 = m then f0 else installed log k m := by
  simp [installed, List.foldl_append]

theorem installed_nil (k m : Nat) : installed [] k m = 0 := rfl

theorem search_loop_zero (rt : fobj_runtime) (meth fuel : Nat)
    (hz : rt.fobj_method_impl 0 = fobj_method_impl.zero) :
    fobj_search_impl_loop rt meth (fuel + 1) 0 = Except.ok 0 := by
  unfold fobj_search_impl_loop
  simp [impl_at, FOBJ_OBJ_MAX_METHOD_IMPLS, hz, fobj_method_impl.zero, ok_bind, pure_eq_ok]

theorem ImplInv_next_le {rt : fobj_runtime} {log : List (Nat × Nat × Nat)} (h : ImplInv rt log) :
    ∀ j, j ≤ rt.fobj_impls_n → (rt.fobj_method_impl j).next_for_klass ≤ rt.fobj_impls_n := by
  intro j hj
  rcases Nat.eq_zero_or_pos j with h0 | hpos
  · subst h0
    simp [h.impl_zero, fobj_method_impl.zero]
  · have := h.next_lt j hpos hj
    omega

theorem ImplInv_initialized : ImplInv fobj_runtime.initialized [] := by
  refine ⟨by simp [fobj_runtime.initialized, FOBJ_OBJ_MAX_METHOD_IMPLS], rfl, ?_, ?_, ?_⟩
  · intro j h1 h2
    simp [fobj_runtime.initialized] at h2
    omega
  · intro k p
    simp [fobj_runtime.initialized, fobj_klass_registration.zero]
  · intro k m fuel hf
    obtain ⟨f, rfl⟩ : ∃ f, fuel = f + 1 := ⟨fuel - 1, by omega⟩
    simpa [fobj_runtime.initialized, fobj_klass_registration.zero] using
      search_loop_zero fobj_runtime.initialized m f rfl

theorem search_impl_eq {rt : fobj_runtime} {log : List (Nat × Nat × Nat)} (h : ImplInv rt log)
    (m k fuel : Nat) (hk : k < FOBJ_OBJ_MAX_KLASSES) (hf : rt.fobj_impls_n < fuel) :
    fobj_search_impl fuel rt m k = Except.ok (installed log k m) := by
  unfold fobj_search_impl
  rw [klass_at_of_lt rt k hk, ok_bind]
  exact h.search_ok k m fuel hf

theorem search_impl_ok {rt : fobj_runtime} {log : List (Nat × Nat × Nat)} (h : ImplInv rt log)
    (m k fuel v : Nat) (hrun : fobj_search_impl fuel rt m k = Except.ok v) :
    k < FOBJ_OBJ_MAX_KLASSES ∧ v = installed log k m := by
  unfold fobj_search_impl at hrun
  rw [bind_eq_ok] at hrun
  obtain ⟨kreg, hk, hl⟩ := hrun
  rw [klass_at_eq_ok] at hk
  obtain ⟨hk, rfl⟩ := hk
  refine ⟨hk, ?_⟩
  have h1 := search_loop_mono rt m fuel _ v hl (rt.fobj_impls_n + 1)
  have h2 := h.search_ok k m (fuel + (rt.fobj_impls_n + 1)) (by omega)
  rw [h1] at h2
  exact Except.ok.inj h2

theorem register_store_inv (env : fobj_env) {rt : fobj_runtime} {log : List (Nat × Nat × Nat)}
    (h : ImplInv rt log) (klass meth impl : Nat)
    (hnom : rt.fobj_impls_n + 1 < FOBJ_OBJ_MAX_METHOD_IMPLS) :
    ImplInv (fobj_method_register_store env rt klass meth impl (rt.fobj_impls_n + 1))
      (log ++ [(klass, meth, impl)]) := by
  have hagree : ∀ j, j ≤ rt.fobj_impls_n →
      (fobj_method_register_store env rt klass meth impl (rt.fobj_impls_n + 1)).fobj_method_impl j
        = rt.fobj_method_impl j := by
    intro j hj
    simp only [fobj_method_register_store]
    rw [Function.update_noteq (by omega)]
  have hlists : ∀ k p,
      ((fobj_method_register_store env rt klass meth impl (rt.fobj_impls_n + 1)).fobj_klasses k).method_lists p
        = if k = klass ∧ p = meth % METHOD_PARTITIONS then rt.fobj_impls_n + 1
          else (rt.fobj_klasses k).method_lists p := by
    intro k p
    simp only [fobj_method_register_store, Function.update_apply]
    by_cases hk : k = klass
    · subst hk
      by_cases hd : meth = env.fobjDispose__mh <;> by_cases hp : p = meth % METHOD_PARTITIONS <;>
        simp [hd, hp, Function.update_apply]
    · simp [hk]
  refine ⟨hnom, ?_, ?_, ?_, ?_⟩
  · rw [hagree 0 (Nat.zero_le _)]
    exact h.impl_zero
  · intro j h1 h2
    simp only [fobj_method_register_store] at h2
    rcases Nat.lt_or_ge j (rt.fobj_impls_n + 1) with hlt | hge
    · rw [hagree j (by omega)]
      exact h.next_lt j h1 (by omega)
    · have hj : j = rt.fobj_impls_n + 1 := by omega
      subst hj
      simp only [fobj_method_register_store, Function.update_same]
      have := h.head_le klass (meth % METHOD_PARTITIONS)
      omega
  · intro k p
    rw [hlists]
    have := h.head_le k p
    simp only [fobj_method_register_store]
    split <;> omega
  · intro k m fuel hf
    simp only [fobj_method_register_store] at hf
    rw [hlists, installed_append]
    by_cases hkm : k = klass ∧ m % METHOD_PARTITIONS = meth % METHOD_PARTITIONS
    · obtain ⟨hk, hp⟩ := hkm
      subst hk
      rw [if_pos ⟨rfl, hp⟩]
      obtain ⟨f, rfl⟩ : ∃ f, fuel = f + 1 := ⟨fuel - 1, by omega⟩
      unfold fobj_search_impl_loop
      rw [impl_at_of_lt _ _ hnom, ok_bind]
      simp only [fobj_method_register_store, Function.update_same]
      by_cases hm : meth = m
      · subst hm
        simp [pure_eq_ok]
      · have hold := h.search_ok k m f (by omega)
        rw [hp] at hold
        simp only [hm, if_false, and_false]
        split
        · rename_i hne
          rw [← hold]
          exact search_loop_frame rt _ m rt.fobj_impls_n hagree (ImplInv_next_le h) f _ (h.head_le _ _)
        · rename_i hz
          have hz : (rt.fobj_klasses k).method_lists (meth % METHOD_PARTITIONS) = 0 := by
            simpa using hz
          rw [hz] at hold
          obtain ⟨f', rfl⟩ : ∃ f', f = f' + 1 := ⟨f - 1, by omega⟩
          rw [search_loop_zero rt m f' h.impl_zero] at hold
          rw [pure_eq_ok, ← Except.ok.inj hold]
    · have hne : ¬ (klass = k ∧ meth = m) := by
        rintro ⟨rfl, rfl⟩
        exact hkm ⟨rfl, rfl⟩
      rw [if_neg hkm, if_neg hne, ← h.search_ok k m fuel (by omega)]
      exact search_loop_frame rt _ m rt.fobj_impls_n hagree (ImplInv_next_le h) fuel _ (h.head_le _ _)

/-! ## The klass registry -/

theorem klasses_scan_frame (rt rt' : fobj_runtime) (hash : Nat) (name : String) (N : Nat)
    (hname : ∀ j, 0 < j → j ≤ N → (rt'.fobj_klasses j).name = (rt.fobj_klasses j).name)
    (hhash : ∀ j, 0 < j → j ≤ N → (rt'.fobj_klasses j).hash = (rt.fobj_klasses j).hash)
    (hlink : ∀ j, 0 < j → j ≤ N →
      (rt'.fobj_klasses j).hash_next = (rt.fobj_klasses j).hash_next)
    (hnext : ∀ j, 0 < j → j ≤ N → (rt.fobj_klasses j).hash_next ≤ N) :
    ∀ fuel i, i ≤ N →
      fobj_klasses_hash_scan rt' hash name fuel i = fobj_klasses_hash_scan rt hash name fuel i := by
  intro fuel
  induction fuel with
  | zero => intro i _; rfl
  | succ fuel ih =>
    intro i hi
    unfold fobj_klasses_hash_scan
    by_cases h0 : i = 0
    · simp [h0]
    · have hpos : 0 < i := Nat.pos_of_ne_zero h0
      simp only [h0, if_false, klass_at]
      split
      · simp only [ok_bind, hname i hpos hi, hhash i hpos hi, hlink i hpos hi,
          ih _ (hnext i hpos hi)]
      · rfl

theorem klasses_scan_mono (rt : fobj_runtime) (hash : Nat) (name : String) :
    ∀ fuel i v, fobj_klasses_hash_scan rt hash name fuel i = Except.ok v →
      ∀ d, fobj_klasses_hash_scan rt hash name (fuel + d) i = Except.ok v := by
  intro fuel
  induction fuel with
  | zero => intro i v h; simp [fobj_klasses_hash_scan] at h
  | succ fuel ih =>
    intro i v h d
    rw [Nat.add_right_comm]
    unfold fobj_klasses_hash_scan at h ⊢
    by_cases h0 : i = 0
    · simpa [h0] using h
    · simp only [h0, if_false] at h ⊢
      cases hr : klass_at rt i with
      | error e => rw [hr] at h; simp [error_bind] at h
      | ok r =>
        rw [hr] at h
        rw [ok_bind] at h ⊢
        by_cases hh : r.hash = hash
        · simp only [hh, if_true] at h ⊢
          cases hs : strcmp_eq r.name name with
          | error e => rw [hs] at h; simp [error_bind] at h
          | ok b =>
            rw [hs] at h
            rw [ok_bind] at h ⊢
            cases b
            · simp only [Bool.false_eq_true, if_false] at h ⊢
              exact ih _ _ h d
            · simpa using h
        · simp only [hh, if_false] at h ⊢
          exact ih _ _ h d

theorem klasses_scan_hit (rt : fobj_runtime) (hash : Nat) (name : String) (fuel i : Nat)
    (h0 : i ≠ 0) (hi : i < FOBJ_OBJ_MAX_KLASSES) (hh : (rt.fobj_klasses i).hash = hash)
    (hn : (rt.fobj_klasses i).name = some name) :
    fobj_klasses_hash_scan rt hash name (fuel + 1) i = Except.ok i := by
  unfold fobj_klasses_hash_scan
  simp [h0, klass_at_of_lt rt i hi, ok_bind, hh, hn, strcmp_eq, pure_eq_ok]

theorem klasses_scan_skip (rt : fobj_runtime) (hash : Nat) (name nm : String) (fuel i : Nat)
    (h0 : i ≠ 0) (hi : i < FOBJ_OBJ_MAX_KLASSES)
    (hn : (rt.fobj_klasses i).name = some nm) (hne : nm ≠ name) :
    fobj_klasses_hash_scan rt hash name (fuel + 1) i
      = fobj_klasses_hash_scan rt hash name fuel (rt.fobj_klasses i).hash_next := by
  rw [fobj_klasses_hash_scan]
  simp only [h0, if_false, klass_at_of_lt rt i hi, ok_bind, hn, strcmp_eq, hne, decide_False,
    Bool.false_eq_true, ite_self]

theorem KlassInv_initialized (env : fobj_env) : KlassInv env fobj_runtime.initialized := by
  refine ⟨by simp [fobj_runtime.initialized, FOBJ_OBJ_MAX_KLASSES], ?_, ?_, ?_, ?_, ?_, ?_⟩
  · intro k h1 h2; simp [fobj_runtime.initialized] at h2; omega
  · intro j k h1 h2; simp [fobj_runtime.initialized] at h2; omega
  · intro k h1 h2; simp [fobj_runtime.initialized] at h2; omega
  · intro b; simp [fobj_runtime.initialized]
  · intro k nm fuel h1 h2; simp [fobj_runtime.initialized] at h2; omega
  · intro nm fuel _ hf
    obtain ⟨f, rfl⟩ : ∃ f, fuel = f + 1 := ⟨fuel - 1, by omega⟩
    simp [fobj_runtime.initialized, fobj_klasses_hash_scan, pure_eq_ok]

/-- The klass invariant reads the names, hashes and hash links of the klass
records, the buckets and the counter, and nothing else. -/
theorem KlassInv_congr (env : fobj_env) {rt rt' : fobj_runtime} (h : KlassInv env rt)
    (hn : rt'.fobj_klasses_n = rt.fobj_klasses_n)
    (hb : rt'.fobj_klasses_hash = rt.fobj_klasses_hash)
    (hname : ∀ j, (rt'.fobj_klasses j).name = (rt.fobj_klasses j).name)
    (hhash : ∀ j, (rt'.fobj_klasses j).hash = (rt.fobj_klasses j).hash)
    (hlink : ∀ j, (rt'.fobj_klasses j).hash_next = (rt.fobj_klasses j).hash_next) :
    KlassInv env rt' := by
  have hfr : ∀ hash name fuel i, i ≤ rt.fobj_klasses_n →
      fobj_klasses_hash_scan rt' hash name fuel i = fobj_klasses_hash_scan rt hash name fuel i :=
    fun hash name fuel i hi =>
      klasses_scan_frame rt rt' hash name rt.fobj_klasses_n (fun j _ _ => hname j)
        (fun j _ _ => hhash j) (fun j _ _ => hlink j)
        (fun j h1 h2 => Nat.le_of_lt (Nat.lt_of_lt_of_le (h.next_lt j h1 h2) h2)) fuel i hi
  refine ⟨by rw [hn]; exact h.n_lt, ?_, ?_, ?_, ?_, ?_, ?_⟩
  · intro k h1 h2; rw [hname]; exact h.named k h1 (hn ▸ h2)
  · intro j k h1 h2 h3 h4; rw [hname, hname]; exact h.distinct j k h1 (hn ▸ h2) h3 (hn ▸ h4)
  · intro k h1 h2; rw [hlink]; exact h.next_lt k h1 (hn ▸ h2)
  · intro b; rw [hb, hn]; exact h.head_le b
  · intro k nm fuel h1 h2 h3 h4
    rw [hb, hfr _ _ _ _ (h.head_le _)]
    exact h.scan_hit k nm fuel h1 (hn ▸ h2) (hname k ▸ h3) (hn ▸ h4)
  · intro nm fuel h1 h2
    rw [hb, hfr _ _ _ _ (h.head_le _)]
    exact h.scan_miss nm fuel (fun k k1 k2 => hname k ▸ h1 k k1 (hn ▸ k2)) (hn ▸ h2)

/-- Creating a klass for a name that no handle carries keeps the klass
invariant. -/
theorem klass_init_store_inv (env : fobj_env) {rt : fobj_runtime} (h : KlassInv env rt)
    (size : Int) (parent : Nat) (name : String)
    (hnew : ∀ k, 0 < k → k ≤ rt.fobj_klasses_n → (rt.fobj_klasses k).name ≠ some name)
    (hcap : rt.fobj_klasses_n + 1 < FOBJ_OBJ_MAX_KLASSES) :
    KlassInv env
      (fobj_klass_init_store rt (rt.fobj_klasses_n + 1) (hash32 env name) size parent name) := by
  have hmod : (rt.fobj_klasses_n + 1) % 2 ^ 16 = rt.fobj_klasses_n + 1 := by
    apply Nat.mod_eq_of_lt
    simp only [FOBJ_OBJ_MAX_KLASSES] at hcap
    omega
  have hold : ∀ j, j ≤ rt.fobj_klasses_n →
      (fobj_klass_init_store rt (rt.fobj_klasses_n + 1) (hash32 env name) size parent
        name).fobj_klasses j = rt.fobj_klasses j := by
    intro j hj
    simp only [fobj_klass_init_store]
    rw [Function.update_noteq (by omega)]
  have hfr : ∀ hash nm fuel i, i ≤ rt.fobj_klasses_n →
      fobj_klasses_hash_scan
        (fobj_klass_init_store rt (rt.fobj_klasses_n + 1) (hash32 env name) size parent name)
        hash nm fuel i = fobj_klasses_hash_scan rt hash nm fuel i :=
    fun hash nm fuel i hi =>
      klasses_scan_frame rt _ hash nm rt.fobj_klasses_n
        (fun j _ hj => by rw [hold j hj]) (fun j _ hj => by rw [hold j hj])
        (fun j _ hj => by rw [hold j hj])
        (fun j h1 h2 => Nat.le_of_lt (Nat.lt_of_lt_of_le (h.next_lt j h1 h2) h2)) fuel i hi
  have hnewrec : ((fobj_klass_init_store rt (rt.fobj_klasses_n + 1) (hash32 env name) size
      parent name).fobj_klasses (rt.fobj_klasses_n + 1)).name = some name := by
    simp [fobj_klass_init_store]
  -- the scan of the new table for `nm`, in terms of the scan of the old one
  have hscan : ∀ nm fuel, rt.fobj_klasses_n + 1 < fuel →
      fobj_klasses_hash_scan
        (fobj_klass_init_store rt (rt.fobj_klasses_n + 1) (hash32 env name) size parent name)
        (hash32 env nm) nm fuel
        ((fobj_klass_init_store rt (rt.fobj_klasses_n + 1) (hash32 env name) size parent
          name).fobj_klasses_hash (hash32 env nm % FOBJ_OBJ_HASH_SIZE))
      = if nm = name then Except.ok (rt.fobj_klasses_n + 1)
        else fobj_klasses_hash_scan rt (hash32 env nm) nm (fuel - 1)
          (rt.fobj_klasses_hash (hash32 env nm % FOBJ_OBJ_HASH_SIZE)) := by
    intro nm fuel hf
    obtain ⟨f, rfl⟩ : ∃ f, fuel = f + 1 := ⟨fuel - 1, by omega⟩
    simp only [Nat.add_sub_cancel]
    by_cases hb : hash32 env nm % FOBJ_OBJ_HASH_SIZE = hash32 env name % FOBJ_OBJ_HASH_SIZE
    · have hhead : (fobj_klass_init_store rt (rt.fobj_klasses_n + 1) (hash32 env name) size
          parent name).fobj_klasses_hash (hash32 env nm % FOBJ_OBJ_HASH_SIZE)
          = rt.fobj_klasses_n + 1 := by
        simp only [fobj_klass_init_store, hb, Function.update_same, hmod]
      have hlink : ((fobj_klass_init_store rt (rt.fobj_klasses_n + 1) (hash32 env name) size
          parent name).fobj_klasses (rt.fobj_klasses_n + 1)).hash_next
          = rt.fobj_klasses_hash (hash32 env name % FOBJ_OBJ_HASH_SIZE) := by
        simp [fobj_klass_init_store]
      have hhash : ((fobj_klass_init_store rt (rt.fobj_klasses_n + 1) (hash32 env name) size
          parent name).fobj_klasses (rt.fobj_klasses_n + 1)).hash = hash32 env name := by
        simp [fobj_klass_init_store]
      rw [hhead]
      by_cases hnm : nm = name
      · subst hnm
        rw [if_pos rfl]
        exact klasses_scan_hit _ _ _ _ _ (Nat.succ_ne_zero _) hcap hhash hnewrec
      · rw [if_neg hnm,
          klasses_scan_skip _ _ nm name _ _ (Nat.succ_ne_zero _) hcap hnewrec (Ne.symm hnm),
          hlink, hfr _ _ _ _ (h.head_le _), hb]
    · have hhead : (fobj_klass_init_store rt (rt.fobj_klasses_n + 1) (hash32 env name) size
          parent name).fobj_klasses_hash (hash32 env nm % FOBJ_OBJ_HASH_SIZE)
          = rt.fobj_klasses_hash (hash32 env nm % FOBJ_OBJ_HASH_SIZE) := by
        simp only [fobj_klass_init_store]
        rw [Function.update_noteq hb]
      have hnm : nm ≠ name := fun e => hb (by rw [e])
      rw [hhead, if_neg hnm, hfr _ _ _ _ (h.head_le _)]
      cases hres : fobj_klasses_hash_scan rt (hash32 env nm) nm f
          (rt.fobj_klasses_hash (hash32 env nm % FOBJ_OBJ_HASH_SIZE)) with
      | ok v => exact klasses_scan_mono rt _ _ f _ v hres 1
      | error e =>
        exfalso
        by_cases hex : ∃ k, 0 < k ∧ k ≤ rt.fobj_klasses_n ∧ (rt.fobj_klasses k).name = some nm
        · obtain ⟨k, k1, k2, k3⟩ := hex
          rw [h.scan_hit k nm f k1 k2 k3 (by omega)] at hres
          cases hres
        · rw [h.scan_miss nm f (fun k k1 k2 k3 => hex ⟨k, k1, k2, k3⟩) (by omega)] at hres
          cases hres
  refine ⟨hcap, ?_, ?_, ?_, ?_, ?_, ?_⟩
  · intro k h1 h2
    simp only [fobj_klass_init_store] at h2
    rcases Nat.lt_or_ge k (rt.fobj_klasses_n + 1) with hlt | hge
    · rw [hold k (by omega)]; exact h.named k h1 (by omega)
    · have hk : k = rt.fobj_klasses_n + 1 := by omega
      subst hk
      exact ⟨name, hnewrec⟩
  · intro j k j1 j2 k1 k2 hjk
    simp only [fobj_klass_init_store] at j2 k2
    rcases Nat.lt_or_ge j (rt.fobj_klasses_n + 1) with hj | hj <;>
      rcases Nat.lt_or_ge k (rt.fobj_klasses_n + 1) with hk | hk
    · rw [hold j (by omega), hold k (by omega)] at hjk
      exact h.distinct j k j1 (by omega) k1 (by omega) hjk
    · have hk' : k = rt.fobj_klasses_n + 1 := by omega
      subst hk'
      rw [hold j (by omega), hnewrec] at hjk
      exact absurd hjk (hnew j j1 (by omega))
    · have hj' : j = rt.fobj_klasses_n + 1 := by omega
      subst hj'
      rw [hold k (by omega), hnewrec] at hjk
      exact absurd hjk.symm (hnew k k1 (by omega))
    · omega
  · intro k h1 h2
    simp only [fobj_klass_init_store] at h2
    rcases Nat.lt_or_ge k (rt.fobj_klasses_n + 1) with hlt | hge
    · rw [hold k (by omega)]; exact h.next_lt k h1 (by omega)
    · have hk : k = rt.fobj_klasses_n + 1 := by omega
      subst hk
      have := h.head_le (hash32 env name % FOBJ_OBJ_HASH_SIZE)
      simp only [fobj_klass_init_store, Function.update_same]
      omega
  · intro b
    have := h.head_le b
    simp only [fobj_klass_init_store, Function.update_apply, hmod]
    split <;> omega
  · intro k nm fuel h1 h2 h3 h4
    simp only [fobj_klass_init_store] at h2 h4
    rw [hscan nm fuel h4]
    rcases Nat.lt_or_ge k (rt.fobj_klasses_n + 1) with hlt | hge
    · rw [hold k (by omega)] at h3
      have hnm : nm ≠ name := fun e => hnew k h1 (by omega) (e ▸ h3)
      rw [if_neg hnm]
      exact h.scan_hit k nm (fuel - 1) h1 (by omega) h3 (by omega)
    · have hk : k = rt.fobj_klasses_n + 1 := by omega
      subst hk
      rw [hnewrec] at h3
      rw [if_pos (Option.some.inj h3).symm]
  · intro nm fuel h1 h2
    simp only [fobj_klass_init_store] at h2
    rw [hscan nm fuel h2]
    have hnm : nm ≠ name := by
      intro e
      exact h1 (rt.fobj_klasses_n + 1) (Nat.succ_pos _) (by simp [fobj_klass_init_store])
        (e ▸ hnewrec)
    rw [if_neg hnm]
    refine h.scan_miss nm (fuel - 1) (fun k k1 k2 => ?_) (by omega)
    have := h1 k k1 (by simp only [fobj_klass_init_store]; omega)
    rwa [hold k k2] at this

/-! ## The method registry -/

theorem methods_scan_frame (rt rt' : fobj_runtime) (hash : Nat) (name : String) (N : Nat)
    (hname : ∀ j, 0 < j → j ≤ N → (rt'.fobj_methods j).name = (rt.fobj_methods j).name)
    (hhash : ∀ j, 0 < j → j ≤ N → (rt'.fobj_methods j).hash = (rt.fobj_methods j).hash)
    (hlink : ∀ j, 0 < j → j ≤ N →
      (rt'.fobj_methods j).hash_next = (rt.fobj_methods j).hash_next)
    (hnext : ∀ j, 0 < j → j ≤ N → (rt.fobj_methods j).hash_next ≤ N) :
    ∀ fuel i, i ≤ N →
      fobj_methods_hash_scan rt' hash name fuel i = fobj_methods_hash_scan rt hash name fuel i := by
  intro fuel
  induction fuel with
  | zero => intro i _; rfl
  | succ fuel ih =>
    intro i hi
    unfold fobj_methods_hash_scan
    by_cases h0 : i = 0
    · simp [h0]
    · have hpos : 0 < i := Nat.pos_of_ne_zero h0
      simp only [h0, if_false, method_at]
      split
      · simp only [ok_bind, hname i hpos hi, hhash i hpos hi, hlink i hpos hi,
          ih _ (hnext i hpos hi)]
      · rfl

theorem methods_scan_mono (rt : fobj_runtime) (hash : Nat) (name : String) :
    ∀ fuel i v, fobj_methods_hash_scan rt hash name fuel i = Except.ok v →
      ∀ d, fobj_methods_hash_scan rt hash name (fuel + d) i = Except.ok v := by
  intro fuel
  induction fuel with
  | zero => intro i v h; simp [fobj_methods_hash_scan] at h
  | succ fuel ih =>
    intro i v h d
    rw [Nat.add_right_comm]
    unfold fobj_methods_hash_scan at h ⊢
    by_cases h0 : i = 0
    · simpa [h0] using h
    · simp only [h0, if_false] at h ⊢
      cases hr : method_at rt i with
      | error e => rw [hr] at h; simp [error_bind] at h
      | ok r =>
        rw [hr] at h
        rw [ok_bind] at h ⊢
        by_cases hh : r.hash = hash
        · simp only [hh, if_true] at h ⊢
          cases hs : strcmp_eq r.name name with
          | error e => rw [hs] at h; simp [error_bind] at h
          | ok b =>
            rw [hs] at h
            rw [ok_bind] at h ⊢
            cases b
            · simp only [Bool.false_eq_true, if_false] at h ⊢
              exact ih _ _ h d
            · simpa using h
        · simp only [hh, if_false] at h ⊢
          exact ih _ _ h d

theorem methods_scan_hit (rt : fobj_runtime) (hash : Nat) (name : String) (fuel i : Nat)
    (h0 : i ≠ 0) (hi : i < FOBJ_OBJ_MAX_METHODS) (hh : (rt.fobj_methods i).hash = hash)
    (hn : (rt.fobj_methods i).name = some name) :
    fobj_methods_hash_scan rt hash name (fuel + 1) i = Except.ok i := by
  unfold fobj_methods_hash_scan
  simp [h0, method_at_of_lt rt i hi, ok_bind, hh, hn, strcmp_eq, pure_eq_ok]

theorem methods_scan_skip (rt : fobj_runtime) (hash : Nat) (name nm : String) (fuel i : Nat)
    (h0 : i ≠ 0) (hi : i < FOBJ_OBJ_MAX_METHODS)
    (hn : (rt.fobj_methods i).name = some nm) (hne : nm ≠ name) :
    fobj_methods_hash_scan rt hash name (fuel + 1) i
      = fobj_methods_hash_scan rt hash name fuel (rt.fobj_methods i).hash_next := by
  rw [fobj_methods_hash_scan]
  simp only [h0, if_false, method_at_of_lt rt i hi, ok_bind, hn, strcmp_eq, hne, decide_False,
    Bool.false_eq_true, ite_self]

theorem MethInv_initialized (env : fobj_env) : MethInv env fobj_runtime.initialized := by
  refine ⟨by simp [fobj_runtime.initialized, FOBJ_OBJ_MAX_METHODS], ?_, ?_, ?_, ?_, ?_, ?_⟩
  · intro k h1 h2; simp [fobj_runtime.initialized] at h2; omega
  · intro j k h1 h2; simp [fobj_runtime.initialized] at h2; omega
  · intro k h1 h2; simp [fobj_runtime.initialized] at h2; omega
  · intro b; simp [fobj_runtime.initialized]
  · intro k nm fuel h1 h2; simp [fobj_runtime.initialized] at h2; omega
  · intro nm fuel _ hf
    obtain ⟨f, rfl⟩ : ∃ f, fuel = f + 1 := ⟨fuel - 1, by omega⟩
    simp [fobj_runtime.initialized, fobj_methods_hash_scan, pure_eq_ok]

/-- The method invariant reads the names, hashes and hash links of the method
records, the buckets and the counter, and nothing else. -/
theorem MethInv_congr (env : fobj_env) {rt rt' : fobj_runtime} (h : MethInv env rt)
    (hn : rt'.fobj_methods_n = rt.fobj_methods_n)
    (hb : rt'.fobj_methods_hash = rt.fobj_methods_hash)
    (hname : ∀ j, (rt'.fobj_methods j).name = (rt.fobj_methods j).name)
    (hhash : ∀ j, (rt'.fobj_methods j).hash = (rt.fobj_methods j).hash)
    (hlink : ∀ j, (rt'.fobj_methods j).hash_next = (rt.fobj_methods j).hash_next) :
    MethInv env rt' := by
  have hfr : ∀ hash name fuel i, i ≤ rt.fobj_methods_n →
      fobj_methods_hash_scan rt' hash name fuel i = fobj_methods_hash_scan rt hash name fuel i :=
    fun hash name fuel i hi =>
      methods_scan_frame rt rt' hash name rt.fobj_methods_n (fun j _ _ => hname j)
        (fun j _ _ => hhash j) (fun j _ _ => hlink j)
        (fun j h1 h2 => Nat.le_of_lt (Nat.lt_of_lt_of_le (h.next_lt j h1 h2) h2)) fuel i hi
  refine ⟨by rw [hn]; exact h.n_lt, ?_, ?_, ?_, ?_, ?_, ?_⟩
  · intro k h1 h2; rw [hname]; exact h.named k h1 (hn ▸ h2)
  · intro j k h1 h2 h3 h4; rw [hname, hname]; exact h.distinct j k h1 (hn ▸ h2) h3 (hn ▸ h4)
  · intro k h1 h2; rw [hlink]; exact h.next_lt k h1 (hn ▸ h2)
  · intro b; rw [hb, hn]; exact h.head_le b
  · intro k nm fuel h1 h2 h3 h4
    rw [hb, hfr _ _ _ _ (h.head_le _)]
    exact h.scan_hit k nm fuel h1 (hn ▸ h2) (hname k ▸ h3) (hn ▸ h4)
  · intro nm fuel h1 h2
    rw [hb, hfr _ _ _ _ (h.head_le _)]
    exact h.scan_miss nm fuel (fun k k1 k2 => hname k ▸ h1 k k1 (hn ▸ k2)) (hn ▸ h2)

/-- Creating a method for a name that no handle carries keeps the method
invariant. -/
theorem method_init_store_inv (env : fobj_env) {rt : fobj_runtime} (h : MethInv env rt)
    (name : String)
    (hnew : ∀ k, 0 < k → k ≤ rt.fobj_methods_n → (rt.fobj_methods k).name ≠ some name)
    (hcap : rt.fobj_methods_n + 1 < FOBJ_OBJ_MAX_METHODS) :
    MethInv env
      (fobj_method_init_store rt (rt.fobj_methods_n + 1) (hash32 env name) name) := by
  have hmod : (rt.fobj_methods_n + 1) % 2 ^ 16 = rt.fobj_methods_n + 1 := by
    apply Nat.mod_eq_of_lt
    simp only [FOBJ_OBJ_MAX_METHODS] at hcap
    omega
  have hold : ∀ j, j ≤ rt.fobj_methods_n →
      (fobj_method_init_store rt (rt.fobj_methods_n + 1) (hash32 env name) name).fobj_methods j = rt.fobj_methods j := by
    intro j hj
    simp only [fobj_method_init_store]
    rw [Function.update_noteq (by omega)]
  have hfr : ∀ hash nm fuel i, i ≤ rt.fobj_methods_n →
      fobj_methods_hash_scan
        (fobj_method_init_store rt (rt.fobj_methods_n + 1) (hash32 env name) name)
        hash nm fuel i = fobj_methods_hash_scan rt hash nm fuel i :=
    fun hash nm fuel i hi =>
      methods_scan_frame rt _ hash nm rt.fobj_methods_n
        (fun j _ hj => by rw [hold j hj]) (fun j _ hj => by rw [hold j hj])
        (fun j _ hj => by rw [hold j hj])
        (fun j h1 h2 => Nat.le_of_lt (Nat.lt_of_lt_of_le (h.next_lt j h1 h2) h2)) fuel i hi
  have hnewrec : ((fobj_method_init_store rt (rt.fobj_methods_n + 1) (hash32 env name) name).fobj_methods (rt.fobj_methods_n + 1)).name = some name := by
    simp [fobj_method_init_store]
  -- the scan of the new table for `nm`, in terms of the scan of the old one
  have hscan : ∀ nm fuel, rt.fobj_methods_n + 1 < fuel →
      fobj_methods_hash_scan
        (fobj_method_init_store rt (rt.fobj_methods_n + 1) (hash32 env name) name)
        (hash32 env nm) nm fuel
        ((fobj_method_init_store rt (rt.fobj_methods_n + 1) (hash32 env name) name).fobj_methods_hash (hash32 env nm % FOBJ_OBJ_HASH_SIZE))
      = if nm = name then Except.ok (rt.fobj_methods_n + 1)
        else fobj_methods_hash_scan rt (hash32 env nm) nm (fuel - 1)
          (rt.fobj_methods_hash (hash32 env nm % FOBJ_OBJ_HASH_SIZE)) := by
    intro nm fuel hf
    obtain ⟨f, rfl⟩ : ∃ f, fuel = f + 1 := ⟨fuel - 1, by omega⟩
    simp only [Nat.add_sub_cancel]
    by_cases hb : hash32 env nm % FOBJ_OBJ_HASH_SIZE = hash32 env name % FOBJ_OBJ_HASH_SIZE
    · have hhead : (fobj_method_init_store rt (rt.fobj_methods_n + 1) (hash32 env name) name).fobj_methods_hash (hash32 env nm % FOBJ_OBJ_HASH_SIZE)
          = rt.fobj_methods_n + 1 := by
        simp only [fobj_method_init_store, hb, Function.update_same, hmod]
      have hlink : ((fobj_method_init_store rt (rt.fobj_methods_n + 1) (hash32 env name) name).fobj_methods (rt.fobj_methods_n + 1)).hash_next
          = rt.fobj_methods_hash (hash32 env name % FOBJ_OBJ_HASH_SIZE) := by
        simp [fobj_method_init_store]
      have hhash : ((fobj_method_init_store rt (rt.fobj_methods_n + 1) (hash32 env name) name).fobj_methods (rt.fobj_methods_n + 1)).hash = hash32 env name := by
        simp [fobj_method_init_store]
      rw [hhead]
      by_cases hnm : nm = name
      · subst hnm
        rw [if_pos rfl]
        exact methods_scan_hit _ _ _ _ _ (Nat.succ_ne_zero _) hcap hhash hnewrec
      · rw [if_neg hnm,
          methods_scan_skip _ _ nm name _ _ (Nat.succ_ne_zero _) hcap hnewrec (Ne.symm hnm),
          hlink, hfr _ _ _ _ (h.head_le _), hb]
    · have hhead : (fobj_method_init_store rt (rt.fobj_methods_n + 1) (hash32 env name) name).fobj_methods_hash (hash32 env nm % FOBJ_OBJ_HASH_SIZE)
          = rt.fobj_methods_hash (hash32 env nm % FOBJ_OBJ_HASH_SIZE) := by
        simp only [fobj_method_init_store]
        rw [Function.update_noteq hb]
      have hnm : nm ≠ name := fun e => hb (by rw [e])
      rw [hhead, if_neg hnm, hfr _ _ _ _ (h.head_le _)]
      cases hres : fobj_methods_hash_scan rt (hash32 env nm) nm f
          (rt.fobj_methods_hash (hash32 env nm % FOBJ_OBJ_HASH_SIZE)) with
      | ok v => exact methods_scan_mono rt _ _ f _ v hres 1
      | error e =>
        exfalso
        by_cases hex : ∃ k, 0 < k ∧ k ≤ rt.fobj_methods_n ∧ (rt.fobj_methods k).name = some nm
        · obtain ⟨k, k1, k2, k3⟩ := hex
          rw [h.scan_hit k nm f k1 k2 k3 (by omega)] at hres
          cases hres
        · rw [h.scan_miss nm f (fun k k1 k2 k3 => hex ⟨k, k1, k2, k3⟩) (by omega)] at hres
          cases hres
  refine ⟨hcap, ?_, ?_, ?_, ?_, ?_, ?_⟩
  · intro k h1 h2
    simp only [fobj_method_init_store] at h2
    rcases Nat.lt_or_ge k (rt.fobj_methods_n + 1) with hlt | hge
    · rw [hold k (by omega)]; exact h.named k h1 (by omega)
    · have hk : k = rt.fobj_methods_n + 1 := by omega
      subst hk
      exact ⟨name, hnewrec⟩
  · intro j k j1 j2 k1 k2 hjk
    simp only [fobj_method_init_store] at j2 k2
    rcases Nat.lt_or_ge j (rt.fobj_methods_n + 1) with hj | hj <;>
      rcases Nat.lt_or_ge k (rt.fobj_methods_n + 1) with hk | hk
    · rw [hold j (by omega), hold k (by omega)] at hjk
      exact h.distinct j k j1 (by omega) k1 (by omega) hjk
    · have hk' : k = rt.fobj_methods_n + 1 := by omega
      subst hk'
      rw [hold j (by omega), hnewrec] at hjk
      exact absurd hjk (hnew j j1 (by omega))
    · have hj' : j = rt.fobj_methods_n + 1 := by omega
      subst hj'
      rw [hold k (by omega), hnewrec] at hjk
      exact absurd hjk.symm (hnew k k1 (by omega))
    · omega
  · intro k h1 h2
    simp only [fobj_method_init_store] at h2
    rcases Nat.lt_or_ge k (rt.fobj_methods_n + 1) with hlt | hge
    · rw [hold k (by omega)]; exact h.next_lt k h1 (by omega)
    · have hk : k = rt.fobj_methods_n + 1 := by omega
      subst hk
      have := h.head_le (hash32 env name % FOBJ_OBJ_HASH_SIZE)
      simp only [fobj_method_init_store, Function.update_same]
      omega
  · intro b
    have := h.head_le b
    simp only [fobj_method_init_store, Function.update_apply, hmod]
    split <;> omega
  · intro k nm fuel h1 h2 h3 h4
    simp only [fobj_method_init_store] at h2 h4
    rw [hscan nm fuel h4]
    rcases Nat.lt_or_ge k (rt.fobj_methods_n + 1) with hlt | hge
    · rw [hold k (by omega)] at h3
      have hnm : nm ≠ name := fun e => hnew k h1 (by omega) (e ▸ h3)
      rw [if_neg hnm]
      exact h.scan_hit k nm (fuel - 1) h1 (by omega) h3 (by omega)
    · have hk : k = rt.fobj_methods_n + 1 := by omega
      subst hk
      rw [hnewrec] at h3
      rw [if_pos (Option.some.inj h3).symm]
  · intro nm fuel h1 h2
    simp only [fobj_method_init_store] at h2
    rw [hscan nm fuel h2]
    have hnm : nm ≠ name := by
      intro e
      exact h1 (rt.fobj_methods_n + 1) (Nat.succ_pos _) (by simp [fobj_method_init_store])
        (e ▸ hnewrec)
    rw [if_neg hnm]
    refine h.scan_miss nm (fuel - 1) (fun k k1 k2 => ?_) (by omega)
    have := h1 k k1 (by simp only [fobj_method_init_store]; omega)
    rwa [hold k k2] at this

/-! ## Registration steps keep the invariants -/

theorem search_loop_congr (rt rt' : fobj_runtime) (meth : Nat)
    (h : rt'.fobj_method_impl = rt.fobj_method_impl) :
    ∀ fuel i, fobj_search_impl_loop rt' meth fuel i = fobj_search_impl_loop rt meth fuel i := by
  intro fuel
  induction fuel with
  | zero => intro i; rfl
  | succ fuel ih =>
    intro i
    unfold fobj_search_impl_loop
    simp only [impl_at, h, ih]

/-- The impl invariant reads the impl table, its counter and the partition
heads, and nothing else. -/
theorem ImplInv_congr {rt rt' : fobj_runtime} {log : List (Nat × Nat × Nat)}
    (h : ImplInv rt log) (hn : rt'.fobj_impls_n = rt.fobj_impls_n)
    (ht : rt'.fobj_method_impl = rt.fobj_method_impl)
    (hl : ∀ k, (rt'.fobj_klasses k).method_lists = (rt.fobj_klasses k).method_lists) :
    ImplInv rt' log := by
  refine ⟨hn ▸ h.impls_n_lt, ht ▸ h.impl_zero, ?_, ?_, ?_⟩
  · intro j h1 h2; rw [ht]; exact h.next_lt j h1 (hn ▸ h2)
  · intro k p; rw [hl, hn]; exact h.head_le k p
  · intro k m fuel hf
    rw [hl, search_loop_congr rt rt' m ht]
    exact h.search_ok k m fuel (hn ▸ hf)

theorem ImplInv_log_congr {rt : fobj_runtime} {log log' : List (Nat × Nat × Nat)}
    (h : ImplInv rt log) (hl : ∀ k m, installed log' k m = installed log k m) :
    ImplInv rt log' :=
  ⟨h.impls_n_lt, h.impl_zero, h.next_lt, h.head_le,
    fun k m fuel hf => by rw [hl]; exact h.search_ok k m fuel hf⟩

theorem RegStable_refl (rt : fobj_runtime) : RegStable rt rt :=
  ⟨Nat.le_refl _, Nat.le_refl _, Nat.le_refl _, fun _ _ _ => rfl, fun _ _ _ => rfl,
    fun _ _ _ => rfl, fun _ _ _ => rfl⟩

theorem RegStable_trans {a b c : fobj_runtime} (h1 : RegStable a b) (h2 : RegStable b c) :
    RegStable a c := by
  refine ⟨Nat.le_trans h1.klasses_n_le h2.klasses_n_le,
    Nat.le_trans h1.methods_n_le h2.methods_n_le,
    Nat.le_trans h1.impls_n_le h2.impls_n_le, ?_, ?_, ?_, ?_⟩
  · intro k k1 k2
    rw [h2.klass_name k k1 (Nat.le_trans k2 h1.klasses_n_le), h1.klass_name k k1 k2]
  · intro k k1 k2
    rw [h2.klass_size k k1 (Nat.le_trans k2 h1.klasses_n_le), h1.klass_size k k1 k2]
  · intro k k1 k2
    rw [h2.klass_parent k k1 (Nat.le_trans k2 h1.klasses_n_le), h1.klass_parent k k1 k2]
  · intro k k1 k2
    rw [h2.method_name k k1 (Nat.le_trans k2 h1.methods_n_le), h1.method_name k k1 k2]

/-- The fields of klass and method records that appending an impl record
leaves alone. -/
theorem register_store_fields (env : fobj_env) (rt : fobj_runtime) (klass meth impl nom : Nat) :
    (fobj_method_register_store env rt klass meth impl nom).fobj_klasses_n = rt.fobj_klasses_n ∧
    (fobj_method_register_store env rt klass meth impl nom).fobj_methods_n = rt.fobj_methods_n ∧
    (fobj_method_register_store env rt klass meth impl nom).fobj_klasses_hash
      = rt.fobj_klasses_hash ∧
    (fobj_method_register_store env rt klass meth impl nom).fobj_methods_hash
      = rt.fobj_methods_hash ∧
    (fobj_method_register_store env rt klass meth impl nom).fobj_global_state
      = rt.fobj_global_state ∧
    (∀ k, ((fobj_method_register_store env rt klass meth impl nom).fobj_klasses k).name
        = (rt.fobj_klasses k).name ∧
      ((fobj_method_register_store env rt klass meth impl nom).fobj_klasses k).hash
        = (rt.fobj_klasses k).hash ∧
      ((fobj_method_register_store env rt klass meth impl nom).fobj_klasses k).hash_next
        = (rt.fobj_klasses k).hash_next ∧
      ((fobj_method_register_store env rt klass meth impl nom).fobj_klasses k).size
        = (rt.fobj_klasses k).size ∧
      ((fobj_method_register_store env rt klass meth impl nom).fobj_klasses k).parent
        = (rt.fobj_klasses k).parent) ∧
    (∀ k, ((fobj_method_register_store env rt klass meth impl nom).fobj_methods k).name
        = (rt.fobj_methods k).name ∧
      ((fobj_method_register_store env rt klass meth impl nom).fobj_methods k).hash
        = (rt.fobj_methods k).hash ∧
      ((fobj_method_register_store env rt klass meth impl nom).fobj_methods k).hash_next
        = (rt.fobj_methods k).hash_next) := by
  refine ⟨rfl, rfl, rfl, rfl, rfl, ?_, ?_⟩
  · intro k
    simp only [fobj_method_register_store, Function.update_apply]
    by_cases hk : k = klass
    · subst hk
      by_cases hd : meth = env.fobjDispose__mh <;> simp [hd]
    · simp [hk]
  · intro k
    simp only [fobj_method_register_store, Function.update_apply]
    by_cases hk : k = meth
    · subst hk; simp
    · simp [hk]

/-- What a returned `fobj_method_register_priv` did: nothing when the impl
found on the klass is the one given, an append otherwise. -/
theorem register_priv_cases (env : fobj_env) {rt rt' : fobj_runtime}
    {log : List (Nat × Nat × Nat)} (h : ImplInv rt log) (fuel klass meth impl : Nat)
    (hrun : fobj_method_register_priv env fuel rt klass meth impl = Except.ok rt') :
    klass < FOBJ_OBJ_MAX_KLASSES ∧
    (env.ft_dbg_enabled = true →
      installed log klass meth = 0 ∨ installed log klass meth = impl) ∧
    ((installed log klass meth = impl ∧ rt' = rt) ∨
     (installed log klass meth ≠ impl ∧ rt.fobj_impls_n + 1 < FOBJ_OBJ_MAX_METHOD_IMPLS ∧
      meth < FOBJ_OBJ_MAX_METHODS ∧
      rt' = fobj_method_register_store env rt klass meth impl (rt.fobj_impls_n + 1))) := by
  unfold fobj_method_register_priv at hrun
  rw [bind_eq_ok] at hrun
  obtain ⟨existed, hs, hrun⟩ := hrun
  obtain ⟨hk, rfl⟩ := search_impl_ok h meth klass fuel existed hs
  rw [bind_eq_ok] at hrun
  obtain ⟨u, hd, hrun⟩ := hrun
  rw [ft_dbg_assert_eq_ok] at hd
  refine ⟨hk, ?_, ?_⟩
  · intro hdbg
    have := hd hdbg
    simpa using this
  · by_cases he : installed log klass meth = impl
    · left
      rw [if_pos he] at hrun
      exact ⟨he, (Except.ok.inj hrun).symm⟩
    · right
      rw [if_neg he] at hrun
      have hmod : (rt.fobj_impls_n + 1) % 2 ^ 32 = rt.fobj_impls_n + 1 := by
        apply Nat.mod_eq_of_lt
        have := h.impls_n_lt
        simp only [FOBJ_OBJ_MAX_METHOD_IMPLS] at this
        omega
      simp only [hmod] at hrun
      rw [bind_eq_ok] at hrun
      obtain ⟨u, ha, hrun⟩ := hrun
      rw [ft_assert_eq_ok] at ha
      rw [bind_eq_ok] at hrun
      obtain ⟨mreg, hm, hrun⟩ := hrun
      rw [method_at_eq_ok] at hm
      rw [bind_eq_ok] at hrun
      obtain ⟨kreg, _, hrun⟩ := hrun
      exact ⟨he, by simpa using ha, hm.1, (Except.ok.inj hrun).symm⟩

theorem register_priv_inv (env : fobj_env) {rt rt' : fobj_runtime}
    {log : List (Nat × Nat × Nat)} {knames : List String} (h : RegInv env rt log knames)
    (fuel klass meth impl : Nat)
    (hrun : fobj_method_register_priv env fuel rt klass meth impl = Except.ok rt') :
    RegInv env rt' (log ++ [(klass, meth, impl)]) knames ∧ RegStable rt rt' ∧
      rt'.fobj_klasses_n = rt.fobj_klasses_n ∧
      rt'.fobj_global_state = rt.fobj_global_state := by
  obtain ⟨hk, _, hc⟩ := register_priv_cases env h.impl fuel klass meth impl hrun
  have hlog : ∀ e, e ∈ log ++ [(klass, meth, impl)] → e.1 < FOBJ_OBJ_MAX_KLASSES := by
    intro e he
    rcases List.mem_append.mp he with he | he
    · exact h.log_klass e he
    · rw [List.mem_singleton.mp he]; exact hk
  rcases hc with ⟨he, rfl⟩ | ⟨_, hnom, _, rfl⟩
  · refine ⟨⟨ImplInv_log_congr h.impl ?_, h.klass, h.meth, h.names_sub, h.names_sup, hlog,
      h.zero_parent, h.state_ne⟩, RegStable_refl _, rfl, rfl⟩
    intro k m
    rw [installed_append]
    split
    · rename_i hkm
      rw [← hkm.1, ← hkm.2, he]
    · rfl
  · obtain ⟨f1, f2, f3, f4, f5, f6, f7⟩ :=
      register_store_fields env rt klass meth impl (rt.fobj_impls_n + 1)
    refine ⟨⟨register_store_inv env h.impl klass meth impl hnom,
      KlassInv_congr env h.klass f1 f3 (fun j => (f6 j).1) (fun j => (f6 j).2.1) (fun j => (f6 j).2.2.1),
      MethInv_congr env h.meth f2 f4 (fun j => (f7 j).1) (fun j => (f7 j).2.1) (fun j => (f7 j).2.2),
      ?_, ?_, hlog, by rw [(f6 0).2.2.2.2]; exact h.zero_parent,
      by rw [f5]; exact h.state_ne⟩, ?_, f1, f5⟩
    · intro k k1 k2
      rw [(f6 k).1]
      exact h.names_sub k k1 (f1 ▸ k2)
    · intro nm hnm
      obtain ⟨k, k1, k2, k3⟩ := h.names_sup nm hnm
      exact ⟨k, k1, f1 ▸ k2, by rw [(f6 k).1]; exact k3⟩
    · refine ⟨Nat.le_of_eq f1.symm, Nat.le_of_eq f2.symm, ?_, ?_, ?_, ?_, ?_⟩
      · simp [fobj_method_register_store]
      · intro k _ _; exact (f6 k).1
      · intro k _ _; exact (f6 k).2.2.2.1
      · intro k _ _; exact (f6 k).2.2.2.2
      · intro k _ _; exact (f7 k).1

theorem klass_init_methods_inv (env : fobj_env) (fuel kl : Nat) :
    ∀ (methods : List (Nat × Nat)) (rt rt' : fobj_runtime) (log : List (Nat × Nat × Nat))
      (knames : List String), RegInv env rt log knames →
      fobj_klass_init_methods env fuel kl rt methods = Except.ok rt' →
      RegInv env rt'
        (log ++ (methods.takeWhile (fun e => e.1 ≠ 0)).map (fun e => (kl, e.1, e.2))) knames ∧
      RegStable rt rt' ∧ rt'.fobj_klasses_n = rt.fobj_klasses_n ∧
      rt'.fobj_global_state = rt.fobj_global_state := by
  intro methods
  induction methods with
  | nil =>
    intro rt rt' log knames h hrun
    simp only [fobj_klass_init_methods, pure_eq_ok] at hrun
    cases Except.ok.inj hrun
    simpa using ⟨h, RegStable_refl rt⟩
  | cons e methods ih =>
    intro rt rt' log knames h hrun
    obtain ⟨meth, impl⟩ := e
    unfold fobj_klass_init_methods at hrun
    by_cases hm : meth = 0
    · simp only [hm, ne_eq, not_true_eq_false, if_false, pure_eq_ok] at hrun
      cases Except.ok.inj hrun
      simpa [hm] using ⟨h, RegStable_refl rt⟩
    · simp only [ne_eq, hm, not_false_eq_true, if_true] at hrun
      rw [bind_eq_ok] at hrun
      obtain ⟨rt1, h1, hrun⟩ := hrun
      obtain ⟨i1, s1, n1, g1⟩ := register_priv_inv env h fuel kl meth impl h1
      obtain ⟨i2, s2, n2, g2⟩ := ih rt1 rt' _ knames i1 hrun
      refine ⟨?_, RegStable_trans s1 s2, n2.trans n1, g2.trans g1⟩
      simpa [hm, List.takeWhile_cons] using i2

/-- Creating a klass leaves the impl and method registries as they are. -/
theorem klass_init_store_reginv (env : fobj_env) {rt : fobj_runtime}
    {log : List (Nat × Nat × Nat)} {knames : List String} (h : RegInv env rt log knames)
    (size : Int) (parent : Nat) (name : String)
    (hnew : ∀ k, 0 < k → k ≤ rt.fobj_klasses_n → (rt.fobj_klasses k).name ≠ some name)
    (hcap : rt.fobj_klasses_n + 1 < FOBJ_OBJ_MAX_KLASSES) :
    RegInv env
      (fobj_klass_init_store rt (rt.fobj_klasses_n + 1) (hash32 env name) size parent name)
      log (knames ++ [name]) ∧
    RegStable rt
      (fobj_klass_init_store rt (rt.fobj_klasses_n + 1) (hash32 env name) size parent name) := by
  have hold : ∀ j, j ≤ rt.fobj_klasses_n →
      (fobj_klass_init_store rt (rt.fobj_klasses_n + 1) (hash32 env name) size parent
        name).fobj_klasses j = rt.fobj_klasses j := by
    intro j hj
    simp only [fobj_klass_init_store]
    rw [Function.update_noteq (by omega)]
  have hnewrec : ((fobj_klass_init_store rt (rt.fobj_klasses_n + 1) (hash32 env name) size
      parent name).fobj_klasses (rt.fobj_klasses_n + 1)).name = some name := by
    simp [fobj_klass_init_store]
  refine ⟨⟨ImplInv_congr h.impl rfl rfl ?_, klass_init_store_inv env h.klass size parent name hnew hcap,
    MethInv_congr env h.meth rfl rfl (fun _ => rfl) (fun _ => rfl) (fun _ => rfl), ?_, ?_, h.log_klass,
    by rw [hold 0 (Nat.zero_le _)]; exact h.zero_parent, h.state_ne⟩,
    ⟨?_, Nat.le_refl _, Nat.le_refl _, ?_, ?_, ?_, fun _ _ _ => rfl⟩⟩
  · intro k
    simp only [fobj_klass_init_store, Function.update_apply]
    split
    · rename_i hk; rw [hk]
    · rfl
  · intro k k1 k2
    simp only [fobj_klass_init_store] at k2
    rcases Nat.lt_or_ge k (rt.fobj_klasses_n + 1) with hlt | hge
    · obtain ⟨nm, n1, n2⟩ := h.names_sub k k1 (by omega)
      exact ⟨nm, List.mem_append_left _ n1, by rw [hold k (by omega)]; exact n2⟩
    · have hk : k = rt.fobj_klasses_n + 1 := by omega
      subst hk
      exact ⟨name, by simp, hnewrec⟩
  · intro nm hnm
    rcases List.mem_append.mp hnm with hnm | hnm
    · obtain ⟨k, k1, k2, k3⟩ := h.names_sup nm hnm
      exact ⟨k, k1, by simp only [fobj_klass_init_store]; omega, by rw [hold k k2]; exact k3⟩
    · rw [List.mem_singleton.mp hnm]
      exact ⟨rt.fobj_klasses_n + 1, Nat.succ_pos _, by simp [fobj_klass_init_store], hnewrec⟩
  · simp [fobj_klass_init_store]
  · intro k _ k2; rw [hold k k2]
  · intro k _ k2; rw [hold k k2]
  · intro k _ k2; rw [hold k k2]

/-- In a well-formed klass registry the bucket scan, when it returns, returns
the handle that carries the name, and `0` exactly when no handle does. -/
theorem klasses_scan_ok (env : fobj_env) {rt : fobj_runtime} (h : KlassInv env rt)
    (name : String) (fuel found : Nat)
    (hrun : fobj_klasses_hash_scan rt (hash32 env name) name fuel
      (rt.fobj_klasses_hash (hash32 env name % FOBJ_OBJ_HASH_SIZE)) = Except.ok found) :
    (found ≠ 0 → 0 < found ∧ found ≤ rt.fobj_klasses_n ∧
      (rt.fobj_klasses found).name = some name) ∧
    (found = 0 → ∀ k, 0 < k → k ≤ rt.fobj_klasses_n → (rt.fobj_klasses k).name ≠ some name) := by
  have hbig := klasses_scan_mono rt _ _ fuel _ found hrun (rt.fobj_klasses_n + 1)
  by_cases hex : ∃ k, 0 < k ∧ k ≤ rt.fobj_klasses_n ∧ (rt.fobj_klasses k).name = some name
  · obtain ⟨k, k1, k2, k3⟩ := hex
    rw [h.scan_hit k name _ k1 k2 k3 (by omega)] at hbig
    cases Except.ok.inj hbig
    exact ⟨fun _ => ⟨k1, k2, k3⟩, fun h0 => by omega⟩
  · rw [h.scan_miss name _ (fun k k1 k2 k3 => hex ⟨k, k1, k2, k3⟩) (by omega)] at hbig
    cases Except.ok.inj hbig
    exact ⟨fun h0 => absurd rfl h0, fun _ k k1 k2 k3 => hex ⟨k, k1, k2, k3⟩⟩

/-- What a returned `fobj_klass_init_impl` did. -/
theorem klass_init_cases (env : fobj_env) {rt rt' : fobj_runtime} (h : KlassInv env rt)
    (fuel klass : Nat) (size : Int) (parent : Nat) (methods : List (Nat × Nat)) (name : String)
    (b : Bool) (kh : Nat)
    (hrun : fobj_klass_init_impl env fuel rt klass size parent methods name
      = Except.ok (b, kh, rt')) :
    rt.fobj_global_state = FOBJ_GLOBAL_STATE.FOBJ_RT_INITIALIZED ∧
    ((b = true ∧ rt' = rt ∧ 0 < kh ∧ kh ≤ rt.fobj_klasses_n ∧ (klass = 0 ∨ klass = kh) ∧
        (rt.fobj_klasses kh).name = some name ∧ (rt.fobj_klasses kh).size = size ∧
        (rt.fobj_klasses kh).parent = parent) ∨
     (b = false ∧ klass = 0 ∧ kh = rt.fobj_klasses_n + 1 ∧
        rt.fobj_klasses_n + 1 < FOBJ_OBJ_MAX_KLASSES ∧
        (∀ k, 0 < k → k ≤ rt.fobj_klasses_n → (rt.fobj_klasses k).name ≠ some name) ∧
        fobj_klass_init_methods env fuel (rt.fobj_klasses_n + 1)
          (fobj_klass_init_store rt (rt.fobj_klasses_n + 1) (hash32 env name) size parent name)
          methods = Except.ok rt')) := by
  unfold fobj_klass_init_impl at hrun
  rw [bind_eq_ok] at hrun
  obtain ⟨u, hst, hrun⟩ := hrun
  rw [ft_assert_eq_ok] at hst
  refine ⟨by simpa using hst, ?_⟩
  by_cases hk : klass = 0
  · subst hk
    simp only [ne_eq, not_true_eq_false, if_false] at hrun
    rw [bind_eq_ok] at hrun
    obtain ⟨found, hs, hrun⟩ := hrun
    obtain ⟨hhit, hmiss⟩ := klasses_scan_ok env h name fuel found hs
    by_cases hf : found = 0
    · right
      subst hf
      simp only [ne_eq, not_true_eq_false, if_false] at hrun
      have hmod : (rt.fobj_klasses_n + 1) % 2 ^ 32 = rt.fobj_klasses_n + 1 := by
        apply Nat.mod_eq_of_lt
        have := h.n_lt
        simp only [FOBJ_OBJ_MAX_KLASSES] at this
        omega
      simp only [hmod] at hrun
      rw [bind_eq_ok] at hrun
      obtain ⟨u, _, hrun⟩ := hrun
      rw [bind_eq_ok] at hrun
      obtain ⟨u, _, hrun⟩ := hrun
      rw [bind_eq_ok] at hrun
      obtain ⟨r, hr, hrun⟩ := hrun
      rw [klass_at_eq_ok] at hr
      have hmod16 : (rt.fobj_klasses_n + 1) % 2 ^ 16 = rt.fobj_klasses_n + 1 := by
        apply Nat.mod_eq_of_lt
        have := hr.1
        simp only [FOBJ_OBJ_MAX_KLASSES] at this
        omega
      simp only [hmod16] at hrun
      rw [bind_eq_ok] at hrun
      obtain ⟨rt2, hm, hrun⟩ := hrun
      simp only [pure_eq_ok, Except.ok.injEq, Prod.mk.injEq] at hrun
      obtain ⟨rfl, rfl, rfl⟩ := hrun
      exact ⟨rfl, rfl, rfl, hr.1, hmiss rfl, hm⟩
    · left
      simp only [ne_eq, hf, not_false_eq_true, if_true] at hrun
      obtain ⟨k1, k2, k3⟩ := hhit hf
      rw [bind_eq_ok] at hrun
      obtain ⟨r, hr, hrun⟩ := hrun
      rw [klass_at_eq_ok] at hr
      obtain ⟨_, rfl⟩ := hr
      rw [bind_eq_ok] at hrun
      obtain ⟨u, hsz, hrun⟩ := hrun
      rw [ft_assert_eq_ok] at hsz
      rw [bind_eq_ok] at hrun
      obtain ⟨u, hpa, hrun⟩ := hrun
      rw [ft_assert_eq_ok] at hpa
      simp only [pure_eq_ok, Except.ok.injEq, Prod.mk.injEq] at hrun
      obtain ⟨rfl, rfl, rfl⟩ := hrun
      exact ⟨rfl, rfl, k1, k2, Or.inl rfl, k3, by simpa using hsz, by simpa using hpa⟩
  · left
    simp only [ne_eq, hk, not_false_eq_true, if_true] at hrun
    rw [bind_eq_ok] at hrun
    obtain ⟨u, hle, hrun⟩ := hrun
    rw [ft_assert_eq_ok] at hle
    rw [bind_eq_ok] at hrun
    obtain ⟨r, hr, hrun⟩ := hrun
    rw [klass_at_eq_ok] at hr
    obtain ⟨_, rfl⟩ := hr
    rw [bind_eq_ok] at hrun
    obtain ⟨c, hc, hrun⟩ := hrun
    rw [bind_eq_ok] at hrun
    obtain ⟨u, hnm, hrun⟩ := hrun
    rw [ft_assert_eq_ok] at hnm
    subst hnm
    rw [bind_eq_ok] at hrun
    obtain ⟨u, hsz, hrun⟩ := hrun
    rw [ft_assert_eq_ok] at hsz
    rw [bind_eq_ok] at hrun
    obtain ⟨u, hpa, hrun⟩ := hrun
    rw [ft_assert_eq_ok] at hpa
    simp only [pure_eq_ok, Except.ok.injEq, Prod.mk.injEq] at hrun
    obtain ⟨rfl, rfl, rfl⟩ := hrun
    have hname : (rt.fobj_klasses klass).name = some name := by
      unfold strcmp_eq at hc
      split at hc
      · cases hc
      · rename_i n hn
        rw [hn]
        simpa using hc
    exact ⟨rfl, rfl, Nat.pos_of_ne_zero hk, by simpa using hle, Or.inr rfl, hname,
      by simpa using hsz, by simpa using hpa⟩

/-- In a well-formed method registry the bucket scan, when it returns, returns
the handle that carries the name, and `0` exactly when no handle does. -/
theorem methods_scan_ok (env : fobj_env) {rt : fobj_runtime} (h : MethInv env rt)
    (name : String) (fuel found : Nat)
    (hrun : fobj_methods_hash_scan rt (hash32 env name) name fuel
      (rt.fobj_methods_hash (hash32 env name % FOBJ_OBJ_HASH_SIZE)) = Except.ok found) :
    (found ≠ 0 → 0 < found ∧ found ≤ rt.fobj_methods_n ∧
      (rt.fobj_methods found).name = some name) ∧
    (found = 0 → ∀ k, 0 < k → k ≤ rt.fobj_methods_n → (rt.fobj_methods k).name ≠ some name) := by
  have hbig := methods_scan_mono rt _ _ fuel _ found hrun (rt.fobj_methods_n + 1)
  by_cases hex : ∃ k, 0 < k ∧ k ≤ rt.fobj_methods_n ∧ (rt.fobj_methods k).name = some name
  · obtain ⟨k, k1, k2, k3⟩ := hex
    rw [h.scan_hit k name _ k1 k2 k3 (by omega)] at hbig
    cases Except.ok.inj hbig
    exact ⟨fun _ => ⟨k1, k2, k3⟩, fun h0 => by omega⟩
  · rw [h.scan_miss name _ (fun k k1 k2 k3 => hex ⟨k, k1, k2, k3⟩) (by omega)] at hbig
    cases Except.ok.inj hbig
    exact ⟨fun h0 => absurd rfl h0, fun _ k k1 k2 k3 => hex ⟨k, k1, k2, k3⟩⟩


/-- Creating a method leaves the impl and klass registries as they are. -/
theorem method_init_store_reginv (env : fobj_env) {rt : fobj_runtime}
    {log : List (Nat × Nat × Nat)} {knames : List String} (h : RegInv env rt log knames)
    (name : String)
    (hnew : ∀ k, 0 < k → k ≤ rt.fobj_methods_n → (rt.fobj_methods k).name ≠ some name)
    (hcap : rt.fobj_methods_n + 1 < FOBJ_OBJ_MAX_METHODS) :
    RegInv env (fobj_method_init_store rt (rt.fobj_methods_n + 1) (hash32 env name) name)
      log knames ∧
    RegStable rt (fobj_method_init_store rt (rt.fobj_methods_n + 1) (hash32 env name) name) := by
  refine ⟨⟨ImplInv_congr h.impl rfl rfl (fun _ => rfl),
    KlassInv_congr env h.klass rfl rfl (fun _ => rfl) (fun _ => rfl) (fun _ => rfl),
    method_init_store_inv env h.meth name hnew hcap, h.names_sub, h.names_sup, h.log_klass,
    h.zero_parent, h.state_ne⟩,
    ⟨Nat.le_refl _, ?_, Nat.le_refl _, fun _ _ _ => rfl, fun _ _ _ => rfl, fun _ _ _ => rfl, ?_⟩⟩
  · simp [fobj_method_init_store]
  · intro k _ k2
    simp only [fobj_method_init_store]
    rw [Function.update_noteq (by omega)]

/-- What a returned `fobj_method_init_impl` did. -/
theorem method_init_cases (env : fobj_env) {rt rt' : fobj_runtime} (h : MethInv env rt)
    (fuel meth : Nat) (name : String) (b : Bool) (mh : Nat)
    (hrun : fobj_method_init_impl env fuel rt meth name = Except.ok (b, mh, rt')) :
    (b = true ∧ rt' = rt ∧ 0 < mh ∧ mh ≤ rt.fobj_methods_n ∧ (meth = 0 ∨ meth = mh) ∧
        (rt.fobj_methods mh).name = some name) ∨
    (b = false ∧ meth = 0 ∧ mh = rt.fobj_methods_n + 1 ∧
        rt.fobj_methods_n + 1 < FOBJ_OBJ_MAX_METHODS ∧
        rt.fobj_global_state = FOBJ_GLOBAL_STATE.FOBJ_RT_INITIALIZED ∧
        (∀ k, 0 < k → k ≤ rt.fobj_methods_n → (rt.fobj_methods k).name ≠ some name) ∧
        rt' = fobj_method_init_store rt (rt.fobj_methods_n + 1) (hash32 env name) name) := by
  unfold fobj_method_init_impl at hrun
  by_cases hk : meth = 0
  · subst hk
    simp only [ne_eq, not_true_eq_false, if_false] at hrun
    rw [bind_eq_ok] at hrun
    obtain ⟨found, hs, hrun⟩ := hrun
    obtain ⟨hhit, hmiss⟩ := methods_scan_ok env h name fuel found hs
    by_cases hf : found = 0
    · right
      subst hf
      simp only [ne_eq, not_true_eq_false, if_false] at hrun
      have hmod : (rt.fobj_methods_n + 1) % 2 ^ 32 = rt.fobj_methods_n + 1 := by
        apply Nat.mod_eq_of_lt
        have := h.n_lt
        simp only [FOBJ_OBJ_MAX_METHODS] at this
        omega
      simp only [hmod] at hrun
      rw [bind_eq_ok] at hrun
      obtain ⟨u, hst, hrun⟩ := hrun
      rw [ft_assert_eq_ok] at hst
      rw [bind_eq_ok] at hrun
      obtain ⟨u, _, hrun⟩ := hrun
      rw [bind_eq_ok] at hrun
      obtain ⟨u, _, hrun⟩ := hrun
      rw [bind_eq_ok] at hrun
      obtain ⟨r, hr, hrun⟩ := hrun
      rw [method_at_eq_ok] at hr
      have hmod16 : (rt.fobj_methods_n + 1) % 2 ^ 16 = rt.fobj_methods_n + 1 := by
        apply Nat.mod_eq_of_lt
        have := hr.1
        simp only [FOBJ_OBJ_MAX_METHODS] at this
        omega
      simp only [hmod16, pure_eq_ok, Except.ok.injEq, Prod.mk.injEq] at hrun
      obtain ⟨rfl, rfl, rfl⟩ := hrun
      exact ⟨rfl, rfl, rfl, hr.1, by simpa using hst, hmiss rfl, rfl⟩
    · left
      simp only [ne_eq, hf, not_false_eq_true, if_true, pure_eq_ok, Except.ok.injEq,
        Prod.mk.injEq] at hrun
      obtain ⟨k1, k2, k3⟩ := hhit hf
      obtain ⟨rfl, rfl, rfl⟩ := hrun
      exact ⟨rfl, rfl, k1, k2, Or.inl rfl, k3⟩
  · left
    simp only [ne_eq, hk, not_false_eq_true, if_true] at hrun
    rw [bind_eq_ok] at hrun
    obtain ⟨u, hle, hrun⟩ := hrun
    rw [ft_assert_eq_ok] at hle
    rw [bind_eq_ok] at hrun
    obtain ⟨r, hr, hrun⟩ := hrun
    rw [method_at_eq_ok] at hr
    obtain ⟨_, rfl⟩ := hr
    rw [bind_eq_ok] at hrun
    obtain ⟨c, hc, hrun⟩ := hrun
    rw [bind_eq_ok] at hrun
    obtain ⟨u, hnm, hrun⟩ := hrun
    rw [ft_assert_eq_ok] at hnm
    subst hnm
    simp only [pure_eq_ok, Except.ok.injEq, Prod.mk.injEq] at hrun
    obtain ⟨rfl, rfl, rfl⟩ := hrun
    have hname : (rt.fobj_methods meth).name = some name := by
      unfold strcmp_eq at hc
      split at hc
      · cases hc
      · rename_i n hn
        rw [hn]
        simpa using hc
    exact ⟨rfl, rfl, Nat.pos_of_ne_zero hk, by simpa using hle, Or.inr rfl, hname⟩

theorem RegInv_names_append {env : fobj_env} {rt : fobj_runtime}
    {log : List (Nat × Nat × Nat)} {knames : List String} (h : RegInv env rt log knames)
    (name : String) (k : Nat) (k1 : 0 < k) (k2 : k ≤ rt.fobj_klasses_n)
    (k3 : (rt.fobj_klasses k).name = some name) : RegInv env rt log (knames ++ [name]) := by
  refine ⟨h.impl, h.klass, h.meth, ?_, ?_, h.log_klass, h.zero_parent, h.state_ne⟩
  · intro j j1 j2
    obtain ⟨nm, n1, n2⟩ := h.names_sub j j1 j2
    exact ⟨nm, List.mem_append_left _ n1, n2⟩
  · intro nm hnm
    rcases List.mem_append.mp hnm with hnm | hnm
    · exact h.names_sup nm hnm
    · rw [List.mem_singleton.mp hnm]
      exact ⟨k, k1, k2, k3⟩

theorem RegInv_freeze {env : fobj_env} {rt : fobj_runtime}
    {log : List (Nat × Nat × Nat)} {knames : List String} (h : RegInv env rt log knames) :
    RegInv env (fobj_freeze rt) log knames :=
  ⟨ImplInv_congr h.impl rfl rfl (fun _ => rfl),
    KlassInv_congr env h.klass rfl rfl (fun _ => rfl) (fun _ => rfl) (fun _ => rfl),
    MethInv_congr env h.meth rfl rfl (fun _ => rfl) (fun _ => rfl) (fun _ => rfl),
    h.names_sub, h.names_sup, h.log_klass, h.zero_parent, by simp [fobj_freeze]⟩

/-- Every registration call that returns keeps the invariant, extends the
install log by what it installed, and changes no registered name, size or
parent. -/
theorem reg_call_inv (env : fobj_env) (fuel : Nat) {rt : fobj_runtime}
    {log : List (Nat × Nat × Nat)} {knames : List String} (h : RegInv env rt log knames)
    (c : RegCall) (r : Bool × Nat × fobj_runtime) (hrun : reg_call env fuel rt c = Except.ok r) :
    RegInv env r.2.2 (log ++ install_log_of c r) (knames ++ klass_names [c]) ∧
      RegStable rt r.2.2 := by
  obtain ⟨b, kh, rt'⟩ := r
  cases c with
  | klass_init klass size parent methods name =>
    simp only [reg_call] at hrun
    obtain ⟨_, hc⟩ := klass_init_cases env h.klass fuel klass size parent methods name b kh hrun
    rcases hc with ⟨rfl, rfl, k1, k2, _, k3, _, _⟩ | ⟨rfl, _, rfl, hcap, hnew, hm⟩
    · simpa [install_log_of, klass_names] using
        ⟨RegInv_names_append h name kh k1 k2 k3, RegStable_refl rt'⟩
    · obtain ⟨i1, s1⟩ := klass_init_store_reginv env h size parent name hnew hcap
      obtain ⟨i2, s2, _, _⟩ := klass_init_methods_inv env fuel _ methods _ rt' log _ i1 hm
      exact ⟨i2, RegStable_trans s1 s2⟩
  | method_init meth name =>
    simp only [reg_call] at hrun
    rcases method_init_cases env h.meth fuel meth name b kh hrun with
      ⟨rfl, rfl, _⟩ | ⟨rfl, _, rfl, hcap, _, hnew, rfl⟩
    · simpa [install_log_of, klass_names] using ⟨h, RegStable_refl rt'⟩
    · simpa [install_log_of, klass_names] using method_init_store_reginv env h name hnew hcap
  | register_impl klass meth impl =>
    simp only [reg_call, fobj_method_register_impl] at hrun
    rw [bind_eq_ok] at hrun
    obtain ⟨rt1, hrun, hr⟩ := hrun
    simp only [pure_eq_ok, Except.ok.injEq, Prod.mk.injEq] at hr
    obtain ⟨rfl, rfl, rfl⟩ := hr
    rw [bind_eq_ok] at hrun
    obtain ⟨u, _, hrun⟩ := hrun
    rw [bind_eq_ok] at hrun
    obtain ⟨u, _, hrun⟩ := hrun
    rw [bind_eq_ok] at hrun
    obtain ⟨u, _, hrun⟩ := hrun
    obtain ⟨i1, s1, _, _⟩ := register_priv_inv env h fuel klass meth impl hrun
    simpa [install_log_of, klass_names] using ⟨i1, s1⟩
  | freeze =>
    simp only [reg_call, pure_eq_ok, Except.ok.injEq, Prod.mk.injEq] at hrun
    obtain ⟨rfl, rfl, rfl⟩ := hrun
    simpa [install_log_of, klass_names] using
      ⟨RegInv_freeze h, (⟨Nat.le_refl _, Nat.le_refl _, Nat.le_refl _, fun _ _ _ => rfl,
        fun _ _ _ => rfl, fun _ _ _ => rfl, fun _ _ _ => rfl⟩ : RegStable rt (fobj_freeze rt))⟩

theorem klass_names_append (cs ds : List RegCall) :
    klass_names (cs ++ ds) = klass_names cs ++ klass_names ds := by
  induction cs with
  | nil => rfl
  | cons c cs ih => cases c <;> simp [klass_names, ih]

/-- Every run that returns keeps the invariant. -/
theorem reg_run_inv (env : fobj_env) (fuel : Nat) :
    ∀ (calls : List RegCall) (rt : fobj_runtime) (log : List (Nat × Nat × Nat))
      (knames : List String) (outs : List (Bool × Nat × fobj_runtime)),
      RegInv env rt log knames → reg_run env fuel rt calls = Except.ok outs →
      RegInv env (reg_final rt outs) (log ++ install_log calls outs)
        (knames ++ klass_names calls) ∧ RegStable rt (reg_final rt outs) := by
  intro calls
  induction calls with
  | nil =>
    intro rt log knames outs h hrun
    simp only [reg_run, pure_eq_ok, Except.ok.injEq] at hrun
    subst hrun
    simpa [install_log, klass_names, reg_final] using ⟨h, RegStable_refl rt⟩
  | cons c cs ih =>
    intro rt log knames outs h hrun
    simp only [reg_run] at hrun
    rw [bind_eq_ok] at hrun
    obtain ⟨r, hr, hrun⟩ := hrun
    rw [bind_eq_ok] at hrun
    obtain ⟨rs, hrs, hrun⟩ := hrun
    simp only [pure_eq_ok, Except.ok.injEq] at hrun
    subst hrun
    obtain ⟨i1, s1⟩ := reg_call_inv env fuel h c r hr
    obtain ⟨i2, s2⟩ := ih r.2.2 _ _ rs i1 hrs
    refine ⟨?_, RegStable_trans s1 s2⟩
    have hk : klass_names (c :: cs) = klass_names [c] ++ klass_names cs :=
      klass_names_append [c] cs
    simpa [install_log, reg_final, hk, List.append_assoc] using i2

theorem RegInv_initialized (env : fobj_env) : RegInv env fobj_runtime.initialized [] [] := by
  refine ⟨ImplInv_initialized, KlassInv_initialized env, MethInv_initialized env, ?_, ?_, ?_,
    rfl, by simp [fobj_runtime.initialized]⟩
  · intro k h1 h2; simp [fobj_runtime.initialized] at h2; omega
  · intro nm h; cases h
  · intro e h; cases h

/-- The invariant of every state reached from the initial tables. -/
theorem reg_run_initialized (env : fobj_env) (fuel : Nat) (calls : List RegCall)
    (outs : List (Bool × Nat × fobj_runtime))
    (hrun : reg_run env fuel fobj_runtime.initialized calls = Except.ok outs) :
    RegInv env (reg_final fobj_runtime.initialized outs) (install_log calls outs)
      (klass_names calls) := by
  simpa using (reg_run_inv env fuel calls _ [] [] outs (RegInv_initialized env) hrun).1

/-! ## Dispatch -/

theorem klass_chain_zero (rt : fobj_runtime) (fuel : Nat) : klass_chain rt fuel 0 = [] := by
  cases fuel <;> simp [klass_chain]

theorem klass_chain_succ (rt : fobj_runtime) (fuel k : Nat) (hk : k ≠ 0) :
    klass_chain rt (fuel + 1) k = k :: klass_chain rt fuel (rt.fobj_klasses k).parent := by
  simp [klass_chain, hk]

/-- With parents registered before their children the chain of a klass does
not depend on the fuel, once the fuel covers the handle. -/
theorem klass_chain_fuel (rt : fobj_runtime)
    (hpar : ∀ k, 0 < k → k ≤ rt.fobj_klasses_n → (rt.fobj_klasses k).parent < k) :
    ∀ fuel k cf, k ≤ rt.fobj_klasses_n → k ≤ fuel → k ≤ cf →
      klass_chain rt fuel k = klass_chain rt cf k := by
  intro fuel
  induction fuel with
  | zero =>
    intro k cf _ h1 _
    have : k = 0 := by omega
    subst this
    rw [klass_chain_zero, klass_chain_zero]
  | succ fuel ih =>
    intro k cf hk h1 h2
    by_cases h0 : k = 0
    · subst h0
      rw [klass_chain_zero, klass_chain_zero]
    · obtain ⟨c, rfl⟩ : ∃ c, cf = c + 1 := ⟨cf - 1, by omega⟩
      have hp := hpar k (Nat.pos_of_ne_zero h0) hk
      rw [klass_chain_succ rt fuel k h0, klass_chain_succ rt c k h0,
        ih _ c (by omega) (by omega) (by omega)]

theorem dispatch_spec_cons (log : List (Nat × Nat × Nat)) (self meth klass : Nat)
    (chain : List Nat) :
    dispatch_spec log self meth (klass :: chain) =
      if installed log klass meth ≠ 0 then (self, installed log klass meth)
      else dispatch_spec log self meth chain := by
  have hf : first_installed log meth (klass :: chain) =
      if installed log klass meth ≠ 0 then installed log klass meth
      else first_installed log meth chain := rfl
  unfold dispatch_spec
  rw [hf]
  by_cases h : installed log klass meth = 0 <;> simp [h]

/-- The parent walk of dispatch, started at a registered klass, returns what
the chain of that klass specifies. -/
theorem method_search_loop_spec {rt : fobj_runtime} {log : List (Nat × Nat × Nat)}
    (h : ImplInv rt log) (hn : rt.fobj_klasses_n < FOBJ_OBJ_MAX_KLASSES)
    (hpar : ∀ k, 0 < k → k ≤ rt.fobj_klasses_n → (rt.fobj_klasses k).parent < k)
    (self meth fuel_impl : Nat) (hfi : rt.fobj_impls_n < fuel_impl) :
    ∀ fuel klass cf, 0 < klass → klass ≤ rt.fobj_klasses_n → klass ≤ fuel → klass ≤ cf →
      fobj_method_search_loop rt self meth fuel_impl fuel klass
        = Except.ok (dispatch_spec log self meth (klass_chain rt cf klass)) := by
  intro fuel
  induction fuel with
  | zero => intro klass cf h1 _ h3; omega
  | succ fuel ih =>
    intro klass cf h1 h2 h3 h4
    obtain ⟨c, rfl⟩ : ∃ c, cf = c + 1 := ⟨cf - 1, by omega⟩
    have hp := hpar klass h1 h2
    rw [klass_chain_succ rt c klass (by omega), dispatch_spec_cons]
    unfold fobj_method_search_loop
    rw [search_impl_eq h meth klass fuel_impl (by omega) hfi, ok_bind]
    by_cases hi : installed log klass meth = 0
    · simp only [hi, ne_eq, not_true_eq_false, if_false]
      rw [klass_at_of_lt rt klass (by omega), ok_bind]
      by_cases hp0 : (rt.fobj_klasses klass).parent = 0
      · simp [hp0, klass_chain_zero, dispatch_spec, first_installed, pure_eq_ok]
      · simp only [ne_eq, hp0, not_false_eq_true, if_true]
        exact ih _ c (Nat.pos_of_ne_zero hp0) (by omega) (by omega) (by omega)
    · simp [hi, pure_eq_ok]

/-- The parent walk of dispatch started at the null klass, as a super-call
from a root klass does: nothing is found when no impl sits on klass `0`. -/
theorem method_search_loop_null {rt : fobj_runtime} {log : List (Nat × Nat × Nat)}
    {knames : List String} {env : fobj_env} (h : RegInv env rt log knames)
    (self meth fuel_impl fuel : Nat) (hfi : rt.fobj_impls_n < fuel_impl)
    (h0 : installed log 0 meth = 0) :
    fobj_method_search_loop rt self meth fuel_impl (fuel + 1) 0 = Except.ok (0, 0) := by
  unfold fobj_method_search_loop
  rw [search_impl_eq h.impl meth 0 fuel_impl (by simp [FOBJ_OBJ_MAX_KLASSES]) hfi, ok_bind]
  simp [h0, klass_at, FOBJ_OBJ_MAX_KLASSES, ok_bind, h.zero_parent, pure_eq_ok]

/-- The debug-mode walk towards `for_child` ends on `for_child` when it is
on the chain and on `0` when it is not. -/
theorem for_child_loop_spec (rt : fobj_runtime) (hn : rt.fobj_klasses_n < FOBJ_OBJ_MAX_KLASSES)
    (hpar : ∀ k, 0 < k → k ≤ rt.fobj_klasses_n → (rt.fobj_klasses k).parent < k)
    (for_child : Nat) (hfc : for_child ≠ 0) :
    ∀ fuel klass cf, klass ≤ rt.fobj_klasses_n → klass < fuel → klass ≤ cf →
      fobj_method_search_for_child_loop rt for_child fuel klass
        = Except.ok (if for_child ∈ klass_chain rt cf klass then for_child else 0) := by
  intro fuel
  induction fuel with
  | zero => intro klass cf _ h; omega
  | succ fuel ih =>
    intro klass cf h1 h2 h3
    unfold fobj_method_search_for_child_loop
    by_cases h0 : klass = 0
    · subst h0
      simp [klass_chain_zero, pure_eq_ok]
    · obtain ⟨c, rfl⟩ : ∃ c, cf = c + 1 := ⟨cf - 1, by omega⟩
      have hp := hpar klass (Nat.pos_of_ne_zero h0) h1
      rw [klass_chain_succ rt c klass h0]
      by_cases hk : klass = for_child
      · subst hk
        simp [pure_eq_ok]
      · have hk' : ¬ for_child = klass := fun e => hk e.symm
        simp only [ne_eq, h0, not_false_eq_true, hk, and_self, if_true, List.mem_cons, hk',
          false_or]
        rw [klass_at_of_lt rt klass (by omega), ok_bind]
        exact ih _ c (by omega) (by omega) (by omega)

theorem klass_chain_mem (rt : fobj_runtime)
    (hpar : ∀ k, 0 < k → k ≤ rt.fobj_klasses_n → (rt.fobj_klasses k).parent < k) :
    ∀ fuel k b, k ≤ rt.fobj_klasses_n → b ∈ klass_chain rt fuel k → 0 < b ∧ b ≤ k := by
  intro fuel
  induction fuel with
  | zero => intro k b _ hb; simp [klass_chain] at hb
  | succ fuel ih =>
    intro k b hk hb
    by_cases h0 : k = 0
    · subst h0; rw [klass_chain_zero] at hb; cases hb
    · rw [klass_chain_succ rt fuel k h0] at hb
      have hp := hpar k (Nat.pos_of_ne_zero h0) hk
      rcases List.mem_cons.mp hb with rfl | hb
      · exact ⟨Nat.pos_of_ne_zero h0, Nat.le_refl _⟩
      · have := ih _ b (by omega) hb
        omega

theorem installed_eq_zero (log : List (Nat × Nat × Nat)) (k m : Nat)
    (h : ∀ e, e ∈ log → e.1 ≠ k) : installed log k m = 0 := by
  unfold installed
  suffices hs : ∀ acc, List.foldl
      (fun acc (e : Nat × Nat × Nat) => if e.1 = k ∧ e.2.1 = m then e.2.2 else acc) acc log = acc
    from hs 0
  induction log with
  | nil => intro acc; rfl
  | cons e log ih =>
    intro acc
    have he : e.1 ≠ k := h e (List.mem_cons_self _ _)
    simp only [List.foldl_cons, he, false_and, if_false]
    exact ih (fun e' he' => h e' (List.mem_cons_of_mem _ he')) acc

/-- Unless `fobj_method_register_impl` is called on the null klass handle, no
install is made on it. -/
theorem install_log_klass_pos (env : fobj_env) (fuel : Nat) :
    ∀ (calls : List RegCall) (rt : fobj_runtime) (log : List (Nat × Nat × Nat))
      (knames : List String) (outs : List (Bool × Nat × fobj_runtime)),
      RegInv env rt log knames → reg_run env fuel rt calls = Except.ok outs →
      (∀ m f, RegCall.register_impl 0 m f ∉ calls) →
      ∀ e, e ∈ install_log calls outs → e.1 ≠ 0 := by
  intro calls
  induction calls with
  | nil =>
    intro rt log knames outs _ hrun _ e he
    simp only [reg_run, pure_eq_ok, Except.ok.injEq] at hrun
    subst hrun
    simp [install_log] at he
  | cons c cs ih =>
    intro rt log knames outs h hrun hnull e he
    simp only [reg_run] at hrun
    rw [bind_eq_ok] at hrun
    obtain ⟨r, hr, hrun⟩ := hrun
    rw [bind_eq_ok] at hrun
    obtain ⟨rs, hrs, hrun⟩ := hrun
    simp only [pure_eq_ok, Except.ok.injEq] at hrun
    subst hrun
    simp only [install_log] at he
    rcases List.mem_append.mp he with he | he
    · obtain ⟨b, kh, rt'⟩ := r
      cases c with
      | klass_init klass size parent methods name =>
        simp only [reg_call] at hr
        obtain ⟨_, hc⟩ := klass_init_cases env h.klass fuel klass size parent methods name b kh hr
        rcases hc with ⟨rfl, _⟩ | ⟨rfl, _, rfl, _⟩
        · simp [install_log_of] at he
        · simp only [install_log_of, Bool.false_eq_true, if_false, List.mem_map] at he
          obtain ⟨x, _, rfl⟩ := he
          exact Nat.succ_ne_zero _
      | method_init meth name => simp [install_log_of] at he
      | register_impl klass meth impl =>
        simp only [install_log_of, List.mem_singleton] at he
        subst he
        intro h0
        simp only at h0
        subst h0
        exact hnull meth impl (List.mem_cons_self _ _)
      | freeze => simp [install_log_of] at he
    · exact ih r.2.2 _ _ rs (reg_call_inv env fuel h c r hr).1 hrs
        (fun m f hm => hnull m f (List.mem_cons_of_mem _ hm)) e he

/-- The checks at the head of `fobj_method_search` pass for a live object of
a registered klass and a registered method other than dispose; what remains
is the choice of the start klass and the parent walk. -/
theorem fobj_method_search_entry (env : fobj_env) (rt : fobj_runtime)
    (hst : rt.fobj_global_state ≠ FOBJ_GLOBAL_STATE.FOBJ_RT_NOT_INITIALIZED)
    (heap : fobj_heap) (self : Nat) (hdr : fobj_header) (hself : self ≠ 0)
    (hhdr : heap self = some hdr) (hmagic : hdr.magic = FOBJ_HEADER_MAGIC)
    (hk1 : 0 < hdr.klass) (hk2 : hdr.klass ≤ rt.fobj_klasses_n)
    (hlive : hdr.flags &&& FOBJ_DISPOSED = 0)
    (meth : Nat) (hm1 : 0 < meth) (hm2 : meth ≤ rt.fobj_methods_n)
    (hmd : meth ≠ env.fobjDispose__mh) (for_child : Nat) (validate : Bool) (fuel : Nat) :
    fobj_method_search env fuel rt heap self meth for_child validate =
      (do
        let klass ←
          if for_child ≠ 0 then do
            let klass ←
              if env.ft_dbg_enabled then do
                let klass ← fobj_method_search_for_child_loop rt for_child fuel hdr.klass
                ft_assert 212 (klass == for_child)
                pure klass
              else
                pure for_child
            let kreg ← klass_at rt klass
            pure kreg.parent
          else
            pure hdr.klass
        fobj_method_search_loop rt self meth fuel fuel klass) := by
  have hb : (meth != env.fobjDispose__mh) = true := by simpa using hmd
  have hs : (rt.fobj_global_state != FOBJ_GLOBAL_STATE.FOBJ_RT_NOT_INITIALIZED) = true := by
    simpa using hst
  have hdec : decide (meth > 0 ∧ meth ≤ rt.fobj_methods_n) = true := by simp [hm1, hm2]
  have hkdec : decide (hdr.klass > 0 ∧ hdr.klass ≤ rt.fobj_klasses_n) = true := by
    simp [hk1, hk2]
  have hl : (hdr.flags &&& FOBJ_DISPOSED == 0) = true := by simp [hlive]
  have hmg : (hdr.magic == FOBJ_HEADER_MAGIC) = true := by simp [hmagic]
  unfold fobj_method_search
  simp only [hs, hb, hdec, hkdec, hl, hmg, ft_assert_true, ok_bind, if_neg hself, header_of,
    hhdr, c_assert, ft_dbg_assert, ite_self, pure_eq_ok]

/-- C1. In every registry state reached by klass and method interning and impl
installation in which every klass has its parent registered before itself, for
every registered klass, every registered method other than dispose, and every
non-null object of that klass that is not DISPOSED, `fobj_method_search` with
`for_child = 0` returns the object together with the impl most recently
installed for the method on the first klass of the chain klass, parent, ... that
has one, and returns `(NULL, NULL)` when no klass of the chain has one. -/
theorem fobj_method_search_nearest_impl (env : fobj_env) (fuel0 : Nat) (calls : List RegCall)
    (outs : List (Bool × Nat × fobj_runtime)) (rt : fobj_runtime)
    (hrun : reg_run env fuel0 fobj_runtime.initialized calls = Except.ok outs)
    (hrt : rt = reg_final fobj_runtime.initialized outs)
    (hpar : ∀ k, 0 < k → k ≤ rt.fobj_klasses_n → (rt.fobj_klasses k).parent < k)
    (heap : fobj_heap) (self : Nat) (hdr : fobj_header) (hself : self ≠ 0)
    (hhdr : heap self = some hdr) (hmagic : hdr.magic = FOBJ_HEADER_MAGIC)
    (hk1 : 0 < hdr.klass) (hk2 : hdr.klass ≤ rt.fobj_klasses_n)
    (hlive : hdr.flags &&& FOBJ_DISPOSED = 0)
    (meth : Nat) (hm1 : 0 < meth) (hm2 : meth ≤ rt.fobj_methods_n)
    (hmd : meth ≠ env.fobjDispose__mh) (validate : Bool) (fuel : Nat)
    (hf1 : rt.fobj_impls_n < fuel) (hf2 : rt.fobj_klasses_n ≤ fuel) :
    fobj_method_search env fuel rt heap self meth 0 validate
      = Except.ok (dispatch_spec (install_log calls outs) self meth
          (klass_chain rt FOBJ_OBJ_MAX_KLASSES hdr.klass)) := by
  subst hrt
  have h := reg_run_initialized env fuel0 calls outs hrun
  rw [fobj_method_search_entry env _ h.state_ne heap self hdr hself hhdr hmagic hk1 hk2 hlive
    meth hm1 hm2 hmd 0 validate fuel]
  simp only [ne_eq, not_true_eq_false, if_false, pure_eq_ok, ok_bind]
  exact method_search_loop_spec h.impl h.klass.n_lt hpar self meth fuel hf1 fuel hdr.klass
    FOBJ_OBJ_MAX_KLASSES hk1 hk2 (by omega) (Nat.le_of_lt (Nat.lt_of_le_of_lt hk2 h.klass.n_lt))

/-- Witness of C1 on the scenario: the object of klass `B` dispatches `foo` to
the override `202` installed on `B`. -/
theorem fobj_method_search_nearest_impl_witness :
    fobj_method_search scenario_env 8 scenario_rt scenario_heap 64 2 0 true
      = Except.ok (64, 202) :=
  (fobj_method_search_nearest_impl scenario_env 8 scenario_calls scenario_outs scenario_rt
    (by rfl) rfl
    (by
      intro k h1 h2
      have hn : scenario_rt.fobj_klasses_n = 2 := by rfl
      rw [hn] at h2
      interval_cases k <;> decide)
    scenario_heap 64 { magic := FOBJ_HEADER_MAGIC, rc := 1, flags := 0, klass := 2 }
    (by decide) (by rfl) rfl (by decide) (by decide) (by decide) 2 (by decide) (by decide)
    (by decide) true 8 (by decide) (by decide)).trans (by rfl)

/-- The walk that a super-call makes, started at the parent of `for_child`. -/
theorem method_search_from_parent {env : fobj_env} {rt : fobj_runtime}
    {log : List (Nat × Nat × Nat)} {knames : List String} (h : RegInv env rt log knames)
    (hpar : ∀ k, 0 < k → k ≤ rt.fobj_klasses_n → (rt.fobj_klasses k).parent < k)
    (h0 : ∀ m, installed log 0 m = 0)
    (self meth fuel for_child : Nat) (hf1 : rt.fobj_impls_n < fuel)
    (hf2 : rt.fobj_klasses_n < fuel) (hc1 : 0 < for_child)
    (hc2 : for_child ≤ rt.fobj_klasses_n) :
    fobj_method_search_loop rt self meth fuel fuel (rt.fobj_klasses for_child).parent
      = Except.ok (dispatch_spec log self meth
          (klass_chain rt FOBJ_OBJ_MAX_KLASSES (rt.fobj_klasses for_child).parent)) := by
  have hp := hpar for_child hc1 hc2
  have hn := h.klass.n_lt
  by_cases hp0 : (rt.fobj_klasses for_child).parent = 0
  · obtain ⟨f, rfl⟩ : ∃ f, fuel = f + 1 := ⟨fuel - 1, by omega⟩
    rw [hp0, klass_chain_zero]
    exact method_search_loop_null h self meth (f + 1) f hf1 (h0 meth)
  · exact method_search_loop_spec h.impl hn hpar self meth fuel hf1 fuel _ FOBJ_OBJ_MAX_KLASSES
      (Nat.pos_of_ne_zero hp0) (by omega) (by omega) (by omega)

/-- With debug assertions on, a run that returns has no call of
`fobj_method_register_impl` on the null klass handle: line 416 aborts it. -/
theorem reg_run_dbg_no_null (env : fobj_env) (fuel : Nat) (hd : env.ft_dbg_enabled = true) :
    ∀ (calls : List RegCall) (rt : fobj_runtime) (outs : List (Bool × Nat × fobj_runtime)),
      reg_run env fuel rt calls = Except.ok outs →
      ∀ m f, RegCall.register_impl 0 m f ∉ calls := by
  intro calls
  induction calls with
  | nil => intro rt outs _ m f h; cases h
  | cons c cs ih =>
    intro rt outs hrun m f hmem
    simp only [reg_run] at hrun
    rw [bind_eq_ok] at hrun
    obtain ⟨r, hr, hrun⟩ := hrun
    rw [bind_eq_ok] at hrun
    obtain ⟨rs, hrs, _⟩ := hrun
    rcases List.mem_cons.mp hmem with rfl | hmem
    · simp only [reg_call, fobj_method_register_impl] at hr
      rw [bind_eq_ok] at hr
      obtain ⟨rt1, hr, _⟩ := hr
      rw [bind_eq_ok] at hr
      obtain ⟨u, _, hr⟩ := hr
      rw [bind_eq_ok] at hr
      obtain ⟨u, _, hr⟩ := hr
      rw [bind_eq_ok] at hr
      obtain ⟨u, hk, _⟩ := hr
      rw [ft_dbg_assert_eq_ok] at hk
      have := hk hd
      simp at this
    · exact ih r.2.2 rs hrs m f hmem

/-- C2. Super-call: in every reachable registry state with parents registered
before their children and no impl installed on the null klass handle (which
debug assertions exclude), for a
live object whose klass chain contains `for_child`, `fobj_method_search` with
that `for_child` walks from the parent of `for_child`: it returns the impl of
the nearest proper ancestor of `for_child` that has one for the method, and
`(NULL, NULL)` when `for_child` has no parent or no proper ancestor has one;
with debug assertions on, a `for_child` that is not on the chain of the object
aborts on the assertion of line 212. -/
theorem fobj_method_search_super_call (env : fobj_env) (fuel0 : Nat) (calls : List RegCall)
    (outs : List (Bool × Nat × fobj_runtime)) (rt : fobj_runtime)
    (hrun : reg_run env fuel0 fobj_runtime.initialized calls = Except.ok outs)
    (hrt : rt = reg_final fobj_runtime.initialized outs)
    (hpar : ∀ k, 0 < k → k ≤ rt.fobj_klasses_n → (rt.fobj_klasses k).parent < k)
    (hnull : env.ft_dbg_enabled = true ∨ ∀ m f, RegCall.register_impl 0 m f ∉ calls)
    (heap : fobj_heap) (self : Nat) (hdr : fobj_header) (hself : self ≠ 0)
    (hhdr : heap self = some hdr) (hmagic : hdr.magic = FOBJ_HEADER_MAGIC)
    (hk1 : 0 < hdr.klass) (hk2 : hdr.klass ≤ rt.fobj_klasses_n)
    (hlive : hdr.flags &&& FOBJ_DISPOSED = 0)
    (meth : Nat) (hm1 : 0 < meth) (hm2 : meth ≤ rt.fobj_methods_n)
    (hmd : meth ≠ env.fobjDispose__mh) (for_child : Nat) (hfc : for_child ≠ 0)
    (validate : Bool) (fuel : Nat)
    (hf1 : rt.fobj_impls_n < fuel) (hf2 : rt.fobj_klasses_n < fuel) :
    (for_child ∈ klass_chain rt FOBJ_OBJ_MAX_KLASSES hdr.klass →
      fobj_method_search env fuel rt heap self meth for_child validate
        = Except.ok (dispatch_spec (install_log calls outs) self meth
            (klass_chain rt FOBJ_OBJ_MAX_KLASSES (rt.fobj_klasses for_child).parent))) ∧
    (for_child ∈ klass_chain rt FOBJ_OBJ_MAX_KLASSES hdr.klass →
      (rt.fobj_klasses for_child).parent = 0 →
      fobj_method_search env fuel rt heap self meth for_child validate = Except.ok (0, 0)) ∧
    (env.ft_dbg_enabled = true →
      for_child ∉ klass_chain rt FOBJ_OBJ_MAX_KLASSES hdr.klass →
      fobj_method_search env fuel rt heap self meth for_child validate
        = Except.error (Fault.abort 212)) := by
  subst hrt
  have h := reg_run_initialized env fuel0 calls outs hrun
  have hn := h.klass.n_lt
  have h0 : ∀ m, installed (install_log calls outs) 0 m = 0 := fun m =>
    installed_eq_zero _ 0 m
      (install_log_klass_pos env fuel0 calls _ [] [] outs (RegInv_initialized env) hrun
        (hnull.elim (fun hd => reg_run_dbg_no_null env fuel0 hd calls _ outs hrun) id))
  have hwalk := for_child_loop_spec _ hn hpar for_child hfc fuel hdr.klass FOBJ_OBJ_MAX_KLASSES
    hk2 (by omega) (by omega)
  have hmain : for_child ∈ klass_chain (reg_final fobj_runtime.initialized outs)
        FOBJ_OBJ_MAX_KLASSES hdr.klass →
      fobj_method_search env fuel (reg_final fobj_runtime.initialized outs) heap self meth
          for_child validate
        = Except.ok (dispatch_spec (install_log calls outs) self meth
            (klass_chain (reg_final fobj_runtime.initialized outs) FOBJ_OBJ_MAX_KLASSES
              ((reg_final fobj_runtime.initialized outs).fobj_klasses for_child).parent)) := by
    intro hmem
    obtain ⟨c1, c2⟩ := klass_chain_mem _ hpar _ _ _ hk2 hmem
    rw [fobj_method_search_entry env _ h.state_ne heap self hdr hself hhdr hmagic hk1 hk2 hlive
      meth hm1 hm2 hmd for_child validate fuel]
    have hkl : klass_at (reg_final fobj_runtime.initialized outs) for_child
        = Except.ok ((reg_final fobj_runtime.initialized outs).fobj_klasses for_child) :=
      klass_at_of_lt _ _ (by omega)
    cases hd : env.ft_dbg_enabled
    · simp only [ne_eq, hfc, not_false_eq_true, if_true, Bool.false_eq_true, if_false,
        pure_eq_ok, ok_bind, hkl]
      exact method_search_from_parent h hpar h0 self meth fuel for_child hf1 hf2 c1 (by omega)
    · simp only [ne_eq, hfc, not_false_eq_true, if_true, hwalk, hmem, ok_bind,
        beq_self_eq_true, ft_assert_true, pure_eq_ok, hkl]
      exact method_search_from_parent h hpar h0 self meth fuel for_child hf1 hf2 c1 (by omega)
  refine ⟨hmain, ?_, ?_⟩
  · intro hmem hp0
    rw [hmain hmem, hp0, klass_chain_zero]
    rfl
  · intro hd hmem
    rw [fobj_method_search_entry env _ h.state_ne heap self hdr hself hhdr hmagic hk1 hk2 hlive
      meth hm1 hm2 hmd for_child validate fuel]
    have hne : (0 == for_child) = false := by
      simpa using Ne.symm hfc
    simp only [ne_eq, hfc, not_false_eq_true, if_true, hd, hwalk, hmem, if_false, ok_bind, hne,
      ft_assert_false, error_bind]

/-- Witness of C2 on the scenario: the super-call from `B` on an object of
klass `B` skips the override on `B` and returns the impl `101` of `A`. -/
theorem fobj_method_search_super_call_witness :
    fobj_method_search scenario_env 8 scenario_rt scenario_heap 64 2 2 true
      = Except.ok (64, 101) :=
  ((fobj_method_search_super_call scenario_env 8 scenario_calls scenario_outs scenario_rt
    (by rfl) rfl
    (by
      intro k h1 h2
      have hn : scenario_rt.fobj_klasses_n = 2 := by rfl
      rw [hn] at h2
      interval_cases k <;> decide)
    (Or.inl rfl)
    scenario_heap 64 { magic := FOBJ_HEADER_MAGIC, rc := 1, flags := 0, klass := 2 }
    (by decide) (by rfl) rfl (by decide) (by decide) (by decide) 2 (by decide) (by decide)
    (by decide) 2 (by decide) true 8 (by decide) (by decide)).1 (by decide)).trans (by rfl)

/-! ## Interning -/

/-- Interning a klass name that no handle carries, with a zeroed slot: the
call creates handle `fobj_klasses_n + 1` and installs the methods given,
unless that handle lies outside the klass table. -/
theorem klass_init_new_eq (env : fobj_env) {rt : fobj_runtime} (h : KlassInv env rt)
    (hst : rt.fobj_global_state = FOBJ_GLOBAL_STATE.FOBJ_RT_INITIALIZED)
    (fuel : Nat) (hf : rt.fobj_klasses_n < fuel) (size : Int) (parent : Nat)
    (methods : List (Nat × Nat)) (name : String)
    (hnew : ∀ k, 0 < k → k ≤ rt.fobj_klasses_n → (rt.fobj_klasses k).name ≠ some name) :
    fobj_klass_init_impl env fuel rt 0 size parent methods name =
      if rt.fobj_klasses_n + 1 < FOBJ_OBJ_MAX_KLASSES then
        (fobj_klass_init_methods env fuel (rt.fobj_klasses_n + 1)
          (fobj_klass_init_store rt (rt.fobj_klasses_n + 1) (hash32 env name) size parent name)
          methods) >>= fun rt' => Except.ok (false, rt.fobj_klasses_n + 1, rt')
      else Except.error Fault.out_of_bounds := by
  have hn := h.n_lt
  simp only [FOBJ_OBJ_MAX_KLASSES] at hn
  have hmod : (rt.fobj_klasses_n + 1) % 2 ^ 32 = rt.fobj_klasses_n + 1 :=
    Nat.mod_eq_of_lt (by omega)
  have hmod16 : (rt.fobj_klasses_n + 1) % 2 ^ 16 = rt.fobj_klasses_n + 1 :=
    Nat.mod_eq_of_lt (by omega)
  have hscan := h.scan_miss name fuel hnew hf
  unfold hash32 at hscan
  unfold fobj_klass_init_impl
  simp only [hst, beq_self_eq_true, ft_assert_true, ok_bind, ne_eq, not_true_eq_false, if_false,
    hscan, hmod, hmod16, ft_dbg_assert, gt_iff_lt, Nat.zero_lt_succ, decide_True, ite_self,
    FOBJ_OBJ_MAX_KLASSES, Nat.zero_lt_succ, klass_at, pure_eq_ok, hash32]
  split
  · rfl
  · rfl

/-- Interning a klass name that handle `k` carries, with a zeroed slot: the
call checks size and parent, returns true with `k`, and changes nothing. -/
theorem klass_init_existing_eq (env : fobj_env) {rt : fobj_runtime} (h : KlassInv env rt)
    (hst : rt.fobj_global_state = FOBJ_GLOBAL_STATE.FOBJ_RT_INITIALIZED)
    (fuel : Nat) (hf : rt.fobj_klasses_n < fuel) (size : Int) (parent : Nat)
    (methods : List (Nat × Nat)) (name : String) (k : Nat) (k1 : 0 < k)
    (k2 : k ≤ rt.fobj_klasses_n) (k3 : (rt.fobj_klasses k).name = some name) :
    fobj_klass_init_impl env fuel rt 0 size parent methods name =
      (do
        ft_assert 345 ((rt.fobj_klasses k).size == size)
        ft_assert 346 ((rt.fobj_klasses k).parent == parent)
        pure (true, k, rt)) := by
  have hn := h.n_lt
  have hscan := h.scan_hit k name fuel k1 k2 k3 hf
  unfold hash32 at hscan
  have hk0 : k ≠ 0 := by omega
  unfold fobj_klass_init_impl
  simp only [hst, beq_self_eq_true, ft_assert_true, ok_bind, ne_eq, not_true_eq_false, if_false,
    hscan, hk0, not_false_eq_true, if_true, klass_at_of_lt rt k (by omega)]

/-- After a returned klass interning call the published handle carries the
name, size and parent of the call. -/
theorem klass_init_carries (env : fobj_env) {rt rt' : fobj_runtime}
    {log : List (Nat × Nat × Nat)} {knames : List String} (h : RegInv env rt log knames)
    (fuel klass : Nat) (size : Int) (parent : Nat) (methods : List (Nat × Nat)) (name : String)
    (b : Bool) (kh : Nat)
    (hrun : fobj_klass_init_impl env fuel rt klass size parent methods name
      = Except.ok (b, kh, rt')) :
    0 < kh ∧ kh ≤ rt'.fobj_klasses_n ∧ (rt'.fobj_klasses kh).name = some name ∧
      (rt'.fobj_klasses kh).size = size ∧ (rt'.fobj_klasses kh).parent = parent := by
  obtain ⟨_, hc⟩ := klass_init_cases env h.klass fuel klass size parent methods name b kh hrun
  rcases hc with ⟨_, rfl, k1, k2, _, k3, k4, k5⟩ | ⟨_, _, rfl, hcap, hnew, hm⟩
  · exact ⟨k1, k2, k3, k4, k5⟩
  · obtain ⟨i1, _⟩ := klass_init_store_reginv env h size parent name hnew hcap
    obtain ⟨_, s2, n2, _⟩ := klass_init_methods_inv env fuel _ methods _ rt' log _ i1 hm
    have hle : rt.fobj_klasses_n + 1 ≤ (fobj_klass_init_store rt (rt.fobj_klasses_n + 1)
        (hash32 env name) size parent name).fobj_klasses_n := by
      simp [fobj_klass_init_store]
    refine ⟨Nat.succ_pos _, by rw [n2]; exact hle, ?_, ?_, ?_⟩
    · rw [s2.klass_name _ (Nat.succ_pos _) hle]; simp [fobj_klass_init_store]
    · rw [s2.klass_size _ (Nat.succ_pos _) hle]; simp [fobj_klass_init_store]
    · rw [s2.klass_parent _ (Nat.succ_pos _) hle]; simp [fobj_klass_init_store]

/-- C3. Klass interning is injective and idempotent on names, whatever the hash
function: in a sequence of registration calls from the initial tables, two
`fobj_klass_init_impl` calls with zeroed slots publish the same handle exactly
when their names are equal; a call whose name was interned before returns true,
publishes the existing handle and returns the tables unchanged; a call whose
name was not interned before returns false and publishes `fobj_klasses_n + 1`;
and with fuel above `fobj_klasses_n` these calls do return. -/
theorem fobj_klass_init_impl_interning (env : fobj_env) (fuel : Nat)
    (pre : List RegCall) (outs_pre : List (Bool × Nat × fobj_runtime)) (rt1 : fobj_runtime)
    (hpre : reg_run env fuel fobj_runtime.initialized pre = Except.ok outs_pre)
    (hrt1 : rt1 = reg_final fobj_runtime.initialized outs_pre)
    (size1 : Int) (parent1 : Nat) (methods1 : List (Nat × Nat)) (name1 : String)
    (b1 : Bool) (kh1 : Nat) (rt1' : fobj_runtime)
    (h1 : fobj_klass_init_impl env fuel rt1 0 size1 parent1 methods1 name1
      = Except.ok (b1, kh1, rt1'))
    (mid : List RegCall) (outs_mid : List (Bool × Nat × fobj_runtime)) (rt2 : fobj_runtime)
    (hmid : reg_run env fuel rt1' mid = Except.ok outs_mid)
    (hrt2 : rt2 = reg_final rt1' outs_mid)
    (size2 : Int) (parent2 : Nat) (methods2 : List (Nat × Nat)) (name2 : String)
    (b2 : Bool) (kh2 : Nat) (rt2' : fobj_runtime)
    (h2 : fobj_klass_init_impl env fuel rt2 0 size2 parent2 methods2 name2
      = Except.ok (b2, kh2, rt2')) :
    (kh1 = kh2 ↔ name1 = name2) ∧
    (name2 = name1 → b2 = true ∧ rt2' = rt2) ∧
    (name1 ∈ klass_names pre → b1 = true ∧ rt1' = rt1) ∧
    (name1 ∉ klass_names pre →
      b1 = false ∧ kh1 = rt1.fobj_klasses_n + 1 ∧ rt1'.fobj_klasses_n = rt1.fobj_klasses_n + 1) ∧
    (∀ fuel' methods, rt2.fobj_klasses_n < fuel' →
      fobj_klass_init_impl env fuel' rt2 0 size1 parent1 methods name1
        = Except.ok (true, kh1, rt2)) ∧
    (∀ fuel' size parent name, rt2.fobj_klasses_n < fuel' →
      name ∉ klass_names pre → name ≠ name1 → name ∉ klass_names mid →
      rt2.fobj_klasses_n + 1 < FOBJ_OBJ_MAX_KLASSES →
      fobj_klass_init_impl env fuel' rt2 0 size parent [] name
        = Except.ok (false, rt2.fobj_klasses_n + 1,
            fobj_klass_init_store rt2 (rt2.fobj_klasses_n + 1) (hash32 env name) size parent
              name)) := by
  subst hrt1 hrt2
  have i1 := reg_run_initialized env fuel pre outs_pre hpre
  have hc1 := klass_init_cases env i1.klass fuel 0 size1 parent1 methods1 name1 b1 kh1 h1
  have hcar1 := klass_init_carries env i1 fuel 0 size1 parent1 methods1 name1 b1 kh1 h1
  have i1' := (reg_call_inv env fuel i1 (RegCall.klass_init 0 size1 parent1 methods1 name1)
    (b1, kh1, rt1') h1).1
  obtain ⟨i2, s2⟩ := reg_run_inv env fuel mid rt1' _ _ outs_mid i1' hmid
  obtain ⟨c1, c2, c3, c4, c5⟩ := hcar1
  have d2 : kh1 ≤ (reg_final rt1' outs_mid).fobj_klasses_n := Nat.le_trans c2 s2.klasses_n_le
  have d3 : ((reg_final rt1' outs_mid).fobj_klasses kh1).name = some name1 := by
    rw [s2.klass_name kh1 c1 c2]; exact c3
  have d4 : ((reg_final rt1' outs_mid).fobj_klasses kh1).size = size1 := by
    rw [s2.klass_size kh1 c1 c2]; exact c4
  have d5 : ((reg_final rt1' outs_mid).fobj_klasses kh1).parent = parent1 := by
    rw [s2.klass_parent kh1 c1 c2]; exact c5
  obtain ⟨hst2, hc2⟩ :=
    klass_init_cases env i2.klass fuel 0 size2 parent2 methods2 name2 b2 kh2 h2
  refine ⟨?_, ?_, ?_, ?_, ?_, ?_⟩
  · rcases hc2 with ⟨_, _, k1, k2, _, k3, _⟩ | ⟨_, _, rfl, _, hnew, _⟩
    · constructor
      · intro e
        subst e
        rw [d3] at k3
        exact Option.some.inj k3
      · intro e
        subst e
        exact i2.klass.distinct kh1 kh2 c1 d2 k1 k2 (d3.trans k3.symm)
    · constructor
      · intro e; omega
      · intro e
        subst e
        exact absurd d3 (hnew kh1 c1 d2)
  · intro e
    subst e
    rcases hc2 with ⟨hb, hr, _⟩ | ⟨_, _, _, _, hnew, _⟩
    · exact ⟨hb, hr⟩
    · exact absurd d3 (hnew kh1 c1 d2)
  · intro hmem
    obtain ⟨k, k1, k2, k3⟩ := i1.names_sup name1 hmem
    rcases hc1.2 with ⟨hb, hr, _⟩ | ⟨_, _, _, _, hnew, _⟩
    · exact ⟨hb, hr⟩
    · exact absurd k3 (hnew k k1 k2)
  · intro hmem
    rcases hc1.2 with ⟨_, _, k1, k2, _, k3, _⟩ | ⟨hb, _, hk, hcap, hnew, hm⟩
    · obtain ⟨nm, n1, n2⟩ := i1.names_sub kh1 k1 k2
      rw [k3] at n2
      rw [Option.some.inj n2] at hmem
      exact absurd n1 hmem
    · obtain ⟨j1, _⟩ := klass_init_store_reginv env i1 size1 parent1 name1 hnew hcap
      obtain ⟨_, _, n2, _⟩ := klass_init_methods_inv env fuel _ methods1 _ rt1' _ _ j1 hm
      exact ⟨hb, hk, by rw [n2]; simp [fobj_klass_init_store]⟩
  · intro fuel' methods hf
    rw [klass_init_existing_eq env i2.klass hst2 fuel' hf size1 parent1 methods name1 kh1 c1 d2
      d3]
    simp [d4, d5, ft_assert_true, ok_bind, pure_eq_ok]
  · intro fuel' size parent name hf hn1 hn2 hn3 hcap
    have hnew : ∀ k, 0 < k → k ≤ (reg_final rt1' outs_mid).fobj_klasses_n →
        ((reg_final rt1' outs_mid).fobj_klasses k).name ≠ some name := by
      intro k k1 k2 k3
      obtain ⟨nm, n1, n2⟩ := i2.names_sub k k1 k2
      rw [k3] at n2
      rw [← Option.some.inj n2] at n1
      simp only [klass_names, List.mem_append, List.mem_singleton, List.append_nil] at n1
      rcases n1 with (n1 | n1) | n1
      · exact hn1 n1
      · exact hn2 n1
      · exact hn3 n1
    rw [klass_init_new_eq env i2.klass hst2 fuel' hf size parent [] name hnew, if_pos hcap]
    rfl

/-- Witness of C3 on the scenario: after it, interning `A` again and then the
new name `C` publishes different handles; `A` is found, `C` is created. -/
theorem fobj_klass_init_impl_interning_witness :
    ((1 : Nat) = 3 ↔ "A" = "C") ∧
    (fobj_klass_init_impl scenario_env 8 scenario_rt 0 16 0 [] "A"
      = Except.ok (true, 1, scenario_rt)) :=
  have h := fobj_klass_init_impl_interning scenario_env 8 scenario_calls scenario_outs
    scenario_rt (by rfl) rfl 16 0 [] "A" true 1 scenario_rt (by rfl) [] [] scenario_rt rfl rfl
    8 0 [] "C" false 3
    (fobj_klass_init_store scenario_rt 3 (hash32 scenario_env "C") 8 0 "C") (by rfl)
  ⟨h.1, h.2.2.2.2.1 8 [] (by decide)⟩

/-! ## Installation -/

/-- C6. Impl installation is idempotent: in every reachable registry state, when
the impl of `(klass, meth)` on `klass` itself is `impl`, installing
`(klass, meth, impl)` again returns the tables unchanged (so the impl counter,
every impl record, every partition head, the `first` link of the method and the
cached dispose slot of the klass stay as they are), both through
`fobj_method_register_priv` and through `fobj_method_register_impl`; and with
debug assertions on, installing a different function for a pair that has an
impl on that klass aborts on the assertion of line 387. -/
theorem fobj_method_register_priv_idempotent (env : fobj_env) (fuel0 : Nat)
    (calls : List RegCall) (outs : List (Bool × Nat × fobj_runtime)) (rt : fobj_runtime)
    (hrun : reg_run env fuel0 fobj_runtime.initialized calls = Except.ok outs)
    (hrt : rt = reg_final fobj_runtime.initialized outs)
    (klass meth impl : Nat) (hk1 : 0 < klass) (hk2 : klass ≤ rt.fobj_klasses_n)
    (hm1 : 0 < meth) (hm2 : meth ≤ rt.fobj_methods_n)
    (fuel : Nat) (hf : rt.fobj_impls_n < fuel) :
    (installed (install_log calls outs) klass meth = impl →
      fobj_method_register_priv env fuel rt klass meth impl = Except.ok rt) ∧
    (installed (install_log calls outs) klass meth = impl →
      rt.fobj_global_state = FOBJ_GLOBAL_STATE.FOBJ_RT_INITIALIZED →
      fobj_method_register_impl env fuel rt klass meth impl = Except.ok rt) ∧
    (env.ft_dbg_enabled = true → installed (install_log calls outs) klass meth ≠ 0 →
      impl ≠ installed (install_log calls outs) klass meth →
      fobj_method_register_priv env fuel rt klass meth impl = Except.error (Fault.abort 387)) ∧
    (env.ft_dbg_enabled = true → installed (install_log calls outs) klass meth ≠ 0 →
      impl ≠ installed (install_log calls outs) klass meth →
      rt.fobj_global_state = FOBJ_GLOBAL_STATE.FOBJ_RT_INITIALIZED →
      fobj_method_register_impl env fuel rt klass meth impl
        = Except.error (Fault.abort 387)) := by
  subst hrt
  have h := reg_run_initialized env fuel0 calls outs hrun
  have hn := h.klass.n_lt
  have hs := search_impl_eq h.impl meth klass fuel (by omega) hf
  have hsame : installed (install_log calls outs) klass meth = impl →
      fobj_method_register_priv env fuel (reg_final fobj_runtime.initialized outs) klass meth
        impl = Except.ok (reg_final fobj_runtime.initialized outs) := by
    intro he
    unfold fobj_method_register_priv
    rw [hs, ok_bind, he]
    simp [ft_dbg_assert, ft_assert_true, ok_bind, pure_eq_ok]
  have hdiff : env.ft_dbg_enabled = true → installed (install_log calls outs) klass meth ≠ 0 →
      impl ≠ installed (install_log calls outs) klass meth →
      fobj_method_register_priv env fuel (reg_final fobj_runtime.initialized outs) klass meth
        impl = Except.error (Fault.abort 387) := by
    intro hd h0 hne
    unfold fobj_method_register_priv
    rw [hs, ok_bind]
    have hc : (installed (install_log calls outs) klass meth == 0
        || installed (install_log calls outs) klass meth == impl) = false := by
      simp [h0, Ne.symm hne]
    simp only [ft_dbg_assert, hd, if_true, hc, ft_assert_false, error_bind]
  have hentry : (reg_final fobj_runtime.initialized outs).fobj_global_state
        = FOBJ_GLOBAL_STATE.FOBJ_RT_INITIALIZED →
      fobj_method_register_impl env fuel (reg_final fobj_runtime.initialized outs) klass meth
        impl = fobj_method_register_priv env fuel (reg_final fobj_runtime.initialized outs)
          klass meth impl := by
    intro hst
    unfold fobj_method_register_impl
    simp [hst, ft_assert_true, ok_bind, ft_dbg_assert, hk1, hk2, hm1, hm2]
  exact ⟨hsame, fun he hst => (hentry hst).trans (hsame he), hdiff,
    fun hd h0 hne hst => (hentry hst).trans (hdiff hd h0 hne)⟩

/-- Witness of C6 on the scenario: installing impl `202` for `foo` on `B` a
second time returns the same tables. -/
theorem fobj_method_register_priv_idempotent_witness :
    fobj_method_register_impl scenario_env 8 scenario_rt 2 2 202 = Except.ok scenario_rt :=
  (fobj_method_register_priv_idempotent scenario_env 8 scenario_calls scenario_outs scenario_rt
    (by rfl) rfl 2 2 202 (by decide) (by decide) (by decide) (by decide) 8 (by decide)).2.1
    (by decide) (by rfl)

/-! ## Which assertions can fail -/

theorem bind_eq_error {α β : Type} (x : Except Fault α) (f : α → Except Fault β) (e : Fault) :
    (x >>= f) = Except.error e ↔
      x = Except.error e ∨ ∃ a, x = Except.ok a ∧ f a = Except.error e := by
  cases x <;> simp [bind, Except.bind]

theorem ft_assert_eq_error (line : Nat) (c : Bool) (e : Fault)
    (h : ft_assert line c = Except.error e) : e = Fault.abort line ∧ c = false := by
  cases c
  · simp only [ft_assert, Bool.false_eq_true, if_false, Except.error.injEq] at h
    exact ⟨h.symm, rfl⟩
  · simp [ft_assert] at h

theorem ft_dbg_assert_eq_error (env : fobj_env) (line : Nat) (c : Bool) (e : Fault)
    (h : ft_dbg_assert env line c = Except.error e) : e = Fault.abort line ∧ c = false := by
  unfold ft_dbg_assert at h
  split at h
  · exact ft_assert_eq_error line c e h
  · cases h

theorem klass_at_eq_error (rt : fobj_runtime) (i : Nat) (e : Fault)
    (h : klass_at rt i = Except.error e) : e = Fault.out_of_bounds := by
  unfold klass_at at h
  split at h
  · cases h
  · exact (Except.error.inj h).symm

theorem method_at_eq_error (rt : fobj_runtime) (i : Nat) (e : Fault)
    (h : method_at rt i = Except.error e) : e = Fault.out_of_bounds := by
  unfold method_at at h
  split at h
  · cases h
  · exact (Except.error.inj h).symm

theorem strcmp_eq_error (n : Option String) (name : String) (e : Fault)
    (h : strcmp_eq n name = Except.error e) : e = Fault.bad_pointer := by
  unfold strcmp_eq at h
  split at h
  · exact (Except.error.inj h).symm
  · cases h

/-- The partition scan contains no assertion. -/
theorem search_loop_no_abort (rt : fobj_runtime) (meth line : Nat) :
    ∀ fuel i, fobj_search_impl_loop rt meth fuel i ≠ Except.error (Fault.abort line) := by
  intro fuel
  induction fuel with
  | zero => intro i h; simp [fobj_search_impl_loop] at h
  | succ fuel ih =>
    intro i h
    unfold fobj_search_impl_loop at h
    rw [bind_eq_error] at h
    rcases h with h | ⟨r, _, h⟩
    · unfold impl_at at h
      split at h <;> simp at h
    · split at h
      · cases h
      · split at h
        · exact ih _ h
        · cases h

/-- The bucket scan of the klass registry contains no assertion. -/
theorem klasses_scan_no_abort (rt : fobj_runtime) (hash : Nat) (name : String) (line : Nat) :
    ∀ fuel i, fobj_klasses_hash_scan rt hash name fuel i ≠ Except.error (Fault.abort line) := by
  intro fuel
  induction fuel with
  | zero => intro i h; simp [fobj_klasses_hash_scan] at h
  | succ fuel ih =>
    intro i h
    unfold fobj_klasses_hash_scan at h
    split at h
    · cases h
    · rw [bind_eq_error] at h
      rcases h with h | ⟨r, _, h⟩
      · cases klass_at_eq_error _ _ _ h
      · split at h
        · rw [bind_eq_error] at h
          rcases h with h | ⟨b, _, h⟩
          · cases strcmp_eq_error _ _ _ h
          · split at h
            · cases h
            · exact ih _ h
        · exact ih _ h

/-- The bucket scan of the method registry contains no assertion. -/
theorem methods_scan_no_abort (rt : fobj_runtime) (hash : Nat) (name : String) (line : Nat) :
    ∀ fuel i, fobj_methods_hash_scan rt hash name fuel i ≠ Except.error (Fault.abort line) := by
  intro fuel
  induction fuel with
  | zero => intro i h; simp [fobj_methods_hash_scan] at h
  | succ fuel ih =>
    intro i h
    unfold fobj_methods_hash_scan at h
    split at h
    · cases h
    · rw [bind_eq_error] at h
      rcases h with h | ⟨r, _, h⟩
      · cases method_at_eq_error _ _ _ h
      · split at h
        · rw [bind_eq_error] at h
          rcases h with h | ⟨b, _, h⟩
          · cases strcmp_eq_error _ _ _ h
          · split at h
            · cases h
            · exact ih _ h
        · exact ih _ h

/-- The assertions of `fobj_method_register_priv` are those of lines 387 and
396. -/
theorem register_priv_abort (env : fobj_env) (fuel : Nat) (rt : fobj_runtime)
    (klass meth impl line : Nat)
    (h : fobj_method_register_priv env fuel rt klass meth impl
      = Except.error (Fault.abort line)) : line = 387 ∨ line = 396 := by
  unfold fobj_method_register_priv at h
  rw [bind_eq_error] at h
  rcases h with h | ⟨existed, _, h⟩
  · unfold fobj_search_impl at h
    rw [bind_eq_error] at h
    rcases h with h | ⟨r, _, h⟩
    · cases klass_at_eq_error _ _ _ h
    · exact absurd h (search_loop_no_abort _ _ _ _ _)
  · rw [bind_eq_error] at h
    rcases h with h | ⟨u, _, h⟩
    · have := (ft_dbg_assert_eq_error _ _ _ _ h).1
      left
      exact (Fault.abort.inj this)
    · split at h
      · cases h
      · rw [bind_eq_error] at h
        rcases h with h | ⟨u, _, h⟩
        · have := (ft_assert_eq_error _ _ _ h).1
          right
          exact (Fault.abort.inj this)
        · rw [bind_eq_error] at h
          rcases h with h | ⟨r, _, h⟩
          · cases method_at_eq_error _ _ _ h
          · rw [bind_eq_error] at h
            rcases h with h | ⟨r, _, h⟩
            · cases klass_at_eq_error _ _ _ h
            · cases h

theorem klass_init_methods_abort (env : fobj_env) (fuel kl line : Nat) :
    ∀ (methods : List (Nat × Nat)) (rt : fobj_runtime),
      fobj_klass_init_methods env fuel kl rt methods = Except.error (Fault.abort line) →
      line = 387 ∨ line = 396 := by
  intro methods
  induction methods with
  | nil => intro rt h; cases h
  | cons e methods ih =>
    intro rt h
    obtain ⟨meth, impl⟩ := e
    unfold fobj_klass_init_methods at h
    split at h
    · rw [bind_eq_error] at h
      rcases h with h | ⟨rt1, _, h⟩
      · exact register_priv_abort env fuel rt kl meth impl line h
      · exact ih rt1 h
    · cases h

/-- The assertion of line 353, `Too many klasses defined`, never fails:
whatever the tables, the handle slot and the arguments, `fobj_klass_init_impl`
does not abort on it. -/
theorem klass_init_cap_assert_dead (env : fobj_env) (fuel : Nat) (rt : fobj_runtime)
    (klass : Nat) (size : Int) (parent : Nat) (methods : List (Nat × Nat)) (name : String) :
    fobj_klass_init_impl env fuel rt klass size parent methods name
      ≠ Except.error (Fault.abort 353) := by
  intro h
  unfold fobj_klass_init_impl at h
  rw [bind_eq_error] at h
  rcases h with h | ⟨u, _, h⟩
  · cases (ft_assert_eq_error _ _ _ h).1
  · split at h
    · rw [bind_eq_error] at h
      rcases h with h | ⟨u, _, h⟩
      · cases (ft_assert_eq_error _ _ _ h).1
      · rw [bind_eq_error] at h
        rcases h with h | ⟨r, _, h⟩
        · cases klass_at_eq_error _ _ _ h
        · rw [bind_eq_error] at h
          rcases h with h | ⟨b, _, h⟩
          · cases strcmp_eq_error _ _ _ h
          · rw [bind_eq_error] at h
            rcases h with h | ⟨u, _, h⟩
            · cases (ft_assert_eq_error _ _ _ h).1
            · rw [bind_eq_error] at h
              rcases h with h | ⟨u, _, h⟩
              · cases (ft_assert_eq_error _ _ _ h).1
              · rw [bind_eq_error] at h
                rcases h with h | ⟨u, _, h⟩
                · cases (ft_assert_eq_error _ _ _ h).1
                · cases h
    · rename_i hk
      have hk0 : klass = 0 := by simpa using hk
      subst hk0
      rw [bind_eq_error] at h
      rcases h with h | ⟨found, _, h⟩
      · exact klasses_scan_no_abort _ _ _ _ _ _ h
      · split at h
        · rw [bind_eq_error] at h
          rcases h with h | ⟨r, _, h⟩
          · cases klass_at_eq_error _ _ _ h
          · rw [bind_eq_error] at h
            rcases h with h | ⟨u, _, h⟩
            · cases (ft_assert_eq_error _ _ _ h).1
            · rw [bind_eq_error] at h
              rcases h with h | ⟨u, _, h⟩
              · cases (ft_assert_eq_error _ _ _ h).1
              · cases h
        · rw [bind_eq_error] at h
          rcases h with h | ⟨u, _, h⟩
          · cases (ft_dbg_assert_eq_error _ _ _ _ h).1
          · rw [bind_eq_error] at h
            rcases h with h | ⟨u, _, h⟩
            · have := (ft_assert_eq_error _ _ _ h).2
              simp [FOBJ_OBJ_MAX_KLASSES] at this
            · rw [bind_eq_error] at h
              rcases h with h | ⟨r, _, h⟩
              · cases klass_at_eq_error _ _ _ h
              · rw [bind_eq_error] at h
                rcases h with h | ⟨rt1, _, h⟩
                · rcases klass_init_methods_abort env fuel _ 353 methods _ h with h' | h' <;>
                    cases h'
                · cases h

/-- The assertion of line 136, `Too many methods defined`, never fails. -/
theorem method_init_cap_assert_dead (env : fobj_env) (fuel : Nat) (rt : fobj_runtime)
    (meth : Nat) (name : String) :
    fobj_method_init_impl env fuel rt meth name ≠ Except.error (Fault.abort 136) := by
  intro h
  unfold fobj_method_init_impl at h
  split at h
  · rw [bind_eq_error] at h
    rcases h with h | ⟨u, _, h⟩
    · cases (ft_assert_eq_error _ _ _ h).1
    · rw [bind_eq_error] at h
      rcases h with h | ⟨r, _, h⟩
      · cases method_at_eq_error _ _ _ h
      · rw [bind_eq_error] at h
        rcases h with h | ⟨b, _, h⟩
        · cases strcmp_eq_error _ _ _ h
        · rw [bind_eq_error] at h
          rcases h with h | ⟨u, _, h⟩
          · cases (ft_assert_eq_error _ _ _ h).1
          · cases h
  · rename_i hk
    have hk0 : meth = 0 := by simpa using hk
    subst hk0
    rw [bind_eq_error] at h
    rcases h with h | ⟨found, _, h⟩
    · exact methods_scan_no_abort _ _ _ _ _ _ h
    · split at h
      · cases h
      · rw [bind_eq_error] at h
        rcases h with h | ⟨u, _, h⟩
        · cases (ft_assert_eq_error _ _ _ h).1
        · rw [bind_eq_error] at h
          rcases h with h | ⟨u, _, h⟩
          · cases (ft_dbg_assert_eq_error _ _ _ _ h).1
          · rw [bind_eq_error] at h
            rcases h with h | ⟨u, _, h⟩
            · have := (ft_assert_eq_error _ _ _ h).2
              simp [FOBJ_OBJ_MAX_METHODS] at this
            · rw [bind_eq_error] at h
              rcases h with h | ⟨r, _, h⟩
              · cases method_at_eq_error _ _ _ h
              · cases h

/-! ## The caps of the tables -/

theorem reg_run_snoc (env : fobj_env) (fuel : Nat) :
    ∀ (cs : List RegCall) (rt : fobj_runtime) (outs : List (Bool × Nat × fobj_runtime))
      (c : RegCall) (r : Bool × Nat × fobj_runtime),
      reg_run env fuel rt cs = Except.ok outs →
      reg_call env fuel (reg_final rt outs) c = Except.ok r →
      reg_run env fuel rt (cs ++ [c]) = Except.ok (outs ++ [r]) ∧
        reg_final rt (outs ++ [r]) = r.2.2 := by
  intro cs
  induction cs with
  | nil =>
    intro rt outs c r h1 h2
    simp only [reg_run, pure_eq_ok, Except.ok.injEq] at h1
    subst h1
    simp only [reg_final] at h2
    simp [reg_run, h2, ok_bind, pure_eq_ok, reg_final]
  | cons c0 cs ih =>
    intro rt outs c r h1 h2
    simp only [reg_run] at h1
    rw [bind_eq_ok] at h1
    obtain ⟨r0, hr0, h1⟩ := h1
    rw [bind_eq_ok] at h1
    obtain ⟨rs, hrs, h1⟩ := h1
    simp only [pure_eq_ok, Except.ok.injEq] at h1
    subst h1
    simp only [reg_final] at h2
    obtain ⟨g1, g2⟩ := ih r0.2.2 rs c r hrs h2
    simp [reg_run, hr0, ok_bind, g1, pure_eq_ok, reg_final, g2]

theorem name_of_injective (i j : Nat) (h : name_of i = name_of j) : i = j := by
  unfold name_of at h
  have h' := congrArg (fun s => s.data.length) h
  simpa using h'

theorem klass_names_many_klass_calls (n : Nat) (nm : String)
    (h : nm ∈ klass_names (many_klass_calls n)) : ∃ i, i < n ∧ nm = name_of (i + 1) := by
  induction n with
  | zero => simp [many_klass_calls, klass_names] at h
  | succ n ih =>
    simp only [many_klass_calls, List.range_succ, List.map_append, List.map_cons, List.map_nil,
      klass_names_append, List.mem_append] at h
    rcases h with h | h
    · obtain ⟨i, hi, e⟩ := ih h
      exact ⟨i, by omega, e⟩
    · simp only [klass_names, List.mem_singleton] at h
      exact ⟨n, by omega, h⟩

/-- The klass table can be brought to any count below its size: `n` different
names interned from the initial tables give `fobj_klasses_n = n`. -/
theorem many_klass_calls_run (env : fobj_env) :
    ∀ n, n < FOBJ_OBJ_MAX_KLASSES → ∃ outs,
      reg_run env FOBJ_OBJ_MAX_KLASSES fobj_runtime.initialized (many_klass_calls n)
        = Except.ok outs ∧
      (reg_final fobj_runtime.initialized outs).fobj_klasses_n = n ∧
      (reg_final fobj_runtime.initialized outs).fobj_global_state
        = FOBJ_GLOBAL_STATE.FOBJ_RT_INITIALIZED := by
  intro n
  induction n with
  | zero =>
    intro _
    exact ⟨[], rfl, rfl, rfl⟩
  | succ n ih =>
    intro hn
    obtain ⟨outs, h1, h2, h3⟩ := ih (by omega)
    have hinv := reg_run_initialized env _ _ outs h1
    have hnew : ∀ k, 0 < k → k ≤ (reg_final fobj_runtime.initialized outs).fobj_klasses_n →
        ((reg_final fobj_runtime.initialized outs).fobj_klasses k).name
          ≠ some (name_of (n + 1)) := by
      intro k k1 k2 k3
      obtain ⟨nm, n1, n2⟩ := hinv.names_sub k k1 k2
      rw [k3] at n2
      rw [← Option.some.inj n2] at n1
      obtain ⟨i, hi, e⟩ := klass_names_many_klass_calls n _ n1
      have := name_of_injective _ _ e
      omega
    have hcall := klass_init_new_eq env hinv.klass h3 FOBJ_OBJ_MAX_KLASSES
      (by rw [h2]; omega) 0 0 [] (name_of (n + 1)) hnew
    rw [h2, if_pos hn] at hcall
    simp only [fobj_klass_init_methods, pure_eq_ok, ok_bind] at hcall
    obtain ⟨g1, g2⟩ := reg_run_snoc env _ (many_klass_calls n) _ outs
      (RegCall.klass_init 0 0 0 [] (name_of (n + 1))) _ h1 hcall
    have hcalls : many_klass_calls (n + 1)
        = many_klass_calls n ++ [RegCall.klass_init 0 0 0 [] (name_of (n + 1))] := by
      simp [many_klass_calls, List.range_succ]
    rw [hcalls]
    refine ⟨_, g1, ?_, ?_⟩
    · rw [g2]; simp [fobj_klass_init_store]
    · rw [g2]; simpa [fobj_klass_init_store] using h3

/-- C4, as the code behaves. With 1023 klasses registered, interning one more
new name does not abort on the assertion of line 353 (`Too many klasses
defined`) but goes on to access `fobj_klasses[1024]`, which lies outside the
table. That assertion tests the handle slot, which is zero on this path, and
not the new handle: no call of `fobj_klass_init_impl`, in any state, ever
aborts on it. -/
theorem fobj_klass_init_impl_cap_overrun (env : fobj_env) :
    (∃ outs, reg_run env FOBJ_OBJ_MAX_KLASSES fobj_runtime.initialized (many_klass_calls 1023)
        = Except.ok outs ∧
      (reg_final fobj_runtime.initialized outs).fobj_klasses_n = 1023 ∧
      ∀ (size : Int) (parent : Nat) (methods : List (Nat × Nat)),
        fobj_klass_init_impl env FOBJ_OBJ_MAX_KLASSES (reg_final fobj_runtime.initialized outs)
          0 size parent methods (name_of 1024) = Except.error Fault.out_of_bounds) ∧
    ∀ (fuel : Nat) (rt : fobj_runtime) (klass : Nat) (size : Int) (parent : Nat)
      (methods : List (Nat × Nat)) (name : String),
      fobj_klass_init_impl env fuel rt klass size parent methods name
        ≠ Except.error (Fault.abort 353) := by
  refine ⟨?_, klass_init_cap_assert_dead env⟩
  obtain ⟨outs, h1, h2, h3⟩ := many_klass_calls_run env 1023 (by simp [FOBJ_OBJ_MAX_KLASSES])
  refine ⟨outs, h1, h2, ?_⟩
  intro size parent methods
  have hinv := reg_run_initialized env _ _ outs h1
  have hnew : ∀ k, 0 < k → k ≤ (reg_final fobj_runtime.initialized outs).fobj_klasses_n →
      ((reg_final fobj_runtime.initialized outs).fobj_klasses k).name
        ≠ some (name_of 1024) := by
    intro k k1 k2 k3
    obtain ⟨nm, n1, n2⟩ := hinv.names_sub k k1 k2
    rw [k3] at n2
    rw [← Option.some.inj n2] at n1
    obtain ⟨i, hi, e⟩ := klass_names_many_klass_calls 1023 _ n1
    have := name_of_injective _ _ e
    omega
  rw [klass_init_new_eq env hinv.klass h3 FOBJ_OBJ_MAX_KLASSES
    (by rw [h2]; simp [FOBJ_OBJ_MAX_KLASSES]) size parent methods (name_of 1024) hnew, h2]
  simp [FOBJ_OBJ_MAX_KLASSES]

/-- Interning a method name that no handle carries, with a zeroed slot: the
call creates handle `fobj_methods_n + 1`, unless that handle lies outside the
method table. -/
theorem method_init_new_eq (env : fobj_env) {rt : fobj_runtime} (h : MethInv env rt)
    (hst : rt.fobj_global_state = FOBJ_GLOBAL_STATE.FOBJ_RT_INITIALIZED)
    (fuel : Nat) (hf : rt.fobj_methods_n < fuel) (name : String)
    (hnew : ∀ k, 0 < k → k ≤ rt.fobj_methods_n → (rt.fobj_methods k).name ≠ some name) :
    fobj_method_init_impl env fuel rt 0 name =
      if rt.fobj_methods_n + 1 < FOBJ_OBJ_MAX_METHODS then
        Except.ok (false, rt.fobj_methods_n + 1,
          fobj_method_init_store rt (rt.fobj_methods_n + 1) (hash32 env name) name)
      else Except.error Fault.out_of_bounds := by
  have hn := h.n_lt
  simp only [FOBJ_OBJ_MAX_METHODS] at hn
  have hmod : (rt.fobj_methods_n + 1) % 2 ^ 32 = rt.fobj_methods_n + 1 :=
    Nat.mod_eq_of_lt (by omega)
  have hmod16 : (rt.fobj_methods_n + 1) % 2 ^ 16 = rt.fobj_methods_n + 1 :=
    Nat.mod_eq_of_lt (by omega)
  have hscan := h.scan_miss name fuel hnew hf
  unfold hash32 at hscan
  unfold fobj_method_init_impl
  simp only [hst, beq_self_eq_true, ft_assert_true, ok_bind, ne_eq, not_true_eq_false, if_false,
    hscan, hmod, hmod16, ft_dbg_assert, gt_iff_lt, Nat.zero_lt_succ, decide_True, ite_self,
    FOBJ_OBJ_MAX_METHODS, method_at, pure_eq_ok, hash32]
  split
  · rfl
  · rfl

/-- The method table can be brought to any count below its size. -/
theorem many_method_calls_run (env : fobj_env) :
    ∀ n, n < FOBJ_OBJ_MAX_METHODS → ∃ outs,
      reg_run env FOBJ_OBJ_MAX_METHODS fobj_runtime.initialized (many_method_calls n)
        = Except.ok outs ∧
      (reg_final fobj_runtime.initialized outs).fobj_methods_n = n ∧
      (reg_final fobj_runtime.initialized outs).fobj_global_state
        = FOBJ_GLOBAL_STATE.FOBJ_RT_INITIALIZED ∧
      ∀ k, 0 < k → k ≤ n →
        ((reg_final fobj_runtime.initialized outs).fobj_methods k).name = some (name_of k) := by
  intro n
  induction n with
  | zero =>
    intro _
    exact ⟨[], rfl, rfl, rfl, fun k k1 k2 => by omega⟩
  | succ n ih =>
    intro hn
    obtain ⟨outs, h1, h2, h3, h4⟩ := ih (by omega)
    have hinv := reg_run_initialized env _ _ outs h1
    have hnew : ∀ k, 0 < k → k ≤ (reg_final fobj_runtime.initialized outs).fobj_methods_n →
        ((reg_final fobj_runtime.initialized outs).fobj_methods k).name
          ≠ some (name_of (n + 1)) := by
      intro k k1 k2 k3
      rw [h2] at k2
      rw [h4 k k1 k2] at k3
      have := name_of_injective _ _ (Option.some.inj k3)
      omega
    have hcall := method_init_new_eq env hinv.meth h3 FOBJ_OBJ_MAX_METHODS
      (by rw [h2]; omega) (name_of (n + 1)) hnew
    rw [h2, if_pos hn] at hcall
    obtain ⟨g1, g2⟩ := reg_run_snoc env _ (many_method_calls n) _ outs
      (RegCall.method_init 0 (name_of (n + 1))) _ h1 hcall
    have hcalls : many_method_calls (n + 1)
        = many_method_calls n ++ [RegCall.method_init 0 (name_of (n + 1))] := by
      simp [many_method_calls, List.range_succ]
    rw [hcalls]
    refine ⟨_, g1, ?_, ?_, ?_⟩
    · rw [g2]; simp [fobj_method_init_store]
    · rw [g2]; simpa [fobj_method_init_store] using h3
    · intro k k1 k2
      rw [g2]
      simp only [fobj_method_init_store, Function.update_apply]
      split
      · rename_i hk; rw [hk]
      · exact h4 k k1 (by omega)

/-- C5, as the code behaves. With 1023 methods registered, interning one more
new name does not abort on the assertion of line 136 (`Too many methods
defined`) but goes on to access `fobj_methods[1024]`, which lies outside the
table. That assertion tests the handle slot, which is zero on this path, and
not the new handle: no call of `fobj_method_init_impl`, in any state, ever
aborts on it. -/
theorem fobj_method_init_impl_cap_overrun (env : fobj_env) :
    (∃ outs, reg_run env FOBJ_OBJ_MAX_METHODS fobj_runtime.initialized (many_method_calls 1023)
        = Except.ok outs ∧
      (reg_final fobj_runtime.initialized outs).fobj_methods_n = 1023 ∧
      fobj_method_init_impl env FOBJ_OBJ_MAX_METHODS (reg_final fobj_runtime.initialized outs)
        0 (name_of 1024) = Except.error Fault.out_of_bounds) ∧
    ∀ (fuel : Nat) (rt : fobj_runtime) (meth : Nat) (name : String),
      fobj_method_init_impl env fuel rt meth name ≠ Except.error (Fault.abort 136) := by
  refine ⟨?_, method_init_cap_assert_dead env⟩
  obtain ⟨outs, h1, h2, h3, h4⟩ :=
    many_method_calls_run env 1023 (by simp [FOBJ_OBJ_MAX_METHODS])
  refine ⟨outs, h1, h2, ?_⟩
  have hinv := reg_run_initialized env _ _ outs h1
  have hnew : ∀ k, 0 < k → k ≤ (reg_final fobj_runtime.initialized outs).fobj_methods_n →
      ((reg_final fobj_runtime.initialized outs).fobj_methods k).name
        ≠ some (name_of 1024) := by
    intro k k1 k2 k3
    rw [h2] at k2
    rw [h4 k k1 k2] at k3
    have := name_of_injective _ _ (Option.some.inj k3)
    omega
  rw [method_init_new_eq env hinv.meth h3 FOBJ_OBJ_MAX_METHODS
    (by rw [h2]; simp [FOBJ_OBJ_MAX_METHODS]) (name_of 1024) hnew, h2]
  simp [FOBJ_OBJ_MAX_METHODS]

/-! ## Reference counting and dispose -/

theorem and_disposing_ne_zero (x : Nat) : x &&& FOBJ_DISPOSING ≠ 0 ↔ x.testBit 0 = true := by
  have h := Nat.and_two_pow x 0
  simp only [pow_zero, mul_one] at h
  unfold FOBJ_DISPOSING
  rw [h]
  cases x.testBit 0 <;> simp

theorem and_disposed_ne_zero (x : Nat) : x &&& FOBJ_DISPOSED ≠ 0 ↔ x.testBit 1 = true := by
  have h := Nat.and_two_pow x 1
  simp only [pow_one] at h
  unfold FOBJ_DISPOSED
  rw [h]
  cases x.testBit 1 <;> simp

theorem set_disposing (x : Nat) : (x ||| FOBJ_DISPOSING) % 2 ^ 16 &&& FOBJ_DISPOSING ≠ 0 := by
  rw [and_disposing_ne_zero, Nat.testBit_mod_two_pow, Nat.testBit_or]
  have h : Nat.testBit FOBJ_DISPOSING 0 = true := by decide
  simp [h]

theorem set_disposed (x : Nat) : (x ||| FOBJ_DISPOSED) % 2 ^ 16 &&& FOBJ_DISPOSED ≠ 0 := by
  rw [and_disposed_ne_zero, Nat.testBit_mod_two_pow, Nat.testBit_or]
  have h : Nat.testBit FOBJ_DISPOSED 1 = true := by decide
  simp [h]

theorem keep_disposing (x : Nat) (h : x &&& FOBJ_DISPOSING ≠ 0) :
    (x ||| FOBJ_DISPOSED) % 2 ^ 16 &&& FOBJ_DISPOSING ≠ 0 := by
  rw [and_disposing_ne_zero] at h ⊢
  rw [Nat.testBit_mod_two_pow, Nat.testBit_or, h]
  simp

/-- Within the dispose chain of an object (DISPOSING set) `fobj_release` on it
only decrements the reference count. -/
theorem fobj_release_disposing (env : fobj_env) (rt : fobj_runtime) (body : fobj_hooks)
    (hst : rt.fobj_global_state ≠ FOBJ_GLOBAL_STATE.FOBJ_RT_NOT_INITIALIZED)
    (hn : rt.fobj_klasses_n < FOBJ_OBJ_MAX_KLASSES)
    (heap0 : fobj_heap) (self : Nat) (hself : self ≠ 0) (hdr : fobj_header)
    (hmagic : hdr.magic = FOBJ_HEADER_MAGIC) (hk1 : 0 < hdr.klass)
    (hk2 : hdr.klass ≤ rt.fobj_klasses_n) (hd : hdr.flags &&& FOBJ_DISPOSING ≠ 0)
    (fuel : Nat) (tr : List fobj_event) :
    fobj_release env rt body (fuel + 1)
        { heap := Function.update heap0 self (some hdr), trace := tr } self
      = Except.ok
          { heap := Function.update heap0 self
              (some { hdr with rc := uint32_dec hdr.rc })
            trace := tr } := by
  have hs : (rt.fobj_global_state != FOBJ_GLOBAL_STATE.FOBJ_RT_NOT_INITIALIZED) = true := by
    simpa using hst
  have hkdec : decide (hdr.klass > 0 ∧ hdr.klass ≤ rt.fobj_klasses_n) = true := by
    simp [hk1, hk2]
  have hmg : (hdr.magic == FOBJ_HEADER_MAGIC) = true := by simp [hmagic]
  unfold fobj_release
  simp only [hs, ft_assert_true, ok_bind, if_neg hself, header_of, Function.update_same,
    c_assert, hmg, ite_self, ft_dbg_assert, hkdec, klass_at_of_lt rt hdr.klass (by omega),
    fobj_mem.set_header, Function.update_idem, pure_eq_ok, ne_eq, hd, not_false_eq_true,
    if_true]

/-- On a live object of a registered klass `fobj_ref` increments the
reference count. -/
theorem fobj_ref_live (env : fobj_env) (rt : fobj_runtime)
    (heap0 : fobj_heap) (self : Nat) (hself : self ≠ 0) (hdr : fobj_header)
    (hmagic : hdr.magic = FOBJ_HEADER_MAGIC) (hk1 : 0 < hdr.klass)
    (hk2 : hdr.klass ≤ rt.fobj_klasses_n) (tr : List fobj_event) :
    fobj_ref env rt { heap := Function.update heap0 self (some hdr), trace := tr } self
      = Except.ok
          { heap := Function.update heap0 self (some { hdr with rc := uint32_inc hdr.rc })
            trace := tr } := by
  have hkdec : decide (hdr.klass > 0 ∧ hdr.klass ≤ rt.fobj_klasses_n) = true := by
    simp [hk1, hk2]
  have hmg : (hdr.magic == FOBJ_HEADER_MAGIC) = true := by simp [hmagic]
  unfold fobj_ref
  simp only [if_neg hself, header_of, Function.update_same, ok_bind, c_assert, hmg, ite_self,
    ft_assert_true, hkdec, fobj_mem.set_header, Function.update_idem, pure_eq_ok]

/-- A dispose function body that refs and releases the object under disposal
changes its reference count and nothing else. -/
theorem run_hook_ops_self (env : fobj_env) (rt : fobj_runtime) (body : fobj_hooks)
    (hst : rt.fobj_global_state ≠ FOBJ_GLOBAL_STATE.FOBJ_RT_NOT_INITIALIZED)
    (hn : rt.fobj_klasses_n < FOBJ_OBJ_MAX_KLASSES)
    (heap0 : fobj_heap) (self : Nat) (hself : self ≠ 0) (fuel : Nat) (tr : List fobj_event) :
    ∀ (ops : List HookOp) (hdr : fobj_header), hdr.magic = FOBJ_HEADER_MAGIC →
      0 < hdr.klass → hdr.klass ≤ rt.fobj_klasses_n → hdr.flags &&& FOBJ_DISPOSING ≠ 0 →
      (∀ op, op ∈ ops → op = HookOp.ref self ∨ op = HookOp.release self) →
      run_hook_ops env rt (fobj_release env rt body (fuel + 1))
          { heap := Function.update heap0 self (some hdr), trace := tr } ops
        = Except.ok
            { heap := Function.update heap0 self (some { hdr with rc := hook_rc ops hdr.rc })
              trace := tr } := by
  intro ops
  induction ops with
  | nil => intro hdr _ _ _ _ _; rfl
  | cons op ops ih =>
    intro hdr hmagic hk1 hk2 hd hops
    have hrest : ∀ op', op' ∈ ops → op' = HookOp.ref self ∨ op' = HookOp.release self :=
      fun op' h' => hops op' (List.mem_cons_of_mem _ h')
    rcases hops op (List.mem_cons_self _ _) with rfl | rfl
    · simp only [run_hook_ops, hook_rc]
      rw [fobj_ref_live env rt heap0 self hself hdr hmagic hk1 hk2 tr, ok_bind]
      exact ih _ hmagic hk1 hk2 hd hrest
    · simp only [run_hook_ops, hook_rc]
      rw [fobj_release_disposing env rt body hst hn heap0 self hself hdr hmagic hk1 hk2 hd fuel
        tr, ok_bind]
      exact ih _ hmagic hk1 hk2 hd hrest

theorem dispose_fns_cons (rt : fobj_runtime) (k : Nat) (chain : List Nat) :
    dispose_fns rt (k :: chain) =
      if (rt.fobj_klasses k).dispose ≠ 0 then (rt.fobj_klasses k).dispose :: dispose_fns rt chain
      else dispose_fns rt chain := by
  unfold dispose_fns
  by_cases h : (rt.fobj_klasses k).dispose = 0 <;> simp [List.filter_cons, h]

theorem hook_rc_append (ops1 ops2 : List HookOp) (rc : Nat) :
    hook_rc (ops1 ++ ops2) rc = hook_rc ops2 (hook_rc ops1 rc) := by
  induction ops1 generalizing rc with
  | nil => rfl
  | cons op ops ih =>
    cases op
    · simp only [List.cons_append, hook_rc]
      exact ih _
    · simp only [List.cons_append, hook_rc]
      exact ih _

/-- The dispose walk from a registered klass calls the dispose functions
cached on its chain, child first, each once. -/
theorem fobj__dispose_req_chain (env : fobj_env) (rt : fobj_runtime) (body : fobj_hooks)
    (hst : rt.fobj_global_state ≠ FOBJ_GLOBAL_STATE.FOBJ_RT_NOT_INITIALIZED)
    (hn : rt.fobj_klasses_n < FOBJ_OBJ_MAX_KLASSES)
    (hpar : ∀ k, 0 < k → k ≤ rt.fobj_klasses_n → (rt.fobj_klasses k).parent < k)
    (heap0 : fobj_heap) (self : Nat) (hself : self ≠ 0) (rfuel : Nat) (klass0 : Nat)
    (hk01 : 0 < klass0) (hk02 : klass0 ≤ rt.fobj_klasses_n) (magic flags : Nat)
    (hmagic : magic = FOBJ_HEADER_MAGIC) (hd : flags &&& FOBJ_DISPOSING ≠ 0) :
    ∀ fuel k cf rc tr, 0 < k → k ≤ rt.fobj_klasses_n → k ≤ fuel → k ≤ cf →
      (∀ fn op, fn ∈ dispose_fns rt (klass_chain rt cf k) → op ∈ body fn self →
        op = HookOp.ref self ∨ op = HookOp.release self) →
      fobj__dispose_req env rt body (fobj_release env rt body (rfuel + 1)) self fuel
          (rt.fobj_klasses k)
          { heap := Function.update heap0 self
              (some { magic := magic, rc := rc, flags := flags, klass := klass0 })
            trace := tr }
        = Except.ok
            { heap := Function.update heap0 self
                (some { magic := magic
                        rc := hook_rc (hook_ops body self
                          (dispose_fns rt (klass_chain rt cf k))) rc
                        flags := flags, klass := klass0 })
              trace := tr ++ (dispose_fns rt (klass_chain rt cf k)).map
                (fun fn => fobj_event.dispose fn self) } := by
  intro fuel
  induction fuel with
  | zero => intro k cf rc tr h1 _ h3; omega
  | succ fuel ih =>
    intro k cf rc tr h1 h2 h3 h4 hops
    obtain ⟨c, rfl⟩ : ∃ c, cf = c + 1 := ⟨cf - 1, by omega⟩
    have hp := hpar k h1 h2
    rw [klass_chain_succ rt c k (by omega)] at hops ⊢
    rw [dispose_fns_cons] at hops ⊢
    unfold fobj__dispose_req
    by_cases hfn : (rt.fobj_klasses k).dispose = 0
    · simp only [hfn, ne_eq, not_true_eq_false, if_false, pure_eq_ok, ok_bind] at hops ⊢
      by_cases hp0 : (rt.fobj_klasses k).parent = 0
      · simp [hp0, klass_chain_zero, dispose_fns, hook_ops, hook_rc]
      · simp only [hp0, if_false, klass_at_of_lt rt _ (show (rt.fobj_klasses k).parent
          < FOBJ_OBJ_MAX_KLASSES by omega), ok_bind]
        exact ih _ c rc tr (Nat.pos_of_ne_zero hp0) (by omega) (by omega) (by omega) hops
    · simp only [ne_eq, hfn, not_false_eq_true, if_true] at hops ⊢
      have hbody : ∀ op, op ∈ body (rt.fobj_klasses k).dispose self →
          op = HookOp.ref self ∨ op = HookOp.release self :=
        fun op hop => hops _ op (List.mem_cons_self _ _) hop
      have hrest : ∀ fn op,
          fn ∈ dispose_fns rt (klass_chain rt c (rt.fobj_klasses k).parent) →
          op ∈ body fn self → op = HookOp.ref self ∨ op = HookOp.release self :=
        fun fn op hfn' hop => hops fn op (List.mem_cons_of_mem _ hfn') hop
      unfold call_dispose
      rw [run_hook_ops_self env rt body hst hn heap0 self hself rfuel _ _ _ hmagic hk01 hk02 hd
        hbody, ok_bind]
      simp only [hook_ops, List.map_cons, List.flatten_cons, hook_rc_append, List.append_assoc,
        List.singleton_append]
      by_cases hp0 : (rt.fobj_klasses k).parent = 0
      · simp [hp0, klass_chain_zero, dispose_fns, hook_rc, pure_eq_ok]
      · simp only [hp0, if_false, klass_at_of_lt rt _ (show (rt.fobj_klasses k).parent
          < FOBJ_OBJ_MAX_KLASSES by omega), ok_bind]
        have := ih _ c (hook_rc (body (rt.fobj_klasses k).dispose self) rc)
          (tr ++ [fobj_event.dispose (rt.fobj_klasses k).dispose self])
          (Nat.pos_of_ne_zero hp0) (by omega) (by omega) (by omega) hrest
        simpa [hook_ops, List.append_assoc] using this

theorem fobj_mem_eta (m : fobj_mem) (self : Nat) (hdr : fobj_header)
    (h : m.heap self = some hdr) :
    m = { heap := Function.update m.heap self (some hdr), trace := m.trace } := by
  cases m
  simp only [fobj_mem.mk.injEq, and_true]
  rw [← h, Function.update_eq_self]

/-- The dispose chain for dispose functions that only ref and release the
object under disposal: when `fobj_release` drops the reference count of an
object of klass `k` from 1 to 0 and DISPOSING is not set, the dispose functions
cached on `k`, `parent(k)`, ..., root are called in that order, each once,
klasses without one being skipped, and nothing else is recorded; afterwards,
if the count is zero, the header is zeroed and the allocation freed, and
otherwise the object stays, DISPOSING and DISPOSED set. -/
theorem release_chain_self_hooks (env : fobj_env) (rt : fobj_runtime) (body : fobj_hooks)
    (hst : rt.fobj_global_state ≠ FOBJ_GLOBAL_STATE.FOBJ_RT_NOT_INITIALIZED)
    (hn : rt.fobj_klasses_n < FOBJ_OBJ_MAX_KLASSES)
    (hpar : ∀ k, 0 < k → k ≤ rt.fobj_klasses_n → (rt.fobj_klasses k).parent < k)
    (m : fobj_mem) (self : Nat) (hself : self ≠ 0) (hdr : fobj_header)
    (hhdr : m.heap self = some hdr) (hmagic : hdr.magic = FOBJ_HEADER_MAGIC)
    (hk1 : 0 < hdr.klass) (hk2 : hdr.klass ≤ rt.fobj_klasses_n)
    (hrc : hdr.rc = 1) (hflag : hdr.flags &&& FOBJ_DISPOSING = 0)
    (hhooks : ∀ fn op,
      fn ∈ dispose_fns rt (klass_chain rt FOBJ_OBJ_MAX_KLASSES hdr.klass) →
      op ∈ body fn self → op = HookOp.ref self ∨ op = HookOp.release self)
    (fuel : Nat) (hfuel : hdr.klass < fuel) :
    fobj_release env rt body fuel m self = Except.ok
      (if hook_rc (hook_ops body self
            (dispose_fns rt (klass_chain rt FOBJ_OBJ_MAX_KLASSES hdr.klass))) 0 = 0 then
        { heap := Function.update m.heap self none
          trace := m.trace
            ++ (dispose_fns rt (klass_chain rt FOBJ_OBJ_MAX_KLASSES hdr.klass)).map
                (fun fn => fobj_event.dispose fn self)
            ++ [fobj_event.free self fobj_header.zero] }
      else
        { heap := Function.update m.heap self
            (some { hdr with
              rc := hook_rc (hook_ops body self
                (dispose_fns rt (klass_chain rt FOBJ_OBJ_MAX_KLASSES hdr.klass))) 0
              flags := ((hdr.flags ||| FOBJ_DISPOSING) % 2 ^ 16 ||| FOBJ_DISPOSED) % 2 ^ 16 })
          trace := m.trace
            ++ (dispose_fns rt (klass_chain rt FOBJ_OBJ_MAX_KLASSES hdr.klass)).map
                (fun fn => fobj_event.dispose fn self) }) := by
  obtain ⟨f, rfl⟩ : ∃ f, fuel = f + 1 := ⟨fuel - 1, by omega⟩
  obtain ⟨g, rfl⟩ : ∃ g, f = g + 1 := ⟨f - 1, by omega⟩
  have hs : (rt.fobj_global_state != FOBJ_GLOBAL_STATE.FOBJ_RT_NOT_INITIALIZED) = true := by
    simpa using hst
  have hkdec : decide (hdr.klass > 0 ∧ hdr.klass ≤ rt.fobj_klasses_n) = true := by
    simp [hk1, hk2]
  have hmg : (hdr.magic == FOBJ_HEADER_MAGIC) = true := by simp [hmagic]
  have hdec : uint32_dec hdr.rc = 0 := by rw [hrc]; decide
  have hchain := fobj__dispose_req_chain env rt body hst hn hpar m.heap self hself g hdr.klass
    hk1 hk2 hdr.magic ((hdr.flags ||| FOBJ_DISPOSING) % 2 ^ 16) hmagic (set_disposing _)
    (g + 1) hdr.klass FOBJ_OBJ_MAX_KLASSES 0 m.trace hk1 hk2 (by omega) (by omega) hhooks
  rw [fobj_mem_eta m self hdr hhdr]
  unfold fobj_release
  simp only [hs, ft_assert_true, ok_bind, if_neg hself, header_of, Function.update_same,
    c_assert, hmg, ite_self, ft_dbg_assert, hkdec, klass_at_of_lt rt hdr.klass (by omega),
    fobj_mem.set_header, Function.update_idem, pure_eq_ok, ne_eq, hdec, not_true_eq_false,
    if_false, hflag, fobj__do_dispose, hchain]
  split
  · rfl
  · rfl

/-- An object of klass `Q` whose dispose function refs and releases it; both
dispose functions run once, `Q` before `P`, and the object is freed with a
zeroed header. -/
theorem release_chain_self_hooks_example :
    Except.map fobj_mem.trace (fobj_release scenario_env dispose_rt dispose_body 3 dispose_mem 64)
      = Except.ok [fobj_event.dispose 72 64, fobj_event.dispose 71 64,
          fobj_event.free 64 fobj_header.zero] :=
  (congrArg (Except.map fobj_mem.trace)
    (release_chain_self_hooks scenario_env dispose_rt dispose_body (by decide) (by decide)
      (by
        intro k h1 h2
        have hn : dispose_rt.fobj_klasses_n = 2 := by rfl
        rw [hn] at h2
        interval_cases k <;> decide)
      dispose_mem 64 (by decide)
      { magic := FOBJ_HEADER_MAGIC, rc := 1, flags := 0, klass := 2 } (by rfl) rfl (by decide)
      (by decide) rfl (by decide)
      (by
        intro fn op hfn hop
        have hf : dispose_fns dispose_rt (klass_chain dispose_rt FOBJ_OBJ_MAX_KLASSES 2)
            = [72, 71] := by rfl
        rw [hf] at hfn
        simp only [List.mem_cons, List.mem_singleton, List.not_mem_nil, or_false] at hfn
        rcases hfn with rfl | rfl
        · simp only [dispose_body, if_true, List.mem_cons, List.mem_singleton,
            List.not_mem_nil, or_false] at hop
          exact hop
        · simp [dispose_body] at hop)
      3 (by decide))).trans (by rfl)

/-- C8, as the code behaves. An object of klass `Q` whose dispose
function keeps a reference: after the chain the object is live with count 1
and both flags set; when that last reference is dropped, `fobj_release` sees
DISPOSING and returns: the count is zero, the object is still allocated, and
no `ft_free` was ever called. -/
theorem fobj_release_resurrected_leaks :
    fobj_release scenario_env dispose_rt resurrect_body 3 dispose_mem 64
      = Except.ok resurrect_mem ∧
    resurrect_mem.heap 64
      = some { magic := FOBJ_HEADER_MAGIC, rc := 1, flags := 3, klass := 2 } ∧
    Except.map (fun m => (m.heap 64, m.trace))
        (fobj_release scenario_env dispose_rt resurrect_body 3 resurrect_mem 64)
      = Except.ok (some { magic := FOBJ_HEADER_MAGIC, rc := 0, flags := 3, klass := 2 },
          [fobj_event.dispose 72 64, fobj_event.dispose 71 64]) :=
  ⟨by rfl, by rfl, by rfl⟩

/-! ## Autorelease pools -/

theorem ChunkChain_frame (st st' : fobj_ar) {S p : Nat} :
    ∀ (addrs : List Nat) (ptr : Option chunk_ptr),
      (∀ a, a ∈ addrs → st'.chunks a = st.chunks a) → st.brk ≤ st'.brk →
      ChunkChain st S p ptr addrs → ChunkChain st' S p ptr addrs := by
  intro addrs
  induction addrs with
  | nil => intro ptr _ _ h; exact h
  | cons a addrs ih =>
    intro ptr hc hb h
    obtain ⟨h1, h2, h3, c, h4, h5, h6⟩ := h
    refine ⟨h1, h2, by omega, c, ?_, h5, ?_⟩
    · rw [hc a (List.mem_cons_self _ _)]; exact h4
    · exact ih _ (fun a' ha' => hc a' (List.mem_cons_of_mem _ ha')) hb h6

theorem spill_items_frame (st st' : fobj_ar) :
    ∀ (addrs : List Nat), (∀ a, a ∈ addrs → st'.chunks a = st.chunks a) →
      spill_items st' addrs = spill_items st addrs := by
  intro addrs
  induction addrs with
  | nil => intro _; rfl
  | cons a addrs ih =>
    intro hc
    simp only [spill_items]
    rw [hc a (List.mem_cons_self _ _), ih (fun a' ha' => hc a' (List.mem_cons_of_mem _ ha'))]

theorem ChunkChain_lt_brk {st : fobj_ar} {S p : Nat} :
    ∀ (addrs : List Nat) (ptr : Option chunk_ptr), ChunkChain st S p ptr addrs →
      ∀ a, a ∈ addrs → a < st.brk := by
  intro addrs
  induction addrs with
  | nil => intro _ _ a ha; cases ha
  | cons a0 addrs ih =>
    intro ptr h a ha
    obtain ⟨_, _, h3, c, _, _, h6⟩ := h
    rcases List.mem_cons.mp ha with rfl | ha
    · exact h3
    · exact ih _ h6 a ha

theorem chunk_items_push (c : fobj_autorelease_chunk) (obj : Nat) :
    chunk_items { c with refs := Function.update c.refs c.cnt obj, cnt := c.cnt + 1 }
      = chunk_items c ++ [obj] := by
  simp only [chunk_items, List.range_succ, List.map_append, List.map_cons, List.map_nil,
    Function.update_same]
  congr 1
  apply List.map_congr_left
  intro i hi
  rw [Function.update_noteq]
  have := List.mem_range.mp hi
  omega

theorem chunk_items_pop (c : fobj_autorelease_chunk) (n : Nat) (hn : c.cnt = n + 1) :
    (chunk_items c).reverse
      = c.refs n :: (chunk_items { c with cnt := n, refs := Function.update c.refs n 0 }).reverse
      := by
  simp only [chunk_items, hn, List.range_succ, List.map_append, List.map_cons, List.map_nil,
    List.reverse_append, List.reverse_cons, List.reverse_nil, List.nil_append,
    List.singleton_append, List.cons.injEq, true_and]
  congr 1
  apply List.map_congr_left
  intro i hi
  rw [Function.update_noteq]
  have := List.mem_range.mp hi
  omega

theorem drain_step_first_done (p fuel : Nat) (st : fobj_ar) (pool : fobj_autorelease_pool)
    (hp : st.pools p = some pool) (hl : pool.last = some (chunk_ptr.first_of p))
    (hc : pool.first.cnt = 0) :
    fobj_autorelease_pool_drain p (fuel + 1) st = Except.ok st := by
  unfold fobj_autorelease_pool_drain
  simp [pool_at, hp, ok_bind, hl, chunk_at, pure_eq_ok, hc]

theorem drain_step_first_pop (p fuel : Nat) (st : fobj_ar) (pool : fobj_autorelease_pool)
    (n : Nat) (hp : st.pools p = some pool) (hl : pool.last = some (chunk_ptr.first_of p))
    (hc : pool.first.cnt = n + 1) :
    fobj_autorelease_pool_drain p (fuel + 1) st =
      fobj_autorelease_pool_drain p fuel
        { st with
          pools := Function.update st.pools p
            (some { pool with
              first := { pool.first with
                cnt := n, refs := Function.update pool.first.refs n 0 } })
          released := st.released ++ [pool.first.refs n] } := by
  rw [fobj_autorelease_pool_drain]
  simp only [pool_at, hp, ok_bind, hl, ne_eq, not_true_eq_false, if_false, chunk_at, pure_eq_ok,
    hc, Nat.succ_ne_zero, not_false_eq_true, decide_True, if_true, chunk_set,
    Nat.add_sub_cancel, fobj_del, Function.update_same, Function.update_idem]

theorem drain_step_spill_free (p fuel : Nat) (st : fobj_ar) (pool : fobj_autorelease_pool)
    (a : Nat) (c : fobj_autorelease_chunk)
    (hp : st.pools p = some pool) (hl : pool.last = some (chunk_ptr.spill a))
    (hch : st.chunks a = some c) (hc : c.cnt = 0) :
    fobj_autorelease_pool_drain p (fuel + 1) st =
      fobj_autorelease_pool_drain p fuel
        { st with
          pools := Function.update st.pools p (some { pool with last := c.prev })
          chunks := Function.update st.chunks a none } := by
  rw [fobj_autorelease_pool_drain]
  simp only [pool_at, hp, ok_bind, hl, ne_eq, Option.some.injEq, not_false_eq_true, if_true,
    pure_eq_ok, chunk_at, hch, hc, chunk_free, reduceCtorEq]

theorem drain_step_spill_pop (p fuel : Nat) (st : fobj_ar) (pool : fobj_autorelease_pool)
    (a : Nat) (c : fobj_autorelease_chunk) (n : Nat)
    (hp : st.pools p = some pool) (hl : pool.last = some (chunk_ptr.spill a))
    (hch : st.chunks a = some c) (hc : c.cnt = n + 1) :
    fobj_autorelease_pool_drain p (fuel + 1) st =
      fobj_autorelease_pool_drain p fuel
        { st with
          chunks := Function.update st.chunks a
            (some { c with cnt := n, refs := Function.update c.refs n 0 })
          released := st.released ++ [c.refs n] } := by
  rw [fobj_autorelease_pool_drain]
  simp only [pool_at, hp, ok_bind, hl, ne_eq, Option.some.injEq, not_false_eq_true, if_true,
    pure_eq_ok, chunk_at, hch, hc, Nat.succ_ne_zero, if_false, chunk_set, Nat.add_sub_cancel,
    fobj_del, Function.update_same, Function.update_idem, reduceCtorEq]

/-- Emptying a well-formed pool releases the objects it holds, newest first,
and leaves the current-pool slot and the parent of the pool alone. -/
theorem drain_spec (S p par : Nat) :
    ∀ (fuel : Nat) (st : fobj_ar) (addrs : List Nat), PoolWF st S p par addrs →
      (pool_items st p addrs).length + addrs.length < fuel →
      ∃ st', fobj_autorelease_pool_drain p fuel st = Except.ok st' ∧
        st'.released = st.released ++ pool_items st p addrs ∧
        st'.fobj_AR_current = st.fobj_AR_current ∧
        ∃ pool', st'.pools p = some pool' ∧ pool'.parent = par := by
  intro fuel
  induction fuel with
  | zero => intro st addrs _ h; omega
  | succ fuel ih =>
    intro st addrs hwf hfuel
    obtain ⟨pool, hp, hpar, hcnt, hchain⟩ := hwf
    cases addrs with
    | nil =>
      have hl : pool.last = some (chunk_ptr.first_of p) := hchain
      cases hc : pool.first.cnt with
      | zero =>
        refine ⟨st, drain_step_first_done p fuel st pool hp hl hc, ?_, rfl, pool, hp, hpar⟩
        simp [pool_items, spill_items, hp, chunk_items, hc]
      | succ n =>
        have hstep := drain_step_first_pop p fuel st pool n hp hl hc
        generalize hT : ({ st with
            pools := Function.update st.pools p
              (some { pool with
                first := { pool.first with
                  cnt := n, refs := Function.update pool.first.refs n 0 } })
            released := st.released ++ [pool.first.refs n] } : fobj_ar) = st2 at hstep
        have e1 : st2.pools p = some { pool with
            first := { pool.first with
              cnt := n, refs := Function.update pool.first.refs n 0 } } := by
          rw [← hT]; exact Function.update_same _ _ _
        have e2 : st2.released = st.released ++ [pool.first.refs n] := by rw [← hT]
        have e3 : st2.fobj_AR_current = st.fobj_AR_current := by rw [← hT]
        have hitems : pool_items st p [] = pool.first.refs n :: pool_items st2 p [] := by
          simp only [pool_items, spill_items, hp, List.nil_append, e1]
          exact chunk_items_pop pool.first n hc
        obtain ⟨st', h1, h2, h3, h4⟩ := ih st2 []
          ⟨_, e1, hpar, (by show n ≤ S; omega), hl⟩
          (by rw [hitems] at hfuel; simp only [List.length_cons] at hfuel; omega)
        refine ⟨st', hstep.trans h1, ?_, h3.trans e3, h4⟩
        rw [h2, hitems, e2]
        simp
    | cons a addrs =>
      obtain ⟨hl, hnot, hbrk, c, hch, hccnt, hrest⟩ := hchain
      cases hc : c.cnt with
      | zero =>
        have hstep := drain_step_spill_free p fuel st pool a c hp hl hch hc
        generalize hT : ({ st with
            pools := Function.update st.pools p (some { pool with last := c.prev })
            chunks := Function.update st.chunks a none } : fobj_ar) = st2 at hstep
        have e1 : st2.pools p = some { pool with last := c.prev } := by
          rw [← hT]; exact Function.update_same _ _ _
        have e2 : st2.released = st.released := by rw [← hT]
        have e3 : st2.fobj_AR_current = st.fobj_AR_current := by rw [← hT]
        have e4 : st.brk ≤ st2.brk := by rw [← hT]
        have hagree : ∀ a', a' ∈ addrs → st2.chunks a' = st.chunks a' := by
          intro a' ha'
          rw [← hT]
          show Function.update st.chunks a none a' = st.chunks a'
          rw [Function.update_noteq]
          rintro rfl
          exact hnot ha'
        have hitems : pool_items st p (a :: addrs) = pool_items st2 p addrs := by
          simp only [pool_items, spill_items, hch, chunk_items, hc, List.range_zero,
            List.map_nil, List.reverse_nil, List.nil_append, hp, e1]
          rw [spill_items_frame st st2 addrs hagree]
        obtain ⟨st', h1, h2, h3, h4⟩ := ih st2 addrs
          ⟨_, e1, hpar, hcnt, ChunkChain_frame st st2 addrs _ hagree e4 hrest⟩
          (by rw [hitems] at hfuel; simp only [List.length_cons] at hfuel; omega)
        refine ⟨st', hstep.trans h1, ?_, h3.trans e3, h4⟩
        rw [h2, hitems, e2]
      | succ n =>
        have hstep := drain_step_spill_pop p fuel st pool a c n hp hl hch hc
        generalize hT : ({ st with
            chunks := Function.update st.chunks a
              (some { c with cnt := n, refs := Function.update c.refs n 0 })
            released := st.released ++ [c.refs n] } : fobj_ar) = st2 at hstep
        have e1 : st2.pools p = some pool := by rw [← hT]; exact hp
        have e2 : st2.released = st.released ++ [c.refs n] := by rw [← hT]
        have e3 : st2.fobj_AR_current = st.fobj_AR_current := by rw [← hT]
        have e4 : st.brk ≤ st2.brk := by rw [← hT]
        have e5 : st2.chunks a
            = some { c with cnt := n, refs := Function.update c.refs n 0 } := by
          rw [← hT]; exact Function.update_same _ _ _
        have hagree : ∀ a', a' ∈ addrs → st2.chunks a' = st.chunks a' := by
          intro a' ha'
          rw [← hT]
          show Function.update st.chunks a _ a' = st.chunks a'
          rw [Function.update_noteq]
          rintro rfl
          exact hnot ha'
        have hitems : pool_items st p (a :: addrs) = c.refs n :: pool_items st2 p (a :: addrs)
            := by
          simp only [pool_items, spill_items, hch, e5, hp, e1]
          rw [spill_items_frame st st2 addrs hagree, chunk_items_pop c n hc]
          simp
        obtain ⟨st', h1, h2, h3, h4⟩ := ih st2 (a :: addrs)
          ⟨pool, e1, hpar, hcnt, hl, hnot, Nat.lt_of_lt_of_le hbrk e4, _, e5,
            (by show n ≤ S; omega), ChunkChain_frame st st2 addrs _ hagree e4 hrest⟩
          (by rw [hitems] at hfuel; simp only [List.length_cons] at hfuel ⊢; omega)
        refine ⟨st', hstep.trans h1, ?_, h3.trans e3, h4⟩
        rw [h2, hitems, e2]
        simp

theorem autorelease_push_first (S p obj : Nat) (hp0 : p ≠ 0) (st : fobj_ar)
    (pool : fobj_autorelease_pool) (hp : st.pools p = some pool)
    (hl : pool.last = some (chunk_ptr.first_of p)) (hc : pool.first.cnt < S) :
    fobj_autorelease S st obj p = Except.ok
      { st with
        pools := Function.update st.pools p
          (some { pool with
            first := { pool.first with
              refs := Function.update pool.first.refs pool.first.cnt obj
              cnt := pool.first.cnt + 1 } }) } := by
  have hb : (p != 0) = true := by simpa using hp0
  have hne : pool.first.cnt ≠ S := by omega
  unfold fobj_autorelease
  simp only [hb, ft_assert_true, ok_bind, pool_at, hp, hl, chunk_at, pure_eq_ok, hne, if_false,
    hc, if_true, chunk_set]

theorem autorelease_push_spill (S p obj : Nat) (hp0 : p ≠ 0) (st : fobj_ar)
    (pool : fobj_autorelease_pool) (a : Nat) (c : fobj_autorelease_chunk)
    (hp : st.pools p = some pool) (hl : pool.last = some (chunk_ptr.spill a))
    (hch : st.chunks a = some c) (hc : c.cnt < S) :
    fobj_autorelease S st obj p = Except.ok
      { st with
        chunks := Function.update st.chunks a
          (some { c with refs := Function.update c.refs c.cnt obj, cnt := c.cnt + 1 }) } := by
  have hb : (p != 0) = true := by simpa using hp0
  have hne : c.cnt ≠ S := by omega
  unfold fobj_autorelease
  simp only [hb, ft_assert_true, ok_bind, pool_at, hp, hl, chunk_at, hch, pure_eq_ok, hne,
    if_false, hc, if_true, chunk_set]

theorem autorelease_new_chunk (S p obj : Nat) (hS : 0 < S) (hp0 : p ≠ 0) (st : fobj_ar)
    (pool : fobj_autorelease_pool) (c : fobj_autorelease_chunk)
    (hp : st.pools p = some pool) (hch : chunk_at st pool.last = Except.ok c)
    (hc : c.cnt = S) :
    fobj_autorelease S st obj p = Except.ok
      { st with
        chunks := Function.update st.chunks st.brk
          (some { prev := pool.last, cnt := 1, refs := Function.update (fun _ => 0) 0 obj })
        brk := st.brk + 1
        pools := Function.update st.pools p
          (some { pool with last := some (chunk_ptr.spill st.brk) }) } := by
  have hb : (p != 0) = true := by simpa using hp0
  unfold fobj_autorelease
  simp only [hb, ft_assert_true, ok_bind, pool_at, hp, hch, hc, if_true, pure_eq_ok]
  simp only [chunk_at, Function.update_same, fobj_autorelease_chunk.zero, ok_bind, hS, chunk_set,
    Function.update_idem, Nat.zero_add, if_true]

/-- Autoreleasing an object into a well-formed pool keeps it well formed and
puts the object in front of the objects the pool holds. -/
theorem autorelease_spec (S p par obj : Nat) (hS : 0 < S) (hp0 : p ≠ 0) (st : fobj_ar)
    (addrs : List Nat) (hwf : PoolWF st S p par addrs) :
    ∃ st' addrs', fobj_autorelease S st obj p = Except.ok st' ∧ PoolWF st' S p par addrs' ∧
      pool_items st' p addrs' = obj :: pool_items st p addrs ∧
      addrs'.length ≤ addrs.length + 1 ∧
      st'.released = st.released ∧ st'.fobj_AR_current = st.fobj_AR_current := by
  obtain ⟨pool, hp, hpar, hcnt, hchain⟩ := hwf
  cases addrs with
  | nil =>
    have hl : pool.last = some (chunk_ptr.first_of p) := hchain
    rcases Nat.lt_or_ge pool.first.cnt S with hlt | hge
    · refine ⟨_, [], autorelease_push_first S p obj hp0 st pool hp hl hlt,
        ⟨_, Function.update_same _ _ _, hpar, (by show pool.first.cnt + 1 ≤ S; omega), hl⟩,
        ?_, by simp, rfl, rfl⟩
      simp only [pool_items, spill_items, Function.update_same, hp, List.nil_append]
      rw [chunk_items_push pool.first obj]
      simp
    · have hc : pool.first.cnt = S := by omega
      have hch : chunk_at st pool.last = Except.ok pool.first := by
        rw [hl]; simp [chunk_at, pool_at, hp, ok_bind, pure_eq_ok]
      refine ⟨_, [st.brk], autorelease_new_chunk S p obj hS hp0 st pool pool.first hp hch hc,
        ⟨_, Function.update_same _ _ _, hpar, hcnt, rfl, List.not_mem_nil _,
          (by show st.brk < st.brk + 1; omega), _, Function.update_same _ _ _,
          (by show 1 ≤ S; omega), hl⟩, ?_, by simp, rfl, rfl⟩
      simp [pool_items, spill_items, Function.update_same, hp, chunk_items, List.range_succ]
  | cons a addrs =>
    obtain ⟨hl, hnot, hbrk, c, hch, hccnt, hrest⟩ := hchain
    rcases Nat.lt_or_ge c.cnt S with hlt | hge
    · have hagree : ∀ a', a' ∈ addrs →
          (Function.update st.chunks a
            (some { c with refs := Function.update c.refs c.cnt obj, cnt := c.cnt + 1 })) a'
            = st.chunks a' := by
        intro a' ha'
        rw [Function.update_noteq]
        rintro rfl
        exact hnot ha'
      refine ⟨_, a :: addrs, autorelease_push_spill S p obj hp0 st pool a c hp hl hch hlt,
        ⟨pool, hp, hpar, hcnt, hl, hnot, hbrk, _, Function.update_same _ _ _,
          (by show c.cnt + 1 ≤ S; omega),
          ChunkChain_frame st _ addrs _ hagree (Nat.le_refl _) hrest⟩, ?_, by simp,
        rfl, rfl⟩
      simp only [pool_items, spill_items, Function.update_same, hp, hch]
      rw [spill_items_frame st _ addrs hagree, chunk_items_push c obj]
      simp
    · have hc : c.cnt = S := by omega
      have hchk : chunk_at st pool.last = Except.ok c := by
        rw [hl]; simp [chunk_at, hch]
      have hfresh : ∀ a', a' ∈ a :: addrs → a' ≠ st.brk := by
        intro a' ha'
        have := ChunkChain_lt_brk (a :: addrs) pool.last
          (show ChunkChain st S p pool.last (a :: addrs) from
            ⟨hl, hnot, hbrk, c, hch, hccnt, hrest⟩) a' ha'
        omega
      have hagree : ∀ a', a' ∈ a :: addrs →
          (Function.update st.chunks st.brk
            (some { prev := pool.last, cnt := 1, refs := Function.update (fun _ => 0) 0 obj }))
            a' = st.chunks a' := by
        intro a' ha'
        rw [Function.update_noteq (hfresh a' ha')]
      refine ⟨_, st.brk :: a :: addrs,
        autorelease_new_chunk S p obj hS hp0 st pool c hp hchk hc,
        ⟨_, Function.update_same _ _ _, hpar, hcnt, rfl,
          (fun hmem => hfresh _ hmem rfl), (by show st.brk < st.brk + 1; omega), _,
          Function.update_same _ _ _, (by show 1 ≤ S; omega),
          ChunkChain_frame st _ (a :: addrs) _ hagree (by show st.brk ≤ st.brk + 1; omega)
            (show ChunkChain st S p pool.last (a :: addrs) from
              ⟨hl, hnot, hbrk, c, hch, hccnt, hrest⟩)⟩, ?_, by simp, rfl, rfl⟩
      have hsp := spill_items_frame st
        { st with
          chunks := Function.update st.chunks st.brk
            (some { prev := pool.last, cnt := 1, refs := Function.update (fun _ => 0) 0 obj })
          brk := st.brk + 1
          pools := Function.update st.pools p
            (some { pool with last := some (chunk_ptr.spill st.brk) }) } (a :: addrs) hagree
      simp only [pool_items, Function.update_same, hp]
      rw [show ∀ (s : fobj_ar) (x : Nat) (xs : List Nat), spill_items s (x :: xs) =
        (match s.chunks x with
          | some c => (chunk_items c).reverse
          | none => []) ++ spill_items s xs from fun _ _ _ => rfl, hsp]
      simp [chunk_items, List.range_succ]

/-- Autoreleasing a list of objects into a well-formed pool keeps it well
formed; afterwards it holds them in front of what it held, last one first. -/
theorem autorelease_all_spec (S p par : Nat) (hS : 0 < S) (hp0 : p ≠ 0) :
    ∀ (objs : List Nat) (st : fobj_ar) (addrs : List Nat), PoolWF st S p par addrs →
      ∃ st' addrs', fobj_autorelease_all S p st objs = Except.ok st' ∧
        PoolWF st' S p par addrs' ∧
        pool_items st' p addrs' = objs.reverse ++ pool_items st p addrs ∧
        addrs'.length ≤ addrs.length + objs.length ∧
        st'.released = st.released ∧ st'.fobj_AR_current = st.fobj_AR_current := by
  intro objs
  induction objs with
  | nil =>
    intro st addrs hwf
    exact ⟨st, addrs, rfl, hwf, by simp, by simp, rfl, rfl⟩
  | cons obj objs ih =>
    intro st addrs hwf
    obtain ⟨st1, addrs1, h1, w1, i1, l1, r1, c1⟩ :=
      autorelease_spec S p par obj hS hp0 st addrs hwf
    obtain ⟨st2, addrs2, h2, w2, i2, l2, r2, c2⟩ := ih st1 addrs1 w1
    refine ⟨st2, addrs2, ?_, w2, ?_, ?_, r2.trans r1, c2.trans c1⟩
    · simp only [fobj_autorelease_all, h1, ok_bind, h2]
    · rw [i2, i1]; simp
    · simp only [List.length_cons]
      omega

/-- C9. Autorelease pools release in reverse insertion order, exactly once: for
every list of objects autoreleased into a freshly initialised pool, of any
length and for any positive chunk capacity (so also lists that spill over
several chunks), `fobj_autorelease_pool_release` calls release on exactly those
entries, once per insertion, in the reverse of the order of insertion, and
afterwards the current-pool slot of the thread holds the parent of the pool,
which is the pool that was current when this one was initialised. -/
theorem fobj_autorelease_pool_release_reverse (S : Nat) (hS : 0 < S) (st : fobj_ar)
    (pool : Nat) (storage : fobj_autorelease_pool) (hp0 : pool ≠ 0)
    (hpc : pool ≠ st.fobj_AR_current) (objs : List Nat) (fuel : Nat)
    (hfuel : 2 * objs.length + 2 ≤ fuel) :
    ∃ st1 st2,
      fobj_autorelease_all S pool (fobj_autorelease_pool_init st pool storage) objs
        = Except.ok st1 ∧
      fobj_autorelease_pool_release fuel st1 pool = Except.ok st2 ∧
      st2.released = st.released ++ objs.reverse ∧
      st2.fobj_AR_current = st.fobj_AR_current := by
  have hwf0 : PoolWF (fobj_autorelease_pool_init st pool storage) S pool st.fobj_AR_current []
      := ⟨_, Function.update_same _ _ _, rfl, Nat.zero_le _, rfl⟩
  have hitems0 : pool_items (fobj_autorelease_pool_init st pool storage) pool [] = [] := by
    simp [pool_items, spill_items, fobj_autorelease_pool_init, chunk_items]
  obtain ⟨st1, addrs1, h1, w1, i1, l1, r1, c1⟩ :=
    autorelease_all_spec S pool st.fobj_AR_current hS hp0 objs _ [] hwf0
  rw [hitems0, List.append_nil] at i1
  have r1' : st1.released = st.released := r1
  have c1' : st1.fobj_AR_current = pool := c1
  obtain ⟨f, rfl⟩ : ∃ f, fuel = f + 1 := ⟨fuel - 1, by omega⟩
  obtain ⟨g, rfl⟩ : ∃ g, f = g + 1 := ⟨f - 1, by omega⟩
  obtain ⟨st', d1, d2, d3, pool', d4, d5⟩ := drain_spec S pool st.fobj_AR_current (g + 1) st1
    addrs1 w1 (by
      rw [i1, List.length_reverse]
      simp only [List.length_nil, Nat.zero_add] at l1
      omega)
  obtain ⟨pool1, p1, p2, _, _⟩ := w1
  refine ⟨st1, { st' with fobj_AR_current := st.fobj_AR_current }, h1, ?_, ?_, rfl⟩
  · have hne : st1.fobj_AR_current ≠ st.fobj_AR_current := by rw [c1']; exact hpc
    have hb : (st'.fobj_AR_current == st1.fobj_AR_current) = true := by simp [d3]
    simp only [fobj_autorelease_pool_release, pool_at, p1, ok_bind, p2]
    rw [fobj_autorelease_pool_release_till]
    simp only [ne_eq, hne, not_false_eq_true, if_true, c1', d1, ok_bind]
    rw [c1'] at hb d3
    simp only [hb, ft_assert_true, ok_bind, pool_at, d3, d4, d5]
    rw [fobj_autorelease_pool_release_till]
    simp [pure_eq_ok, hpc, ft_assert_true, ok_bind]
  · show st'.released = st.released ++ objs.reverse
    rw [d2, i1, r1']

/-- Witness of C9: five objects autoreleased into a fresh pool whose chunks
hold two objects each, so that two more chunks are allocated; releasing the
pool releases the five in reverse order and restores the current-pool slot. -/
theorem fobj_autorelease_pool_release_reverse_witness :
    (do
      let st1 ← fobj_autorelease_all 2 100
        (fobj_autorelease_pool_init empty_ar 100
          { parent := 0, last := none, first := fobj_autorelease_chunk.zero })
        [11, 12, 13, 14, 15]
      let st2 ← fobj_autorelease_pool_release 12 st1 100
      pure (st2.released, st2.fobj_AR_current, st1.brk))
      = Except.ok ([15, 14, 13, 12, 11], 0, 3) := by
  obtain ⟨st1, st2, h1, h2, h3, h4⟩ := fobj_autorelease_pool_release_reverse 2 (by decide)
    empty_ar 100 { parent := 0, last := none, first := fobj_autorelease_chunk.zero }
    (by decide) (by decide) [11, 12, 13, 14, 15] 12 (by decide)
  have hb : Except.map (fun s => s.brk) (fobj_autorelease_all 2 100
      (fobj_autorelease_pool_init empty_ar 100
        { parent := 0, last := none, first := fobj_autorelease_chunk.zero })
      [11, 12, 13, 14, 15]) = Except.ok 3 := by rfl
  rw [h1] at hb
  have hb' : st1.brk = 3 := Except.ok.inj hb
  rw [h1, ok_bind, h2, ok_bind, h3, h4, hb']
  rfl

/-! ## Quoted string formatting -/

/-- C10, as the code behaves. With spec `q`, byte `0x1f` is rendered
as backslash, `x`, `1`, `p` and byte `0x0e` as backslash, `x`, `0`, `o`: for a
low nibble above 9 the code adds the nibble to the letter `a` without first
subtracting 10.  The lowercase hexadecimal digits of the two bytes are `1f`
and `0e`. -/
theorem fobj_format_string_control_byte_hex (env : fmt_env) :
    fobj_format_string env [] { ptr := some [0x1f], len := 1 } (some "q")
      = Except.ok [34, 92, 120, 49, 112, 34] ∧
    fobj_format_string env [] { ptr := some [0x0e], len := 1 } (some "q")
      = Except.ok [34, 92, 120, 48, 111, 34] ∧
    [34, 92, 120] ++ hex_digits 0x1f ++ [34] = [34, 92, 120, 49, 102, 34] ∧
    [34, 92, 120] ++ hex_digits 0x0e ++ [34] = [34, 92, 120, 48, 101, 34] := by
  obtain ⟨cs, f⟩ := env
  cases cs <;> exact ⟨by rfl, by rfl, by rfl, by rfl⟩

/-! ## Quoted strings: the whole loop -/

/-- The bytes appended for one byte of the string. -/
theorem byte_at_eq (bytes : List Nat) (len i : Nat) (b : Nat) (h : bytes.get? i = some b) :
    ft_str_t.byte_at { ptr := some bytes, len := len } i = Except.ok (b % 256) := by
  have h' : bytes[i]? = some b := by simpa using h
  simp [ft_str_t.byte_at, h']

/-- The loop of `fobj_format_string` over a string that lies within its bytes
and is not longer than `INT_MAX` returns, and appends the escapes of the bytes
in order. -/
theorem format_string_loop_eq (env : fmt_env) (bytes : List Nat) (len : Nat) :
    ∀ (n i : Nat) (buf : List Nat), i + n ≤ bytes.length → i + n ≤ INT_MAX →
      fobj_format_string_loop env { ptr := some bytes, len := len } n i buf
        = Except.ok (buf ++ (((bytes.drop i).take n).map
            (fun b => fobj_format_string_escape (c_char env (b % 256)))).flatten) := by
  intro n
  induction n with
  | zero => intro i buf _ _; simp [fobj_format_string_loop, pure, Except.pure]
  | succ n ih =>
    intro i buf h1 h2
    have hi : i < bytes.length := by omega
    have hget : bytes.get? i = some (bytes.get ⟨i, hi⟩) := List.get?_eq_get hi
    unfold fobj_format_string_loop
    rw [byte_at_eq bytes len i _ hget, ok_bind]
    have hlt : ¬ INT_MAX ≤ i := by omega
    simp only [hlt, if_false]
    rw [ih (i + 1) _ (by omega) (by omega)]
    have hd : bytes.drop i = bytes.get ⟨i, hi⟩ :: bytes.drop (i + 1) :=
      (List.drop_eq_getElem_cons hi)
    rw [hd, List.take_succ_cons, List.map_cons, List.flatten_cons, List.append_assoc]

/-- The quoted form of a string given by its bytes. -/
theorem format_string_q_eq (env : fmt_env) (buf bytes : List Nat)
    (hlen : bytes.length ≤ INT_MAX) :
    fobj_format_string env buf { ptr := some bytes, len := bytes.length } (some "q")
      = Except.ok (buf ++ [34] ++ (bytes.map
          (fun b => fobj_format_string_escape (c_char env (b % 256)))).flatten ++ [34]) := by
  unfold fobj_format_string
  have h1 : ¬ ((some "q" : Option String) = none ∨ (some "q" : Option String) = some "") := by
    decide
  have h2 : ¬ ((some "q" : Option String) ≠ some "q") := by simp
  simp only [h1, h2, if_false]
  have h3 : ((some bytes : Option (List Nat)) = none) = False := by simp
  simp only [h3, if_false]
  rw [format_string_loop_eq env bytes bytes.length bytes.length 0 _ (by omega) (by omega)]
  simp [pure, Except.pure, bind, Except.bind]

/-! ## The escapes form a code that reads back -/

theorem c_char_range (env : fmt_env) (b : Nat) :
    -128 ≤ c_char env (b % 256) ∧ c_char env (b % 256) ≤ 255 := by
  unfold c_char
  split <;> omega

theorem c_char_injective (env : fmt_env) (b1 b2 : Nat) (h1 : b1 < 256) (h2 : b2 < 256)
    (h : c_char env (b1 % 256) = c_char env (b2 % 256)) : b1 = b2 := by
  unfold c_char at h
  split at h <;> split at h <;> omega

/-- The three shapes of an escape: a backslash and a letter other than `x`,
which determines the character; a backslash, `x` and two bytes that give the
quotient and the remainder of the character by 16; the character itself,
which is neither the backslash nor the double quote. -/
theorem escape_cases (c : Int) (hc : -128 ≤ c ∧ c ≤ 255) :
    (∃ k, fobj_format_string_escape c = [92, k] ∧ k ≠ 120 ∧ c = escape_letter_char k) ∨
    (∃ h d : Nat, fobj_format_string_escape c = [92, 120, h, d] ∧
      (h : Int) = 48 + c / 16 ∧ ((d : Int) = 48 + c % 16 ∨ (d : Int) = 97 + c % 16)) ∨
    (∃ x : Nat, fobj_format_string_escape c = [x] ∧ (x : Int) = c ∧ x ≠ 92 ∧ x ≠ 34) := by
  unfold fobj_format_string_escape
  by_cases h1 : c = 34
  · left; exact ⟨34, by simp [h1], by decide, by simp [h1, escape_letter_char]⟩
  by_cases h2 : c = 9
  · left; exact ⟨116, by simp [h2], by decide, by simp [h2, escape_letter_char]⟩
  by_cases h3 : c = 10
  · left; exact ⟨110, by simp [h3], by decide, by simp [h3, escape_letter_char]⟩
  by_cases h4 : c = 13
  · left; exact ⟨114, by simp [h4], by decide, by simp [h4, escape_letter_char]⟩
  by_cases h5 : c = 7
  · left; exact ⟨97, by simp [h5], by decide, by simp [h5, escape_letter_char]⟩
  by_cases h6 : c = 8
  · left; exact ⟨98, by simp [h6], by decide, by simp [h6, escape_letter_char]⟩
  by_cases h7 : c = 12
  · left; exact ⟨102, by simp [h7], by decide, by simp [h7, escape_letter_char]⟩
  by_cases h8 : c = 11
  · left; exact ⟨118, by simp [h8], by decide, by simp [h8, escape_letter_char]⟩
  by_cases h9 : c = 92
  · left; exact ⟨92, by simp [h9], by decide, by simp [h9, escape_letter_char]⟩
  simp only [h1, h2, h3, h4, h5, h6, h7, h8, h9, if_false]
  by_cases h10 : c < 32
  · right; left
    simp only [h10, if_true]
    refine ⟨to_byte (48 + c / 16), to_byte ((if c % 16 ≤ 9 then 48 else 97) + c % 16),
      rfl, ?_, ?_⟩
    · unfold to_byte; omega
    · unfold to_byte
      split <;> omega
  · right; right
    simp only [h10, if_false]
    refine ⟨to_byte c, rfl, ?_, ?_, ?_⟩ <;> unfold to_byte <;> omega

/-- No escape starts with the double quote. -/
theorem escape_head_ne_quote (c : Int) (hc : -128 ≤ c ∧ c ≤ 255) (t t' : List Nat) :
    fobj_format_string_escape c ++ t ≠ 34 :: t' := by
  intro h
  rcases escape_cases c hc with ⟨k, e, _, _⟩ | ⟨a, d, e, _, _⟩ | ⟨x, e, _, _, hx⟩
  · rw [e] at h; simp at h
  · rw [e] at h; simp at h
  · rw [e] at h; simp at h; exact hx h.1

/-- The escapes of two characters followed by anything are equal only for
equal characters and equal rests. -/
theorem escape_code_unique (c1 c2 : Int) (h1 : -128 ≤ c1 ∧ c1 ≤ 255)
    (h2 : -128 ≤ c2 ∧ c2 ≤ 255) (t1 t2 : List Nat)
    (h : fobj_format_string_escape c1 ++ t1 = fobj_format_string_escape c2 ++ t2) :
    c1 = c2 ∧ t1 = t2 := by
  rcases escape_cases c1 h1 with ⟨k1, e1, n1, r1⟩ | ⟨a1, d1, e1, q1, r1⟩ | ⟨x1, e1, r1, n1, m1⟩ <;>
  rcases escape_cases c2 h2 with ⟨k2, e2, n2, r2⟩ | ⟨a2, d2, e2, q2, r2⟩ | ⟨x2, e2, r2, n2, m2⟩ <;>
  rw [e1, e2] at h <;>
  simp only [List.cons_append, List.nil_append, List.cons.injEq, true_and] at h
  · obtain ⟨hk, ht⟩ := h
    subst hk
    exact ⟨r1.trans r2.symm, ht⟩
  · exact absurd h.1 n1
  · exact absurd h.1.symm n2
  · exact absurd h.1.symm n2
  · obtain ⟨ha, hd, ht⟩ := h
    subst ha hd
    refine ⟨?_, ht⟩
    rcases r1 with r1 | r1 <;> rcases r2 with r2 | r2 <;> omega
  · exact absurd h.1.symm n2
  · exact absurd h.1 n1
  · exact absurd h.1 n1
  · obtain ⟨hx, ht⟩ := h
    subst hx
    exact ⟨r1.symm.trans r2, ht⟩

/-- The escapes of a byte string followed by the closing quote determine the
string. -/
theorem escapes_injective (env : fmt_env) :
    ∀ (s1 s2 : List Nat), (∀ b ∈ s1, b < 256) → (∀ b ∈ s2, b < 256) →
      (s1.map (fun b => fobj_format_string_escape (c_char env (b % 256)))).flatten ++ [34]
        = (s2.map (fun b => fobj_format_string_escape (c_char env (b % 256)))).flatten ++ [34] →
      s1 = s2 := by
  intro s1
  induction s1 with
  | nil =>
    intro s2 _ h2 h
    cases s2 with
    | nil => rfl
    | cons b s2 =>
      simp only [List.map_nil, List.flatten_nil, List.nil_append, List.map_cons,
        List.flatten_cons, List.append_assoc] at h
      exact absurd h.symm (escape_head_ne_quote _ (c_char_range env b) _ _)
  | cons a s1 ih =>
    intro s2 h1 h2 h
    cases s2 with
    | nil =>
      simp only [List.map_nil, List.flatten_nil, List.nil_append, List.map_cons,
        List.flatten_cons, List.append_assoc] at h
      exact absurd h (escape_head_ne_quote _ (c_char_range env a) _ _)
    | cons b s2 =>
      simp only [List.map_cons, List.flatten_cons, List.append_assoc] at h
      obtain ⟨hc, ht⟩ := escape_code_unique _ _ (c_char_range env a) (c_char_range env b) _ _ h
      have hab : a = b :=
        c_char_injective env a b (h1 a (List.mem_cons_self _ _)) (h2 b (List.mem_cons_self _ _)) hc
      rw [hab, ih s2 (fun x hx => h1 x (List.mem_cons_of_mem _ hx))
        (fun x hx => h2 x (List.mem_cons_of_mem _ hx)) ht]

/-- The bytes of an escape are bytes. -/
theorem escape_bytes (c : Int) : ∀ b ∈ fobj_format_string_escape c, b < 256 := by
  have hb : ∀ i : Int, to_byte i < 256 := by
    intro i; unfold to_byte; omega
  unfold fobj_format_string_escape
  by_cases h0 : c = 34
  · rw [if_pos h0]; decide
  rw [if_neg h0]
  by_cases h1 : c = 9
  · rw [if_pos h1]; decide
  rw [if_neg h1]
  by_cases h2 : c = 10
  · rw [if_pos h2]; decide
  rw [if_neg h2]
  by_cases h3 : c = 13
  · rw [if_pos h3]; decide
  rw [if_neg h3]
  by_cases h4 : c = 7
  · rw [if_pos h4]; decide
  rw [if_neg h4]
  by_cases h5 : c = 8
  · rw [if_pos h5]; decide
  rw [if_neg h5]
  by_cases h6 : c = 12
  · rw [if_pos h6]; decide
  rw [if_neg h6]
  by_cases h7 : c = 11
  · rw [if_pos h7]; decide
  rw [if_neg h7]
  by_cases h8 : c = 92
  · rw [if_pos h8]; decide
  rw [if_neg h8]
  by_cases hlt : c < 32
  · rw [if_pos hlt]
    intro b hb'
    simp only [List.mem_cons, List.mem_singleton, List.not_mem_nil, or_false] at hb'
    rcases hb' with h | h | h | h
    · omega
    · omega
    · rw [h]; exact hb _
    · rw [h]; exact hb _
  · rw [if_neg hlt]
    intro b hb'
    simp only [List.mem_singleton] at hb'
    rw [hb']; exact hb _

/-- C11, as the code behaves. Where plain `char` is signed, the repr of the
one-byte string `0x80` is `$S("`, then a backslash, `x`, `(`, `0`, then `")`:
the byte is read into a `char`, is negative there, and so takes the branch
`c < 0x20`.  The string `$S("` followed by the byte unchanged and `")` is
what the repr is where plain `char` is unsigned. -/
theorem fobjStr_fobjRepr_high_byte (catf : List Nat → Option (List Nat) → List Nat) :
    fobjStr_fobjRepr { char_signed := true, ft_strbuf_catf := catf }
        { ptr := some [0x80], len := 1 }
      = Except.ok [36, 83, 40, 34, 92, 120, 40, 48, 34, 41] ∧
    fobjStr_fobjRepr { char_signed := false, ft_strbuf_catf := catf }
        { ptr := some [0x80], len := 1 }
      = Except.ok ([36, 83, 40, 34] ++ [0x80] ++ [34, 41]) :=
  ⟨by rfl, by rfl⟩

/-- C12, as the code behaves. A `NULL` string formatted with spec `q` gives
the bytes `NULL` followed by two double quotes: nothing returns after `NULL`
is appended, so the opening and the closing quote follow; with a length other
than zero the loop then reads through the `NULL` pointer. -/
theorem fobj_format_string_null_quoted (env : fmt_env) (buf : List Nat) :
    fobj_format_string env buf { ptr := none, len := 0 } (some "q")
      = Except.ok (buf ++ [78, 85, 76, 76] ++ [34, 34]) ∧
    fobj_format_string env buf (ft_cstr none) (some "q")
      = Except.ok (buf ++ [78, 85, 76, 76] ++ [34, 34]) ∧
    ∀ len, fobj_format_string env buf { ptr := none, len := len + 1 } (some "q")
      = Except.error Fault.bad_pointer := by
  have h1 : ¬ ((some "q" : Option String) = none ∨ (some "q" : Option String) = some "") := by
    decide
  have h2 : ¬ ((some "q" : Option String) ≠ some "q") := by simp
  refine ⟨?_, ?_, ?_⟩
  · unfold fobj_format_string
    simp only [h1, h2, if_false]
    simp [fobj_format_string_loop, pure, Except.pure, bind, Except.bind]
  · unfold fobj_format_string
    simp only [h1, h2, if_false]
    simp [ft_cstr, fobj_format_string_loop, pure, Except.pure, bind, Except.bind]
  · intro len
    unfold fobj_format_string
    simp only [h1, h2, if_false]
    simp [fobj_format_string_loop, ft_str_t.byte_at, bind, Except.bind]

/-- C13, amended. The quoted escape is total and injective on byte strings
of at most `INT_MAX` bytes: for byte strings `s1 ≠ s2` not longer than
`INT_MAX`, formatting with spec `q` returns on both and the results differ;
the results are byte strings again, so, where they are not longer than
`INT_MAX` either, formatting them once more returns and gives different
results again. -/
theorem fobj_format_string_quoted_injective (env : fmt_env) (buf s1 s2 : List Nat)
    (hb1 : ∀ b ∈ s1, b < 256) (hb2 : ∀ b ∈ s2, b < 256)
    (hl1 : s1.length ≤ INT_MAX) (hl2 : s2.length ≤ INT_MAX) (hne : s1 ≠ s2) :
    ∃ o1 o2,
      fobj_format_string env [] { ptr := some s1, len := s1.length } (some "q") = Except.ok o1 ∧
      fobj_format_string env [] { ptr := some s2, len := s2.length } (some "q") = Except.ok o2 ∧
      fobj_format_string env buf { ptr := some s1, len := s1.length } (some "q")
        = Except.ok (buf ++ o1) ∧
      fobj_format_string env buf { ptr := some s2, len := s2.length } (some "q")
        = Except.ok (buf ++ o2) ∧
      o1 ≠ o2 ∧
      (o1.length ≤ INT_MAX → o2.length ≤ INT_MAX →
        ∃ p1 p2,
          fobj_format_string env [] { ptr := some o1, len := o1.length } (some "q")
            = Except.ok p1 ∧
          fobj_format_string env [] { ptr := some o2, len := o2.length } (some "q")
            = Except.ok p2 ∧
          p1 ≠ p2) := by
  have key : ∀ (t1 t2 : List Nat), (∀ b ∈ t1, b < 256) → (∀ b ∈ t2, b < 256) → t1 ≠ t2 →
      [34] ++ (t1.map (fun b => fobj_format_string_escape (c_char env (b % 256)))).flatten ++ [34]
        ≠ [34] ++ (t2.map
            (fun b => fobj_format_string_escape (c_char env (b % 256)))).flatten ++ [34] := by
    intro t1 t2 g1 g2 gne h
    apply gne
    apply escapes_injective env t1 t2 g1 g2
    simpa using h
  have bytes : ∀ (t : List Nat), ∀ b ∈ [34] ++ (t.map
      (fun b => fobj_format_string_escape (c_char env (b % 256)))).flatten ++ [34], b < 256 := by
    intro t b hb
    simp only [List.mem_append, List.mem_singleton, List.mem_flatten, List.mem_map] at hb
    rcases hb with (hb | ⟨l, ⟨a, _, rfl⟩, hb⟩) | hb
    · omega
    · exact escape_bytes _ b hb
    · omega
  refine ⟨_, _, ?_, ?_, ?_, ?_, key s1 s2 hb1 hb2 hne, ?_⟩
  · rw [format_string_q_eq env [] s1 hl1]; rfl
  · rw [format_string_q_eq env [] s2 hl2]; rfl
  · rw [format_string_q_eq env buf s1 hl1]; simp
  · rw [format_string_q_eq env buf s2 hl2]; simp
  · intro g1 g2
    refine ⟨_, _, ?_, ?_, key _ _ (bytes s1) (bytes s2) (key s1 s2 hb1 hb2 hne)⟩
    · rw [format_string_q_eq env [] _ g1]; rfl
    · rw [format_string_q_eq env [] _ g2]; rfl

/-- Witness of C13, amended: under a signed plain `char`, the strings `0x1f 0xc8` and
`0x1f`, which hold a control byte with a wrongly printed digit and a byte
above `0x7f`, are both formatted and give different results. -/
theorem fobj_format_string_quoted_injective_witness :
    ∃ o1 o2,
      fobj_format_string { char_signed := true, ft_strbuf_catf := fun _ _ => [] } []
        { ptr := some [0x1f, 200], len := 2 } (some "q") = Except.ok o1 ∧
      fobj_format_string { char_signed := true, ft_strbuf_catf := fun _ _ => [] } []
        { ptr := some [0x1f], len := 1 } (some "q") = Except.ok o2 ∧
      o1 ≠ o2 := by
  obtain ⟨o1, o2, h1, h2, _, _, h3, _⟩ :=
    fobj_format_string_quoted_injective { char_signed := true, ft_strbuf_catf := fun _ _ => [] }
      [] [0x1f, 200] [0x1f] (by decide) (by decide) (by decide) (by decide) (by decide)
  exact ⟨o1, o2, h1, h2, h3⟩

/-! ## Templates: the early return and the length checks -/

/-- Where plain `char` is unsigned, or the bytes are below `0x80`, the repr of
a string without control bytes, double quote and backslash is `$S("`, the
bytes unchanged, and `")`. -/
theorem fobjStr_fobjRepr_plain (env : fmt_env) (s : List Nat)
    (hs : ∀ b ∈ s, 32 ≤ b ∧ b < 256 ∧ b ≠ 34 ∧ b ≠ 92)
    (hc : env.char_signed = false ∨ ∀ b ∈ s, b < 128) (hlen : s.length ≤ INT_MAX) :
    fobjStr_fobjRepr env { ptr := some s, len := s.length }
      = Except.ok ([36, 83, 40, 34] ++ s ++ [34, 41]) := by
  have hmap : ∀ (t : List Nat), (∀ b ∈ t, 32 ≤ b ∧ b < 256 ∧ b ≠ 34 ∧ b ≠ 92) →
      (env.char_signed = false ∨ ∀ b ∈ t, b < 128) →
      (t.map (fun b => fobj_format_string_escape (c_char env (b % 256)))).flatten = t := by
    intro t
    induction t with
    | nil => intro _ _; rfl
    | cons a t ih =>
      intro h1 h2
      obtain ⟨a1, a2, a3, a4⟩ := h1 a (List.mem_cons_self _ _)
      have hca : c_char env (a % 256) = (a : Int) := by
        unfold c_char
        rcases h2 with h2 | h2
        · simp [h2]; omega
        · have := h2 a (List.mem_cons_self _ _)
          rw [if_neg (by omega)]; omega
      have hesc : fobj_format_string_escape (c_char env (a % 256)) = [a] := by
        rw [hca]
        have hquote : ¬ (a : Int) = 34 := by omega
        have hslash : ¬ (a : Int) = 92 := by omega
        have hctl : ∀ k : Int, k < 32 → ¬ (a : Int) = k := fun k hk => by omega
        have hlow : ¬ (a : Int) < 32 := by omega
        unfold fobj_format_string_escape
        simp only [hquote, hslash, hlow, hctl 9 (by decide), hctl 10 (by decide),
          hctl 13 (by decide), hctl 7 (by decide), hctl 8 (by decide), hctl 12 (by decide),
          hctl 11 (by decide), if_false]
        unfold to_byte
        congr 1
        omega
      rw [List.map_cons, List.flatten_cons, hesc,
        ih (fun x hx => h1 x (List.mem_cons_of_mem _ hx))
          (h2.imp id (fun g x hx => g x (List.mem_cons_of_mem _ hx)))]
      rfl
  unfold fobjStr_fobjRepr
  dsimp only
  rw [format_string_q_eq env _ s hlen, hmap s hs hc]
  simp [pure, Except.pure, bind, Except.bind]

/-- C14, as the code behaves. The template `a{{b` contains no closing brace,
so both formatters return it as it is, both opening braces included, before
any character is looked at.  With a closing brace somewhere in the template
(`a{{b}`) the pair gives one brace. -/
theorem fobj__format_errmsg_double_brace (env : format_env) (kvs : List fobj_err_kv_t)
    (pkvs : List (List Nat × Nat)) :
    fobj__format_errmsg env [97, 123, 123, 98] kvs = Except.ok [97, 123, 123, 98] ∧
    fobj_printkv env [97, 123, 123, 98] pkvs = Except.ok [97, 123, 123, 98] ∧
    fobj__format_errmsg env [97, 123, 123, 98, 125] kvs = Except.ok [97, 123, 98, 125] ∧
    fobj_printkv env [97, 123, 123, 98, 125] pkvs = Except.ok [97, 123, 98, 125] :=
  ⟨by rfl, by rfl, by rfl, by rfl⟩

/-- C15, as the code behaves. The template `{abc` opens a placeholder and has no
closing brace; both formatters return it as it is and do not abort, because a
template without any closing brace is returned before the loop.  The assertion
`braces unbalanced` is reached where a closing brace stands before the
unclosed placeholder (`}{abc`). -/
theorem fobj__format_errmsg_unbalanced (env : format_env) (kvs : List fobj_err_kv_t)
    (pkvs : List (List Nat × Nat)) :
    fobj__format_errmsg env [123, 97, 98, 99] kvs = Except.ok [123, 97, 98, 99] ∧
    fobj_printkv env [123, 97, 98, 99] pkvs = Except.ok [123, 97, 98, 99] ∧
    fobj__format_errmsg env [125, 123, 97, 98, 99] kvs = Except.error (Fault.abort 1014) ∧
    fobj_printkv env [125, 123, 97, 98, 99] pkvs = Except.error (Fault.abort 1225) :=
  ⟨by rfl, by rfl, by rfl, by rfl⟩

/-- C16, as the code behaves. A placeholder with the ident `a` and a spec of 31
characters aborts on the assertion `format is too long` in both formatters:
the assertion bounds the distance from the colon to the closing brace, which
is the length of the spec plus one.  An ident of 31 characters with a spec of
30 characters passes both checks and is rendered; an ident of 32 characters
and a spec of 32 characters abort. -/
theorem fobj__format_errmsg_spec_limit (env : format_env) (pkvs : List (List Nat × Nat)) :
    fobj__format_errmsg env ([123, 97, 58] ++ List.replicate 31 120 ++ [125])
        [{ key := some [97], val := ft_arg_t.b true }, fobj_err_kv_t.sentinel]
      = Except.error (Fault.abort 1019) ∧
    fobj_printkv env ([123, 97, 58] ++ List.replicate 31 120 ++ [125]) pkvs
      = Except.error (Fault.abort 1230) ∧
    fobj__format_errmsg env ([123] ++ List.replicate 31 97 ++ [58] ++ List.replicate 30 120
        ++ [125])
        [{ key := some (List.replicate 31 97), val := ft_arg_t.b true }, fobj_err_kv_t.sentinel]
      = Except.ok (env.catf_bool (37 :: List.replicate 30 120) true) ∧
    fobj__format_errmsg env ([123] ++ List.replicate 32 97 ++ [125])
        [{ key := some (List.replicate 32 97), val := ft_arg_t.b true }, fobj_err_kv_t.sentinel]
      = Except.error (Fault.abort 1017) ∧
    fobj_printkv env ([123] ++ List.replicate 32 97 ++ [125]) pkvs
      = Except.error (Fault.abort 1228) ∧
    fobj__format_errmsg env ([123, 97, 58] ++ List.replicate 32 120 ++ [125])
        [{ key := some [97], val := ft_arg_t.b true }, fobj_err_kv_t.sentinel]
      = Except.error (Fault.abort 1019) := by
  refine ⟨by rfl, by rfl, ?_, by rfl, by rfl, by rfl⟩
  rcases env with ⟨⟨dbg, nd, dm, hash⟩, str, p1, p2, p3, p4, p5, p6, c1, c2, c3, c4, fmt, rp,
    srch, trunc, kh, alloc⟩
  cases dbg <;> rfl

/-! ## The key/value vector of a new error -/

theorem kept_kvs_length_le (kvs : List fobj_err_kv_t) : (kept_kvs kvs).length ≤ kvs.length :=
  List.length_filter_le _ _

theorem kept_kvs_append (l1 l2 : List fobj_err_kv_t) :
    kept_kvs (l1 ++ l2) = kept_kvs l1 ++ kept_kvs l2 := by
  simp [kept_kvs]

theorem suffix_text_append (l1 l2 : List fobj_err_kv_t) :
    suffix_text (l1 ++ l2) = suffix_text l1 ++ suffix_text l2 := by
  induction l1 with
  | nil => rfl
  | cons a l1 ih =>
    simp only [List.cons_append, suffix_text]
    split <;> simp [ih]

/-- The slot the scan reads next: behind the compacted entries the vector
still holds the entries copied from the caller. -/
theorem compacted_get (L X : List fobj_err_kv_t) (k n : Nat) (e : fobj_err_kv_t)
    (hL : L.length = k) (hk : k ≤ n) (hX : X.get? n = some e) :
    kv_at (L ++ X.drop k) n = Except.ok e := by
  have h : (L ++ X.drop k).get? n = some e := by
    rw [List.get?_eq_getElem?, List.getElem?_append_right (by omega), List.getElem?_drop, hL]
    have : k + (n - k) = n := by omega
    rw [this, ← List.get?_eq_getElem?, hX]
  simp only [kv_at, h]

theorem drop_of_get (X : List fobj_err_kv_t) (k : Nat) (e : fobj_err_kv_t)
    (hX : X.get? k = some e) : X.drop k = e :: X.drop (k + 1) := by
  have hk : k < X.length := by
    by_contra hc
    rw [List.get?_eq_none.mpr (by omega)] at hX
    cases hX
  have he : X[k] = e := by
    have := List.get?_eq_get hk
    rw [hX] at this
    exact (Option.some.inj this).symm
  rw [List.drop_eq_getElem_cons hk, he]

theorem compacted_set (L X : List fobj_err_kv_t) (k : Nat) (e : fobj_err_kv_t)
    (hL : L.length = k) (hk : k < X.length) :
    (L ++ X.drop k).set k e = L ++ e :: X.drop (k + 1) := by
  rw [List.set_append_right _ _ (by omega), hL, Nat.sub_self,
    List.drop_eq_getElem_cons hk, List.set_cons_zero]

/-- The scan of `fobj__make_err` over the entries not yet visited: the kept
entries are moved down behind the ones kept before, the suffixes are appended
to the message, and a reference is taken on each kept object. -/
theorem make_err_loop_spec (env : format_env) (rt : fobj_runtime) :
    ∀ (rest pre : List fobj_err_kv_t) (m m2 : fobj_mem) (nmsg : List Nat) (fuel : Nat),
      (∀ kv ∈ rest, kv.key ≠ none) →
      (∀ kv ∈ rest, kv.key = msgSuffix_key → ∃ b, kv.val = ft_arg_t.s (some b)) →
      ref_kvs env.base rt m rest = Except.ok m2 →
      rest.length < fuel →
      fobj__make_err_loop env rt fuel
          { arr := kept_kvs pre ++
              (pre ++ rest ++ [fobj_err_kv_t.zero]).drop (kept_kvs pre).length
            kv := pre.length
            cpy := (kept_kvs pre).length
            nmsg := nmsg
            mem := m }
        = Except.ok
          { arr := kept_kvs (pre ++ rest) ++
              (pre ++ rest ++ [fobj_err_kv_t.zero]).drop (kept_kvs (pre ++ rest)).length
            kv := (pre ++ rest).length
            cpy := (kept_kvs (pre ++ rest)).length
            nmsg := nmsg ++ suffix_text rest
            mem := m2 } := by
  intro rest
  induction rest with
  | nil =>
    intro pre m m2 nmsg fuel _ _ href hfuel
    obtain ⟨n, rfl⟩ : ∃ n, fuel = n + 1 := ⟨fuel - 1, by simp at hfuel; omega⟩
    have hget : (pre ++ [] ++ [fobj_err_kv_t.zero]).get? pre.length
        = some fobj_err_kv_t.zero := by simp
    unfold fobj__make_err_loop
    simp only [compacted_get _ _ _ _ _ rfl (kept_kvs_length_le pre) hget, ok_bind]
    simp only [ref_kvs, pure, Except.pure] at href
    cases href
    simp [fobj_err_kv_t.zero, suffix_text, pure, Except.pure]
  | cons e rest ih =>
    intro pre m m2 nmsg fuel hkeys hsfx href hfuel
    obtain ⟨n, rfl⟩ : ∃ n, fuel = n + 1 := ⟨fuel - 1, by simp at hfuel; omega⟩
    have hX : (pre ++ e :: rest ++ [fobj_err_kv_t.zero]).get? pre.length = some e := by
      rw [List.get?_eq_getElem?, List.append_assoc, List.getElem?_append_right (le_refl _)]
      simp
    have hlen : (kept_kvs pre).length < (pre ++ e :: rest ++ [fobj_err_kv_t.zero]).length := by
      have := kept_kvs_length_le pre
      simp; omega
    have hassoc : pre ++ e :: rest = (pre ++ [e]) ++ rest := by simp
    obtain ⟨key, hkey⟩ : ∃ key, e.key = some key := by
      cases hk : e.key with
      | none => exact absurd hk (hkeys e (List.mem_cons_self _ _))
      | some key => exact ⟨key, rfl⟩
    unfold fobj__make_err_loop
    simp only [compacted_get _ _ _ _ _ rfl (kept_kvs_length_le pre) hX, ok_bind, hkey]
    by_cases hs : key = cstr_bytes "__msgSuffix"
    · have hes : e.key = msgSuffix_key := by rw [hkey, hs]; rfl
      obtain ⟨b, hb⟩ := hsfx e (List.mem_cons_self _ _) hes
      have hk1 : kept_kvs (pre ++ [e]) = kept_kvs pre := by
        simp [kept_kvs, hes]
      have href' : ref_kvs env.base rt m rest = Except.ok m2 := by
        simpa [ref_kvs, hes] using href
      have := ih (pre ++ [e]) m m2 (nmsg ++ b) n
        (fun kv hkv => hkeys kv (List.mem_cons_of_mem _ hkv))
        (fun kv hkv => hsfx kv (List.mem_cons_of_mem _ hkv)) href'
        (by simp at hfuel; omega)
      rw [hk1, ← hassoc] at this
      simp only [hs, if_true, hb, ft_arg_s, ok_bind]
      rw [show (pre ++ [e]).length = pre.length + 1 by simp] at this
      rw [this]
      simp [suffix_text, hes, hb, List.append_assoc]
    · have hes : e.key ≠ msgSuffix_key := by
        rw [hkey]; intro h; exact hs (Option.some.inj h)
      have hk1 : kept_kvs (pre ++ [e]) = kept_kvs pre ++ [e] := by
        simp [kept_kvs, hes]
      simp only [hs, if_false]
      have harr : (if (kept_kvs pre).length ≠ pre.length then
            (kept_kvs pre ++ (pre ++ e :: rest ++ [fobj_err_kv_t.zero]).drop
              (kept_kvs pre).length).set (kept_kvs pre).length e
          else kept_kvs pre ++ (pre ++ e :: rest ++ [fobj_err_kv_t.zero]).drop
              (kept_kvs pre).length)
          = kept_kvs (pre ++ [e]) ++ ((pre ++ [e]) ++ rest ++ [fobj_err_kv_t.zero]).drop
              (kept_kvs (pre ++ [e])).length := by
        rw [hk1, ← hassoc]
        simp only [List.length_append, List.length_singleton, List.append_assoc,
          List.singleton_append]
        split
        · rw [compacted_set _ _ _ _ rfl (by simpa using hlen)]
        · rename_i heq
          have heq : (kept_kvs pre).length = pre.length := by simpa using heq
          rw [heq, drop_of_get _ _ _ (by simpa using hX)]
      -- the reference taken for an object value
      have hstep : ∃ m1, (match e.val with
            | ft_arg_t.o obj => fobj_ref env.base rt m obj
            | _ => pure m) = Except.ok m1 ∧ ref_kvs env.base rt m1 rest = Except.ok m2 := by
        unfold ref_kvs at href
        rw [if_neg hes] at href
        cases hv : e.val <;> rw [hv] at href <;> simp only [] at href ⊢
        case o obj =>
          cases hr : fobj_ref env.base rt m obj with
          | error err => rw [hr] at href; cases href
          | ok m1 => rw [hr, ok_bind] at href; exact ⟨m1, rfl, href⟩
        all_goals exact ⟨m, rfl, href⟩
      obtain ⟨m1, hm1, href'⟩ := hstep
      have tail : fobj__make_err_loop env rt n
          { arr := if (kept_kvs pre).length ≠ pre.length then
                (kept_kvs pre ++ (pre ++ e :: rest ++ [fobj_err_kv_t.zero]).drop
                  (kept_kvs pre).length).set (kept_kvs pre).length e
              else kept_kvs pre ++ (pre ++ e :: rest ++ [fobj_err_kv_t.zero]).drop
                  (kept_kvs pre).length
            kv := pre.length + 1
            cpy := (kept_kvs pre).length + 1
            nmsg := nmsg
            mem := m1 }
          = Except.ok
            { arr := kept_kvs (pre ++ e :: rest) ++
                (pre ++ e :: rest ++ [fobj_err_kv_t.zero]).drop (kept_kvs (pre ++ e :: rest)).length
              kv := (pre ++ e :: rest).length
              cpy := (kept_kvs (pre ++ e :: rest)).length
              nmsg := nmsg ++ suffix_text (e :: rest)
              mem := m2 } := by
        rw [harr]
        have := ih (pre ++ [e]) m1 m2 nmsg n
          (fun kv hkv => hkeys kv (List.mem_cons_of_mem _ hkv))
          (fun kv hkv => hsfx kv (List.mem_cons_of_mem _ hkv)) href'
          (by simp at hfuel; omega)
        rw [show (pre ++ [e]).length = pre.length + 1 by simp,
          show (kept_kvs (pre ++ [e])).length = (kept_kvs pre).length + 1 by rw [hk1]; simp]
          at this
        rw [show (kept_kvs (pre ++ [e])).length = (kept_kvs pre).length + 1 by rw [hk1]; simp]
        rw [this, ← hassoc]
        simp [suffix_text, hes]
      revert hm1
      cases hv : e.val <;> intro hm1 <;> simp only [] at hm1 ⊢ <;>
        (rw [hm1, ok_bind]; exact tail)

/-- The vector of a new error and the text that is formatted: for an input of
entries with non-null keys the vector starts with the kept entries, in their
order, followed by an entry with a null key, and the message is the result of
`fobj__format_errmsg` on `msg` followed by the suffixes. -/
theorem make_err_spec (env : format_env) (rt : fobj_runtime) (m m1 m2 : fobj_mem)
    (type : Option (List Nat)) (src : ft_source_position_t) (msg : List Nat)
    (kvs : List fobj_err_kv_t) (self : Nat)
    (halloc : env.fobj_alloc_sized m (kvs.length + 1) = Except.ok (self, m1))
    (hkeys : ∀ kv ∈ kvs, kv.key ≠ none)
    (hsfx : ∀ kv ∈ kvs, kv.key = msgSuffix_key → ∃ b, kv.val = ft_arg_t.s (some b))
    (href : ref_kvs env.base rt m1 kvs = Except.ok m2) :
    ∃ arr junk e,
      arr = kept_kvs kvs ++ e :: junk ∧ e.key = none ∧
      fobj__make_err env rt m type src (some msg) kvs kvs.length
        = (do
            let message ← fobj__format_errmsg env (msg ++ suffix_text kvs) arr
            pure (self,
              { type := if type = none then some (cstr_bytes "RT") else type
                message := some message
                src := { src with file := env.ft__truncate_log_filename src.file }
                sibling := 0
                kv := arr }, m2)) := by
  unfold fobj__make_err
  rw [halloc, ok_bind]
  by_cases hn : kvs.length > 0
  · have hloop := make_err_loop_spec env rt kvs [] m1 m2 msg (kvs.length + 2) hkeys hsfx href
      (by omega)
    have hnil : kept_kvs [] = [] := rfl
    simp only [hnil, List.length_nil, List.nil_append, List.drop_zero] at hloop
    have hk := kept_kvs_length_le kvs
    by_cases hc : (kept_kvs kvs).length = kvs.length
    · refine ⟨kept_kvs kvs ++ fobj_err_kv_t.zero :: [], [], fobj_err_kv_t.zero, rfl, rfl, ?_⟩
      have hdrop : (kvs ++ [fobj_err_kv_t.zero]).drop (kept_kvs kvs).length
          = [fobj_err_kv_t.zero] := by
        rw [hc]; simp
      simp only [hn, if_true, lt_irrefl, if_false, List.take_length, Option.some_ne_none,
        Option.getD_some, ok_bind, hloop]
      rw [if_neg (not_not.mpr hc), hdrop]
      rfl
    · refine ⟨kept_kvs kvs ++ fobj_err_kv_t.sentinel ::
          (kvs ++ [fobj_err_kv_t.zero]).drop ((kept_kvs kvs).length + 1), _,
        fobj_err_kv_t.sentinel, rfl, rfl, ?_⟩
      simp only [hn, if_true, lt_irrefl, if_false, List.take_length, Option.some_ne_none,
        Option.getD_some, ok_bind, hloop]
      have hset := compacted_set (kept_kvs kvs) (kvs ++ [fobj_err_kv_t.zero])
        (kept_kvs kvs).length fobj_err_kv_t.sentinel rfl (by simp; omega)
      rw [if_pos hc, pure_eq_ok, ok_bind]
      simp only [hset]
  · have h0 : kvs = [] := by
      cases kvs with
      | nil => rfl
      | cons a l => simp at hn
    subst h0
    simp only [ref_kvs, pure_eq_ok] at href
    cases href
    refine ⟨[fobj_err_kv_t.zero], [], fobj_err_kv_t.zero, rfl, rfl, ?_⟩
    simp [suffix_text, pure_eq_ok, List.replicate]
    rfl

/-! ## Formatters append to the buffer -/

theorem bind_pure_append_append (x : Except Fault (List Nat)) (a b : List Nat) :
    ((x >>= fun r => (pure (b ++ r) : Except Fault (List Nat))) >>= fun r => pure (a ++ r))
      = (x >>= fun r => pure (a ++ b ++ r)) := by
  cases x <;> simp [bind, Except.bind, pure, Except.pure, List.append_assoc]

/-- The loop of `fobj_format_string` appends to the buffer. -/
theorem format_string_loop_append (env : fmt_env) (str : ft_str_t) :
    ∀ (n i : Nat) (buf : List Nat),
      fobj_format_string_loop env str n i buf
        = (fobj_format_string_loop env str n i [] >>= fun r => pure (buf ++ r)) := by
  intro n
  induction n with
  | zero => intro i buf; simp [fobj_format_string_loop, pure, Except.pure, bind, Except.bind]
  | succ n ih =>
    intro i buf
    unfold fobj_format_string_loop
    cases hb : str.byte_at i with
    | error e => rfl
    | ok b =>
      simp only [ok_bind]
      by_cases hi : INT_MAX ≤ i
      · simp only [hi, if_true]; rfl
      · simp only [hi, if_false]
        rw [ih (i + 1) (buf ++ _), ih (i + 1) ([] ++ _), bind_pure_append_append]
        simp

/-- Function `fobj_format_string` appends to the buffer. -/
theorem format_string_append (env : fmt_env) (buf : List Nat) (str : ft_str_t)
    (fmt : Option String) :
    fobj_format_string env buf str fmt
      = (fobj_format_string env [] str fmt >>= fun r => pure (buf ++ r)) := by
  unfold fobj_format_string
  split
  · simp [pure, Except.pure, bind, Except.bind]
  · split
    · cases ft_assert 721 (decide (1 + (fmt.getD "").length < 32)) <;>
        simp [pure, Except.pure, bind, Except.bind]
    · dsimp only
      rw [format_string_loop_append env str str.len 0
          ((if str.ptr = none then buf ++ [78, 85, 76, 76] else buf) ++ [34]),
        format_string_loop_append env str str.len 0
          ((if str.ptr = none then [] ++ [78, 85, 76, 76] else []) ++ [34])]
      cases fobj_format_string_loop env str str.len 0 [] <;>
        simp [pure, Except.pure, bind, Except.bind]
      split <;> simp

/-- Function `fobj_format_int` appends to the buffer. -/
theorem format_int_append (env : format_env) (buf : List Nat) (i : Nat) (s : Bool)
    (fmt : Option (List Nat)) :
    fobj_format_int env buf i s fmt
      = (fobj_format_int env [] i s fmt >>= fun r => pure (buf ++ r)) := by
  unfold fobj_format_int
  split
  · split <;> simp [pure, Except.pure, bind, Except.bind]
  · dsimp only
    cases ft_assert 800 (decide (1 + (fmt.getD []).length < 28)) with
    | error e => rfl
    | ok u =>
      simp only [ok_bind]
      cases tfmt_at (tfmt_of (fmt.getD [])) (1 + (fmt.getD []).length - 1) with
      | error e => rfl
      | ok base =>
        simp only [ok_bind]
        cases ft_assert 802 (decide (base = 120 ∨ base = 88 ∨ base = 111 ∨ base = 117 ∨
          base = 100 ∨ base = 105)) with
        | error e => rfl
        | ok u =>
          simp only [ok_bind]
          cases fobj_format_int_strip (tfmt_of (fmt.getD [])) (1 + (fmt.getD []).length - 1) with
          | error e => rfl
          | ok len =>
            simp only [ok_bind]
            split <;> simp [pure, Except.pure, bind, Except.bind]

/-- Function `fobj_format_bool` appends to the buffer. -/
theorem format_bool_append (env : format_env) (buf : List Nat) (b : Bool)
    (fmt : Option (List Nat)) :
    fobj_format_bool env buf b fmt
      = (fobj_format_bool env [] b fmt >>= fun r => pure (buf ++ r)) := by
  unfold fobj_format_bool
  split
  · simp [pure, Except.pure, bind, Except.bind]
  · dsimp only
    cases tfmt_at (tfmt_of (fmt.getD [])) (1 + (fmt.getD []).length - 1) with
    | error e => rfl
    | ok c =>
      simp only [ok_bind]
      split <;> simp [pure, Except.pure, bind, Except.bind]

theorem strchr_none (c : Nat) : ∀ (s : List Nat), c ∉ s → strchr s c = none := by
  intro s
  induction s with
  | nil => intro _; rfl
  | cons b s ih =>
    intro h
    have hb : b ≠ c := fun e => h (by rw [e]; exact List.mem_cons_self _ _)
    have hs : c ∉ s := fun e => h (List.mem_cons_of_mem _ e)
    simp [strchr, hb, ih hs]

theorem mem_of_strchr (c : Nat) (s : List Nat) (h : strchr s c ≠ none) : c ∈ s := by
  by_contra hc
  exact h (strchr_none c s hc)

theorem errmsg_loop_cons (env : format_env) (kvs : List fobj_err_kv_t) (n c : Nat)
    (cur out : List Nat) :
    fobj__format_errmsg_loop env kvs (n + 1) (c :: cur) out
      = (if c ≠ 123 then fobj__format_errmsg_loop env kvs n cur (out ++ [c])
        else if cur.head? = some 123 then
          fobj__format_errmsg_loop env kvs n cur.tail (out ++ [123])
        else
          match strchr cur 125 with
          | none => .error (Fault.abort 1014)
          | some closebrace => do
            let formatdelim := memchr cur 58 closebrace
            let identlen := formatdelim.getD closebrace
            ft_assert 1017 (decide (identlen ≤ 31))
            ft_assert 1019 (decide (formatdelim = none ∨ closebrace - formatdelim.getD 0 ≤ 31))
            let ident := cur.take identlen
            let formatlen := match formatdelim with
              | some d => closebrace - (d + 1)
              | none => 0
            let format := (cur.drop (formatdelim.getD 0 + 1)).take formatlen
            let r ← fobj__format_errmsg_lookup env ident format kvs out
            ft_dbg_assert env.base 1037 r.1
            fobj__format_errmsg_loop env kvs n (cur.drop (closebrace + 1)) r.2) := by
  rw [fobj__format_errmsg_loop]

theorem errmsg_loop_nil (env : format_env) (kvs : List fobj_err_kv_t) (n : Nat)
    (out : List Nat) : fobj__format_errmsg_loop env kvs n [] out = Except.ok out := by
  cases n <;> rfl

/-- More fuel than characters changes nothing. -/
theorem errmsg_loop_fuel (env : format_env) (arr : List fobj_err_kv_t) :
    ∀ (n : Nat) (cur out : List Nat) (k : Nat), cur.length ≤ n →
      fobj__format_errmsg_loop env arr (n + k) cur out
        = fobj__format_errmsg_loop env arr n cur out := by
  intro n
  induction n with
  | zero =>
    intro cur out k h
    have : cur = [] := List.length_eq_zero.mp (by omega)
    subst this
    rw [errmsg_loop_nil, errmsg_loop_nil]
  | succ n ih =>
    intro cur out k h
    cases cur with
    | nil => rw [errmsg_loop_nil, errmsg_loop_nil]
    | cons c cur =>
      have hk : n + 1 + k = (n + k) + 1 := by omega
      rw [hk]
      have hl : cur.length ≤ n := by simpa using h
      rw [errmsg_loop_cons, errmsg_loop_cons]
      split
      · exact ih _ _ _ hl
      · split
        · exact ih _ _ _ (by simp; omega)
        · cases strchr cur 125 with
          | none => rfl
          | some closebrace =>
            dsimp only
            cases ft_assert 1017 (decide ((memchr cur 58 closebrace).getD closebrace ≤ 31)) with
            | error e => rfl
            | ok u =>
              simp only [ok_bind]
              cases ft_assert 1019 (decide (memchr cur 58 closebrace = none ∨
                closebrace - (memchr cur 58 closebrace).getD 0 ≤ 31)) with
              | error e => rfl
              | ok u =>
                simp only [ok_bind]
                cases fobj__format_errmsg_lookup env (cur.take ((memchr cur 58 closebrace).getD
                    closebrace))
                  ((cur.drop ((memchr cur 58 closebrace).getD 0 + 1)).take
                    (match memchr cur 58 closebrace with
                      | some d => closebrace - (d + 1)
                      | none => 0)) arr out with
                | error e => rfl
                | ok r =>
                  simp only [ok_bind]
                  cases ft_dbg_assert env.base 1037 r.1 with
                  | error e => rfl
                  | ok u =>
                    simp only [ok_bind]
                    exact ih _ _ _ (by simp; omega)

/-! ## Interpolation -/

/-- C18. For an input of entries with non-null keys whose `__msgSuffix`
entries hold strings: the vector stored on the error starts with the entries
whose key is not `__msgSuffix`, in their order, followed by an entry with a
null key; and the message is the result of `fobj__format_errmsg` on `msg`
followed by the string values of the `__msgSuffix` entries in their order. -/
theorem fobj__make_err_kv_compaction (env : format_env) (rt : fobj_runtime)
    (m m1 m2 : fobj_mem) (type : Option (List Nat)) (src : ft_source_position_t)
    (msg : List Nat) (kvs : List fobj_err_kv_t) (self : Nat)
    (halloc : env.fobj_alloc_sized m (kvs.length + 1) = Except.ok (self, m1))
    (hkeys : ∀ kv ∈ kvs, kv.key ≠ none)
    (hsfx : ∀ kv ∈ kvs, kv.key = msgSuffix_key → ∃ b, kv.val = ft_arg_t.s (some b))
    (href : ref_kvs env.base rt m1 kvs = Except.ok m2) :
    ∃ arr junk e,
      arr = kvs.filter (fun kv => decide (kv.key ≠ some (cstr_bytes "__msgSuffix")))
        ++ e :: junk ∧
      e.key = none ∧
      fobj__make_err env rt m type src (some msg) kvs kvs.length
        = (do
            let message ← fobj__format_errmsg env (msg ++ suffix_text kvs) arr
            pure (self,
              { type := if type = none then some (cstr_bytes "RT") else type
                message := some message
                src := { src with file := env.ft__truncate_log_filename src.file }
                sibling := 0
                kv := arr }, m2)) :=
  make_err_spec env rt m m1 m2 type src msg kvs self halloc hkeys hsfx href

/-- Witness of C18: of the entries `a`, `__msgSuffix`, `o` and `b` the error
keeps `a`, `o` and `b`, the text that is formatted is `m more`, and a
reference is taken on the object of `o`. -/
theorem fobj__make_err_kv_compaction_witness :
    (∃ arr junk e,
      arr = [ { key := some (cstr_bytes "a"), val := ft_arg_t.i 1 },
              { key := some (cstr_bytes "o"), val := ft_arg_t.o 64 },
              { key := some (cstr_bytes "b"), val := ft_arg_t.s (some (cstr_bytes "x")) } ]
        ++ e :: junk ∧
      e.key = none ∧
      fobj__make_err example_env scenario_rt example_mem none
          { file := none, func := none, line := 0 } (some (cstr_bytes "m")) example_kvs 4
        = (do
            let message ← fobj__format_errmsg example_env (cstr_bytes "m more") arr
            pure (1000,
              { type := some (cstr_bytes "RT")
                message := some message
                src := { file := none, func := none, line := 0 }
                sibling := 0
                kv := arr }, example_mem_ref))) ∧
    example_mem_ref.heap 64
      = some { magic := FOBJ_HEADER_MAGIC, rc := 2, flags := 0, klass := 2 } :=
  ⟨fobj__make_err_kv_compaction example_env scenario_rt example_mem example_mem
    example_mem_ref none { file := none, func := none, line := 0 } (cstr_bytes "m")
    example_kvs 1000 (by rfl) (by decide)
    (by
      intro kv hkv hkey
      simp only [example_kvs, List.mem_cons, List.mem_singleton, List.not_mem_nil,
        or_false] at hkv
      rcases hkv with rfl | rfl | rfl | rfl
      · exact absurd hkey (by decide)
      · exact ⟨_, rfl⟩
      · exact absurd hkey (by decide)
      · exact absurd hkey (by decide))
    (by rfl), by rfl⟩

/-! ## Combined errors -/

theorem ErrChain_frame (errs errs' : Nat → Option fobjErr) :
    ∀ (l : List Nat) (p : Nat), (∀ q ∈ l, errs' q = errs q) → ErrChain errs p l →
      ErrChain errs' p l := by
  intro l
  induction l with
  | nil => intro p _ h; exact h
  | cons q l ih =>
    intro p hf h
    obtain ⟨h1, h2, e, h3, h4⟩ := h
    refine ⟨h1, h2, e, ?_, ih _ (fun x hx => hf x (List.mem_cons_of_mem _ hx)) h4⟩
    rw [hf q (List.mem_cons_self _ _), h3]

theorem ErrChain_unique (errs : Nat → Option fobjErr) :
    ∀ (l l' : List Nat) (p : Nat), ErrChain errs p l → ErrChain errs p l' → l = l' := by
  intro l
  induction l with
  | nil =>
    intro l' p h h'
    cases l' with
    | nil => rfl
    | cons q l' =>
      obtain ⟨h1, h2, _⟩ := h'
      have : p = 0 := h
      omega
  | cons q l ih =>
    intro l' p h h'
    obtain ⟨h1, h2, e, h3, h4⟩ := h
    cases l' with
    | nil =>
      have : p = 0 := h'
      omega
    | cons q' l' =>
      obtain ⟨g1, g2, e', g3, g4⟩ := h'
      have hq : q = q' := h1.symm.trans g1
      subst hq
      rw [h3] at g3
      cases g3
      rw [ih l' _ h4 g4]

/-- The walk to the end of a chain stops at its last object. -/
theorem combine_tail_spec (errs : Nat → Option fobjErr) :
    ∀ (l : List Nat) (p t fuel : Nat), ErrChain errs p (l ++ [t]) → l.length < fuel →
      fobj_err_combine_tail errs fuel p = Except.ok t := by
  intro l
  induction l with
  | nil =>
    intro p t fuel h hf
    obtain ⟨n, rfl⟩ : ∃ n, fuel = n + 1 := ⟨fuel - 1, by omega⟩
    obtain ⟨h1, h2, e, h3, h4⟩ := h
    have h4 : e.sibling = 0 := h4
    subst h1
    simp [fobj_err_combine_tail, err_at, h3, h4, pure, Except.pure, bind, Except.bind]
  | cons q l ih =>
    intro p t fuel h hf
    obtain ⟨n, rfl⟩ : ∃ n, fuel = n + 1 := ⟨fuel - 1, by omega⟩
    obtain ⟨h1, h2, e, h3, h4⟩ := h
    subst h1
    have hne : e.sibling ≠ 0 := by
      cases l with
      | nil => obtain ⟨g1, g2, _⟩ := h4; omega
      | cons x l => obtain ⟨g1, g2, _⟩ := h4; omega
    have := ih e.sibling t n h4 (by simp at hf; omega)
    simp [fobj_err_combine_tail, err_at, h3, hne, this, bind, Except.bind]

/-- Storing a pointer to a chain in the `sibling` field of the last object of
a chain appends the chains. -/
theorem ErrChain_append (errs : Nat → Option fobjErr) (t : Nat) (te : fobjErr) (x : Nat)
    (A : List Nat) (hA : ErrChain errs x A) (htA : t ∉ A) :
    ∀ (l : List Nat) (p : Nat), ErrChain errs p (l ++ [t]) → t ∉ l →
      ErrChain (Function.update errs t (some { te with sibling := x })) p (l ++ [t] ++ A) := by
  intro l
  induction l with
  | nil =>
    intro p h _
    obtain ⟨h1, h2, e, h3, h4⟩ := h
    refine ⟨h1, h2, { te with sibling := x }, by simp, ?_⟩
    apply ErrChain_frame errs _ A x _ hA
    intro q hq
    have : q ≠ t := fun e => htA (e ▸ hq)
    simp [Function.update, this]
  | cons q l ih =>
    intro p h hnot
    obtain ⟨h1, h2, e, h3, h4⟩ := h
    have hqt : q ≠ t := fun e => hnot (by rw [e]; exact List.mem_cons_self _ _)
    refine ⟨h1, h2, e, by simp [Function.update, hqt, h3], ?_⟩
    exact ih _ h4 (fun hm => hnot (List.mem_cons_of_mem _ hm))

theorem ErrChain_last (errs : Nat → Option fobjErr) :
    ∀ (l : List Nat) (p t : Nat), ErrChain errs p (l ++ [t]) → ∃ te, errs t = some te := by
  intro l
  induction l with
  | nil =>
    intro p t h
    obtain ⟨_, _, e, h3, _⟩ := h
    exact ⟨e, h3⟩
  | cons q l ih =>
    intro p t h
    obtain ⟨_, _, e, _, h4⟩ := h
    exact ih _ t h4

theorem real_klass_of_ok (env : format_env) (rt : fobj_runtime) (m : fobj_mem) (p : Nat)
    (hst : rt.fobj_global_state ≠ FOBJ_GLOBAL_STATE.FOBJ_RT_NOT_INITIALIZED)
    (hp : p ≠ 0) (hh : ErrHeader env m p) :
    fobj_real_klass_of env.base rt m p = Except.ok env.fobjErr__kh := by
  obtain ⟨h, h1, h2, h3⟩ := hh
  unfold fobj_real_klass_of
  simp [hst, hp, header_of, h1, h2, h3, c_assert, ft_assert, pure, Except.pure, bind,
    Except.bind]

theorem fobj_ref_ok (env : fobj_env) (rt : fobj_runtime) (m : fobj_mem) (p : Nat)
    (hdr : fobj_header) (hp : p ≠ 0) (h1 : m.heap p = some hdr)
    (h2 : hdr.magic = FOBJ_HEADER_MAGIC) (h3 : 0 < hdr.klass)
    (h4 : hdr.klass ≤ rt.fobj_klasses_n) :
    fobj_ref env rt m p
      = Except.ok { heap := Function.update m.heap p (some { hdr with rc := uint32_inc hdr.rc })
                    trace := m.trace } := by
  unfold fobj_ref
  simp [hp, header_of, h1, h2, h3, h4, c_assert, ft_assert, fobj_mem.set_header, pure,
    Except.pure, bind, Except.bind]

/-- What `fobj_err_combine` does to two errors with disjoint chains: the
second error becomes the sibling of the first and gains a reference, the
former siblings of the first follow the chain of the second, and nothing else
changes. -/
theorem combine_spec (env : format_env) (rt : fobj_runtime) (fuel : Nat) (st : err_mem)
    (a b : Nat) (A B : List Nat)
    (hst : rt.fobj_global_state ≠ FOBJ_GLOBAL_STATE.FOBJ_RT_NOT_INITIALIZED)
    (hkh : 0 < env.fobjErr__kh ∧ env.fobjErr__kh ≤ rt.fobj_klasses_n)
    (ha : ErrChain st.errs a (a :: A)) (hb : ErrChain st.errs b (b :: B))
    (hnd : (a :: A ++ b :: B).Nodup)
    (hha : ErrHeader env st.mem a) (hhb : ErrHeader env st.mem b)
    (hf : B.length < fuel) :
    ∃ st' hdr,
      fobj_err_combine env rt fuel st a b = Except.ok (a, st') ∧
      ErrChain st'.errs a (a :: b :: B ++ A) ∧
      (∀ q, q ∉ a :: b :: B → st'.errs q = st.errs q) ∧
      st.mem.heap b = some hdr ∧
      st'.mem = { heap := Function.update st.mem.heap b
                    (some { hdr with rc := uint32_inc hdr.rc })
                  trace := st.mem.trace } := by
  obtain ⟨_, ha0, ea, hea, hA⟩ := ha
  have hb' := hb
  obtain ⟨_, hb0, eb, heb, hB⟩ := hb
  obtain ⟨hdr, hh1, hh2, hh3⟩ := hhb
  have hnd' : ∀ q, q ∈ a :: A → q ∉ b :: B := by
    intro q hq hq'
    exact (List.nodup_append.mp hnd).2.2 hq hq'
  have hndA : (a :: A).Nodup := (List.nodup_append.mp hnd).1
  have hndB : (b :: B).Nodup := (List.nodup_append.mp hnd).2.1
  have hab : a ∉ b :: B := hnd' a (List.mem_cons_self _ _)
  have haA : a ∉ A := (List.nodup_cons.mp hndA).1
  -- the chain of the second error after the re-linking
  have hrelink : ∃ errs1,
      ((ea.sibling = 0 ∧ errs1 = st.errs) ∨
        (ea.sibling ≠ 0 ∧ ∃ t te, fobj_err_combine_tail st.errs fuel b = Except.ok t ∧
          st.errs t = some te ∧
          errs1 = Function.update st.errs t (some { te with sibling := ea.sibling }))) ∧
      ErrChain errs1 b (b :: B ++ A) ∧ (∀ q, q ∉ b :: B → errs1 q = st.errs q) := by
    by_cases hs : ea.sibling = 0
    · have hAnil : A = [] := by
        cases A with
        | nil => rfl
        | cons x A => obtain ⟨g1, g2, _⟩ := hA; omega
      subst hAnil
      refine ⟨st.errs, Or.inl ⟨hs, rfl⟩, ?_, fun _ _ => rfl⟩
      simpa using hb'
    · obtain ⟨l, t, hlt⟩ : ∃ l t, b :: B = l ++ [t] :=
        ⟨(b :: B).dropLast, (b :: B).getLast (by simp),
          (List.dropLast_append_getLast (by simp)).symm⟩
      have hlen : l.length < fuel := by
        have := congrArg List.length hlt
        simp at this
        omega
      rw [hlt] at hb' hndB
      obtain ⟨te, hte⟩ := ErrChain_last st.errs l b t hb'
      have htl : t ∉ l := by
        intro hm
        have := List.nodup_append.mp hndB
        exact this.2.2 hm (List.mem_singleton_self t)
      have htB : t ∈ b :: B := by rw [hlt]; simp
      have htA : t ∉ A := fun hm => hnd' t (List.mem_cons_of_mem _ hm) htB
      refine ⟨Function.update st.errs t (some { te with sibling := ea.sibling }),
        Or.inr ⟨hs, t, te, combine_tail_spec st.errs l b t fuel hb' hlen, hte, rfl⟩, ?_, ?_⟩
      · have := ErrChain_append st.errs t te ea.sibling A hA htA l b hb' htl
        rw [← hlt] at this
        simpa using this
      · intro q hq
        have : q ≠ t := fun e => hq (e ▸ htB)
        simp [Function.update, this]
  obtain ⟨errs1, hr1, hr2, hr3⟩ := hrelink
  have hea1 : errs1 a = some ea := by rw [hr3 a hab, hea]
  refine ⟨{ mem := { heap := Function.update st.mem.heap b
                      (some { hdr with rc := uint32_inc hdr.rc })
                     trace := st.mem.trace },
            errs := Function.update errs1 a (some { ea with sibling := b }) }, hdr, ?_, ?_, ?_,
    hh1, rfl⟩
  · unfold fobj_err_combine
    rw [if_neg ha0, if_neg hb0, real_klass_of_ok env rt st.mem a hst ha0 hha, ok_bind]
    simp only [decide_True, ft_assert_true, ok_bind]
    rw [real_klass_of_ok env rt st.mem b hst hb0 ⟨hdr, hh1, hh2, hh3⟩, ok_bind]
    simp only [decide_True, ft_assert_true, ok_bind, err_at, hea]
    have href := fobj_ref_ok env.base rt st.mem b hdr hb0 hh1 hh2 (by rw [hh3]; exact hkh.1)
      (by rw [hh3]; exact hkh.2)
    rcases hr1 with ⟨hs, he1⟩ | ⟨hs, t, te, ht1, ht2, he1⟩
    · subst he1
      simp only [hs, ne_eq, not_true, if_false, pure_eq_ok, ok_bind, href, hea]
    · subst he1
      simp only [hs, ne_eq, not_false_eq_true, if_true, ht1, ht2, pure_eq_ok, ok_bind, href,
        hea1]
  · refine ⟨rfl, ha0, { ea with sibling := b }, by simp, ?_⟩
    apply ErrChain_frame errs1 _ _ _ _ hr2
    intro q hq
    have : q ≠ a := by
      intro e
      rw [e] at hq
      rcases List.mem_append.mp (by simpa using hq : a ∈ (b :: B) ++ A) with h | h
      · exact hab h
      · exact haA h
    simp [Function.update, this]
  · intro q hq
    have hqa : q ≠ a := fun e => hq (by rw [e]; exact List.mem_cons_self _ _)
    have hqb : q ∉ b :: B := fun h => hq (List.mem_cons_of_mem _ h)
    simp [Function.update, hqa, hr3 q hqb]

theorem sibling_chain_spec (errs : Nat → Option fobjErr) :
    ∀ (L : List Nat) (p fuel : Nat), ErrChain errs p (p :: L) → L.length < fuel →
      sibling_chain errs fuel p = L := by
  intro L
  induction L with
  | nil =>
    intro p fuel h hf
    obtain ⟨n, rfl⟩ : ∃ n, fuel = n + 1 := ⟨fuel - 1, by omega⟩
    obtain ⟨_, _, e, h3, h4⟩ := h
    have h4 : e.sibling = 0 := h4
    simp [sibling_chain, h3, h4]
  | cons q L ih =>
    intro p fuel h hf
    obtain ⟨n, rfl⟩ : ∃ n, fuel = n + 1 := ⟨fuel - 1, by omega⟩
    obtain ⟨_, _, e, h3, h4⟩ := h
    have h4' := h4
    obtain ⟨g1, g2, _⟩ := h4
    have hne : e.sibling ≠ 0 := by omega
    rw [g1] at h4' hne
    have := ih q n h4' (by simp at hf; omega)
    simp [sibling_chain, h3, g1, hne, this]

theorem ErrHeader_update (env : format_env) (m : fobj_mem) (b p : Nat) (hdr : fobj_header)
    (tr : List fobj_event) (hp : p ≠ b) (h : ErrHeader env m p) :
    ErrHeader env { heap := Function.update m.heap b (some hdr), trace := tr } p := by
  obtain ⟨h0, h1, h2, h3⟩ := h
  exact ⟨h0, by simp [Function.update, hp, h1], h2, h3⟩

/-- C19. For two errors with disjoint chains `fobj_err_combine` returns the
first; afterwards the `sibling` field of the first is the second, the
reference count of the second is one higher and no other header changed, and
the sibling chain of the first is the second, then the former sibling chain of
the second, then the former sibling chain of the first; no object occurs
twice in it. -/
theorem fobj_err_combine_chain (env : format_env) (rt : fobj_runtime) (fuel : Nat)
    (st : err_mem) (a b : Nat) (A B : List Nat)
    (hst : rt.fobj_global_state ≠ FOBJ_GLOBAL_STATE.FOBJ_RT_NOT_INITIALIZED)
    (hkh : 0 < env.fobjErr__kh ∧ env.fobjErr__kh ≤ rt.fobj_klasses_n)
    (ha : ErrChain st.errs a (a :: A)) (hb : ErrChain st.errs b (b :: B))
    (hnd : (a :: A ++ b :: B).Nodup)
    (hha : ErrHeader env st.mem a) (hhb : ErrHeader env st.mem b)
    (hf : A.length + B.length + 1 < fuel) :
    ∃ st' hdr first,
      fobj_err_combine env rt fuel st a b = Except.ok (a, st') ∧
      st'.errs a = some first ∧ first.sibling = b ∧
      st.mem.heap b = some hdr ∧
      st'.mem.heap b = some { hdr with rc := uint32_inc hdr.rc } ∧
      (∀ q, q ≠ b → st'.mem.heap q = st.mem.heap q) ∧
      ErrChain st'.errs a (a :: b :: B ++ A) ∧
      sibling_chain st'.errs fuel a = b :: B ++ A ∧
      (b :: B ++ A).Nodup := by
  obtain ⟨st', hdr, h1, h2, _, h4, h5⟩ :=
    combine_spec env rt fuel st a b A B hst hkh ha hb hnd hha hhb (by omega)
  have h2' := h2
  obtain ⟨_, _, first, g3, g4⟩ := h2
  obtain ⟨g5, _, _⟩ := g4
  refine ⟨st', hdr, first, h1, g3, g5, h4, ?_, ?_, h2', ?_, ?_⟩
  · rw [h5]; simp
  · intro q hq
    rw [h5]; simp [Function.update, hq]
  · exact sibling_chain_spec st'.errs _ a fuel h2' (by simp; omega)
  · have hp : List.Perm (b :: B ++ A) (A ++ b :: B) := List.perm_append_comm
    exact (List.Perm.nodup_iff hp).mpr (List.nodup_cons.mp hnd).2

/-- Witness of C19: combining the error `10`, whose sibling is `11`, with the
error `20`, whose sibling is `21`, gives `10` with the sibling chain `20`,
`21`, `11`, and `20` is referenced twice. -/
theorem fobj_err_combine_chain_witness :
    (∃ st' hdr first,
      fobj_err_combine example_env scenario_rt 4 example_errs 10 20 = Except.ok (10, st') ∧
      st'.errs 10 = some first ∧ first.sibling = 20 ∧
      example_errs.mem.heap 20 = some hdr ∧
      st'.mem.heap 20 = some { hdr with rc := uint32_inc hdr.rc } ∧
      (∀ q, q ≠ 20 → st'.mem.heap q = example_errs.mem.heap q) ∧
      ErrChain st'.errs 10 [10, 20, 21, 11] ∧
      sibling_chain st'.errs 4 10 = [20, 21, 11] ∧
      [20, 21, 11].Nodup) ∧
    Except.map (fun r => (r.1, sibling_chain r.2.errs 4 10,
        Option.map (fun h => h.rc) (r.2.mem.heap 20)))
        (fobj_err_combine example_env scenario_rt 4 example_errs 10 20)
      = Except.ok (10, [20, 21, 11], some 2) :=
  ⟨fobj_err_combine_chain example_env scenario_rt 4 example_errs 10 20 [11] [21]
    (by decide) ⟨by decide, by decide⟩
    ⟨rfl, by decide, _, rfl, rfl, by decide, _, rfl, rfl⟩
    ⟨rfl, by decide, _, rfl, rfl, by decide, _, rfl, rfl⟩
    (by decide) ⟨_, rfl, rfl, rfl⟩ ⟨_, rfl, rfl, rfl⟩ (by decide), by rfl⟩

/-- C20. `NULL` is an identity of `fobj_err_combine` on both sides, and the
memory is left as it is.  For three errors with pairwise disjoint chains,
combining the first two and then the third, and combining the first with the
combination of the last two, both return the first error, and the sibling
chains of the first error afterwards hold the same objects, each once. -/
theorem fobj_err_combine_assoc (env : format_env) (rt : fobj_runtime) (fuel : Nat)
    (st : err_mem) (a b c : Nat) (A B C : List Nat)
    (hst : rt.fobj_global_state ≠ FOBJ_GLOBAL_STATE.FOBJ_RT_NOT_INITIALIZED)
    (hkh : 0 < env.fobjErr__kh ∧ env.fobjErr__kh ≤ rt.fobj_klasses_n)
    (ha : ErrChain st.errs a (a :: A)) (hb : ErrChain st.errs b (b :: B))
    (hc : ErrChain st.errs c (c :: C))
    (hnd : (a :: A ++ b :: B ++ c :: C).Nodup)
    (hha : ErrHeader env st.mem a) (hhb : ErrHeader env st.mem b)
    (hhc : ErrHeader env st.mem c)
    (hf : A.length + B.length + C.length + 2 < fuel) :
    (∀ (s : err_mem) (e : Nat),
      fobj_err_combine env rt fuel s 0 e = Except.ok (e, s) ∧
      fobj_err_combine env rt fuel s e 0 = Except.ok (e, s)) ∧
    ∃ s1 s2 t1 t2 L1 L2,
      fobj_err_combine env rt fuel st a b = Except.ok (a, s1) ∧
      fobj_err_combine env rt fuel s1 a c = Except.ok (a, s2) ∧
      fobj_err_combine env rt fuel st b c = Except.ok (b, t1) ∧
      fobj_err_combine env rt fuel t1 a b = Except.ok (a, t2) ∧
      sibling_chain s2.errs fuel a = L1 ∧
      sibling_chain t2.errs fuel a = L2 ∧
      L1 = c :: C ++ (b :: B ++ A) ∧
      L2 = b :: (c :: C ++ B) ++ A ∧
      L1.Perm L2 ∧ L1.Nodup := by
  refine ⟨?_, ?_⟩
  · intro s e
    refine ⟨by simp [fobj_err_combine, pure, Except.pure], ?_⟩
    by_cases he : e = 0
    · simp [fobj_err_combine, he, pure, Except.pure]
    · simp [fobj_err_combine, he, pure, Except.pure]
  · -- the parts of the hypothesis on the objects
    have hnd1 : ((a :: A) ++ ((b :: B) ++ (c :: C))).Nodup := by
      rw [← List.append_assoc]; exact hnd
    have hab : (a :: A ++ b :: B).Nodup := (List.nodup_append.mp hnd).1
    have hbc : (b :: B ++ c :: C).Nodup := (List.nodup_append.mp hnd1).2.1
    have hdis_c : ∀ q, q ∈ c :: C → q ∉ a :: A ++ b :: B := by
      intro q hq hq'
      exact (List.nodup_append.mp hnd).2.2 hq' hq
    have hdis_a : ∀ q, q ∈ a :: A → q ∉ (b :: B) ++ (c :: C) := by
      intro q hq hq'
      exact (List.nodup_append.mp hnd1).2.2 hq hq'
    have hne_ab : a ≠ b := by
      intro e
      exact hdis_a a (List.mem_cons_self _ _) (by rw [e]; simp)
    have hne_ac : a ≠ c := by
      intro e
      exact hdis_c c (List.mem_cons_self _ _) (by rw [← e]; simp)
    have hne_bc : b ≠ c := by
      intro e
      exact hdis_c c (List.mem_cons_self _ _) (by rw [← e]; simp)
    -- first the left nesting
    obtain ⟨s1, hdr1, e1, e2, e3, e4, e5⟩ :=
      combine_spec env rt fuel st a b A B hst hkh ha hb hab hha hhb (by omega)
    have hc1 : ErrChain s1.errs c (c :: C) := by
      apply ErrChain_frame st.errs s1.errs _ _ _ hc
      intro q hq
      apply e3
      intro hq'
      apply hdis_c q hq
      rcases List.mem_cons.mp hq' with h | h
      · rw [h]; simp
      · exact List.mem_append_right _ h
    have hnd2 : (a :: (b :: B ++ A) ++ c :: C).Nodup := by
      have hp : List.Perm (a :: (b :: B ++ A) ++ c :: C) (a :: A ++ b :: B ++ c :: C) :=
        List.Perm.cons a (List.Perm.append_right (c :: C) List.perm_append_comm)
      exact (List.Perm.nodup_iff hp).mpr hnd
    obtain ⟨s2, hdr2, f1, f2, _, _, _⟩ :=
      combine_spec env rt fuel s1 a c (b :: B ++ A) C hst hkh e2 hc1 hnd2
        (by rw [e5]; exact ErrHeader_update env st.mem b a _ _ hne_ab hha)
        (by rw [e5]; exact ErrHeader_update env st.mem b c _ _ (Ne.symm hne_bc) hhc)
        (by omega)
    -- then the right nesting
    obtain ⟨t1, hdr3, g1, g2, g3, g4, g5⟩ :=
      combine_spec env rt fuel st b c B C hst hkh hb hc hbc hhb hhc (by omega)
    have ha1 : ErrChain t1.errs a (a :: A) := by
      apply ErrChain_frame st.errs t1.errs _ _ _ ha
      intro q hq
      apply g3
      intro hq'
      apply hdis_a q hq
      rcases List.mem_cons.mp hq' with h | h
      · rw [h]; simp
      · exact List.mem_append_right _ h
    have hnd3 : (a :: A ++ b :: (c :: C ++ B)).Nodup := by
      have hp : List.Perm ((a :: A) ++ (b :: (c :: C ++ B))) ((a :: A) ++ ((b :: B) ++ (c :: C))) :=
        List.Perm.append_left (a :: A) (List.Perm.cons b List.perm_append_comm)
      exact (List.Perm.nodup_iff hp).mpr hnd1
    obtain ⟨t2, hdr4, k1, k2, _, _, _⟩ :=
      combine_spec env rt fuel t1 a b A (c :: C ++ B) hst hkh ha1 g2 hnd3
        (by rw [g5]; exact ErrHeader_update env st.mem c a _ _ hne_ac hha)
        (by rw [g5]; exact ErrHeader_update env st.mem c b _ _ hne_bc hhb)
        (by simp; omega)
    have hperm : List.Perm (c :: C ++ (b :: B ++ A)) (b :: (c :: C ++ B) ++ A) := by
      have h1 : List.Perm ((c :: C) ++ ((b :: B) ++ A)) (((b :: B) ++ (c :: C)) ++ A) := by
        rw [← List.append_assoc]
        exact List.Perm.append_right A List.perm_append_comm
      have h2 : List.Perm (((b :: B) ++ (c :: C)) ++ A) ((b :: (c :: C ++ B)) ++ A) :=
        List.Perm.append_right A (List.Perm.cons b List.perm_append_comm)
      exact h1.trans h2
    refine ⟨s1, s2, t1, t2, _, _, e1, f1, g1, k1,
      sibling_chain_spec s2.errs _ a fuel f2 (by simp; omega),
      sibling_chain_spec t2.errs _ a fuel k2 (by simp; omega), rfl, rfl, hperm, ?_⟩
    have hp : List.Perm (c :: C ++ (b :: B ++ A)) ((b :: B ++ A) ++ c :: C) :=
      List.perm_append_comm
    exact (List.Perm.nodup_iff hp).mpr (List.nodup_cons.mp hnd2).2

/-- Witness of C20: the errors `10` (sibling `11`), `20` (sibling `21`) and
`30` combined in both nestings; the sibling chain of `10` is `30`, `20`, `21`,
`11` in one case and `20`, `30`, `21`, `11` in the other. -/
theorem fobj_err_combine_assoc_witness :
    ((∀ (s : err_mem) (e : Nat),
      fobj_err_combine example_env scenario_rt 6 s 0 e = Except.ok (e, s) ∧
      fobj_err_combine example_env scenario_rt 6 s e 0 = Except.ok (e, s)) ∧
    ∃ s1 s2 t1 t2 L1 L2,
      fobj_err_combine example_env scenario_rt 6 example_errs 10 20 = Except.ok (10, s1) ∧
      fobj_err_combine example_env scenario_rt 6 s1 10 30 = Except.ok (10, s2) ∧
      fobj_err_combine example_env scenario_rt 6 example_errs 20 30 = Except.ok (20, t1) ∧
      fobj_err_combine example_env scenario_rt 6 t1 10 20 = Except.ok (10, t2) ∧
      sibling_chain s2.errs 6 10 = L1 ∧
      sibling_chain t2.errs 6 10 = L2 ∧
      L1 = [30, 20, 21, 11] ∧
      L2 = [20, 30, 21, 11] ∧
      L1.Perm L2 ∧ L1.Nodup) ∧
    (do
      let r1 ← fobj_err_combine example_env scenario_rt 6 example_errs 10 20
      let r2 ← fobj_err_combine example_env scenario_rt 6 r1.2 r1.1 30
      pure (r2.1, sibling_chain r2.2.errs 6 10)) = Except.ok (10, [30, 20, 21, 11]) ∧
    (do
      let r1 ← fobj_err_combine example_env scenario_rt 6 example_errs 20 30
      let r2 ← fobj_err_combine example_env scenario_rt 6 r1.2 10 r1.1
      pure (r2.1, sibling_chain r2.2.errs 6 10)) = Except.ok (10, [20, 30, 21, 11]) :=
  ⟨fobj_err_combine_assoc example_env scenario_rt 6 example_errs 10 20 30 [11] [21] []
    (by decide) ⟨by decide, by decide⟩
    ⟨rfl, by decide, _, rfl, rfl, by decide, _, rfl, rfl⟩
    ⟨rfl, by decide, _, rfl, rfl, by decide, _, rfl, rfl⟩
    ⟨rfl, by decide, _, rfl, rfl⟩
    (by decide) ⟨_, rfl, rfl, rfl⟩ ⟨_, rfl, rfl, rfl⟩ ⟨_, rfl, rfl, rfl⟩ (by decide),
    by rfl, by rfl⟩

/-! ## Repr of errors -/

/-- The only fields `fobj_err_combine` writes are `sibling` fields. -/
theorem combine_fields (env : format_env) (rt : fobj_runtime) (fuel : Nat) (st st' : err_mem)
    (a b r : Nat) (h : fobj_err_combine env rt fuel st a b = Except.ok (r, st')) :
    ∀ q e, st.errs q = some e →
      ∃ e', st'.errs q = some e' ∧ e' = { e with sibling := e'.sibling } := by
  intro q e hq
  unfold fobj_err_combine at h
  by_cases ha : a = 0
  · rw [if_pos ha] at h
    cases h
    exact ⟨e, hq, rfl⟩
  rw [if_neg ha] at h
  by_cases hb : b = 0
  · rw [if_pos hb] at h
    cases h
    exact ⟨e, hq, rfl⟩
  rw [if_neg hb] at h
  obtain ⟨k1, _, h⟩ := (bind_eq_ok _ _ _).mp h
  obtain ⟨u1, _, h⟩ := (bind_eq_ok _ _ _).mp h
  obtain ⟨k2, _, h⟩ := (bind_eq_ok _ _ _).mp h
  obtain ⟨u2, _, h⟩ := (bind_eq_ok _ _ _).mp h
  obtain ⟨first, hfirst, h⟩ := (bind_eq_ok _ _ _).mp h
  -- the re-linking of the former siblings
  have hstep : ∀ errs1 : Nat → Option fobjErr,
      (∀ q e, st.errs q = some e →
        ∃ e', errs1 q = some e' ∧ e' = { e with sibling := e'.sibling }) →
      ((do
        let mem ← fobj_ref env.base rt st.mem b
        let first ← err_at errs1 a
        pure (a, ({ mem := mem,
                    errs := Function.update errs1 a (some { first with sibling := b }) } :
                  err_mem))) = Except.ok (r, st')) →
      ∃ e', st'.errs q = some e' ∧ e' = { e with sibling := e'.sibling } := by
    intro errs1 hframe hrun
    obtain ⟨mem, _, hrun⟩ := (bind_eq_ok _ _ _).mp hrun
    obtain ⟨f1, hf1, hrun⟩ := (bind_eq_ok _ _ _).mp hrun
    cases hrun
    obtain ⟨e1, he1, he1'⟩ := hframe q e hq
    by_cases hqa : q = a
    · subst hqa
      have : f1 = e1 := by
        unfold err_at at hf1
        rw [he1] at hf1
        exact (Except.ok.inj hf1).symm
      subst this
      refine ⟨{ f1 with sibling := b }, by simp, ?_⟩
      rw [he1']
    · exact ⟨e1, by simp [Function.update, hqa, he1], he1'⟩
  by_cases hs : first.sibling = 0
  · simp only [hs, ne_eq, not_true, if_false, pure_eq_ok, ok_bind] at h
    exact hstep st.errs (fun q e hq => ⟨e, hq, rfl⟩) h
  · simp only [hs, ne_eq, not_false_eq_true, if_true] at h
    obtain ⟨node, _, h⟩ := (bind_eq_ok _ _ _).mp h
    obtain ⟨last, hlast, h⟩ := (bind_eq_ok _ _ _).mp h
    rw [pure_eq_ok, ok_bind] at h
    apply hstep _ _ h
    intro q e hq
    by_cases hqn : q = node
    · subst hqn
      have : last = e := by
        unfold err_at at hlast
        rw [hq] at hlast
        exact (Except.ok.inj hlast).symm
      subst this
      exact ⟨{ last with sibling := first.sibling }, by simp, rfl⟩
    · exact ⟨e, by simp [Function.update, hqn, hq], rfl⟩

/-- The repr of an error does not depend on its `sibling` field. -/
theorem fobjErr_fobjRepr_sibling (env : format_env) (e : fobjErr) (s : Nat) :
    fobjErr_fobjRepr env { e with sibling := s } = fobjErr_fobjRepr env e := rfl

/-- The repr of an error starts with `$err(` and the type. -/
theorem fobjErr_fobjRepr_type (env : format_env) (e : fobjErr) (r : List Nat)
    (h : fobjErr_fobjRepr env e = Except.ok r) :
    ∃ type rest, e.type = some type ∧ r = cstr_bytes "$err(" ++ type ++ rest := by
  unfold fobjErr_fobjRepr at h
  dsimp only at h
  obtain ⟨b1, h1, h⟩ := (bind_eq_ok _ _ _).mp h
  obtain ⟨b2, h2, h⟩ := (bind_eq_ok _ _ _).mp h
  obtain ⟨b3, h3, h⟩ := (bind_eq_ok _ _ _).mp h
  cases h
  cases ht : e.type with
  | none => rw [ht] at h1; cases h1
  | some type =>
    rw [ht] at h1
    cases h1
    -- both formatters append to the buffer
    have g2 : ∃ x, b2 = (cstr_bytes "$err(" ++ type ++ cstr_bytes ", ") ++ x := by
      rw [format_string_append] at h2
      obtain ⟨x, _, hx⟩ := (bind_eq_ok _ _ _).mp h2
      exact ⟨x, (Except.ok.inj hx).symm⟩
    have g3 : ∀ (kvs : List fobj_err_kv_t) (buf out : List Nat),
        fobjErr_fobjRepr_loop env kvs buf = Except.ok out → ∃ x, out = buf ++ x := by
      intro kvs
      induction kvs with
      | nil => intro buf out hl; cases hl
      | cons kv kvs ih =>
        intro buf out hl
        unfold fobjErr_fobjRepr_loop at hl
        cases hk : kv.key with
        | none =>
          rw [hk] at hl
          cases hl
          exact ⟨[], by simp⟩
        | some key =>
          rw [hk] at hl
          dsimp only at hl
          obtain ⟨y, hy, hl⟩ := (bind_eq_ok _ _ _).mp hl
          obtain ⟨x, hx⟩ := ih _ _ hl
          have gy : ∃ z, y = (buf ++ cstr_bytes ", (" ++ key ++ cstr_bytes ", ") ++ z := by
            cases hv : kv.val <;> rw [hv] at hy <;> simp only [fobj_repr_arg] at hy
            case i v =>
              rw [format_int_append] at hy
              obtain ⟨z, _, hz⟩ := (bind_eq_ok _ _ _).mp hy
              exact ⟨z, (Except.ok.inj hz).symm⟩
            case u v =>
              rw [format_int_append] at hy
              obtain ⟨z, _, hz⟩ := (bind_eq_ok _ _ _).mp hy
              exact ⟨z, (Except.ok.inj hz).symm⟩
            case f v =>
              unfold fobj_format_float at hy
              simp only [true_or, if_true] at hy
              exact ⟨_, (Except.ok.inj hy).symm⟩
            case s v =>
              rw [format_string_append] at hy
              obtain ⟨z, _, hz⟩ := (bind_eq_ok _ _ _).mp hy
              exact ⟨z, (Except.ok.inj hz).symm⟩
            case b v =>
              rw [format_bool_append] at hy
              obtain ⟨z, _, hz⟩ := (bind_eq_ok _ _ _).mp hy
              exact ⟨z, (Except.ok.inj hz).symm⟩
            case o v =>
              split at hy <;> exact ⟨_, (Except.ok.inj hy).symm⟩
            all_goals cases hy
          obtain ⟨z, hz⟩ := gy
          exact ⟨cstr_bytes ", (" ++ key ++ cstr_bytes ", " ++ z ++ [41] ++ x, by
            rw [hx, hz]; simp [List.append_assoc]⟩
    obtain ⟨x, hx⟩ := g2
    obtain ⟨y, hy⟩ := g3 _ _ _ h3
    exact ⟨type, cstr_bytes ", " ++ x ++ y ++ [41], rfl, by
      rw [hy, hx]; simp [List.append_assoc]⟩

/-- C21, counterexample. The errors of type `A` (message `a`) and of type `B`
(message `b`) are combined; the repr of the result is `$err(A, "a")`, in which
the letter `B` does not occur. -/
theorem fobjErr_fobjRepr_combined_counterexample :
    (do
      let r ← fobj_err_combine example_env scenario_rt 4 example_two_errs 10 20
      let e ← err_at r.2.errs r.1
      fobjErr_fobjRepr example_env e) = Except.ok (cstr_bytes "$err(A, \"a\")") ∧
    66 ∉ cstr_bytes "$err(A, \"a\")" :=
  ⟨by rfl, by decide⟩

/-- C21, amended. The repr of a combined error is the repr of its first error
alone: `fobj_err_combine` changes nothing but `sibling` fields, and
`fobjErr_fobjRepr` renders the type, the message and the key/value pairs of the
error it is called on and does not follow `sibling`.  So the repr of the
combination of `A` and `B` equals the repr of `A` before, and starts with
`$err(` and the type of `A`. -/
theorem fobjErr_fobjRepr_combined (env : format_env) (rt : fobj_runtime) (fuel : Nat)
    (st st' : err_mem) (a b r : Nat) (e : fobjErr)
    (ha : a ≠ 0) (he : st.errs a = some e)
    (h : fobj_err_combine env rt fuel st a b = Except.ok (r, st')) :
    r = a ∧
    ∃ e', st'.errs a = some e' ∧
      fobjErr_fobjRepr env e' = fobjErr_fobjRepr env e ∧
      ∀ out, fobjErr_fobjRepr env e' = Except.ok out →
        ∃ type rest, e.type = some type ∧ out = cstr_bytes "$err(" ++ type ++ rest := by
  have hr : r = a := by
    unfold fobj_err_combine at h
    rw [if_neg ha] at h
    by_cases hb : b = 0
    · rw [if_pos hb] at h
      cases h
      rfl
    · rw [if_neg hb] at h
      obtain ⟨k1, _, h⟩ := (bind_eq_ok _ _ _).mp h
      obtain ⟨u1, _, h⟩ := (bind_eq_ok _ _ _).mp h
      obtain ⟨k2, _, h⟩ := (bind_eq_ok _ _ _).mp h
      obtain ⟨u2, _, h⟩ := (bind_eq_ok _ _ _).mp h
      obtain ⟨first, _, h⟩ := (bind_eq_ok _ _ _).mp h
      by_cases hs : first.sibling = 0
      · simp only [hs, ne_eq, not_true, if_false, pure_eq_ok, ok_bind] at h
        obtain ⟨mem, _, h⟩ := (bind_eq_ok _ _ _).mp h
        obtain ⟨f2, _, h⟩ := (bind_eq_ok _ _ _).mp h
        cases h
        rfl
      · simp only [hs, ne_eq, not_false_eq_true, if_true] at h
        obtain ⟨node, _, h⟩ := (bind_eq_ok _ _ _).mp h
        obtain ⟨last, _, h⟩ := (bind_eq_ok _ _ _).mp h
        rw [pure_eq_ok, ok_bind] at h
        obtain ⟨mem, _, h⟩ := (bind_eq_ok _ _ _).mp h
        obtain ⟨f2, _, h⟩ := (bind_eq_ok _ _ _).mp h
        cases h
        rfl
  obtain ⟨e', h1, h2⟩ := combine_fields env rt fuel st st' a b r h a e he
  have hrepr : fobjErr_fobjRepr env e' = fobjErr_fobjRepr env e := by
    rw [h2]; rfl
  refine ⟨hr, e', h1, hrepr, ?_⟩
  intro out hout
  rw [hrepr] at hout
  exact fobjErr_fobjRepr_type env e out hout

/-- Witness of C21, amended: the combination of the errors of type `A` and of
type `B` has the repr of the error of type `A`. -/
theorem fobjErr_fobjRepr_combined_witness :
    ∃ st', fobj_err_combine example_env scenario_rt 4 example_two_errs 10 20
        = Except.ok (10, st') ∧
      (10 = 10 ∧
        ∃ e', st'.errs 10 = some e' ∧
          fobjErr_fobjRepr example_env e'
            = fobjErr_fobjRepr example_env
                { type := some (cstr_bytes "A"), message := some (cstr_bytes "a"),
                  src := { file := none, func := none, line := 0 }, sibling := 0,
                  kv := [fobj_err_kv_t.zero] } ∧
          ∀ out, fobjErr_fobjRepr example_env e' = Except.ok out →
            ∃ type rest, (some (cstr_bytes "A") : Option (List Nat)) = some type ∧
              out = cstr_bytes "$err(" ++ type ++ rest) :=
  ⟨_, rfl, fobjErr_fobjRepr_combined example_env scenario_rt 4 example_two_errs _ 10 20 10 _
    (by decide) rfl rfl⟩

/-! ## Key lookup and null values -/

/-- C22, as the code behaves. The error holds the one key `a`.  Asked for the
absent key `zzz` with `*found` holding `true`, `fobj_err_getkv` returns the
default and `*found` still holds `true`: line 1192 assigns `false` to the
pointer variable `found` and not to `*found`.  For the key `a` the value of
the entry is returned and `*found` is set to `true`. -/
theorem fobj_err_getkv_found_flag :
    fobj_err_getkv example_env scenario_rt example_kv_err 10 (cstr_bytes "zzz")
        (ft_arg_t.i 7) (some true)
      = Except.ok (ft_arg_t.i 7, some true) ∧
    fobj_err_getkv example_env scenario_rt example_kv_err 10 (cstr_bytes "a")
        (ft_arg_t.i 7) (some false)
      = Except.ok (ft_arg_t.i 1, some true) :=
  ⟨by rfl, by rfl⟩

/-- C23, as the code behaves. For a null object `fobj_format_arg` appends the
six bytes `(null)`, so the template `{x}` with the entry `x`, a null object,
gives the message `(null)`; `fobj_printkv` gives `NULL` for the same
template and value. -/
theorem fobj_format_arg_null_object :
    (∀ (env : format_env) (out : List Nat) (fmt : Option (List Nat)),
      fobj_format_arg env out (ft_arg_t.o 0) fmt = Except.ok (out ++ cstr_bytes "(null)")) ∧
    fobj__format_errmsg example_env [123, 120, 125]
        [{ key := some [120], val := ft_arg_t.o 0 }, fobj_err_kv_t.sentinel]
      = Except.ok (cstr_bytes "(null)") ∧
    fobj_printkv example_env [123, 120, 125] [([120], 0)] = Except.ok (cstr_bytes "NULL") :=
  ⟨fun _ _ _ => rfl, by rfl, by rfl⟩

/-! ## Integer formats -/

theorem getD_append_cons (A B : List Nat) (x : Nat) : (A ++ x :: B).getD A.length 0 = x := by
  induction A with
  | nil => rfl
  | cons a A ih => simpa using ih

/-- The loop that drops the length specifiers stops behind `P`. -/
theorem format_int_strip_spec (P : List Nat)
    (hP : ∀ x, P.getLast? = some x → x ≠ 108 ∧ x ≠ 122) :
    ∀ (L R : List Nat), (∀ x ∈ L, x = 108 ∨ x = 122) →
      1 + P.length + L.length ≤ 32 →
      fobj_format_int_strip (37 :: (P ++ L ++ R)) (1 + P.length + L.length)
        = Except.ok (1 + P.length) := by
  intro L
  induction L using List.reverseRecOn with
  | nil =>
    intro R _ hlen
    have hidx : ∃ y, (37 :: (P ++ [] ++ R)).getD P.length 0 = y ∧ y ≠ 108 ∧ y ≠ 122 := by
      rcases List.eq_nil_or_concat P with h | ⟨P', y, h⟩
      · subst h
        exact ⟨37, rfl, by decide, by decide⟩
      · subst h
        have hy := hP y (by simp)
        refine ⟨y, ?_, hy⟩
        have := getD_append_cons (37 :: P') ([] ++ R) y
        simpa using this
    obtain ⟨y, hy, hy1, hy2⟩ := hidx
    have h1 : 1 + P.length + ([] : List Nat).length = P.length + 1 := by simp; omega
    rw [h1]
    unfold fobj_format_int_strip
    have hlt : P.length < 32 := by simp at hlen; omega
    simp only [tfmt_at, hlt, if_true, ok_bind, hy, hy1, hy2, or_self, if_false, pure_eq_ok]
    rw [Nat.add_comm]
  | append_singleton L x ih =>
    intro R hL hlen
    have hx := hL x (by simp)
    have h1 : 1 + P.length + (L ++ [x]).length = (1 + P.length + L.length) + 1 := by
      simp; omega
    have hidx : (37 :: (P ++ (L ++ [x]) ++ R)).getD (1 + P.length + L.length) 0 = x := by
      have := getD_append_cons (37 :: (P ++ L)) R x
      simp only [List.length_cons, List.length_append] at this
      have e : 1 + P.length + L.length = P.length + L.length + 1 := by omega
      rw [e]
      simpa [List.append_assoc] using this
    rw [h1]
    unfold fobj_format_int_strip
    have hlt : 1 + P.length + L.length < 32 := by simp at hlen; omega
    simp only [tfmt_at, hlt, if_true, ok_bind, hidx, hx, if_true]
    have := ih (x :: R) (fun y hy => hL y (by simp [hy])) (by omega)
    simpa [List.append_assoc] using this

/-- The format that `fobj_format_int` hands to `ft_strbuf_catf` for a spec
`P ++ L ++ [c]`. -/
theorem format_int_spec (env : format_env) (buf : List Nat) (i : Nat) (s : Bool)
    (P L : List Nat) (c : Nat)
    (hc : c = 100 ∨ c = 105 ∨ c = 117 ∨ c = 111 ∨ c = 120 ∨ c = 88)
    (hL : ∀ x ∈ L, x = 108 ∨ x = 122)
    (hP : ∀ x, P.getLast? = some x → x ≠ 108 ∧ x ≠ 122)
    (hlen : (P ++ L ++ [c]).length ≤ 26) :
    fobj_format_int env buf i s (some (P ++ L ++ [c]))
      = Except.ok (buf ++
          if c = 100 ∨ c = 105 then
            env.catf_int (37 :: P ++ int_conversion_token env c) (to_int64 i)
          else env.catf_uint (37 :: P ++ int_conversion_token env c) (i % 2 ^ 64)) := by
  have hlen' : P.length + L.length + 1 ≤ 26 := by simp at hlen; omega
  have hne : ¬ ((some (P ++ L ++ [c]) : Option (List Nat)) = none ∨
      (some (P ++ L ++ [c]) : Option (List Nat)) = some []) := by simp
  have htfmt : tfmt_of (P ++ L ++ [c]) = 37 :: (P ++ L ++ [c]) := by
    unfold tfmt_of
    apply List.take_of_length_le
    simp; omega
  have hbase : tfmt_at (37 :: (P ++ L ++ [c])) (1 + (P ++ L ++ [c]).length - 1)
      = Except.ok c := by
    have hi : 1 + (P ++ L ++ [c]).length - 1 = (37 :: (P ++ L)).length := by simp; omega
    have := getD_append_cons (37 :: (P ++ L)) [] c
    rw [hi]
    unfold tfmt_at
    rw [if_pos (by simp; omega)]
    simpa using this
  have hstrip : fobj_format_int_strip (37 :: (P ++ L ++ [c])) (1 + (P ++ L ++ [c]).length - 1)
      = Except.ok (1 + P.length) := by
    have hi : 1 + (P ++ L ++ [c]).length - 1 = 1 + P.length + L.length := by simp; omega
    rw [hi]
    exact format_int_strip_spec P hP L [c] hL (by omega)
  have htake : (37 :: (P ++ L ++ [c])).take (1 + P.length) = 37 :: P := by
    rw [Nat.add_comm, List.take_succ_cons, List.append_assoc, List.take_left' rfl]
  have h800 : decide (1 + (P ++ L ++ [c]).length < 28) = true := by
    apply decide_eq_true; simp; omega
  have h802 : decide (c = 120 ∨ c = 88 ∨ c = 111 ∨ c = 117 ∨ c = 100 ∨ c = 105) = true := by
    apply decide_eq_true
    rcases hc with h | h | h | h | h | h <;> simp [h]
  unfold fobj_format_int
  rw [if_neg hne]
  simp only [Option.getD_some, htfmt, h800, ft_assert_true, ok_bind, hbase, h802, hstrip, htake]
  unfold int_conversion_token
  rcases hc with h | h | h | h | h | h <;> subst h <;> simp [pure, Except.pure]

/-- C24. For a spec `P ++ L ++ [c]` with a conversion letter `c` out of `d`,
`i`, `u`, `o`, `x`, `X`, a run `L` of the letters `l` and `z`, `P` not ending
in `l` or `z`, and at most 26 characters, the format `fobj_format_int` prints
with is `%`, `P` and the `<inttypes.h>` token of `c`, so the run `L` has no
effect on the result; a spec that is not empty and whose last character is
not a conversion letter aborts. -/
theorem fobj_format_int_length_modifiers (env : format_env) (buf : List Nat) (i : Nat)
    (s : Bool) (P L : List Nat) (c : Nat)
    (hc : c = 100 ∨ c = 105 ∨ c = 117 ∨ c = 111 ∨ c = 120 ∨ c = 88)
    (hL : ∀ x ∈ L, x = 108 ∨ x = 122)
    (hP : ∀ x, P.getLast? = some x → x ≠ 108 ∧ x ≠ 122)
    (hlen : (P ++ L ++ [c]).length ≤ 26) :
    fobj_format_int env buf i s (some (P ++ L ++ [c]))
      = Except.ok (buf ++
          if c = 100 ∨ c = 105 then
            env.catf_int (37 :: P ++ int_conversion_token env c) (to_int64 i)
          else env.catf_uint (37 :: P ++ int_conversion_token env c) (i % 2 ^ 64)) ∧
    fobj_format_int env buf i s (some (P ++ L ++ [c]))
      = fobj_format_int env buf i s (some (P ++ [c])) ∧
    ∀ (spec : List Nat) (last : Nat), spec.getLast? = some last →
      ¬ (last = 100 ∨ last = 105 ∨ last = 117 ∨ last = 111 ∨ last = 120 ∨ last = 88) →
      fobj_format_int env buf i s (some spec) = Except.error (Fault.abort 800) ∨
      fobj_format_int env buf i s (some spec) = Except.error (Fault.abort 802) := by
  refine ⟨format_int_spec env buf i s P L c hc hL hP hlen, ?_, ?_⟩
  · rw [format_int_spec env buf i s P L c hc hL hP hlen]
    have := format_int_spec env buf i s P [] c hc (by simp) hP (by simp at hlen ⊢; omega)
    rw [List.append_nil] at this
    rw [this]
  · intro spec last hlast hnot
    obtain ⟨Q, hQ⟩ : ∃ Q, spec = Q ++ [last] := by
      rcases List.eq_nil_or_concat spec with h | ⟨Q, y, h⟩
      · subst h; simp at hlast
      · subst h
        simp at hlast
        exact ⟨Q, by rw [hlast]; simp⟩
    subst hQ
    have hne : ¬ ((some (Q ++ [last]) : Option (List Nat)) = none ∨
        (some (Q ++ [last]) : Option (List Nat)) = some []) := by simp
    unfold fobj_format_int
    rw [if_neg hne]
    by_cases h800 : 1 + (Q ++ [last]).length < 28
    · right
      have htfmt : tfmt_of (Q ++ [last]) = 37 :: (Q ++ [last]) := by
        unfold tfmt_of
        apply List.take_of_length_le
        simp at h800 ⊢; omega
      have hbase : tfmt_at (37 :: (Q ++ [last])) (1 + (Q ++ [last]).length - 1)
          = Except.ok last := by
        have hi : 1 + (Q ++ [last]).length - 1 = (37 :: Q).length := by simp
        rw [hi]
        unfold tfmt_at
        rw [if_pos (by simp at h800 ⊢; omega)]
        simp
      have h802 : decide (last = 120 ∨ last = 88 ∨ last = 111 ∨ last = 117 ∨ last = 100 ∨
          last = 105) = false := by
        apply decide_eq_false
        intro h
        apply hnot
        rcases h with h | h | h | h | h | h <;> simp [h]
      simp only [Option.getD_some, htfmt, decide_eq_true h800, ft_assert_true, ok_bind, hbase,
        h802, ft_assert_false, error_bind]
    · left
      simp only [Option.getD_some, decide_eq_false h800, ft_assert_false, error_bind]

/-- Witness of C24: the specs `d`, `ld`, `lld` and `zd` give the same result,
here with the width `08` in front, and the spec `5s` aborts. -/
theorem fobj_format_int_length_modifiers_witness :
    (fobj_format_int example_env [] 42 true (some (cstr_bytes "08" ++ cstr_bytes "ll" ++ [100]))
      = Except.ok ([] ++
          if (100 : Nat) = 100 ∨ (100 : Nat) = 105 then
            example_env.catf_int (37 :: cstr_bytes "08" ++ int_conversion_token example_env 100)
              (to_int64 42)
          else example_env.catf_uint
              (37 :: cstr_bytes "08" ++ int_conversion_token example_env 100) (42 % 2 ^ 64)) ∧
    fobj_format_int example_env [] 42 true (some (cstr_bytes "08" ++ cstr_bytes "ll" ++ [100]))
      = fobj_format_int example_env [] 42 true (some (cstr_bytes "08" ++ [100])) ∧
    ∀ (spec : List Nat) (last : Nat), spec.getLast? = some last →
      ¬ (last = 100 ∨ last = 105 ∨ last = 117 ∨ last = 111 ∨ last = 120 ∨ last = 88) →
      fobj_format_int example_env [] 42 true (some spec) = Except.error (Fault.abort 800) ∨
      fobj_format_int example_env [] 42 true (some spec) = Except.error (Fault.abort 802)) ∧
    fobj_format_int example_env [] 42 true (some (cstr_bytes "zd"))
      = fobj_format_int example_env [] 42 true (some (cstr_bytes "d")) ∧
    fobj_format_int example_env [] 42 true (some (cstr_bytes "5s"))
      = Except.error (Fault.abort 802) :=
  ⟨fobj_format_int_length_modifiers example_env [] 42 true (cstr_bytes "08") (cstr_bytes "ll")
    100 (by decide) (by decide) (by decide) (by decide), by rfl, by rfl⟩

/-! ## A reference taken and dropped -/

theorem uint32_dec_inc (rc : Nat) (h1 : 1 ≤ rc) (h2 : rc < 2 ^ 32) :
    uint32_dec (uint32_inc rc) = rc ∧ uint32_dec (uint32_inc rc) ≠ 0 := by
  unfold uint32_dec uint32_inc
  have h232 : (2 : Nat) ^ 32 = 4294967296 := by norm_num
  rw [h232] at h2 ⊢
  by_cases h : rc + 1 = 4294967296
  · rw [h]
    simp
    omega
  · have hlt : rc + 1 < 4294967296 := by omega
    rw [Nat.mod_eq_of_lt hlt]
    simp
    omega

/-- A reference taken on a live object and dropped again leaves the object
memory as it was. -/
theorem ref_release_spec (env : fobj_env) (rt : fobj_runtime) (body : fobj_hooks)
    (fuel : Nat) (m : fobj_mem) (self : Nat) (hdr : fobj_header)
    (hst : rt.fobj_global_state ≠ FOBJ_GLOBAL_STATE.FOBJ_RT_NOT_INITIALIZED)
    (hn : rt.fobj_klasses_n < FOBJ_OBJ_MAX_KLASSES)
    (hself : self ≠ 0) (hh : m.heap self = some hdr)
    (hmagic : env.NDEBUG = false → hdr.magic = FOBJ_HEADER_MAGIC)
    (hk1 : 0 < hdr.klass) (hk2 : hdr.klass ≤ rt.fobj_klasses_n)
    (hrc1 : 1 ≤ hdr.rc) (hrc2 : hdr.rc < 2 ^ 32) :
    fobj_ref env rt m self
      = Except.ok { heap := Function.update m.heap self
                      (some { hdr with rc := uint32_inc hdr.rc })
                    trace := m.trace } ∧
    fobj_release env rt body (fuel + 1)
        { heap := Function.update m.heap self (some { hdr with rc := uint32_inc hdr.rc })
          trace := m.trace } self
      = Except.ok m := by
  have hca : ∀ line, c_assert env line (hdr.magic == FOBJ_HEADER_MAGIC) = Except.ok () := by
    intro line
    unfold c_assert
    cases hnd : env.NDEBUG
    · rw [hmagic hnd]
      rfl
    · rfl
  refine ⟨?_, ?_⟩
  · unfold fobj_ref
    simp only [if_neg hself, header_of, hh, ok_bind, hca, hk1, hk2, and_self, decide_True,
      ft_assert_true, fobj_mem.set_header, pure_eq_ok]
  obtain ⟨hd1, hd2⟩ := uint32_dec_inc hdr.rc hrc1 hrc2
  have hka : klass_at rt hdr.klass = Except.ok (rt.fobj_klasses hdr.klass) := by
    unfold klass_at
    rw [if_pos (by omega)]
  have hm : ({ heap := Function.update (Function.update m.heap self
                (some { hdr with rc := uint32_inc hdr.rc })) self (some hdr),
               trace := m.trace } : fobj_mem) = m := by
    have hheap : Function.update (Function.update m.heap self
        (some { hdr with rc := uint32_inc hdr.rc })) self (some hdr) = m.heap := by
      funext p
      by_cases hp : p = self
      · subst hp; simp [hh]
      · simp [Function.update, hp]
    rw [hheap]
  unfold fobj_release
  have hstb : (rt.fobj_global_state != FOBJ_GLOBAL_STATE.FOBJ_RT_NOT_INITIALIZED) = true := by
    simp [hst]
  simp only [hstb, ft_assert_true, ok_bind, if_neg hself, header_of, Function.update_same,
    hca, ft_dbg_assert, hk1, hk2, and_self, ite_self,
    decide_True, hka, hd1, fobj_mem.set_header]
  rw [if_pos (by rw [← hd1]; exact hd2), pure_eq_ok]
  congr 1


/-- What `fobj_set` does when the slot already holds the value assigned. -/
theorem set_self_spec (env : fobj_env) (rt : fobj_runtime) (body : fobj_hooks)
    (fuel : Nat) (m : fobj_mem) (v : Nat) (hdr : fobj_header)
    (hst : rt.fobj_global_state ≠ FOBJ_GLOBAL_STATE.FOBJ_RT_NOT_INITIALIZED)
    (hn : rt.fobj_klasses_n < FOBJ_OBJ_MAX_KLASSES)
    (hv : v ≠ 0) (hh : m.heap v = some hdr)
    (hmagic : env.NDEBUG = false → hdr.magic = FOBJ_HEADER_MAGIC)
    (hk1 : 0 < hdr.klass) (hk2 : hdr.klass ≤ rt.fobj_klasses_n)
    (hrc1 : 1 ≤ hdr.rc) (hrc2 : hdr.rc < 2 ^ 32) :
    fobj_set env rt body (fuel + 1) m v v = Except.ok (m, v) := by
  obtain ⟨h1, h2⟩ := ref_release_spec env rt body fuel m v hdr hst hn hv hh hmagic hk1 hk2
    hrc1 hrc2
  unfold fobj_set
  simp only [ne_eq, hv, not_false_eq_true, if_true, h1, ok_bind, h2, pure_eq_ok]

/-- C27. A reference taken on a live object whose reference count is at least
one and dropped again changes nothing: `fobj_ref` returns, and `fobj_release`
on the memory it leaves returns the memory from before the `fobj_ref`.  The
header of the object, with its reference count and flags, is the one from
before, the object is still allocated, and the record of the dispose functions
run and of the objects freed has not grown. -/
theorem fobj_ref_release_noop (env : fobj_env) (rt : fobj_runtime) (body : fobj_hooks)
    (fuel : Nat) (m : fobj_mem) (self : Nat) (hdr : fobj_header)
    (hst : rt.fobj_global_state ≠ FOBJ_GLOBAL_STATE.FOBJ_RT_NOT_INITIALIZED)
    (hn : rt.fobj_klasses_n < FOBJ_OBJ_MAX_KLASSES)
    (hself : self ≠ 0) (hh : m.heap self = some hdr)
    (hmagic : env.NDEBUG = false → hdr.magic = FOBJ_HEADER_MAGIC)
    (hk1 : 0 < hdr.klass) (hk2 : hdr.klass ≤ rt.fobj_klasses_n)
    (hrc1 : 1 ≤ hdr.rc) (hrc2 : hdr.rc < 2 ^ 32) :
    ∃ m1 m2,
      fobj_ref env rt m self = Except.ok m1 ∧
      fobj_release env rt body (fuel + 1) m1 self = Except.ok m2 ∧
      m2 = m ∧ m2.heap self = some hdr ∧ m2.trace = m.trace := by
  obtain ⟨h1, h2⟩ := ref_release_spec env rt body fuel m self hdr hst hn hself hh hmagic
    hk1 hk2 hrc1 hrc2
  exact ⟨_, m, h1, h2, rfl, hh, rfl⟩

/-- C27, an instance: a reference taken and dropped on the object at `64`,
which is referenced once. -/
theorem fobj_ref_release_noop_witness :
    ∃ m1 m2,
      fobj_ref scenario_env scenario_rt example_mem 64 = Except.ok m1 ∧
      fobj_release scenario_env scenario_rt dispose_body 1 m1 64 = Except.ok m2 ∧
      m2 = example_mem ∧
      m2.heap 64 = some { magic := FOBJ_HEADER_MAGIC, rc := 1, flags := 0, klass := 2 } ∧
      m2.trace = example_mem.trace :=
  fobj_ref_release_noop scenario_env scenario_rt dispose_body 0 example_mem 64
    { magic := FOBJ_HEADER_MAGIC, rc := 1, flags := 0, klass := 2 }
    (by decide) (by decide) (by decide) rfl (fun _ => rfl) (by decide) (by decide)
    (by decide) (by decide)

/-- C28, as stated, fails for an object referenced `UINT32_MAX` times: the
slot holds the object at `64`, whose reference count is `4294967295`; the
`fobj_ref(val)` that `fobj_set` starts with leaves the reference count zero,
and the `fobj_release(oldval)` that follows puts `4294967295` back. -/
theorem fobj_set_self_assign_counterexample :
    wrap_mem.heap 64
      = some { magic := FOBJ_HEADER_MAGIC, rc := 4294967295, flags := 0, klass := 2 } ∧
    Except.map (fun m1 => m1.heap 64) (fobj_ref scenario_env scenario_rt wrap_mem 64)
      = Except.ok (some { magic := FOBJ_HEADER_MAGIC, rc := 0, flags := 0, klass := 2 }) ∧
    fobj_set scenario_env scenario_rt dispose_body 1 wrap_mem 64 64
      = Except.ok (wrap_mem, 64) :=
  ⟨rfl, by rfl,
    set_self_spec scenario_env scenario_rt dispose_body 0 wrap_mem 64
      { magic := FOBJ_HEADER_MAGIC, rc := 4294967295, flags := 0, klass := 2 }
      (by decide) (by decide) (by decide) rfl (fun _ => rfl) (by decide) (by decide)
      (by decide) (by norm_num)⟩

/-- C28, amended. Self-assignment is safe: when the slot holds a live object
`v` with reference count `n ≥ 1`, `fobj_set(&slot, v)` returns with the slot
holding `v` and the memory as before, so the reference count is `n` again, no
dispose function has run and nothing was freed.  When `n < UINT32_MAX`, the
reference count between the `fobj_ref` and the `fobj_release` that `fobj_set`
performs is `n + 1`, which is not zero. -/
theorem fobj_set_self_assign (env : fobj_env) (rt : fobj_runtime) (body : fobj_hooks)
    (fuel : Nat) (m : fobj_mem) (v : Nat) (hdr : fobj_header)
    (hst : rt.fobj_global_state ≠ FOBJ_GLOBAL_STATE.FOBJ_RT_NOT_INITIALIZED)
    (hn : rt.fobj_klasses_n < FOBJ_OBJ_MAX_KLASSES)
    (hv : v ≠ 0) (hh : m.heap v = some hdr)
    (hmagic : env.NDEBUG = false → hdr.magic = FOBJ_HEADER_MAGIC)
    (hk1 : 0 < hdr.klass) (hk2 : hdr.klass ≤ rt.fobj_klasses_n)
    (hrc1 : 1 ≤ hdr.rc) (hrc2 : hdr.rc < 2 ^ 32) :
    fobj_set env rt body (fuel + 1) m v v = Except.ok (m, v) ∧
    (hdr.rc + 1 < 2 ^ 32 →
      ∃ m1, fobj_ref env rt m v = Except.ok m1 ∧
        m1.heap v = some { hdr with rc := hdr.rc + 1 } ∧
        m1.trace = m.trace ∧
        (∀ q, q ≠ v → m1.heap q = m.heap q) ∧
        fobj_release env rt body (fuel + 1) m1 v = Except.ok m) := by
  refine ⟨set_self_spec env rt body fuel m v hdr hst hn hv hh hmagic hk1 hk2 hrc1 hrc2, ?_⟩
  intro hlt
  obtain ⟨h1, h2⟩ := ref_release_spec env rt body fuel m v hdr hst hn hv hh hmagic hk1 hk2
    hrc1 hrc2
  have hinc : uint32_inc hdr.rc = hdr.rc + 1 := by
    unfold uint32_inc
    exact Nat.mod_eq_of_lt hlt
  refine ⟨_, h1, ?_, rfl, ?_, h2⟩
  · simp [hinc]
  · intro q hq
    simp [Function.update, hq]

/-- C28, an instance: the slot holds the object at `64`, which is referenced
once. -/
theorem fobj_set_self_assign_witness :
    fobj_set scenario_env scenario_rt dispose_body 1 example_mem 64 64
      = Except.ok (example_mem, 64) ∧
    ((1 : Nat) + 1 < 2 ^ 32 →
      ∃ m1, fobj_ref scenario_env scenario_rt example_mem 64 = Except.ok m1 ∧
        m1.heap 64 = some { magic := FOBJ_HEADER_MAGIC, rc := 1 + 1, flags := 0, klass := 2 } ∧
        m1.trace = example_mem.trace ∧
        (∀ q, q ≠ 64 → m1.heap q = example_mem.heap q) ∧
        fobj_release scenario_env scenario_rt dispose_body 1 m1 64
          = Except.ok example_mem) :=
  fobj_set_self_assign scenario_env scenario_rt dispose_body 0 example_mem 64
    { magic := FOBJ_HEADER_MAGIC, rc := 1, flags := 0, klass := 2 }
    (by decide) (by decide) (by decide) rfl (fun _ => rfl) (by decide) (by decide)
    (by decide) (by norm_num)

/-! ## The state of the runtime -/

theorem register_priv_state (env : fobj_env) (fuel : Nat) (rt rt' : fobj_runtime)
    (klass meth impl : Nat)
    (hrun : fobj_method_register_priv env fuel rt klass meth impl = Except.ok rt') :
    rt'.fobj_global_state = rt.fobj_global_state := by
  unfold fobj_method_register_priv at hrun
  rw [bind_eq_ok] at hrun
  obtain ⟨existed, _, hrun⟩ := hrun
  rw [bind_eq_ok] at hrun
  obtain ⟨u, _, hrun⟩ := hrun
  by_cases he : existed = impl
  · rw [if_pos he] at hrun
    cases Except.ok.inj hrun
    rfl
  · rw [if_neg he] at hrun
    rw [bind_eq_ok] at hrun
    obtain ⟨u, _, hrun⟩ := hrun
    rw [bind_eq_ok] at hrun
    obtain ⟨mreg, _, hrun⟩ := hrun
    rw [bind_eq_ok] at hrun
    obtain ⟨kreg, _, hrun⟩ := hrun
    cases Except.ok.inj hrun
    exact (register_store_fields env rt klass meth impl _).2.2.2.2.1

theorem klass_init_methods_state (env : fobj_env) (fuel kl : Nat) :
    ∀ (methods : List (Nat × Nat)) (rt rt' : fobj_runtime),
      fobj_klass_init_methods env fuel kl rt methods = Except.ok rt' →
      rt'.fobj_global_state = rt.fobj_global_state := by
  intro methods
  induction methods with
  | nil =>
    intro rt rt' hrun
    simp only [fobj_klass_init_methods, pure_eq_ok] at hrun
    cases Except.ok.inj hrun
    rfl
  | cons e methods ih =>
    intro rt rt' hrun
    obtain ⟨meth, impl⟩ := e
    unfold fobj_klass_init_methods at hrun
    by_cases hm : meth = 0
    · simp only [hm, ne_eq, not_true_eq_false, if_false, pure_eq_ok] at hrun
      cases Except.ok.inj hrun
      rfl
    · simp only [ne_eq, hm, not_false_eq_true, if_true] at hrun
      rw [bind_eq_ok] at hrun
      obtain ⟨rt1, h1, hrun⟩ := hrun
      rw [ih rt1 rt' hrun]
      exact register_priv_state env fuel rt rt1 kl meth impl h1

/-- Klass interning returns only in state `INITIALIZED`, and leaves the state
as it is. -/
theorem klass_init_state (env : fobj_env) (fuel : Nat) (rt rt' : fobj_runtime)
    (klass : Nat) (size : Int) (parent : Nat) (methods : List (Nat × Nat)) (name : String)
    (b : Bool) (kh : Nat)
    (hrun : fobj_klass_init_impl env fuel rt klass size parent methods name
      = Except.ok (b, kh, rt')) :
    rt.fobj_global_state = FOBJ_GLOBAL_STATE.FOBJ_RT_INITIALIZED ∧
    rt'.fobj_global_state = rt.fobj_global_state := by
  unfold fobj_klass_init_impl at hrun
  rw [bind_eq_ok] at hrun
  obtain ⟨u, hst, hrun⟩ := hrun
  rw [ft_assert_eq_ok] at hst
  refine ⟨by simpa using hst, ?_⟩
  by_cases hk : klass = 0
  · subst hk
    simp only [ne_eq, not_true_eq_false, if_false] at hrun
    rw [bind_eq_ok] at hrun
    obtain ⟨found, hs, hrun⟩ := hrun
    by_cases hf : found = 0
    · subst hf
      simp only [ne_eq, not_true_eq_false, if_false] at hrun
      rw [bind_eq_ok] at hrun
      obtain ⟨u, _, hrun⟩ := hrun
      rw [bind_eq_ok] at hrun
      obtain ⟨u, _, hrun⟩ := hrun
      rw [bind_eq_ok] at hrun
      obtain ⟨r, _, hrun⟩ := hrun
      rw [bind_eq_ok] at hrun
      obtain ⟨rt2, hm, hrun⟩ := hrun
      simp only [pure_eq_ok, Except.ok.injEq, Prod.mk.injEq] at hrun
      obtain ⟨_, _, rfl⟩ := hrun
      rw [klass_init_methods_state env fuel _ methods _ rt2 hm]
      rfl
    · simp only [ne_eq, hf, not_false_eq_true, if_true] at hrun
      rw [bind_eq_ok] at hrun
      obtain ⟨r, _, hrun⟩ := hrun
      rw [bind_eq_ok] at hrun
      obtain ⟨u, _, hrun⟩ := hrun
      rw [bind_eq_ok] at hrun
      obtain ⟨u, _, hrun⟩ := hrun
      simp only [pure_eq_ok, Except.ok.injEq, Prod.mk.injEq] at hrun
      obtain ⟨_, _, rfl⟩ := hrun
      rfl
  · simp only [ne_eq, hk, not_false_eq_true, if_true] at hrun
    rw [bind_eq_ok] at hrun
    obtain ⟨u, _, hrun⟩ := hrun
    rw [bind_eq_ok] at hrun
    obtain ⟨r, _, hrun⟩ := hrun
    rw [bind_eq_ok] at hrun
    obtain ⟨c, _, hrun⟩ := hrun
    rw [bind_eq_ok] at hrun
    obtain ⟨u, _, hrun⟩ := hrun
    rw [bind_eq_ok] at hrun
    obtain ⟨u, _, hrun⟩ := hrun
    rw [bind_eq_ok] at hrun
    obtain ⟨u, _, hrun⟩ := hrun
    simp only [pure_eq_ok, Except.ok.injEq, Prod.mk.injEq] at hrun
    obtain ⟨_, _, rfl⟩ := hrun
    rfl

/-- Method interning that returns either leaves the tables as they are, or ran
in state `INITIALIZED` and left the state as it is. -/
theorem method_init_state (env : fobj_env) (fuel : Nat) (rt rt' : fobj_runtime)
    (meth : Nat) (name : String) (b : Bool) (mh : Nat)
    (hrun : fobj_method_init_impl env fuel rt meth name = Except.ok (b, mh, rt')) :
    (b = true ∧ rt' = rt) ∨
    (b = false ∧ rt.fobj_global_state = FOBJ_GLOBAL_STATE.FOBJ_RT_INITIALIZED ∧
      rt'.fobj_global_state = rt.fobj_global_state) := by
  unfold fobj_method_init_impl at hrun
  by_cases hk : meth = 0
  · subst hk
    simp only [ne_eq, not_true_eq_false, if_false] at hrun
    rw [bind_eq_ok] at hrun
    obtain ⟨found, hs, hrun⟩ := hrun
    by_cases hf : found = 0
    · right
      subst hf
      simp only [ne_eq, not_true_eq_false, if_false] at hrun
      rw [bind_eq_ok] at hrun
      obtain ⟨u, hst, hrun⟩ := hrun
      rw [ft_assert_eq_ok] at hst
      rw [bind_eq_ok] at hrun
      obtain ⟨u, _, hrun⟩ := hrun
      rw [bind_eq_ok] at hrun
      obtain ⟨u, _, hrun⟩ := hrun
      rw [bind_eq_ok] at hrun
      obtain ⟨r, _, hrun⟩ := hrun
      simp only [pure_eq_ok, Except.ok.injEq, Prod.mk.injEq] at hrun
      obtain ⟨rfl, _, rfl⟩ := hrun
      exact ⟨rfl, by simpa using hst, rfl⟩
    · left
      simp only [ne_eq, hf, not_false_eq_true, if_true, pure_eq_ok, Except.ok.injEq,
        Prod.mk.injEq] at hrun
      obtain ⟨rfl, _, rfl⟩ := hrun
      exact ⟨rfl, rfl⟩
  · left
    simp only [ne_eq, hk, not_false_eq_true, if_true] at hrun
    rw [bind_eq_ok] at hrun
    obtain ⟨u, _, hrun⟩ := hrun
    rw [bind_eq_ok] at hrun
    obtain ⟨r, _, hrun⟩ := hrun
    rw [bind_eq_ok] at hrun
    obtain ⟨c, _, hrun⟩ := hrun
    rw [bind_eq_ok] at hrun
    obtain ⟨u, _, hrun⟩ := hrun
    simp only [pure_eq_ok, Except.ok.injEq, Prod.mk.injEq] at hrun
    obtain ⟨rfl, _, rfl⟩ := hrun
    exact ⟨rfl, rfl⟩

/-- Impl installation returns only in state `INITIALIZED`, and leaves the state
as it is. -/
theorem register_impl_state (env : fobj_env) (fuel : Nat) (rt rt' : fobj_runtime)
    (klass meth impl : Nat)
    (hrun : fobj_method_register_impl env fuel rt klass meth impl = Except.ok rt') :
    rt.fobj_global_state = FOBJ_GLOBAL_STATE.FOBJ_RT_INITIALIZED ∧
    rt'.fobj_global_state = rt.fobj_global_state := by
  unfold fobj_method_register_impl at hrun
  rw [bind_eq_ok] at hrun
  obtain ⟨u, hst, hrun⟩ := hrun
  rw [ft_assert_eq_ok] at hst
  rw [bind_eq_ok] at hrun
  obtain ⟨u, _, hrun⟩ := hrun
  rw [bind_eq_ok] at hrun
  obtain ⟨u, _, hrun⟩ := hrun
  exact ⟨by simpa using hst, register_priv_state env fuel rt rt' klass meth impl hrun⟩

/-- What a registration call that returns does to the state: `fobj_freeze`
makes it `FROZEN`, every other call leaves it as it is; and a call that
returns in state `FROZEN` leaves the tables as they are. -/
theorem reg_call_state (env : fobj_env) (fuel : Nat) (rt : fobj_runtime) (c : RegCall)
    (r : Bool × Nat × fobj_runtime) (hrun : reg_call env fuel rt c = Except.ok r) :
    (r.2.2.fobj_global_state = rt.fobj_global_state ∨
      r.2.2.fobj_global_state = FOBJ_GLOBAL_STATE.FOBJ_RT_FROZEN) ∧
    (rt.fobj_global_state = FOBJ_GLOBAL_STATE.FOBJ_RT_FROZEN → r.2.2 = rt) := by
  obtain ⟨b, kh, rt'⟩ := r
  cases c with
  | klass_init klass size parent methods name =>
    simp only [reg_call] at hrun
    obtain ⟨h1, h2⟩ := klass_init_state env fuel rt rt' klass size parent methods name b kh hrun
    refine ⟨Or.inl h2, ?_⟩
    intro hfz
    rw [hfz] at h1
    cases h1
  | method_init meth name =>
    simp only [reg_call] at hrun
    rcases method_init_state env fuel rt rt' meth name b kh hrun with ⟨_, h⟩ | ⟨_, h1, h2⟩
    · subst h
      exact ⟨Or.inl rfl, fun _ => rfl⟩
    · refine ⟨Or.inl h2, ?_⟩
      intro hfz
      rw [hfz] at h1
      cases h1
  | register_impl klass meth impl =>
    simp only [reg_call] at hrun
    rw [bind_eq_ok] at hrun
    obtain ⟨rt1, h, hrun⟩ := hrun
    simp only [pure_eq_ok, Except.ok.injEq, Prod.mk.injEq] at hrun
    obtain ⟨_, _, rfl⟩ := hrun
    obtain ⟨h1, h2⟩ := register_impl_state env fuel rt rt1 klass meth impl h
    refine ⟨Or.inl h2, ?_⟩
    intro hfz
    rw [hfz] at h1
    cases h1
  | freeze =>
    simp only [reg_call, pure_eq_ok, Except.ok.injEq, Prod.mk.injEq] at hrun
    obtain ⟨_, _, rfl⟩ := hrun
    refine ⟨Or.inr rfl, ?_⟩
    intro hfz
    cases rt
    simp only at hfz
    subst hfz
    rfl

theorem state_rank_le_frozen (s : FOBJ_GLOBAL_STATE) :
    state_rank s ≤ state_rank FOBJ_GLOBAL_STATE.FOBJ_RT_FROZEN := by
  cases s <;> decide

/-- A run of registration calls does not lower the state. -/
theorem reg_run_state (env : fobj_env) (fuel : Nat) :
    ∀ (calls : List RegCall) (rt : fobj_runtime) (outs : List (Bool × Nat × fobj_runtime)),
      reg_run env fuel rt calls = Except.ok outs →
      state_rank rt.fobj_global_state
        ≤ state_rank (reg_final rt outs).fobj_global_state := by
  intro calls
  induction calls with
  | nil =>
    intro rt outs hrun
    simp only [reg_run, pure_eq_ok, Except.ok.injEq] at hrun
    subst hrun
    exact Nat.le_refl _
  | cons c cs ih =>
    intro rt outs hrun
    simp only [reg_run] at hrun
    rw [bind_eq_ok] at hrun
    obtain ⟨r, hr, hrun⟩ := hrun
    rw [bind_eq_ok] at hrun
    obtain ⟨rs, hrs, hrun⟩ := hrun
    simp only [pure_eq_ok, Except.ok.injEq] at hrun
    subst hrun
    have h1 : state_rank rt.fobj_global_state ≤ state_rank r.2.2.fobj_global_state := by
      rcases (reg_call_state env fuel rt c r hr).1 with h | h
      · rw [h]
      · rw [h]
        exact state_rank_le_frozen _
    exact Nat.le_trans h1 (ih r.2.2 rs hrs)

/-- C25. The state of the runtime moves one way. `fobj_init` aborts on the
assertion of line 1287 unless the state is `NOT_INITIALIZED`. No operation
that writes to the static tables (`fobj_init`, klass interning, method
interning, impl installation, `fobj_freeze`) and returns leaves a state earlier
in the order `NOT_INITIALIZED`, `INITIALIZED`, `FROZEN` than the one it
started in. In a reachable state that is `FROZEN`, every such operation that
returns leaves all tables, and so the three counters, as they are; every klass
interning aborts on the assertion of line 323 and every impl installation on
the assertion of line 414, both before anything is stored; interning a method
name that no registered method carries aborts on the assertion of line 132,
before anything is stored; and interning a name that method `k` carries
returns true with handle `k` and the tables unchanged, from a zeroed slot as
well as from a slot that holds `k`. -/
theorem fobj_freeze_one_way (env : fobj_env) (fuel0 : Nat) (calls : List RegCall)
    (outs : List (Bool × Nat × fobj_runtime)) (rt : fobj_runtime)
    (hrun : reg_run env fuel0 fobj_runtime.initialized calls = Except.ok outs)
    (hrt : rt = reg_final fobj_runtime.initialized outs)
    (hfz : rt.fobj_global_state = FOBJ_GLOBAL_STATE.FOBJ_RT_FROZEN) :
    (∀ (r : fobj_runtime) (fuel : Nat) (builtins : List RegCall),
      r.fobj_global_state ≠ FOBJ_GLOBAL_STATE.FOBJ_RT_NOT_INITIALIZED →
      fobj_init env fuel builtins r = Except.error (Fault.abort 1287)) ∧
    (∀ (r r' : fobj_runtime) (fuel : Nat) (op : RtOp),
      rt_step env fuel r op = Except.ok r' →
      state_rank r.fobj_global_state ≤ state_rank r'.fobj_global_state) ∧
    (∀ (r' : fobj_runtime) (fuel : Nat) (op : RtOp),
      rt_step env fuel rt op = Except.ok r' → r' = rt) ∧
    (∀ (fuel klass : Nat) (size : Int) (parent : Nat) (methods : List (Nat × Nat))
        (name : String),
      fobj_klass_init_impl env fuel rt klass size parent methods name
        = Except.error (Fault.abort 323)) ∧
    (∀ (fuel klass meth impl : Nat),
      fobj_method_register_impl env fuel rt klass meth impl
        = Except.error (Fault.abort 414)) ∧
    (∀ (fuel : Nat) (name : String), rt.fobj_methods_n < fuel →
      (∀ k, 0 < k → k ≤ rt.fobj_methods_n → (rt.fobj_methods k).name ≠ some name) →
      fobj_method_init_impl env fuel rt 0 name = Except.error (Fault.abort 132)) ∧
    (∀ (fuel : Nat) (name : String) (k : Nat), rt.fobj_methods_n < fuel →
      0 < k → k ≤ rt.fobj_methods_n → (rt.fobj_methods k).name = some name →
      fobj_method_init_impl env fuel rt 0 name = Except.ok (true, k, rt) ∧
      fobj_method_init_impl env fuel rt k name = Except.ok (true, k, rt)) := by
  subst hrt
  have hinv := reg_run_initialized env fuel0 calls outs hrun
  have hinit : ∀ (r : fobj_runtime) (fuel : Nat) (builtins : List RegCall),
      r.fobj_global_state ≠ FOBJ_GLOBAL_STATE.FOBJ_RT_NOT_INITIALIZED →
      fobj_init env fuel builtins r = Except.error (Fault.abort 1287) := by
    intro r fuel builtins hne
    unfold fobj_init
    have hb : (r.fobj_global_state == FOBJ_GLOBAL_STATE.FOBJ_RT_NOT_INITIALIZED) = false := by
      simpa using hne
    rw [hb, ft_assert_false, error_bind]
  have hnot : (FOBJ_GLOBAL_STATE.FOBJ_RT_FROZEN == FOBJ_GLOBAL_STATE.FOBJ_RT_INITIALIZED)
      = false := by decide
  refine ⟨hinit, ?_, ?_, ?_, ?_, ?_, ?_⟩
  · intro r r' fuel op hstep
    cases op with
    | init builtins =>
      simp only [rt_step] at hstep
      by_cases hne : r.fobj_global_state = FOBJ_GLOBAL_STATE.FOBJ_RT_NOT_INITIALIZED
      · rw [hne]
        exact Nat.zero_le _
      · rw [hinit r fuel builtins hne] at hstep
        cases hstep
    | call c =>
      simp only [rt_step] at hstep
      rw [bind_eq_ok] at hstep
      obtain ⟨res, hres, hstep⟩ := hstep
      cases Except.ok.inj hstep
      rcases (reg_call_state env fuel r c res hres).1 with h | h
      · rw [h]
      · rw [h]
        exact state_rank_le_frozen _
  · intro r' fuel op hstep
    cases op with
    | init builtins =>
      simp only [rt_step] at hstep
      rw [hinit _ fuel builtins hinv.state_ne] at hstep
      cases hstep
    | call c =>
      simp only [rt_step] at hstep
      rw [bind_eq_ok] at hstep
      obtain ⟨res, hres, hstep⟩ := hstep
      cases Except.ok.inj hstep
      exact (reg_call_state env fuel _ c res hres).2 hfz
  · intro fuel klass size parent methods name
    unfold fobj_klass_init_impl
    rw [hfz, hnot, ft_assert_false, error_bind]
  · intro fuel klass meth impl
    unfold fobj_method_register_impl
    rw [hfz, hnot, ft_assert_false, error_bind]
  · intro fuel name hf hnew
    have hscan := hinv.meth.scan_miss name fuel hnew hf
    unfold hash32 at hscan
    unfold fobj_method_init_impl
    simp only [ne_eq, not_true_eq_false, if_false, hscan, ok_bind, hfz, hnot, ft_assert_false,
      error_bind]
  · intro fuel name k hf k1 k2 hname
    have hscan := hinv.meth.scan_hit k name fuel k1 k2 hname hf
    unfold hash32 at hscan
    have hk0 : k ≠ 0 := by omega
    have hlt : k < FOBJ_OBJ_MAX_METHODS := Nat.lt_of_le_of_lt k2 hinv.meth.n_lt
    constructor
    · unfold fobj_method_init_impl
      simp only [ne_eq, not_true_eq_false, if_false, hscan, ok_bind, hk0, not_false_eq_true,
        if_true, pure_eq_ok]
    · unfold fobj_method_init_impl
      simp only [ne_eq, hk0, not_false_eq_true, if_true, k2, decide_True, ft_assert_true,
        ok_bind, method_at, hlt, hname, strcmp_eq, pure_eq_ok]

/-- C25, an instance: after the scenario and `fobj_freeze()`, `fobj_init`
aborts, `fobj_freeze()` again changes nothing, interning the klass `C`,
installing an impl and interning the method `bar` abort, and interning the
method `foo` gives its handle `2`. -/
theorem fobj_freeze_one_way_witness :
    fobj_init scenario_env 8 [] frozen_rt = Except.error (Fault.abort 1287) ∧
    rt_step scenario_env 8 frozen_rt (RtOp.call RegCall.freeze) = Except.ok frozen_rt ∧
    fobj_klass_init_impl scenario_env 8 frozen_rt 0 8 0 [] "C"
      = Except.error (Fault.abort 323) ∧
    fobj_method_register_impl scenario_env 8 frozen_rt 2 2 303
      = Except.error (Fault.abort 414) ∧
    fobj_method_init_impl scenario_env 8 frozen_rt 0 "bar"
      = Except.error (Fault.abort 132) ∧
    fobj_method_init_impl scenario_env 8 frozen_rt 0 "foo" = Except.ok (true, 2, frozen_rt) :=
  have h := fobj_freeze_one_way scenario_env 8 frozen_calls frozen_outs frozen_rt
    (by rfl) rfl (by rfl)
  ⟨h.1 frozen_rt 8 [] (by decide),
    (by
      have h3 := h.2.2.1
      have hok : rt_step scenario_env 8 frozen_rt (RtOp.call RegCall.freeze)
          = Except.ok (fobj_freeze frozen_rt) := rfl
      rw [hok, h3 _ 8 _ hok]),
    h.2.2.2.1 8 0 8 0 [] "C",
    h.2.2.2.2.1 8 2 2 303,
    h.2.2.2.2.2.1 8 "bar" (by decide)
      (by
        intro k h1 h2
        have hn : frozen_rt.fobj_methods_n = 2 := by rfl
        rw [hn] at h2
        interval_cases k <;> decide),
    (h.2.2.2.2.2.2 8 "foo" 2 (by decide) (by decide) (by decide) (by rfl)).1⟩

/-! ## Allocation -/

/-- C26. The postcondition of `fobj__allocate`, in a runtime that is
initialised, for a registered klass whose size field is `s`, with a current
autorelease pool that is well formed. Called with a size argument `size ≥ 0`
for a klass with `s ≥ 0`, it aborts on the assertion of line 440. Otherwise it
returns a new object whose payload is `(-1 - s) + size` bytes when `size ≥ 0`
(and `s < 0`), `s` bytes when `size < 0` and `s ≥ 0`, and `-1 - s` bytes when
`size < 0` and `s < 0`; the header of the object holds the klass asked for,
reference count 1 and flags 0; the headers of all other objects and the record
of dispose functions run are as before; and the current autorelease pool holds
the new object in front of the objects it held before. -/
theorem fobj__allocate_post (env : fobj_env) (S : Nat) (ft_calloc : fobj_mem → Int → Nat)
    (rt : fobj_runtime) (m : fobj_mem) (ar : fobj_ar) (klass : Nat) (size : Int)
    (par : Nat) (addrs : List Nat)
    (hst : rt.fobj_global_state ≠ FOBJ_GLOBAL_STATE.FOBJ_RT_NOT_INITIALIZED)
    (hk1 : 0 < klass) (hk2 : klass ≤ rt.fobj_klasses_n)
    (hn : rt.fobj_klasses_n < FOBJ_OBJ_MAX_KLASSES)
    (hS : 0 < S) (hp0 : ar.fobj_AR_current ≠ 0)
    (hwf : PoolWF ar S ar.fobj_AR_current par addrs)
    (hov : 0 ≤ size → size + (-1 - (rt.fobj_klasses klass).size) ≤ SSIZE_MAX) :
    (0 ≤ size → 0 ≤ (rt.fobj_klasses klass).size →
      fobj__allocate env S ft_calloc rt m ar klass size = Except.error (Fault.abort 440)) ∧
    (size < 0 ∨ (rt.fobj_klasses klass).size < 0 →
      ∃ self payload m' ar' addrs',
        fobj__allocate env S ft_calloc rt m ar klass size = Except.ok (self, payload, m', ar') ∧
        (0 ≤ size → payload = (-1 - (rt.fobj_klasses klass).size) + size) ∧
        (size < 0 → 0 ≤ (rt.fobj_klasses klass).size →
          payload = (rt.fobj_klasses klass).size) ∧
        (size < 0 → (rt.fobj_klasses klass).size < 0 →
          payload = -1 - (rt.fobj_klasses klass).size) ∧
        self = ft_calloc m payload ∧
        m'.heap self = some { magic := if env.NDEBUG then 0 else FOBJ_HEADER_MAGIC, rc := 1,
                              flags := 0, klass := klass } ∧
        (∀ q, q ≠ self → m'.heap q = m.heap q) ∧
        m'.trace = m.trace ∧
        PoolWF ar' S ar.fobj_AR_current par addrs' ∧
        pool_items ar' ar.fobj_AR_current addrs'
          = self :: pool_items ar ar.fobj_AR_current addrs ∧
        ar'.fobj_AR_current = ar.fobj_AR_current ∧
        ar'.released = ar.released) := by
  have hstb : (rt.fobj_global_state != FOBJ_GLOBAL_STATE.FOBJ_RT_NOT_INITIALIZED) = true := by
    simp [hst]
  have hka : klass_at rt klass = Except.ok (rt.fobj_klasses klass) := by
    unfold klass_at
    rw [if_pos (by omega)]
  have hdbg : ft_dbg_assert env 433 (decide (klass > 0 ∧ klass ≤ rt.fobj_klasses_n))
      = Except.ok () := by
    rw [ft_dbg_assert_eq_ok]
    intro _
    simp [hk1, hk2]
  constructor
  · intro h0 hs
    have hneg : ¬ size < 0 := by omega
    have hd : decide ((rt.fobj_klasses klass).size < 0) = false := by
      rw [decide_eq_false_iff_not]
      omega
    unfold fobj__allocate
    simp only [hstb, ft_assert_true, ok_bind, hdbg, hka, if_neg hneg, hd, ft_assert_false,
      error_bind]
  · intro hcase
    by_cases hneg : size < 0
    · obtain ⟨ar', addrs', ha, hw, hi, _, hr, hc⟩ := autorelease_spec S ar.fobj_AR_current par
        (ft_calloc m (if (rt.fobj_klasses klass).size ≥ 0 then (rt.fobj_klasses klass).size
          else -1 - (rt.fobj_klasses klass).size)) hS hp0 ar addrs hwf
      refine ⟨_, _, m.set_header (ft_calloc m (if (rt.fobj_klasses klass).size ≥ 0 then
          (rt.fobj_klasses klass).size else -1 - (rt.fobj_klasses klass).size))
          { magic := if env.NDEBUG then 0 else FOBJ_HEADER_MAGIC, rc := 1, flags := 0,
            klass := klass }, ar', addrs', ?_, ?_, ?_, ?_, rfl, ?_, ?_, rfl, hw, hi, hc, hr⟩
      · unfold fobj__allocate
        simp only [hstb, ft_assert_true, ok_bind, hdbg, hka, if_pos hneg, pure_eq_ok, ha]
      · intro h0
        omega
      · intro _ hs
        rw [if_pos hs]
      · intro _ hs
        rw [if_neg (by omega)]
      · simp [fobj_mem.set_header]
      · intro q hq
        simp [fobj_mem.set_header, Function.update, hq]
    · have hs : (rt.fobj_klasses klass).size < 0 := by
        rcases hcase with h | h
        · exact absurd h hneg
        · exact h
      have h0 : 0 ≤ size := by omega
      have hcopy : (if (rt.fobj_klasses klass).size ≥ 0 then (rt.fobj_klasses klass).size
          else -1 - (rt.fobj_klasses klass).size) = -1 - (rt.fobj_klasses klass).size := by
        rw [if_neg (by omega)]
      have hfit : ¬ size + (-1 - (rt.fobj_klasses klass).size) > SSIZE_MAX := by
        have := hov h0
        omega
      obtain ⟨ar', addrs', ha, hw, hi, _, hr, hc⟩ := autorelease_spec S ar.fobj_AR_current par
        (ft_calloc m (size + (-1 - (rt.fobj_klasses klass).size))) hS hp0 ar addrs hwf
      refine ⟨_, _, m.set_header (ft_calloc m (size + (-1 - (rt.fobj_klasses klass).size)))
          { magic := if env.NDEBUG then 0 else FOBJ_HEADER_MAGIC, rc := 1, flags := 0,
            klass := klass }, ar', addrs', ?_, ?_, ?_, ?_, rfl, ?_, ?_, rfl, hw, hi, hc, hr⟩
      · unfold fobj__allocate
        simp only [hstb, ft_assert_true, ok_bind, hdbg, hka, if_neg hneg, hs, decide_True,
          hcopy, if_neg hfit, pure_eq_ok, ha]
      · intro _
        omega
      · intro h
        exact absurd h hneg
      · intro h
        exact absurd h hneg
      · simp [fobj_mem.set_header]
      · intro q hq
        simp [fobj_mem.set_header, Function.update, hq]

/-- C26, an instance: in the scenario, with a fresh current pool at `100`,
allocating an object of klass `B`, whose size is 24, with the size argument 8
aborts, and with the size argument -1 gives the object at `200` with a payload
of 24 bytes, the header of a `B` referenced once, as the only entry of the
pool. -/
theorem fobj__allocate_post_witness :
    fobj__allocate scenario_env 2 example_calloc scenario_rt example_mem example_pool_ar 2 8
      = Except.error (Fault.abort 440) ∧
    ∃ m' ar' addrs',
      fobj__allocate scenario_env 2 example_calloc scenario_rt example_mem example_pool_ar 2 (-1)
        = Except.ok (200, 24, m', ar') ∧
      m'.heap 200 = some { magic := FOBJ_HEADER_MAGIC, rc := 1, flags := 0, klass := 2 } ∧
      pool_items ar' 100 addrs' = [200] :=
  have h := fobj__allocate_post scenario_env 2 example_calloc scenario_rt example_mem
    example_pool_ar 2
  have hwf : PoolWF example_pool_ar 2 example_pool_ar.fobj_AR_current 0 [] :=
    ⟨{ parent := 0, last := some (chunk_ptr.first_of 100),
       first := { fobj_autorelease_chunk.zero with prev := none, cnt := 0 } },
      by rfl, rfl, Nat.zero_le _, by rfl⟩
  ⟨(h 8 0 [] (by decide) (by decide) (by decide) (by decide) (by decide) (by decide) hwf
      (fun _ => by decide)).1 (by decide) (by decide),
    (by
      obtain ⟨self, payload, m', ar', addrs', h1, _, h3, _, h5, h6, _, _, _, h10, _, _⟩ :=
        (h (-1) 0 [] (by decide) (by decide) (by decide) (by decide) (by decide) (by decide) hwf
          (fun h0 => absurd h0 (by decide))).2 (Or.inl (by decide))
      have hp : payload = 24 := h3 (by decide) (by decide)
      subst hp
      have hs : self = 200 := h5
      subst hs
      exact ⟨m', ar', addrs', h1, h6, h10⟩)⟩

/-! ## The reach of an install -/

/-- The chain of a klass depends only on the parents of the registered
klasses. -/
theorem klass_chain_congr (rt rt' : fobj_runtime)
    (hpar : ∀ k, 0 < k → k ≤ rt.fobj_klasses_n → (rt.fobj_klasses k).parent < k)
    (hsame : ∀ k, 0 < k → k ≤ rt.fobj_klasses_n →
      (rt'.fobj_klasses k).parent = (rt.fobj_klasses k).parent) :
    ∀ fuel kl, kl ≤ rt.fobj_klasses_n → klass_chain rt' fuel kl = klass_chain rt fuel kl := by
  intro fuel
  induction fuel with
  | zero => intro kl _; rfl
  | succ fuel ih =>
    intro kl hkl
    by_cases h0 : kl = 0
    · subst h0
      rw [klass_chain_zero, klass_chain_zero]
    · have hpos : 0 < kl := Nat.pos_of_ne_zero h0
      have hp := hpar kl hpos hkl
      rw [klass_chain_succ rt' fuel kl h0, klass_chain_succ rt fuel kl h0, hsame kl hpos hkl,
        ih _ (by omega)]

/-- One more install changes the nearest impl of a method along a chain only
when it is for that method and for a klass of the chain. -/
theorem first_installed_append (log : List (Nat × Nat × Nat)) (k m f meth : Nat) :
    ∀ chain : List Nat, (meth ≠ m ∨ k ∉ chain) →
      first_installed (log ++ [(k, m, f)]) meth chain = first_installed log meth chain := by
  intro chain
  induction chain with
  | nil => intro _; rfl
  | cons c chain ih =>
    intro h
    have hrest : meth ≠ m ∨ k ∉ chain := by
      rcases h with h | h
      · exact Or.inl h
      · exact Or.inr (fun hmem => h (List.mem_cons_of_mem _ hmem))
    have hc : installed (log ++ [(k, m, f)]) c meth = installed log c meth := by
      rw [installed_append]
      have hno : ¬ (k = c ∧ m = meth) := by
        rintro ⟨rfl, rfl⟩
        rcases h with h | h
        · exact h rfl
        · exact h (List.mem_cons_self _ _)
      rw [if_neg hno]
    simp only [first_installed, hc, ih hrest]

/-- An impl installation that returns keeps the invariant, with the install
appended to the log, and registers no klass. -/
theorem register_impl_inv (env : fobj_env) {rt rt' : fobj_runtime}
    {log : List (Nat × Nat × Nat)} {knames : List String} (h : RegInv env rt log knames)
    (fuel klass meth impl : Nat)
    (hrun : fobj_method_register_impl env fuel rt klass meth impl = Except.ok rt') :
    RegInv env rt' (log ++ [(klass, meth, impl)]) knames ∧ RegStable rt rt' ∧
      rt'.fobj_klasses_n = rt.fobj_klasses_n := by
  unfold fobj_method_register_impl at hrun
  rw [bind_eq_ok] at hrun
  obtain ⟨u, _, hrun⟩ := hrun
  rw [bind_eq_ok] at hrun
  obtain ⟨u, _, hrun⟩ := hrun
  rw [bind_eq_ok] at hrun
  obtain ⟨u, _, hrun⟩ := hrun
  obtain ⟨i1, s1, n1, _⟩ := register_priv_inv env h fuel klass meth impl hrun
  exact ⟨i1, s1, n1⟩

/-- Dispatch in a well-formed registry in which every klass has its parent
registered before itself returns the nearest impl along the chain of the
klass of the object. -/
theorem method_search_spec (env : fobj_env) {rt : fobj_runtime}
    {log : List (Nat × Nat × Nat)} {knames : List String} (h : RegInv env rt log knames)
    (hpar : ∀ k, 0 < k → k ≤ rt.fobj_klasses_n → (rt.fobj_klasses k).parent < k)
    (heap : fobj_heap) (self : Nat) (hdr : fobj_header) (hself : self ≠ 0)
    (hhdr : heap self = some hdr) (hmagic : hdr.magic = FOBJ_HEADER_MAGIC)
    (hk1 : 0 < hdr.klass) (hk2 : hdr.klass ≤ rt.fobj_klasses_n)
    (hlive : hdr.flags &&& FOBJ_DISPOSED = 0)
    (meth : Nat) (hm1 : 0 < meth) (hm2 : meth ≤ rt.fobj_methods_n)
    (hmd : meth ≠ env.fobjDispose__mh) (validate : Bool) (fuel : Nat)
    (hf1 : rt.fobj_impls_n < fuel) (hf2 : rt.fobj_klasses_n ≤ fuel) :
    fobj_method_search env fuel rt heap self meth 0 validate
      = Except.ok (dispatch_spec log self meth
          (klass_chain rt FOBJ_OBJ_MAX_KLASSES hdr.klass)) := by
  rw [fobj_method_search_entry env _ h.state_ne heap self hdr hself hhdr hmagic hk1 hk2 hlive
    meth hm1 hm2 hmd 0 validate fuel]
  simp only [ne_eq, not_true_eq_false, if_false, pure_eq_ok, ok_bind]
  exact method_search_loop_spec h.impl h.klass.n_lt hpar self meth fuel hf1 fuel hdr.klass
    FOBJ_OBJ_MAX_KLASSES hk1 hk2 (by omega) (Nat.le_of_lt (Nat.lt_of_le_of_lt hk2 h.klass.n_lt))

/-- C30. Installing an impl has no effect outside its own (klass, method)
cone. In every reachable registry state in which every klass has its parent
registered before itself, after `fobj_method_register_impl(k, m, f)` returned:
the lookup `fobj_search_impl` of a method on a klass gives what it gave
before for every pair other than `(m, k)`, whatever the partition of the
method; and `fobj_method_search` on a live object gives what it gave before,
the nearest impl along the chain of the klass of the object, for every method
other than `m`, and for `m` itself when `k` is not on the chain of the klass
of the object, that is when that klass is neither `k` nor a descendant of
`k`. -/
theorem fobj_method_register_impl_frame (env : fobj_env) (fuel0 : Nat) (calls : List RegCall)
    (outs : List (Bool × Nat × fobj_runtime)) (rt : fobj_runtime)
    (hrun : reg_run env fuel0 fobj_runtime.initialized calls = Except.ok outs)
    (hrt : rt = reg_final fobj_runtime.initialized outs)
    (hpar : ∀ k, 0 < k → k ≤ rt.fobj_klasses_n → (rt.fobj_klasses k).parent < k)
    (k m f fuel1 : Nat) (rt' : fobj_runtime)
    (hinst : fobj_method_register_impl env fuel1 rt k m f = Except.ok rt') :
    (∀ (kl meth fuel : Nat), kl < FOBJ_OBJ_MAX_KLASSES → rt'.fobj_impls_n < fuel →
      (meth ≠ m ∨ kl ≠ k) →
      fobj_search_impl fuel rt' meth kl = fobj_search_impl fuel rt meth kl ∧
      fobj_search_impl fuel rt meth kl
        = Except.ok (installed (install_log calls outs) kl meth)) ∧
    (∀ (heap : fobj_heap) (self : Nat) (hdr : fobj_header) (meth : Nat) (validate : Bool)
        (fuel : Nat),
      self ≠ 0 → heap self = some hdr → hdr.magic = FOBJ_HEADER_MAGIC →
      0 < hdr.klass → hdr.klass ≤ rt.fobj_klasses_n → hdr.flags &&& FOBJ_DISPOSED = 0 →
      0 < meth → meth ≤ rt.fobj_methods_n → meth ≠ env.fobjDispose__mh →
      rt'.fobj_impls_n < fuel → rt.fobj_klasses_n ≤ fuel →
      (meth ≠ m ∨ k ∉ klass_chain rt FOBJ_OBJ_MAX_KLASSES hdr.klass) →
      fobj_method_search env fuel rt' heap self meth 0 validate
        = fobj_method_search env fuel rt heap self meth 0 validate ∧
      fobj_method_search env fuel rt heap self meth 0 validate
        = Except.ok (dispatch_spec (install_log calls outs) self meth
            (klass_chain rt FOBJ_OBJ_MAX_KLASSES hdr.klass))) := by
  subst hrt
  have h := reg_run_initialized env fuel0 calls outs hrun
  obtain ⟨h', hs, hn⟩ := register_impl_inv env h fuel1 k m f hinst
  constructor
  · intro kl meth fuel hkl hf hne
    have hf0 : (reg_final fobj_runtime.initialized outs).fobj_impls_n < fuel :=
      Nat.lt_of_le_of_lt hs.impls_n_le hf
    rw [search_impl_eq h'.impl meth kl fuel hkl hf, search_impl_eq h.impl meth kl fuel hkl hf0,
      installed_append]
    have hno : ¬ (k = kl ∧ m = meth) := by
      rintro ⟨rfl, rfl⟩
      rcases hne with hne | hne
      · exact hne rfl
      · exact hne rfl
    rw [if_neg hno]
    exact ⟨rfl, rfl⟩
  · intro heap self hdr meth validate fuel hself hhdr hmagic hk1 hk2 hlive hm1 hm2 hmd hf1 hf2
      hne
    have hf0 : (reg_final fobj_runtime.initialized outs).fobj_impls_n < fuel :=
      Nat.lt_of_le_of_lt hs.impls_n_le hf1
    have hpar' : ∀ j, 0 < j → j ≤ rt'.fobj_klasses_n → (rt'.fobj_klasses j).parent < j := by
      intro j j1 j2
      rw [hn] at j2
      rw [hs.klass_parent j j1 j2]
      exact hpar j j1 j2
    have hchain : klass_chain rt' FOBJ_OBJ_MAX_KLASSES hdr.klass
        = klass_chain (reg_final fobj_runtime.initialized outs) FOBJ_OBJ_MAX_KLASSES
            hdr.klass :=
      klass_chain_congr _ rt' hpar hs.klass_parent FOBJ_OBJ_MAX_KLASSES hdr.klass hk2
    have h1 := method_search_spec env h' hpar' heap self hdr hself hhdr hmagic hk1
      (by rw [hn]; exact hk2) hlive meth hm1 (Nat.le_trans hm2 hs.methods_n_le) hmd validate
      fuel hf1 (by rw [hn]; exact hf2)
    have h0 := method_search_spec env h hpar heap self hdr hself hhdr hmagic hk1 hk2 hlive
      meth hm1 hm2 hmd validate fuel hf0 hf2
    refine ⟨?_, h0⟩
    rw [h1, h0, hchain]
    unfold dispatch_spec
    rw [first_installed_append _ k m f meth _ hne]

/-- C30, an instance: after the dispose function `72` was installed on klass
`B` of the scenario, the object of klass `B` dispatches `foo` to `202` as
before. -/
theorem fobj_method_register_impl_frame_witness :
    fobj_method_search scenario_env 8 frame_rt scenario_heap 64 2 0 true
      = fobj_method_search scenario_env 8 scenario_rt scenario_heap 64 2 0 true ∧
    fobj_method_search scenario_env 8 scenario_rt scenario_heap 64 2 0 true
      = Except.ok (64, 202) :=
  have h := (fobj_method_register_impl_frame scenario_env 8 scenario_calls scenario_outs
    scenario_rt (by rfl) rfl
    (by
      intro k h1 h2
      have hn : scenario_rt.fobj_klasses_n = 2 := by rfl
      rw [hn] at h2
      interval_cases k <;> decide)
    2 1 72 8 frame_rt (by rfl)).2 scenario_heap 64
    { magic := FOBJ_HEADER_MAGIC, rc := 1, flags := 0, klass := 2 } 2 true 8
    (by decide) (by rfl) rfl (by decide) (by decide) (by decide) (by decide) (by decide)
    (by decide) (by decide) (by decide) (Or.inl (by decide))
  ⟨h.1, h.2.trans (by rfl)⟩

/-! ## Signedness of integer formats -/

/-- Every spec splits into a part that does not end in `l` or `z` and a run
of the letters `l` and `z` behind it. -/
theorem length_run_split (Q : List Nat) :
    ∃ P L, Q = P ++ L ∧ (∀ x ∈ L, x = 108 ∨ x = 122) ∧
      (∀ x, P.getLast? = some x → x ≠ 108 ∧ x ≠ 122) := by
  induction Q using List.reverseRecOn with
  | nil => exact ⟨[], [], rfl, by simp, by simp⟩
  | append_singleton Q x ih =>
    obtain ⟨P, L, hQ, hL, hP⟩ := ih
    by_cases hx : x = 108 ∨ x = 122
    · refine ⟨P, L ++ [x], by rw [hQ, List.append_assoc], ?_, hP⟩
      intro y hy
      rcases List.mem_append.mp hy with hy | hy
      · exact hL y hy
      · rw [List.mem_singleton.mp hy]
        exact hx
    · refine ⟨Q ++ [x], [], by simp, by simp, ?_⟩
      intro y hy
      have hyx : y = x := by simpa using hy.symm
      rw [hyx]
      exact ⟨fun h => hx (Or.inl h), fun h => hx (Or.inr h)⟩

/-- With a spec that is not empty `fobj_format_int` does not look at
`_signed`. -/
theorem format_int_signed_irrelevant (env : format_env) (buf : List Nat) (v : Nat)
    (fmt : Option (List Nat)) (hne : ¬ (fmt = none ∨ fmt = some [])) :
    fobj_format_int env buf v true fmt = fobj_format_int env buf v false fmt := by
  unfold fobj_format_int
  rw [if_neg hne, if_neg hne]

theorem to_int64_high (v : Nat) (hv : v < 2 ^ 64) (hhigh : 2 ^ 63 ≤ v) :
    to_int64 v = (v : Int) - 2 ^ 64 ∧ to_int64 v < 0 := by
  unfold to_int64
  have hmod : v % 2 ^ 64 = v := Nat.mod_eq_of_lt hv
  rw [hmod, if_neg (by omega)]
  refine ⟨rfl, ?_⟩
  have : (v : Int) < 2 ^ 64 := by exact_mod_cast hv
  omega

theorem to_uint64_negative (x : Int) (hlow : -2 ^ 63 ≤ x) (hneg : x < 0) :
    (to_uint64 x : Int) = x + 2 ^ 64 ∧ 2 ^ 63 ≤ to_uint64 x ∧ to_uint64 x < 2 ^ 64 := by
  unfold to_uint64
  have h1 : x % 2 ^ 64 = x + 2 ^ 64 := by
    have h2 : (x + 2 ^ 64) % 2 ^ 64 = x + 2 ^ 64 :=
      Int.emod_eq_of_lt (by omega) (by omega)
    rw [← h2]
    simp
  rw [h1]
  have h3 : ((x + 2 ^ 64).toNat : Int) = x + 2 ^ 64 := Int.toNat_of_nonneg (by omega)
  refine ⟨h3, ?_, ?_⟩
  · have : ((2 ^ 63 : Nat) : Int) ≤ ((x + 2 ^ 64).toNat : Int) := by
      rw [h3]; push_cast; omega
    exact_mod_cast this
  · have : ((x + 2 ^ 64).toNat : Int) < ((2 ^ 64 : Nat) : Int) := by
      rw [h3]; push_cast; omega
    exact_mod_cast this

/-- C32. With a spec that is not empty the signedness comes from the
conversion letter and not from `_signed`. For every 64-bit pattern `v` and
every spec of at most 26 characters that ends in a conversion letter `c` out
of `d`, `i`, `u`, `o`, `x`, `X`, `fobj_format_int` returns the same bytes for
`_signed = true` and `_signed = false`: the buffer followed by what
`ft_strbuf_catf` prints for `(int64_t)v` when `c` is `d` or `i`, and for `v`
itself otherwise. So a pattern `v ≥ 2^63` is handed to a `d` conversion as the
negative number `v - 2^64`, also when it comes from an unsigned argument, and
a negative `Int` argument `x` is handed to a `u` conversion as `x + 2^64`,
which is at least `2^63`. With an empty spec (`NULL` or `""`) the signed call
prints `(int64_t)v` with `PRIi64` and the unsigned call prints `v` with
`PRIu64`; for `v ≥ 2^63` the results differ, given that the platform's
`printf` starts the negative number with a minus sign and does not start the
unsigned number with one. -/
theorem fobj_format_int_signedness (env : format_env) (buf : List Nat) (v : Nat)
    (spec : List Nat) (c : Nat) (hv : v < 2 ^ 64)
    (hlast : spec.getLast? = some c)
    (hc : c = 100 ∨ c = 105 ∨ c = 117 ∨ c = 111 ∨ c = 120 ∨ c = 88)
    (hlen : spec.length ≤ 26) :
    (∃ P L, spec = P ++ L ++ [c] ∧ (∀ x ∈ L, x = 108 ∨ x = 122) ∧
      fobj_format_int env buf v true (some spec)
        = Except.ok (buf ++
            if c = 100 ∨ c = 105 then
              env.catf_int (37 :: P ++ int_conversion_token env c) (to_int64 v)
            else env.catf_uint (37 :: P ++ int_conversion_token env c) v) ∧
      fobj_format_int env buf v false (some spec)
        = fobj_format_int env buf v true (some spec) ∧
      fobj_format_arg env buf (ft_arg_t.u v) (some spec)
        = fobj_format_int env buf v true (some spec) ∧
      (∀ x : Int, -2 ^ 63 ≤ x → x < 0 →
        (to_uint64 x : Int) = x + 2 ^ 64 ∧ 2 ^ 63 ≤ to_uint64 x ∧
        fobj_format_arg env buf (ft_arg_t.i x) (some spec)
          = Except.ok (buf ++
              if c = 100 ∨ c = 105 then
                env.catf_int (37 :: P ++ int_conversion_token env c) (to_int64 (to_uint64 x))
              else env.catf_uint (37 :: P ++ int_conversion_token env c) (to_uint64 x)))) ∧
    (2 ^ 63 ≤ v → to_int64 v = (v : Int) - 2 ^ 64 ∧ to_int64 v < 0) ∧
    (∀ fmt : Option (List Nat), fmt = none ∨ fmt = some [] →
      fobj_format_int env buf v true fmt
        = Except.ok (buf ++ env.catf_int (37 :: env.PRIi64) (to_int64 v)) ∧
      fobj_format_int env buf v false fmt
        = Except.ok (buf ++ env.catf_uint (37 :: env.PRIu64) v) ∧
      (2 ^ 63 ≤ v →
        (env.catf_int (37 :: env.PRIi64) (to_int64 v)).head? = some 45 →
        (env.catf_uint (37 :: env.PRIu64) v).head? ≠ some 45 →
        fobj_format_int env buf v true fmt ≠ fobj_format_int env buf v false fmt)) := by
  have hmod : v % 2 ^ 64 = v := Nat.mod_eq_of_lt hv
  obtain ⟨Q, hQ⟩ : ∃ Q, spec = Q ++ [c] := by
    rcases List.eq_nil_or_concat spec with h | ⟨Q, y, h⟩
    · subst h; simp at hlast
    · subst h
      simp at hlast
      exact ⟨Q, by rw [hlast]; simp⟩
  obtain ⟨P, L, hPL, hL, hP⟩ := length_run_split Q
  have hspec : spec = P ++ L ++ [c] := by rw [hQ, hPL]
  have hlen' : (P ++ L ++ [c]).length ≤ 26 := by rw [← hspec]; exact hlen
  have hne : ¬ ((some spec : Option (List Nat)) = none ∨
      (some spec : Option (List Nat)) = some []) := by
    rw [hspec]; simp
  have hres : ∀ (i : Nat) (s : Bool), fobj_format_int env buf i s (some spec)
      = Except.ok (buf ++
          if c = 100 ∨ c = 105 then
            env.catf_int (37 :: P ++ int_conversion_token env c) (to_int64 i)
          else env.catf_uint (37 :: P ++ int_conversion_token env c) (i % 2 ^ 64)) := by
    intro i s
    rw [hspec]
    exact format_int_spec env buf i s P L c hc hL hP hlen'
  refine ⟨⟨P, L, hspec, hL, ?_, ?_, ?_, ?_⟩, to_int64_high v hv, ?_⟩
  · rw [hres v true, hmod]
  · exact (format_int_signed_irrelevant env buf v (some spec) hne).symm
  · show fobj_format_int env buf (v % 2 ^ 64) false (some spec) = _
    rw [hmod]
    exact (format_int_signed_irrelevant env buf v (some spec) hne).symm
  · intro x hlow hneg
    obtain ⟨h1, h2, h3⟩ := to_uint64_negative x hlow hneg
    refine ⟨h1, h2, ?_⟩
    show fobj_format_int env buf (to_uint64 x) true (some spec) = _
    rw [hres (to_uint64 x) true, Nat.mod_eq_of_lt h3]
  · intro fmt hfmt
    have ht : fobj_format_int env buf v true fmt
        = Except.ok (buf ++ env.catf_int (37 :: env.PRIi64) (to_int64 v)) := by
      unfold fobj_format_int
      rw [if_pos hfmt]
      rfl
    have hf : fobj_format_int env buf v false fmt
        = Except.ok (buf ++ env.catf_uint (37 :: env.PRIu64) v) := by
      unfold fobj_format_int
      rw [if_pos hfmt, hmod]
      rfl
    refine ⟨ht, hf, ?_⟩
    intro _ h1 h2 heq
    rw [ht, hf] at heq
    have := List.append_cancel_left (Except.ok.inj heq)
    rw [this] at h1
    exact h2 h1

/-- C32, an instance: the pattern `2^64 - 1` with the spec `d` gives `-1` for
a signed and for an unsigned value, and with the spec `u` it gives
`18446744073709551615` for both; with no spec the signed value gives `-1` and
the unsigned one `18446744073709551615`. -/
theorem fobj_format_int_signedness_witness :
    fobj_format_int example_env [] 18446744073709551615 true (some (cstr_bytes "d"))
      = Except.ok (cstr_bytes "-1") ∧
    fobj_format_int example_env [] 18446744073709551615 false (some (cstr_bytes "d"))
      = Except.ok (cstr_bytes "-1") ∧
    fobj_format_arg example_env [] (ft_arg_t.i (-1)) (some (cstr_bytes "u"))
      = Except.ok (cstr_bytes "18446744073709551615") ∧
    fobj_format_int example_env [] 18446744073709551615 true none
      ≠ fobj_format_int example_env [] 18446744073709551615 false none :=
  have h := fobj_format_int_signedness example_env [] 18446744073709551615
    (cstr_bytes "d") 100 (by norm_num) (by rfl) (by decide) (by decide)
  ⟨by rfl, (by
      obtain ⟨P, L, _, _, _, h2, _⟩ := h.1
      rw [h2]
      rfl), by rfl,
    (h.2.2 none (Or.inl rfl)).2.2 (by norm_num) (by rfl) (by
      intro h0
      have e : (example_env.catf_uint (37 :: example_env.PRIu64)
          18446744073709551615).head? = some 49 := by rfl
      rw [e] at h0
      exact absurd h0 (by decide))⟩

/-! ## Well-formedness of the impl table -/

theorem ImplLinks_initialized : ImplLinks fobj_runtime.initialized := by
  refine ⟨by decide, ?_, ?_, ?_, ?_, ?_, ?_, ?_, ?_⟩
  · intro n h1 h2
    have : n = 0 := Nat.le_zero.mp h2
    omega
  · intro n h1 h2
    have : n = 0 := Nat.le_zero.mp h2
    omega
  · intro k p; exact Nat.le_refl _
  · intro m; exact Nat.le_refl _
  · intro k p h; exact absurd rfl h
  · intro n h1 h2
    have : n = 0 := Nat.le_zero.mp h2
    omega
  · intro m h; exact absurd rfl h
  · intro n h1 h2
    have : n = 0 := Nat.le_zero.mp h2
    omega

/-- The links invariant reads the impl table, its counter, the partition
heads and the `first` links, and nothing else. -/
theorem ImplLinks_congr {rt rt' : fobj_runtime} (h : ImplLinks rt)
    (hn : rt'.fobj_impls_n = rt.fobj_impls_n)
    (ht : rt'.fobj_method_impl = rt.fobj_method_impl)
    (hl : ∀ k, (rt'.fobj_klasses k).method_lists = (rt.fobj_klasses k).method_lists)
    (hf : ∀ m, (rt'.fobj_methods m).first = (rt.fobj_methods m).first) :
    ImplLinks rt' := by
  refine ⟨hn ▸ h.impls_n_lt, ?_, ?_, ?_, ?_, ?_, ?_, ?_, ?_⟩
  · intro n h1 h2; rw [ht]; exact h.next_for_klass_lt n h1 (hn ▸ h2)
  · intro n h1 h2; rw [ht]; exact h.next_for_method_lt n h1 (hn ▸ h2)
  · intro k p; rw [hl, hn]; exact h.head_le k p
  · intro m; rw [hf, hn]; exact h.first_le m
  · intro k p; rw [hl, ht]; exact h.klass_head k p
  · intro n h1 h2; rw [ht]; exact h.klass_next n h1 (hn ▸ h2)
  · intro m; rw [hf, ht]; exact h.method_head m
  · intro n h1 h2; rw [ht]; exact h.method_next n h1 (hn ▸ h2)

/-- Appending an impl record keeps the links well formed. -/
theorem register_store_links (env : fobj_env) {rt : fobj_runtime} (h : ImplLinks rt)
    (klass meth impl : Nat) (hnom : rt.fobj_impls_n + 1 < FOBJ_OBJ_MAX_METHOD_IMPLS) :
    ImplLinks (fobj_method_register_store env rt klass meth impl (rt.fobj_impls_n + 1)) := by
  have hagree : ∀ j, j ≤ rt.fobj_impls_n →
      (fobj_method_register_store env rt klass meth impl (rt.fobj_impls_n + 1)).fobj_method_impl j
        = rt.fobj_method_impl j := by
    intro j hj
    simp only [fobj_method_register_store]
    rw [Function.update_noteq (by omega)]
  have hfirst16 : (rt.fobj_methods meth).first % 2 ^ 16 = (rt.fobj_methods meth).first := by
    apply Nat.mod_eq_of_lt
    have h1 := h.first_le meth
    have h2 := h.impls_n_lt
    simp only [FOBJ_OBJ_MAX_METHOD_IMPLS] at h2
    omega
  have hnew : (fobj_method_register_store env rt klass meth impl
      (rt.fobj_impls_n + 1)).fobj_method_impl (rt.fobj_impls_n + 1)
        = { method := meth, klass := klass, next_for_method := (rt.fobj_methods meth).first,
            next_for_klass := (rt.fobj_klasses klass).method_lists (meth % METHOD_PARTITIONS),
            impl := impl } := by
    simp only [fobj_method_register_store, Function.update_same, hfirst16]
  have hlists : ∀ k p,
      ((fobj_method_register_store env rt klass meth impl
          (rt.fobj_impls_n + 1)).fobj_klasses k).method_lists p
        = if k = klass ∧ p = meth % METHOD_PARTITIONS then rt.fobj_impls_n + 1
          else (rt.fobj_klasses k).method_lists p := by
    intro k p
    simp only [fobj_method_register_store, Function.update_apply]
    by_cases hk : k = klass
    · subst hk
      by_cases hd : meth = env.fobjDispose__mh <;> by_cases hp : p = meth % METHOD_PARTITIONS <;>
        simp [hd, hp, Function.update_apply]
    · simp [hk]
  have hfirsts : ∀ m,
      ((fobj_method_register_store env rt klass meth impl
          (rt.fobj_impls_n + 1)).fobj_methods m).first
        = if m = meth then rt.fobj_impls_n + 1 else (rt.fobj_methods m).first := by
    intro m
    simp only [fobj_method_register_store, Function.update_apply]
    by_cases hm : m = meth
    · simp [hm]
    · simp [hm]
  have hN : (fobj_method_register_store env rt klass meth impl
      (rt.fobj_impls_n + 1)).fobj_impls_n = rt.fobj_impls_n + 1 := rfl
  refine ⟨hnom, ?_, ?_, ?_, ?_, ?_, ?_, ?_, ?_⟩
  · intro n h1 h2
    rw [hN] at h2
    rcases Nat.lt_or_ge n (rt.fobj_impls_n + 1) with hlt | hge
    · rw [hagree n (by omega)]
      exact h.next_for_klass_lt n h1 (by omega)
    · have hn : n = rt.fobj_impls_n + 1 := by omega
      subst hn
      rw [hnew]
      have := h.head_le klass (meth % METHOD_PARTITIONS)
      show (rt.fobj_klasses klass).method_lists (meth % METHOD_PARTITIONS) < _
      omega
  · intro n h1 h2
    rw [hN] at h2
    rcases Nat.lt_or_ge n (rt.fobj_impls_n + 1) with hlt | hge
    · rw [hagree n (by omega)]
      exact h.next_for_method_lt n h1 (by omega)
    · have hn : n = rt.fobj_impls_n + 1 := by omega
      subst hn
      rw [hnew]
      have := h.first_le meth
      show (rt.fobj_methods meth).first < _
      omega
  · intro k p
    rw [hlists, hN]
    have := h.head_le k p
    split <;> omega
  · intro m
    rw [hfirsts, hN]
    have := h.first_le m
    split <;> omega
  · intro k p
    rw [hlists]
    by_cases hkp : k = klass ∧ p = meth % METHOD_PARTITIONS
    · rw [if_pos hkp, hnew]
      intro _
      exact ⟨hkp.1.symm, hkp.2.symm⟩
    · rw [if_neg hkp]
      intro hne
      rw [hagree _ (h.head_le k p)]
      exact h.klass_head k p hne
  · intro n h1 h2
    rw [hN] at h2
    rcases Nat.lt_or_ge n (rt.fobj_impls_n + 1) with hlt | hge
    · rw [hagree n (by omega)]
      intro hne
      have hlt2 := h.next_for_klass_lt n h1 (by omega)
      rw [hagree _ (by omega)]
      exact h.klass_next n h1 (by omega) hne
    · have hn : n = rt.fobj_impls_n + 1 := by omega
      subst hn
      rw [hnew]
      intro hne
      have hne' : (rt.fobj_klasses klass).method_lists (meth % METHOD_PARTITIONS) ≠ 0 := hne
      show ((fobj_method_register_store env rt klass meth impl
          (rt.fobj_impls_n + 1)).fobj_method_impl
            ((rt.fobj_klasses klass).method_lists (meth % METHOD_PARTITIONS))).klass = klass ∧
        ((fobj_method_register_store env rt klass meth impl
          (rt.fobj_impls_n + 1)).fobj_method_impl
            ((rt.fobj_klasses klass).method_lists (meth % METHOD_PARTITIONS))).method
              % METHOD_PARTITIONS = meth % METHOD_PARTITIONS
      rw [hagree _ (h.head_le klass _)]
      exact h.klass_head klass _ hne'
  · intro m
    rw [hfirsts]
    by_cases hm : m = meth
    · rw [if_pos hm, hnew]
      intro _
      exact hm.symm
    · rw [if_neg hm]
      intro hne
      rw [hagree _ (h.first_le m)]
      exact h.method_head m hne
  · intro n h1 h2
    rw [hN] at h2
    rcases Nat.lt_or_ge n (rt.fobj_impls_n + 1) with hlt | hge
    · rw [hagree n (by omega)]
      intro hne
      have hlt2 := h.next_for_method_lt n h1 (by omega)
      rw [hagree _ (by omega)]
      exact h.method_next n h1 (by omega) hne
    · have hn : n = rt.fobj_impls_n + 1 := by omega
      subst hn
      rw [hnew]
      intro hne
      have hne' : (rt.fobj_methods meth).first ≠ 0 := hne
      show ((fobj_method_register_store env rt klass meth impl
          (rt.fobj_impls_n + 1)).fobj_method_impl (rt.fobj_methods meth).first).method = meth
      rw [hagree _ (h.first_le meth)]
      exact h.method_head meth hne'

theorem register_priv_links (env : fobj_env) {rt rt' : fobj_runtime}
    {log : List (Nat × Nat × Nat)} (hi : ImplInv rt log) (h : ImplLinks rt)
    (fuel klass meth impl : Nat)
    (hrun : fobj_method_register_priv env fuel rt klass meth impl = Except.ok rt') :
    ImplLinks rt' := by
  obtain ⟨_, _, hc⟩ := register_priv_cases env hi fuel klass meth impl hrun
  rcases hc with ⟨_, rfl⟩ | ⟨_, hnom, _, rfl⟩
  · exact h
  · exact register_store_links env h klass meth impl hnom

theorem klass_init_methods_links (env : fobj_env) (fuel kl : Nat) :
    ∀ (methods : List (Nat × Nat)) (rt rt' : fobj_runtime) (log : List (Nat × Nat × Nat))
      (knames : List String), RegInv env rt log knames → ImplLinks rt →
      fobj_klass_init_methods env fuel kl rt methods = Except.ok rt' → ImplLinks rt' := by
  intro methods
  induction methods with
  | nil =>
    intro rt rt' log knames _ h hrun
    simp only [fobj_klass_init_methods, pure_eq_ok] at hrun
    cases Except.ok.inj hrun
    exact h
  | cons e methods ih =>
    intro rt rt' log knames hinv h hrun
    obtain ⟨meth, impl⟩ := e
    unfold fobj_klass_init_methods at hrun
    by_cases hm : meth = 0
    · simp only [hm, ne_eq, not_true_eq_false, if_false, pure_eq_ok] at hrun
      cases Except.ok.inj hrun
      exact h
    · simp only [ne_eq, hm, not_false_eq_true, if_true] at hrun
      rw [bind_eq_ok] at hrun
      obtain ⟨rt1, h1, hrun⟩ := hrun
      obtain ⟨i1, _, _, _⟩ := register_priv_inv env hinv fuel kl meth impl h1
      exact ih rt1 rt' _ knames i1 (register_priv_links env hinv.impl h fuel kl meth impl h1) hrun

theorem klass_init_store_links {rt : fobj_runtime} (h : ImplLinks rt) (kl hash : Nat)
    (size : Int) (parent : Nat) (name : String) :
    ImplLinks (fobj_klass_init_store rt kl hash size parent name) := by
  refine ImplLinks_congr h rfl rfl ?_ (fun _ => rfl)
  intro k
  simp only [fobj_klass_init_store, Function.update_apply]
  split
  · rename_i hk; rw [hk]
  · rfl

theorem method_init_store_links {rt : fobj_runtime} (h : ImplLinks rt) (mh hash : Nat)
    (name : String) : ImplLinks (fobj_method_init_store rt mh hash name) := by
  refine ImplLinks_congr h rfl rfl (fun _ => rfl) ?_
  intro m
  simp only [fobj_method_init_store, Function.update_apply]
  split
  · rename_i hm; rw [hm]
  · rfl

/-- Every registration call that returns keeps the links of the impl table
well formed. -/
theorem reg_call_links (env : fobj_env) (fuel : Nat) {rt : fobj_runtime}
    {log : List (Nat × Nat × Nat)} {knames : List String} (hinv : RegInv env rt log knames)
    (h : ImplLinks rt) (c : RegCall) (r : Bool × Nat × fobj_runtime)
    (hrun : reg_call env fuel rt c = Except.ok r) : ImplLinks r.2.2 := by
  obtain ⟨b, kh, rt'⟩ := r
  cases c with
  | klass_init klass size parent methods name =>
    simp only [reg_call] at hrun
    obtain ⟨_, hc⟩ := klass_init_cases env hinv.klass fuel klass size parent methods name b kh hrun
    rcases hc with ⟨_, rfl, _⟩ | ⟨_, _, _, hcap, hnew, hm⟩
    · exact h
    · obtain ⟨i1, _⟩ := klass_init_store_reginv env hinv size parent name hnew hcap
      exact klass_init_methods_links env fuel _ methods _ rt' log _ i1
        (klass_init_store_links h _ _ size parent name) hm
  | method_init meth name =>
    simp only [reg_call] at hrun
    rcases method_init_cases env hinv.meth fuel meth name b kh hrun with
      ⟨_, rfl, _⟩ | ⟨_, _, _, _, _, _, rfl⟩
    · exact h
    · exact method_init_store_links h _ _ name
  | register_impl klass meth impl =>
    simp only [reg_call, fobj_method_register_impl] at hrun
    rw [bind_eq_ok] at hrun
    obtain ⟨rt1, hrun, hr⟩ := hrun
    simp only [pure_eq_ok, Except.ok.injEq, Prod.mk.injEq] at hr
    obtain ⟨_, _, rfl⟩ := hr
    rw [bind_eq_ok] at hrun
    obtain ⟨u, _, hrun⟩ := hrun
    rw [bind_eq_ok] at hrun
    obtain ⟨u, _, hrun⟩ := hrun
    rw [bind_eq_ok] at hrun
    obtain ⟨u, _, hrun⟩ := hrun
    exact register_priv_links env hinv.impl h fuel klass meth impl hrun
  | freeze =>
    simp only [reg_call, pure_eq_ok, Except.ok.injEq, Prod.mk.injEq] at hrun
    obtain ⟨_, _, rfl⟩ := hrun
    exact ImplLinks_congr h rfl rfl (fun _ => rfl) (fun _ => rfl)

/-- Every run of registration calls that returns keeps the links of the impl
table well formed. -/
theorem reg_run_links (env : fobj_env) (fuel : Nat) :
    ∀ (calls : List RegCall) (rt : fobj_runtime) (log : List (Nat × Nat × Nat))
      (knames : List String) (outs : List (Bool × Nat × fobj_runtime)),
      RegInv env rt log knames → ImplLinks rt →
      reg_run env fuel rt calls = Except.ok outs → ImplLinks (reg_final rt outs) := by
  intro calls
  induction calls with
  | nil =>
    intro rt log knames outs _ h hrun
    simp only [reg_run, pure_eq_ok, Except.ok.injEq] at hrun
    subst hrun
    exact h
  | cons c cs ih =>
    intro rt log knames outs hinv h hrun
    simp only [reg_run] at hrun
    rw [bind_eq_ok] at hrun
    obtain ⟨r, hr, hrun⟩ := hrun
    rw [bind_eq_ok] at hrun
    obtain ⟨rs, hrs, hrun⟩ := hrun
    simp only [pure_eq_ok, Except.ok.injEq] at hrun
    subst hrun
    obtain ⟨i1, _⟩ := reg_call_inv env fuel hinv c r hr
    exact ih r.2.2 _ _ rs i1 (reg_call_links env fuel hinv h c r hr) hrs

/-- In a well-formed impl table every record on the partition list `p` of
klass `k` is a record of the table with klass `k` and a method of partition
`p`. -/
theorem klass_list_spec {rt : fobj_runtime} (h : ImplLinks rt) (k p : Nat) :
    ∀ (fuel i : Nat), i ≤ rt.fobj_impls_n →
      (i ≠ 0 → (rt.fobj_method_impl i).klass = k ∧
        (rt.fobj_method_impl i).method % METHOD_PARTITIONS = p) →
      ∀ n, n ∈ impl_list rt fobj_method_impl.next_for_klass fuel i →
        0 < n ∧ n ≤ rt.fobj_impls_n ∧ (rt.fobj_method_impl n).klass = k ∧
          (rt.fobj_method_impl n).method % METHOD_PARTITIONS = p := by
  intro fuel
  induction fuel with
  | zero => intro i _ _ n hn; simp [impl_list] at hn
  | succ fuel ih =>
    intro i hi hrec n hn
    unfold impl_list at hn
    by_cases h0 : i = 0
    · rw [if_pos h0] at hn
      cases hn
    · rw [if_neg h0] at hn
      have hpos : 0 < i := Nat.pos_of_ne_zero h0
      rcases List.mem_cons.mp hn with rfl | hn
      · exact ⟨hpos, hi, hrec h0⟩
      · have hlt := h.next_for_klass_lt i hpos hi
        refine ih _ (by omega) ?_ n hn
        intro hne
        obtain ⟨e1, e2⟩ := h.klass_next i hpos hi hne
        obtain ⟨r1, r2⟩ := hrec h0
        exact ⟨e1.trans r1, e2.trans r2⟩

/-- In a well-formed impl table every record on the list of method `m` is a
record of the table with method `m`. -/
theorem method_list_spec {rt : fobj_runtime} (h : ImplLinks rt) (m : Nat) :
    ∀ (fuel i : Nat), i ≤ rt.fobj_impls_n →
      (i ≠ 0 → (rt.fobj_method_impl i).method = m) →
      ∀ n, n ∈ impl_list rt fobj_method_impl.next_for_method fuel i →
        0 < n ∧ n ≤ rt.fobj_impls_n ∧ (rt.fobj_method_impl n).method = m := by
  intro fuel
  induction fuel with
  | zero => intro i _ _ n hn; simp [impl_list] at hn
  | succ fuel ih =>
    intro i hi hrec n hn
    unfold impl_list at hn
    by_cases h0 : i = 0
    · rw [if_pos h0] at hn
      cases hn
    · rw [if_neg h0] at hn
      have hpos : 0 < i := Nat.pos_of_ne_zero h0
      rcases List.mem_cons.mp hn with rfl | hn
      · exact ⟨hpos, hi, hrec h0⟩
      · have hlt := h.next_for_method_lt i hpos hi
        refine ih _ (by omega) ?_ n hn
        intro hne
        exact (h.method_next i hpos hi hne).trans (hrec h0)

/-- With parents registered before their children the dispose walk returns
whenever the dispose functions it calls return. -/
theorem dispose_req_returns (env : fobj_env) (rt : fobj_runtime) (body : fobj_hooks)
    (release : fobj_mem → Nat → Except Fault fobj_mem) (self : Nat)
    (hn : rt.fobj_klasses_n < FOBJ_OBJ_MAX_KLASSES)
    (hpar : ∀ k, 0 < k → k ≤ rt.fobj_klasses_n → (rt.fobj_klasses k).parent < k)
    (hhooks : ∀ fn m, ∃ m', call_dispose env rt body release fn self m = Except.ok m') :
    ∀ (fuel k : Nat) (m : fobj_mem), 0 < k → k ≤ rt.fobj_klasses_n → k ≤ fuel →
      ∃ m', fobj__dispose_req env rt body release self fuel (rt.fobj_klasses k) m
        = Except.ok m' := by
  intro fuel
  induction fuel with
  | zero => intro k m h1 _ h3; omega
  | succ fuel ih =>
    intro k m h1 h2 h3
    have hp := hpar k h1 h2
    have hwalk : ∀ m1 : fobj_mem,
        ∃ m', (if (rt.fobj_klasses k).parent ≠ 0 then do
            let preg ← klass_at rt (rt.fobj_klasses k).parent
            fobj__dispose_req env rt body release self fuel preg m1
          else pure m1) = Except.ok m' := by
      intro m1
      by_cases hp0 : (rt.fobj_klasses k).parent = 0
      · exact ⟨m1, by simp [hp0, pure_eq_ok]⟩
      · simp only [ne_eq, hp0, not_false_eq_true, if_true]
        rw [klass_at_of_lt rt _ (by omega), ok_bind]
        exact ih _ m1 (Nat.pos_of_ne_zero hp0) (by omega) (by omega)
    unfold fobj__dispose_req
    by_cases hd : (rt.fobj_klasses k).dispose = 0
    · simp only [hd, ne_eq, not_true_eq_false, if_false, pure_eq_ok, ok_bind]
      exact hwalk m
    · obtain ⟨m1, hm1⟩ := hhooks (rt.fobj_klasses k).dispose m
      simp only [ne_eq, hd, not_false_eq_true, if_true, hm1, ok_bind]
      exact hwalk m1

/-- C31. Well-formedness of the impl table is an invariant of every
registration operation: it holds in every state reached from the initial
tables by klass interning, method interning, impl installation and
`fobj_freeze`, and every further such operation that returns keeps it. In
such a state, for every impl index `n` in `1 .. fobj_impls_n` both
`next_for_klass` and `next_for_method` of record `n` are smaller than `n`;
every record on the partition list `p` of klass `k`, followed from the head
by `next_for_klass` up to the terminating `0`, is a record of the table with
klass `k` and a method of partition `p`; and every record on the list of a
method, followed from `first` by `next_for_method`, carries that method.
Hence `fobj_search_impl` returns for every method and every klass of the
table within `fobj_impls_n + 1` iterations, and when every klass has its
parent registered before itself the parent walk of dispatch returns within as
many steps as the handle of the klass it starts from, and so does the dispose
walk, given that the dispose functions it calls return. -/
theorem fobj_method_impl_well_formed (env : fobj_env) (fuel0 : Nat) (calls : List RegCall)
    (outs : List (Bool × Nat × fobj_runtime)) (rt : fobj_runtime)
    (hrun : reg_run env fuel0 fobj_runtime.initialized calls = Except.ok outs)
    (hrt : rt = reg_final fobj_runtime.initialized outs) :
    ImplLinks rt ∧
    (∀ (fuel : Nat) (c : RegCall) (r : Bool × Nat × fobj_runtime),
      reg_call env fuel rt c = Except.ok r → ImplLinks r.2.2) ∧
    (∀ n, 0 < n → n ≤ rt.fobj_impls_n →
      (rt.fobj_method_impl n).next_for_klass < n ∧
      (rt.fobj_method_impl n).next_for_method < n) ∧
    (∀ k p fuel n,
      n ∈ impl_list rt fobj_method_impl.next_for_klass fuel
        ((rt.fobj_klasses k).method_lists p) →
      0 < n ∧ n ≤ rt.fobj_impls_n ∧ (rt.fobj_method_impl n).klass = k ∧
        (rt.fobj_method_impl n).method % METHOD_PARTITIONS = p) ∧
    (∀ m fuel n,
      n ∈ impl_list rt fobj_method_impl.next_for_method fuel (rt.fobj_methods m).first →
      0 < n ∧ n ≤ rt.fobj_impls_n ∧ (rt.fobj_method_impl n).method = m) ∧
    (∀ klass meth fuel, klass < FOBJ_OBJ_MAX_KLASSES → rt.fobj_impls_n < fuel →
      ∃ impl, fobj_search_impl fuel rt meth klass = Except.ok impl) ∧
    ((∀ k, 0 < k → k ≤ rt.fobj_klasses_n → (rt.fobj_klasses k).parent < k) →
      (∀ self meth klass fuel_impl fuel, 0 < klass → klass ≤ rt.fobj_klasses_n →
        rt.fobj_impls_n < fuel_impl → klass ≤ fuel →
        ∃ r, fobj_method_search_loop rt self meth fuel_impl fuel klass = Except.ok r) ∧
      (∀ (body : fobj_hooks) (release : fobj_mem → Nat → Except Fault fobj_mem) (self : Nat),
        (∀ fn m, ∃ m', call_dispose env rt body release fn self m = Except.ok m') →
        ∀ (fuel k : Nat) (m : fobj_mem), 0 < k → k ≤ rt.fobj_klasses_n → k ≤ fuel →
          ∃ m', fobj__dispose_req env rt body release self fuel (rt.fobj_klasses k) m
            = Except.ok m')) := by
  subst hrt
  have hinv := reg_run_initialized env fuel0 calls outs hrun
  have h := reg_run_links env fuel0 calls _ [] [] outs (RegInv_initialized env)
    ImplLinks_initialized hrun
  refine ⟨h, ?_, ?_, ?_, ?_, ?_, ?_⟩
  · intro fuel c r hr
    exact reg_call_links env fuel hinv h c r hr
  · intro n h1 h2
    exact ⟨h.next_for_klass_lt n h1 h2, h.next_for_method_lt n h1 h2⟩
  · intro k p fuel n hn
    exact klass_list_spec h k p fuel _ (h.head_le k p) (h.klass_head k p) n hn
  · intro m fuel n hn
    exact method_list_spec h m fuel _ (h.first_le m) (h.method_head m) n hn
  · intro klass meth fuel hk hf
    exact ⟨_, search_impl_eq hinv.impl meth klass fuel hk hf⟩
  · intro hpar
    constructor
    · intro self meth klass fuel_impl fuel h1 h2 hfi h3
      exact ⟨_, method_search_loop_spec hinv.impl hinv.klass.n_lt hpar self meth fuel_impl hfi
        fuel klass fuel h1 h2 h3 h3⟩
    · intro body release self hhooks fuel k m h1 h2 h3
      exact dispose_req_returns env _ body release self hinv.klass.n_lt hpar hhooks fuel k m
        h1 h2 h3

/-- C31, an instance: in the scenario the list of the method `foo` holds the
records `2` and `1`, both for `foo`; the partition list of `foo` on klass `B`
holds the record `2`; and the search for `foo` on `B` returns. -/
theorem fobj_method_impl_well_formed_witness :
    impl_list scenario_rt fobj_method_impl.next_for_method 8 (scenario_rt.fobj_methods 2).first
      = [2, 1] ∧
    (∀ n, n ∈ impl_list scenario_rt fobj_method_impl.next_for_method 8
        (scenario_rt.fobj_methods 2).first →
      0 < n ∧ n ≤ scenario_rt.fobj_impls_n ∧ (scenario_rt.fobj_method_impl n).method = 2) ∧
    impl_list scenario_rt fobj_method_impl.next_for_klass 8
        ((scenario_rt.fobj_klasses 2).method_lists 2) = [2] ∧
    (∀ n, n ∈ impl_list scenario_rt fobj_method_impl.next_for_klass 8
        ((scenario_rt.fobj_klasses 2).method_lists 2) →
      0 < n ∧ n ≤ scenario_rt.fobj_impls_n ∧ (scenario_rt.fobj_method_impl n).klass = 2 ∧
        (scenario_rt.fobj_method_impl n).method % METHOD_PARTITIONS = 2) ∧
    ∃ impl, fobj_search_impl 8 scenario_rt 2 2 = Except.ok impl :=
  have h := fobj_method_impl_well_formed scenario_env 8 scenario_calls scenario_outs
    scenario_rt (by rfl) rfl
  ⟨by rfl, h.2.2.2.2.1 2 8, by rfl, h.2.2.2.1 2 2 8, h.2.2.2.2.2.1 2 2 8 (by decide) (by decide)⟩

/-! ## The dispose chain with arbitrary dispose functions -/

theorem header_of_eq_ok (heap : fobj_heap) (p : Nat) (h : fobj_header) :
    header_of heap p = Except.ok h ↔ heap p = some h := by
  unfold header_of
  cases heap p <;> simp

theorem ExtNoSelf_refl (self : Nat) (tr : List fobj_event) : ExtNoSelf self tr tr :=
  ⟨[], by simp, by simp⟩

theorem ExtNoSelf_trans {self : Nat} {a b c : List fobj_event} (h1 : ExtNoSelf self a b)
    (h2 : ExtNoSelf self b c) : ExtNoSelf self a c := by
  obtain ⟨e1, rfl, g1⟩ := h1
  obtain ⟨e2, rfl, g2⟩ := h2
  refine ⟨e1 ++ e2, by simp, ?_⟩
  intro e he
  rcases List.mem_append.mp he with he | he
  · exact g1 e he
  · exact g2 e he

theorem ExtNoSelf_event {self : Nat} (tr : List fobj_event) (e : fobj_event)
    (he : e.obj ≠ self) : ExtNoSelf self tr (tr ++ [e]) :=
  ⟨[e], rfl, by
    intro e1 h1
    rw [List.mem_singleton.mp h1]
    exact he⟩

/-- A store into the header of another object leaves `self` as it is. -/
theorem SelfLive_set_other {self mg k fl : Nat} {m : fobj_mem} (h : SelfLive self mg k fl m)
    (x : Nat) (hx : x ≠ self) (hdr : fobj_header) : SelfLive self mg k fl (m.set_header x hdr) := by
  obtain ⟨rc, hrc⟩ := h
  refine ⟨rc, ?_⟩
  simp only [fobj_mem.set_header]
  rw [Function.update_noteq (Ne.symm hx)]
  exact hrc

/-- A reference taken on any object leaves `self` live with its magic, klass
and flags, and records no event. -/
theorem ref_keeps_self (env : fobj_env) (rt : fobj_runtime) (self mg k fl : Nat)
    (m m1 : fobj_mem) (x : Nat) (h : SelfLive self mg k fl m)
    (hrun : fobj_ref env rt m x = Except.ok m1) :
    SelfLive self mg k fl m1 ∧ m1.trace = m.trace := by
  unfold fobj_ref at hrun
  by_cases hx0 : x = 0
  · rw [if_pos hx0] at hrun
    cases Except.ok.inj hrun
    exact ⟨h, rfl⟩
  · rw [if_neg hx0] at hrun
    rw [bind_eq_ok] at hrun
    obtain ⟨h0, hh0, hrun⟩ := hrun
    rw [bind_eq_ok] at hrun
    obtain ⟨u, _, hrun⟩ := hrun
    rw [bind_eq_ok] at hrun
    obtain ⟨u, _, hrun⟩ := hrun
    cases Except.ok.inj hrun
    refine ⟨?_, rfl⟩
    by_cases hxs : x = self
    · subst hxs
      obtain ⟨rc, hrc⟩ := h
      rw [header_of_eq_ok, hrc] at hh0
      cases Option.some.inj hh0
      exact ⟨uint32_inc rc, by simp [fobj_mem.set_header]⟩
    · exact SelfLive_set_other h x hxs _

/-- The body of a dispose function, run with a `release` that keeps `self`
live and records no event about it, does so too. -/
theorem run_hook_ops_keeps_self (env : fobj_env) (rt : fobj_runtime)
    (release : fobj_mem → Nat → Except Fault fobj_mem) (self mg k fl : Nat)
    (hrel : ∀ m x m1, SelfLive self mg k fl m → release m x = Except.ok m1 →
      SelfLive self mg k fl m1 ∧ ExtNoSelf self m.trace m1.trace) :
    ∀ (ops : List HookOp) (m m1 : fobj_mem), SelfLive self mg k fl m →
      run_hook_ops env rt release m ops = Except.ok m1 →
      SelfLive self mg k fl m1 ∧ ExtNoSelf self m.trace m1.trace := by
  intro ops
  induction ops with
  | nil =>
    intro m m1 h hrun
    simp only [run_hook_ops, pure_eq_ok] at hrun
    cases Except.ok.inj hrun
    exact ⟨h, ExtNoSelf_refl _ _⟩
  | cons op ops ih =>
    intro m m1 h hrun
    cases op with
    | ref x =>
      simp only [run_hook_ops] at hrun
      rw [bind_eq_ok] at hrun
      obtain ⟨m2, h2, hrun⟩ := hrun
      obtain ⟨l2, t2⟩ := ref_keeps_self env rt self mg k fl m m2 x h h2
      obtain ⟨l3, t3⟩ := ih m2 m1 l2 hrun
      rw [t2] at t3
      exact ⟨l3, t3⟩
    | release x =>
      simp only [run_hook_ops] at hrun
      rw [bind_eq_ok] at hrun
      obtain ⟨m2, h2, hrun⟩ := hrun
      obtain ⟨l2, t2⟩ := hrel m x m2 h h2
      obtain ⟨l3, t3⟩ := ih m2 m1 l2 hrun
      exact ⟨l3, ExtNoSelf_trans t2 t3⟩

theorem call_dispose_other (env : fobj_env) (rt : fobj_runtime) (body : fobj_hooks)
    (release : fobj_mem → Nat → Except Fault fobj_mem) (self mg k fl : Nat)
    (hrel : ∀ m x m1, SelfLive self mg k fl m → release m x = Except.ok m1 →
      SelfLive self mg k fl m1 ∧ ExtNoSelf self m.trace m1.trace)
    (fn obj : Nat) (hobj : obj ≠ self) (m m1 : fobj_mem) (h : SelfLive self mg k fl m)
    (hrun : call_dispose env rt body release fn obj m = Except.ok m1) :
    SelfLive self mg k fl m1 ∧ ExtNoSelf self m.trace m1.trace := by
  unfold call_dispose at hrun
  have h0 : SelfLive self mg k fl
      { m with trace := m.trace ++ [fobj_event.dispose fn obj] } := h
  obtain ⟨l1, t1⟩ := run_hook_ops_keeps_self env rt release self mg k fl hrel _ _ m1 h0 hrun
  exact ⟨l1, ExtNoSelf_trans (ExtNoSelf_event m.trace (fobj_event.dispose fn obj) hobj) t1⟩

theorem dispose_req_other (env : fobj_env) (rt : fobj_runtime) (body : fobj_hooks)
    (release : fobj_mem → Nat → Except Fault fobj_mem) (self mg k fl : Nat)
    (hrel : ∀ m x m1, SelfLive self mg k fl m → release m x = Except.ok m1 →
      SelfLive self mg k fl m1 ∧ ExtNoSelf self m.trace m1.trace)
    (obj : Nat) (hobj : obj ≠ self) :
    ∀ (fuel : Nat) (kreg : fobj_klass_registration) (m m1 : fobj_mem),
      SelfLive self mg k fl m →
      fobj__dispose_req env rt body release obj fuel kreg m = Except.ok m1 →
      SelfLive self mg k fl m1 ∧ ExtNoSelf self m.trace m1.trace := by
  intro fuel
  induction fuel with
  | zero =>
    intro kreg m m1 _ hrun
    simp [fobj__dispose_req] at hrun
  | succ fuel ih =>
    intro kreg m m1 h hrun
    have tail : ∀ m2 : fobj_mem, SelfLive self mg k fl m2 → ExtNoSelf self m.trace m2.trace →
        (if kreg.parent ≠ 0 then do
            let preg ← klass_at rt kreg.parent
            fobj__dispose_req env rt body release obj fuel preg m2
          else pure m2) = Except.ok m1 →
        SelfLive self mg k fl m1 ∧ ExtNoSelf self m.trace m1.trace := by
      intro m2 l2 t2 hrun
      by_cases hp : kreg.parent = 0
      · simp only [hp, ne_eq, not_true_eq_false, if_false, pure_eq_ok] at hrun
        cases Except.ok.inj hrun
        exact ⟨l2, t2⟩
      · simp only [ne_eq, hp, not_false_eq_true, if_true] at hrun
        rw [bind_eq_ok] at hrun
        obtain ⟨preg, _, hrun⟩ := hrun
        obtain ⟨l3, t3⟩ := ih preg m2 m1 l2 hrun
        exact ⟨l3, ExtNoSelf_trans t2 t3⟩
    unfold fobj__dispose_req at hrun
    by_cases hd : kreg.dispose = 0
    · simp only [hd, ne_eq, not_true_eq_false, if_false, pure_eq_ok, ok_bind] at hrun
      exact tail m h (ExtNoSelf_refl _ _) hrun
    · simp only [ne_eq, hd, not_false_eq_true, if_true] at hrun
      rw [bind_eq_ok] at hrun
      obtain ⟨m2, h2, hrun⟩ := hrun
      obtain ⟨l2, t2⟩ :=
        call_dispose_other env rt body release self mg k fl hrel _ obj hobj m m2 h h2
      exact tail m2 l2 t2 hrun

theorem do_dispose_other (env : fobj_env) (rt : fobj_runtime) (body : fobj_hooks)
    (release : fobj_mem → Nat → Except Fault fobj_mem) (self mg k fl : Nat)
    (hrel : ∀ m x m1, SelfLive self mg k fl m → release m x = Except.ok m1 →
      SelfLive self mg k fl m1 ∧ ExtNoSelf self m.trace m1.trace)
    (obj : Nat) (hobj : obj ≠ self) (fuel : Nat) (kreg : fobj_klass_registration)
    (m m1 : fobj_mem) (h : SelfLive self mg k fl m)
    (hrun : fobj__do_dispose env rt body release fuel obj kreg m = Except.ok m1) :
    SelfLive self mg k fl m1 ∧ ExtNoSelf self m.trace m1.trace := by
  unfold fobj__do_dispose at hrun
  rw [bind_eq_ok] at hrun
  obtain ⟨h0, _, hrun⟩ := hrun
  dsimp only at hrun
  by_cases hold : h0.flags &&& FOBJ_DISPOSING = 0
  · simp only [hold, ne_eq, not_true_eq_false, if_false] at hrun
    rw [bind_eq_ok] at hrun
    obtain ⟨m2, h2, hrun⟩ := hrun
    obtain ⟨l2, t2⟩ := dispose_req_other env rt body release self mg k fl hrel obj hobj fuel
      kreg _ m2 (SelfLive_set_other h obj hobj _) h2
    have t2' : ExtNoSelf self m.trace m2.trace := t2
    rw [bind_eq_ok] at hrun
    obtain ⟨h3, _, hrun⟩ := hrun
    rw [bind_eq_ok] at hrun
    obtain ⟨h4, _, hrun⟩ := hrun
    have l3 := SelfLive_set_other l2 obj hobj
      { h3 with flags := (h3.flags ||| FOBJ_DISPOSED) % 2 ^ 16 }
    by_cases hrc : h4.rc = 0
    · simp only [hrc, if_true] at hrun
      rw [bind_eq_ok] at hrun
      obtain ⟨h5, _, hrun⟩ := hrun
      cases Except.ok.inj hrun
      constructor
      · obtain ⟨rc, hl⟩ := SelfLive_set_other l3 obj hobj
          { magic := 0, rc := 0, flags := 0, klass := 0 }
        refine ⟨rc, ?_⟩
        simp only [fobj_mem.set_header] at hl ⊢
        rw [Function.update_noteq (Ne.symm hobj)]
        exact hl
      · exact ExtNoSelf_trans t2' (ExtNoSelf_event _ (fobj_event.free obj h5) hobj)
    · simp only [hrc, if_false, pure_eq_ok] at hrun
      cases Except.ok.inj hrun
      exact ⟨l3, t2'⟩
  · simp only [ne_eq, hold, not_false_eq_true, if_true, pure_eq_ok] at hrun
    cases Except.ok.inj hrun
    exact ⟨SelfLive_set_other h obj hobj _, ExtNoSelf_refl _ _⟩

/-- While an object is in its dispose chain (DISPOSING set), no
`fobj_release`, on whatever object and however deeply its dispose functions
nest, calls a dispose function on that object or frees it; the object stays
live with its magic, klass and flags. -/
theorem release_keeps_self (env : fobj_env) (rt : fobj_runtime) (body : fobj_hooks)
    (self mg k fl : Nat) (hfl : fl &&& FOBJ_DISPOSING ≠ 0) :
    ∀ (fuel : Nat) (m : fobj_mem) (x : Nat) (m1 : fobj_mem), SelfLive self mg k fl m →
      fobj_release env rt body fuel m x = Except.ok m1 →
      SelfLive self mg k fl m1 ∧ ExtNoSelf self m.trace m1.trace := by
  intro fuel
  induction fuel with
  | zero =>
    intro m x m1 _ hrun
    simp [fobj_release] at hrun
  | succ fuel ih =>
    intro m x m1 h hrun
    unfold fobj_release at hrun
    rw [bind_eq_ok] at hrun
    obtain ⟨u, _, hrun⟩ := hrun
    by_cases hx0 : x = 0
    · rw [if_pos hx0] at hrun
      cases Except.ok.inj hrun
      exact ⟨h, ExtNoSelf_refl _ _⟩
    · rw [if_neg hx0] at hrun
      rw [bind_eq_ok] at hrun
      obtain ⟨h0, hh0, hrun⟩ := hrun
      rw [bind_eq_ok] at hrun
      obtain ⟨u, _, hrun⟩ := hrun
      dsimp only at hrun
      rw [bind_eq_ok] at hrun
      obtain ⟨u, _, hrun⟩ := hrun
      rw [bind_eq_ok] at hrun
      obtain ⟨kreg, _, hrun⟩ := hrun
      by_cases hxs : x = self
      · subst hxs
        obtain ⟨rc, hrc⟩ := h
        rw [header_of_eq_ok, hrc] at hh0
        cases Option.some.inj hh0
        have hlive : SelfLive x mg k fl
            (m.set_header x { magic := mg, rc := uint32_dec rc, flags := fl, klass := k }) :=
          ⟨uint32_dec rc, by simp [fobj_mem.set_header]⟩
        by_cases hz : uint32_dec rc = 0
        · simp only [hz, ne_eq, not_true_eq_false, if_false, hfl, not_false_eq_true,
            if_true, pure_eq_ok] at hrun
          cases Except.ok.inj hrun
          rw [hz] at hlive
          exact ⟨hlive, ExtNoSelf_refl _ _⟩
        · simp only [ne_eq, hz, not_false_eq_true, if_true, pure_eq_ok] at hrun
          cases Except.ok.inj hrun
          exact ⟨hlive, ExtNoSelf_refl _ _⟩
      · have hlive := SelfLive_set_other h x hxs { h0 with rc := uint32_dec h0.rc }
        by_cases hz : uint32_dec h0.rc = 0
        · simp only [hz, ne_eq, not_true_eq_false, if_false] at hrun
          by_cases hdg : h0.flags &&& FOBJ_DISPOSING = 0
          · simp only [hdg, not_true_eq_false, if_false] at hrun
            rw [hz] at hlive
            have r := do_dispose_other env rt body (fobj_release env rt body fuel) self mg k fl
              ih x hxs fuel kreg _ m1 hlive hrun
            exact r
          · simp only [hdg, not_false_eq_true, if_true, pure_eq_ok] at hrun
            cases Except.ok.inj hrun
            rw [hz] at hlive
            exact ⟨hlive, ExtNoSelf_refl _ _⟩
        · simp only [ne_eq, hz, not_false_eq_true, if_true, pure_eq_ok] at hrun
          cases Except.ok.inj hrun
          exact ⟨hlive, ExtNoSelf_refl _ _⟩

theorem bind_ext {α β : Type} (x : Except Fault α) (f g : α → Except Fault β)
    (h : ∀ a, f a = g a) : (x >>= f) = (x >>= g) := by
  cases x with
  | error e => rfl
  | ok a => exact h a

/-- The dispose walk from a registered klass is the sequence of the calls of
the dispose functions cached on its chain, child first, each once, whatever
these functions do. -/
theorem dispose_req_eq_seq (env : fobj_env) (rt : fobj_runtime) (body : fobj_hooks)
    (release : fobj_mem → Nat → Except Fault fobj_mem) (self : Nat)
    (hn : rt.fobj_klasses_n < FOBJ_OBJ_MAX_KLASSES)
    (hpar : ∀ k, 0 < k → k ≤ rt.fobj_klasses_n → (rt.fobj_klasses k).parent < k) :
    ∀ (fuel k cf : Nat) (m : fobj_mem), 0 < k → k ≤ rt.fobj_klasses_n → k ≤ fuel → k ≤ cf →
      fobj__dispose_req env rt body release self fuel (rt.fobj_klasses k) m
        = dispose_seq env rt body release self (dispose_fns rt (klass_chain rt cf k)) m := by
  intro fuel
  induction fuel with
  | zero => intro k cf m h1 _ h3; omega
  | succ fuel ih =>
    intro k cf m h1 h2 h3 h4
    obtain ⟨c, rfl⟩ : ∃ c, cf = c + 1 := ⟨cf - 1, by omega⟩
    have hp := hpar k h1 h2
    have tail : ∀ m1 : fobj_mem,
        (if (rt.fobj_klasses k).parent ≠ 0 then do
            let preg ← klass_at rt (rt.fobj_klasses k).parent
            fobj__dispose_req env rt body release self fuel preg m1
          else pure m1)
          = dispose_seq env rt body release self
              (dispose_fns rt (klass_chain rt c (rt.fobj_klasses k).parent)) m1 := by
      intro m1
      by_cases hp0 : (rt.fobj_klasses k).parent = 0
      · simp [hp0, klass_chain_zero, dispose_fns, dispose_seq]
      · simp only [ne_eq, hp0, not_false_eq_true, if_true]
        rw [klass_at_of_lt rt _ (by omega), ok_bind]
        exact ih _ c m1 (Nat.pos_of_ne_zero hp0) (by omega) (by omega) (by omega)
    rw [klass_chain_succ rt c k (by omega), dispose_fns_cons]
    unfold fobj__dispose_req
    by_cases hfn : (rt.fobj_klasses k).dispose = 0
    · simp only [hfn, ne_eq, not_true_eq_false, if_false, pure_eq_ok, ok_bind]
      exact tail m
    · simp only [ne_eq, hfn, not_false_eq_true, if_true, dispose_seq]
      exact bind_ext _ _ _ tail

/-- The tail of `fobj__do_dispose` for an object that is not yet DISPOSING:
set DISPOSING, walk the chain, finish. -/
theorem do_dispose_eq (env : fobj_env) (rt : fobj_runtime) (body : fobj_hooks)
    (release : fobj_mem → Nat → Except Fault fobj_mem) (fuel self : Nat)
    (kreg : fobj_klass_registration) (m : fobj_mem) (h : fobj_header)
    (hh : m.heap self = some h) (hflag : h.flags &&& FOBJ_DISPOSING = 0) :
    fobj__do_dispose env rt body release fuel self kreg m
      = (fobj__dispose_req env rt body release self fuel kreg
          (m.set_header self { h with flags := (h.flags ||| FOBJ_DISPOSING) % 2 ^ 16 })
          >>= dispose_finish self) := by
  unfold fobj__do_dispose
  simp only [header_of, hh, ok_bind, hflag, ne_eq, not_true_eq_false, if_false]
  rfl

/-- The calls of the dispose functions `fns` on an object that is DISPOSING
record one dispose event about the object per function, in order, and no other
event about it; the object stays live with its magic, klass and flags. -/
theorem dispose_seq_self (env : fobj_env) (rt : fobj_runtime) (body : fobj_hooks)
    (self mg k fl : Nat) (hfl : fl &&& FOBJ_DISPOSING ≠ 0) (rfuel : Nat) :
    ∀ (fns : List Nat) (m m2 : fobj_mem), SelfLive self mg k fl m →
      dispose_seq env rt body (fobj_release env rt body rfuel) self fns m = Except.ok m2 →
      SelfLive self mg k fl m2 ∧
      ∃ evs, m2.trace = m.trace ++ evs ∧
        evs.filter (fun e => decide (e.obj = self))
          = fns.map (fun fn => fobj_event.dispose fn self) := by
  intro fns
  induction fns with
  | nil =>
    intro m m2 h hrun
    simp only [dispose_seq, pure_eq_ok] at hrun
    cases Except.ok.inj hrun
    exact ⟨h, [], by simp, rfl⟩
  | cons fn fns ih =>
    intro m m2 h hrun
    simp only [dispose_seq] at hrun
    rw [bind_eq_ok] at hrun
    obtain ⟨m1, h1, hrun⟩ := hrun
    unfold call_dispose at h1
    have h0 : SelfLive self mg k fl
        { m with trace := m.trace ++ [fobj_event.dispose fn self] } := h
    obtain ⟨l1, ev1, t1, g1⟩ := run_hook_ops_keeps_self env rt
      (fobj_release env rt body rfuel) self mg k fl
      (release_keeps_self env rt body self mg k fl hfl rfuel) _ _ m1 h0 h1
    obtain ⟨l2, ev2, t2, g2⟩ := ih m1 m2 l1 hrun
    refine ⟨l2, [fobj_event.dispose fn self] ++ ev1 ++ ev2, ?_, ?_⟩
    · rw [t2, t1]
      simp [List.append_assoc]
    · have hnil : ev1.filter (fun e => decide (e.obj = self)) = [] := by
        rw [List.filter_eq_nil_iff]
        intro e he
        simpa using g1 e he
      rw [List.filter_append, List.filter_append, hnil, g2]
      simp [fobj_event.obj]

/-- C7. Two-phase dispose runs each hook exactly once, child first, whatever
the dispose functions do. When `fobj_release` drops the reference count of an
object of klass `k` from 1 to 0 and DISPOSING is not set, it sets DISPOSING
and then does exactly this: it calls the dispose functions cached on `k`,
`parent(k)`, ..., root, in that order, each once, klasses without one being
skipped, and then finishes (sets DISPOSED, and zeroes the header and frees the
allocation when the reference count is zero). The dispose functions may ref
and release the object itself and any other object, whose own dispose chains
then run nested. When the dispose functions return, `fobj_release` returns;
the events about the object recorded during the chain are the calls of these
dispose functions, in that order, each once, and nothing else, so no nested
release calls a dispose function on the object again or frees it, also when
its reference count reaches zero again during the chain; afterwards, if the
reference count is zero, the header is zeroed and the allocation freed, and
otherwise the object stays, DISPOSING and DISPOSED set. Dispose functions that
only ref and release the object itself always return. -/
theorem fobj_release_dispose_chain (env : fobj_env) (rt : fobj_runtime) (body : fobj_hooks)
    (hst : rt.fobj_global_state ≠ FOBJ_GLOBAL_STATE.FOBJ_RT_NOT_INITIALIZED)
    (hn : rt.fobj_klasses_n < FOBJ_OBJ_MAX_KLASSES)
    (hpar : ∀ k, 0 < k → k ≤ rt.fobj_klasses_n → (rt.fobj_klasses k).parent < k)
    (m : fobj_mem) (self : Nat) (hself : self ≠ 0) (hdr : fobj_header)
    (hhdr : m.heap self = some hdr) (hmagic : hdr.magic = FOBJ_HEADER_MAGIC)
    (hk1 : 0 < hdr.klass) (hk2 : hdr.klass ≤ rt.fobj_klasses_n)
    (hrc : hdr.rc = 1) (hflag : hdr.flags &&& FOBJ_DISPOSING = 0)
    (fuel : Nat) (hfuel : hdr.klass ≤ fuel) :
    fobj_release env rt body (fuel + 1) m self
      = (dispose_seq env rt body (fobj_release env rt body fuel) self
          (dispose_fns rt (klass_chain rt FOBJ_OBJ_MAX_KLASSES hdr.klass))
          { heap := Function.update m.heap self
              (some { hdr with rc := 0, flags := (hdr.flags ||| FOBJ_DISPOSING) % 2 ^ 16 })
            trace := m.trace }
          >>= dispose_finish self) ∧
    (∀ m2 : fobj_mem,
      dispose_seq env rt body (fobj_release env rt body fuel) self
          (dispose_fns rt (klass_chain rt FOBJ_OBJ_MAX_KLASSES hdr.klass))
          { heap := Function.update m.heap self
              (some { hdr with rc := 0, flags := (hdr.flags ||| FOBJ_DISPOSING) % 2 ^ 16 })
            trace := m.trace } = Except.ok m2 →
      ∃ rc2 evs,
        m2.heap self
          = some { hdr with rc := rc2, flags := (hdr.flags ||| FOBJ_DISPOSING) % 2 ^ 16 } ∧
        m2.trace = m.trace ++ evs ∧
        evs.filter (fun e => decide (e.obj = self))
          = (dispose_fns rt (klass_chain rt FOBJ_OBJ_MAX_KLASSES hdr.klass)).map
              (fun fn => fobj_event.dispose fn self) ∧
        fobj_release env rt body (fuel + 1) m self = Except.ok
          (if rc2 = 0 then
            { heap := Function.update m2.heap self none
              trace := m2.trace ++ [fobj_event.free self fobj_header.zero] }
          else
            { heap := Function.update m2.heap self
                (some { hdr with
                  rc := rc2
                  flags :=
                    ((hdr.flags ||| FOBJ_DISPOSING) % 2 ^ 16 ||| FOBJ_DISPOSED) % 2 ^ 16 })
              trace := m2.trace })) ∧
    ((∀ fn op, fn ∈ dispose_fns rt (klass_chain rt FOBJ_OBJ_MAX_KLASSES hdr.klass) →
        op ∈ body fn self → op = HookOp.ref self ∨ op = HookOp.release self) →
      ∃ m2, dispose_seq env rt body (fobj_release env rt body fuel) self
          (dispose_fns rt (klass_chain rt FOBJ_OBJ_MAX_KLASSES hdr.klass))
          { heap := Function.update m.heap self
              (some { hdr with rc := 0, flags := (hdr.flags ||| FOBJ_DISPOSING) % 2 ^ 16 })
            trace := m.trace } = Except.ok m2) := by
  have hs : (rt.fobj_global_state != FOBJ_GLOBAL_STATE.FOBJ_RT_NOT_INITIALIZED) = true := by
    simpa using hst
  have hkdec : decide (hdr.klass > 0 ∧ hdr.klass ≤ rt.fobj_klasses_n) = true := by
    simp [hk1, hk2]
  have hmg : (hdr.magic == FOBJ_HEADER_MAGIC) = true := by simp [hmagic]
  have hdec : uint32_dec hdr.rc = 0 := by rw [hrc]; decide
  have hseq := dispose_req_eq_seq env rt body (fobj_release env rt body fuel) self hn hpar fuel
    hdr.klass FOBJ_OBJ_MAX_KLASSES
    { heap := Function.update m.heap self
        (some { hdr with rc := 0, flags := (hdr.flags ||| FOBJ_DISPOSING) % 2 ^ 16 })
      trace := m.trace } hk1 hk2 hfuel (by omega)
  have hA : fobj_release env rt body (fuel + 1) m self
      = (dispose_seq env rt body (fobj_release env rt body fuel) self
          (dispose_fns rt (klass_chain rt FOBJ_OBJ_MAX_KLASSES hdr.klass))
          { heap := Function.update m.heap self
              (some { hdr with rc := 0, flags := (hdr.flags ||| FOBJ_DISPOSING) % 2 ^ 16 })
            trace := m.trace }
          >>= dispose_finish self) := by
    rw [← hseq]
    have hm := fobj_mem_eta m self hdr hhdr
    have hdo := do_dispose_eq env rt body (fobj_release env rt body fuel) fuel self
      (rt.fobj_klasses hdr.klass)
      { heap := Function.update m.heap self (some { hdr with rc := 0 }), trace := m.trace }
      { hdr with rc := 0 } (by simp) hflag
    simp only [fobj_mem.set_header, Function.update_idem] at hdo
    rw [← hdo]
    conv => lhs; rw [hm]
    unfold fobj_release
    simp only [hs, ft_assert_true, ok_bind, if_neg hself, header_of, Function.update_same,
      c_assert, hmg, ite_self, ft_dbg_assert, hkdec, klass_at_of_lt rt hdr.klass (by omega),
      fobj_mem.set_header, Function.update_idem, pure_eq_ok, ne_eq, hdec, not_true_eq_false,
      if_false, hflag]
  refine ⟨hA, ?_, ?_⟩
  · intro m2 h2
    have hlive : SelfLive self hdr.magic hdr.klass ((hdr.flags ||| FOBJ_DISPOSING) % 2 ^ 16)
        { heap := Function.update m.heap self
            (some { hdr with rc := 0, flags := (hdr.flags ||| FOBJ_DISPOSING) % 2 ^ 16 })
          trace := m.trace } := ⟨0, by simp⟩
    obtain ⟨⟨rc2, hheap⟩, evs, htr, hfilt⟩ := dispose_seq_self env rt body self hdr.magic
      hdr.klass _ (set_disposing hdr.flags) fuel _ _ m2 hlive h2
    refine ⟨rc2, evs, hheap, htr, hfilt, ?_⟩
    rw [hA, h2, ok_bind]
    unfold dispose_finish
    simp only [header_of, hheap, ok_bind, fobj_mem.set_header, Function.update_same,
      Function.update_idem, pure_eq_ok]
    by_cases hz : rc2 = 0
    · simp only [hz, if_true]
      rfl
    · simp only [hz, if_false]
  · intro hhooks
    obtain ⟨g, rfl⟩ : ∃ g, fuel = g + 1 := ⟨fuel - 1, by omega⟩
    rw [← hseq]
    exact ⟨_, fobj__dispose_req_chain env rt body hst hn hpar m.heap self hself g hdr.klass
      hk1 hk2 hdr.magic ((hdr.flags ||| FOBJ_DISPOSING) % 2 ^ 16) hmagic (set_disposing _)
      (g + 1) hdr.klass FOBJ_OBJ_MAX_KLASSES 0 m.trace hk1 hk2 (by omega) (by omega) hhooks⟩

/-- C7, an instance: the dispose function of klass `Q` releases a member, an
object of klass `P`, whose dispose chain runs nested and frees it, and then
refs and releases the object under disposal, so that its count reaches zero
again. The calls recorded about the object under disposal are those of the
dispose functions of `Q` and of `P`, once each, and it is freed with a zeroed
header afterwards. -/
theorem fobj_release_dispose_chain_witness :
    member_mid.trace
      = [fobj_event.dispose 72 64, fobj_event.dispose 71 80,
          fobj_event.free 80 fobj_header.zero, fobj_event.dispose 71 64] ∧
    (∃ rc2 evs,
      member_mid.heap 64
        = some { magic := FOBJ_HEADER_MAGIC, rc := rc2,
                 flags := (0 ||| FOBJ_DISPOSING) % 2 ^ 16, klass := 2 } ∧
      member_mid.trace = member_mem.trace ++ evs ∧
      evs.filter (fun e => decide (e.obj = 64))
        = (dispose_fns dispose_rt (klass_chain dispose_rt FOBJ_OBJ_MAX_KLASSES 2)).map
            (fun fn => fobj_event.dispose fn 64) ∧
      fobj_release scenario_env dispose_rt member_body (3 + 1) member_mem 64 = Except.ok
        (if rc2 = 0 then
          { heap := Function.update member_mid.heap 64 none
            trace := member_mid.trace ++ [fobj_event.free 64 fobj_header.zero] }
        else
          { heap := Function.update member_mid.heap 64
              (some { magic := FOBJ_HEADER_MAGIC, rc := rc2,
                      flags := ((0 ||| FOBJ_DISPOSING) % 2 ^ 16 ||| FOBJ_DISPOSED) % 2 ^ 16,
                      klass := 2 })
            trace := member_mid.trace })) ∧
    Except.map (fun r => (r.heap 64, r.heap 80, r.trace))
        (fobj_release scenario_env dispose_rt member_body 4 member_mem 64)
      = Except.ok (none, none,
          [fobj_event.dispose 72 64, fobj_event.dispose 71 80,
            fobj_event.free 80 fobj_header.zero, fobj_event.dispose 71 64,
            fobj_event.free 64 fobj_header.zero]) :=
  ⟨by rfl,
    (fobj_release_dispose_chain scenario_env dispose_rt member_body (by decide) (by decide)
      (by
        intro k h1 h2
        have hn : dispose_rt.fobj_klasses_n = 2 := by rfl
        rw [hn] at h2
        interval_cases k <;> decide)
      member_mem 64 (by decide)
      { magic := FOBJ_HEADER_MAGIC, rc := 1, flags := 0, klass := 2 } (by rfl) rfl (by decide)
      (by decide) rfl (by decide) 3 (by decide)).2.1 member_mid (by rfl),
    by rfl⟩

/-! ## Quoted strings longer than `INT_MAX` -/

/-- The loop of `fobj_format_string` over a string that lies within its bytes
does not return when it has to go beyond the index `INT_MAX`: the increment
of the `int` index overflows. -/
theorem format_string_loop_overflow (env : fmt_env) (bytes : List Nat) (len : Nat) :
    ∀ (n i : Nat) (buf : List Nat), i + n ≤ bytes.length → i ≤ INT_MAX → INT_MAX < i + n →
      fobj_format_string_loop env { ptr := some bytes, len := len } n i buf
        = Except.error Fault.overflow := by
  intro n
  induction n with
  | zero => intro i buf _ h2 h3; omega
  | succ n ih =>
    intro i buf h1 h2 h3
    have hi : i < bytes.length := by omega
    have hget : bytes.get? i = some (bytes.get ⟨i, hi⟩) := List.get?_eq_get hi
    unfold fobj_format_string_loop
    rw [byte_at_eq bytes len i _ hget, ok_bind]
    by_cases hmax : INT_MAX ≤ i
    · simp only [hmax, if_true]
    · simp only [hmax, if_false]
      exact ih (i + 1) _ (by omega) (by omega) (by omega)

/-- The quoted form of a string of more than `INT_MAX` bytes is not
produced. -/
theorem format_string_q_overflow (env : fmt_env) (buf bytes : List Nat) (len : Nat)
    (hlen : len = bytes.length) (hlong : INT_MAX < bytes.length) :
    fobj_format_string env buf { ptr := some bytes, len := len } (some "q")
      = Except.error Fault.overflow := by
  unfold fobj_format_string
  have h1 : ¬ ((some "q" : Option String) = none ∨ (some "q" : Option String) = some "") := by
    decide
  have h2 : ¬ ((some "q" : Option String) ≠ some "q") := by simp
  simp only [h1, h2, if_false]
  have h3 : ((some bytes : Option (List Nat)) = none) = False := by simp
  simp only [h3, if_false]
  rw [format_string_loop_overflow env bytes len len 0 _ (by omega) (Nat.zero_le _) (by omega)]
  rfl

/-- C13, as stated, fails for a string of `2^31` bytes: on the string of
`2147483648` letters `a` the increment `i++` of the `int` index at `INT_MAX`
overflows, which is undefined behaviour, so `fobj_format_string` with spec `q`
does not return its quoted form. -/
theorem fobj_format_string_quoted_injective_counterexample :
    fobj_format_string { char_signed := true, ft_strbuf_catf := fun _ _ => [] } []
        { ptr := some (List.replicate 2147483648 97), len := 2147483648 } (some "q")
      = Except.error Fault.overflow :=
  format_string_q_overflow { char_signed := true, ft_strbuf_catf := fun _ _ => [] } []
    (List.replicate 2147483648 97) 2147483648 (List.length_replicate 2147483648 97).symm
    (by rw [List.length_replicate]; decide)

end Fobj
